import Mathlib

/-!
# LibMath CORDIC kernel: exact-arithmetic embedding

The C++ sources `Algorithm/CORDIC.h`, `Algorithm/CORDIC_0.cpp`, `Algorithm/CORDIC_r.cpp`,
`Algorithm/CORDIC_9.cpp`, `Core/CMath.h` and `Core/AngleDefine.h` are embedded as pure functions.

* A finite `float` is an element of a linearly ordered field `α` with floor and ceiling
  (`ℚ` for evaluation) and every arithmetic operation is exact. The rounding of binary32 is
  modelled apart, in `roundBinary32` and `CORDIC.Clamp_binary32`.
* A `float` returned by an entry point is a `FloatVal α`: a finite number, an infinity
  (non-zero divided by zero) or NaN.
* The literal tables are lists of rationals holding the decimal literals of the source; reading
  a table returns `Option`, `none` standing for an access outside the array.
* The process-wide `s_precision` is the single field of `CORDIC.State`, passed explicitly.
* `Quaternion/Quaternion.cpp`, `Matrix/Matrix3.cpp` and `Matrix/Matrix4.cpp` are embedded over
  an arbitrary field, the library cosine and sine being parameters of the Euler constructors
  and of the rotations.
* `Interpolation.cpp` (`Slerp` on `Vector3`, `SmoothStep`, `SmootherStep`) is embedded with
  the IEEE division, a division by zero giving an infinity or NaN.
* Where a statement is about the values the program holds, the binary32 rounding is applied
  explicitly: `CORDIC.s_tanLookupDegree_binary32` and its siblings are the step tables as
  stored, `Quaternion.mul_binary32` and `Quaternion.mulVector3_binary32` round every product
  and sum.
* `RotationSequence.letters` and `Quaternion.ofLetters` read a rotation sequence from the
  letters of its name; they are the reference the bit tests of the sequence constructor are
  compared with.
* The accuracy statements are made at `α = ℝ` with `Real.sqrt` for `sqrt`; the closed numerical
  facts about the literal tables are decided by evaluating rational checkers, each of them
  proved sound for the embedded loop.
-/

namespace LibMath

/-- A `float` result: a finite value, plus or minus infinity, or the quiet NaN of `CMath.h`. -/
inductive FloatVal (α : Type) where
  | num (x : α)
  | inf (negative : Bool)
  | nan
deriving DecidableEq, Repr

section CMath

variable {α : Type} [LinearOrderedField α] [FloorRing α]

/-- The function `LibMath::ceil` (`std::ceilf`) on a finite value. -/
def ceil (value : α) : α := ((⌈value⌉ : ℤ) : α)

/-- The function `LibMath::floor` (`std::floorf`) on a finite value. -/
def floor (value : α) : α := ((⌊value⌋ : ℤ) : α)

/-- The function `LibMath::fmod` (`std::fmod`) on finite operands with a non-zero modulo:
the remainder of the division whose quotient is truncated toward zero. -/
def fmod (value modulo : α) : α :=
  value - modulo * (if 0 ≤ value / modulo then floor (value / modulo) else ceil (value / modulo))

/-- The function `LibMath::ldexpf` (`std::ldexpf`): `value * 2 ^ baseShift`. -/
def ldexpf (value : α) (baseShift : ℤ) : α := value * (2 : α) ^ baseShift

/-- IEEE division of two finite values, the `/` of `sin / cos`: a zero divisor gives NaN for
a zero dividend and an infinity carrying the sign of the dividend otherwise (the divisor
is the positive zero wherever the kernel can reach this case). -/
def fdiv (a b : α) : FloatVal α :=
  if b = 0 then (if a = 0 then FloatVal.nan else FloatVal.inf (decide (a < 0)))
  else FloatVal.num (a / b)

end CMath

/-! ### Single precision

Only the rounding of one `float` operation is modelled, for the places where a statement
depends on it. -/

/-- The nearest binary32 `float` of a rational: 24-bit significand, ties to even, exponents
down to the subnormal range; overflow to infinity is not modelled. -/
def roundBinary32 (q : ℚ) : ℚ :=
  if q = 0 then 0
  else
    let ulp : ℚ := (2 : ℚ) ^ (max (Int.log 2 |q|) (-126) - 23)
    let n : ℚ := q / ulp
    let f : ℤ := ⌊n⌋
    if n - f < 1 / 2 then f * ulp
    else if 1 / 2 < n - f then (f + 1) * ulp
    else if f % 2 = 0 then f * ulp
    else (f + 1) * ulp

/-! ### `Core/AngleDefine.h` -/

/-- The constant `PI`, the decimal literal of the source read as an exact rational. -/
def PI : ℚ := 3.1415926535897932384626433832795

def QUARTER_CIRCLE_RADIAN : ℚ := PI / 2
def HALF_CIRCLE_RADIAN : ℚ := PI
def CIRCLE_RADIAN : ℚ := 2 * PI

def QUARTER_CIRCLE_DEGREE : ℚ := 90
def HALF_CIRCLE_DEGREE : ℚ := 180
def CIRCLE_DEGREE : ℚ := 360

def QUARTER_CIRCLE_GRADIAN : ℚ := 100
def HALF_CIRCLE_GRADIAN : ℚ := 200
def CIRCLE_GRADIAN : ℚ := 400

namespace CORDIC

/-- The constant `CORDIC::s_maxPrecision`. -/
def s_maxPrecision : ℤ := 21

/-- The mutable static data of class `CORDIC`: `s_precision`. -/
structure State where
  s_precision : ℤ
deriving DecidableEq, Repr

/-- The state at process start: `inline static int s_precision = 21`. -/
def State.initial : State := ⟨21⟩

/-- The setter `CORDIC::SetPrecision`. -/
def SetPrecision (precision : ℤ) (_st : State) : State :=
  ⟨if precision < 0 then 0 else if precision > s_maxPrecision then s_maxPrecision else precision⟩

/-- The states the program can be in: the initial one and those left by `SetPrecision`. -/
inductive Reachable : State → Prop where
  | initial : Reachable State.initial
  | set (precision : ℤ) (st : State) : Reachable st → Reachable (SetPrecision precision st)

/-- The table `CORDIC::s_cosLookup`. -/
def s_cosLookup : List ℚ := [
  0.70710678118654752440084436210485,
  0.63245553203367586639977870888655,
  0.61357199107789634960780908775804,
  0.60883391251775242102211350754739,
  0.60764825625616820092932166030953,
  0.60735177014129595905351239038777,
  0.60727764409352599904691536733759,
  0.60725911229889273006029454182251,
  0.60725447933256232971739808632516,
  0.60725332108987516334343519856377,
  0.60725303152913433540228465466153,
  0.60725295913894481363035179763757,
  0.60725294104139716351297018642411,
  0.60725293651701023412897124207974,
  0.60725293538591350072955560274528,
  0.60725293510313931731386319806955,
  0.60725293503244577145582519095909,
  0.60725293501477238499105850755991,
  0.60725293501035403837485076285877,
  0.60725293500924945172079782206777,
  0.60725293500897330505728452408154]

/-- The table `CORDIC::s_tanLookupDegree`. -/
def s_tanLookupDegree : List ℚ := [
  45,
  26.565051177077989351572193720453,
  14.036243467926478582892320159163,
  7.1250163489017975619533008412068,
  3.5763343749973510306847789144588,
  1.7899106082460693071502497760791,
  0.89517371021107431364121682307953,
  0.44761417086055307309435382542382,
  0.22381050036853807512353354243059,
  0.11190567706620688727547579703472,
  0.05595289189380366817442413440423,
  0.02797645261700367459917911923683,
  0.01398822714226501462868763572436,
  0.00699411367535291845752489328782,
  0.00349705685070401105844277354077,
  0.00174852842698044952158088734418,
  8.7426421369378026026192686427249e-4,
  4.3713210687233456757822838183347e-4,
  2.1856605343934783847043885808773e-4,
  1.0928302672007148857039802957958e-4,
  5.464151336008544045209674664236e-5]

/-- The table `CORDIC::s_tanLookupRadian`. -/
def s_tanLookupRadian : List ℚ := [
  0.78539816339744830961566084581988,
  0.46364760900080611621425623146121,
  0.24497866312686415417208248121128,
  0.12435499454676143503135484916387,
  0.06241880999595734847397911298551,
  0.03123983343026827625371174489249,
  0.01562372862047683080280152125657,
  0.0078123410601011112964633918422,
  0.00390623013196697182762866531142,
  0.00195312251647881868512148262508,
  9.7656218955931943040343019971729e-4,
  4.8828121119489827546923962564485e-4,
  2.4414062014936176401672294325966e-4,
  1.2207031189367020423905864611796e-4,
  6.1035156174208775021662569173829e-5,
  3.0517578115526096861825953438536e-5,
  1.5258789061315762107231935812698e-5,
  7.6293945311019702633884823401051e-6,
  3.814697265606496282923075616373e-6,
  1.9073486328101870353653693059172e-6,
  9.5367431640596087942067068992311e-7]

/-- The table `CORDIC::s_tanLookupGradian`. -/
def s_tanLookupGradian : List ℚ := [
  50,
  29.516723530086654835080215244948,
  15.595826075473865092102577954626,
  7.9166848321131084021703342680076,
  3.9737048611081678118719765716209,
  1.988789564717854785722499751199,
  0.99463745579008257071246313675504,
  0.49734907873394785899372647269314,
  0.24867833374282008347059282492288,
  0.12433964118467431919497310781636,
  0.06216987988200407574936014933804,
  0.03108494735222630511019902137426,
  0.01554247460251668292076403969373,
  0.0077712374170587982861387703198,
  0.00388561872300445673160308171196,
  0.00194280936331161057953431927131,
  9.7140468188197806695769651585832e-4,
  4.8570234096926063064247597981497e-4,
  2.4285117048816426496715428676415e-4,
  1.2142558524452387618933114397731e-4,
  6.0712792622317156057885274047066e-5]

/-- Reading `table[i]` for a C `int` index: `none` outside the array. -/
def index (table : List ℚ) (i : ℤ) : Option ℚ :=
  if 0 ≤ i then table[i.toNat]? else none

/-- The counted loop `for (int i = 0; i < n; i++) body(i)` run from state `s`; an iteration
that fails (a read outside an array) makes the loop fail. -/
def forLoop {σ : Type} (body : ℕ → σ → Option σ) : ℕ → σ → Option σ
  | 0, s => some s
  | n + 1, s => (forLoop body n s).bind (body n)

variable {α : Type} [LinearOrderedField α] [FloorRing α]

/-- The range reduction `CORDIC::Clamp`. -/
def Clamp (angle fullCircle : α) : α :=
  if angle ≥ fullCircle then fmod angle fullCircle
  else angle + ceil ((-angle) / fullCircle) * fullCircle

/-- The range reduction `CORDIC::Clamp` in binary32: the quotient, the product and the sum
are rounded; negation, `ceil` and `fmod` are exact on `float` values. -/
def Clamp_binary32 (angle fullCircle : ℚ) : ℚ :=
  if angle ≥ fullCircle then fmod angle fullCircle
  else roundBinary32 (angle +
    roundBinary32 (ceil (roundBinary32 ((-angle) / fullCircle)) * fullCircle))

/-- The local variables `currentAngle`, `cos`, `sin` of the three rotation loops. -/
structure Rotation (α : Type) where
  currentAngle : α
  cos : α
  sin : α
deriving DecidableEq, Repr

/-- The pair `CORDIC::Coodinate`. -/
structure Coodinate (α : Type) where
  cos : α
  sin : α
deriving DecidableEq, Repr

/-- One iteration of the loop of `CORDIC::PositionOf`. -/
def PositionOf.body (targetAngle : α) (tanLookup : List ℚ) (i : ℕ) (r : Rotation α) :
    Option (Rotation α) :=
  let prevCos := r.cos
  if r.currentAngle < targetAngle then
    (index tanLookup i).map fun (step : ℚ) =>
      ⟨r.currentAngle + (step : α), r.cos - ldexpf r.sin (-(i : ℤ)),
        r.sin + ldexpf prevCos (-(i : ℤ))⟩
  else
    (index tanLookup i).map fun (step : ℚ) =>
      ⟨r.currentAngle - (step : α), r.cos + ldexpf r.sin (-(i : ℤ)),
        r.sin - ldexpf prevCos (-(i : ℤ))⟩

/-- The starting point selected by `CORDIC::PositionOf` before its loop. -/
def PositionOf.start (targetAngle quarterCircle halfCircle : α) : Rotation α :=
  if targetAngle > halfCircle then ⟨quarterCircle + halfCircle, 0, -1⟩
  else ⟨quarterCircle, 0, 1⟩

/-- The whole rotation state of `CORDIC::PositionOf` after its loop. -/
def PositionOf.run (st : State) (targetAngle quarterCircle halfCircle : α)
    (tanLookup : List ℚ) : Option (Rotation α) :=
  forLoop (PositionOf.body targetAngle tanLookup) st.s_precision.toNat
    (PositionOf.start targetAngle quarterCircle halfCircle)

/-- The forward engine `CORDIC::PositionOf`. -/
def PositionOf (st : State) (targetAngle quarterCircle halfCircle : α)
    (tanLookup : List ℚ) : Option (Coodinate α) :=
  (PositionOf.run st targetAngle quarterCircle halfCircle tanLookup).map
    fun r => ⟨r.cos, r.sin⟩

/-- One iteration of the loop of `CORDIC::AngleOfSin`. -/
def AngleOfSin.body (tanLookup : List ℚ) (i : ℕ) (r : Rotation α) : Option (Rotation α) :=
  let prevCos := r.cos
  if r.sin > 0 then
    (index tanLookup i).map fun (step : ℚ) =>
      ⟨r.currentAngle + (step : α), r.cos + ldexpf r.sin (-(i : ℤ)),
        r.sin - ldexpf prevCos (-(i : ℤ))⟩
  else
    (index tanLookup i).map fun (step : ℚ) =>
      ⟨r.currentAngle - (step : α), r.cos - ldexpf r.sin (-(i : ℤ)),
        r.sin + ldexpf prevCos (-(i : ℤ))⟩

/-- The inverse engine `CORDIC::AngleOfSin`. -/
def AngleOfSin (st : State) (cosValue sinValue : α) (tanLookup : List ℚ) : Option α :=
  (forLoop (AngleOfSin.body tanLookup) st.s_precision.toNat ⟨0, cosValue, sinValue⟩).map
    fun r => r.currentAngle

/-- One iteration of the loop of `CORDIC::AngleOfCos`. -/
def AngleOfCos.body (tanLookup : List ℚ) (i : ℕ) (r : Rotation α) : Option (Rotation α) :=
  let prevCos := r.cos
  if r.cos < 0 then
    (index tanLookup i).map fun (step : ℚ) =>
      ⟨r.currentAngle + (step : α), r.cos + ldexpf r.sin (-(i : ℤ)),
        r.sin - ldexpf prevCos (-(i : ℤ))⟩
  else
    (index tanLookup i).map fun (step : ℚ) =>
      ⟨r.currentAngle - (step : α), r.cos - ldexpf r.sin (-(i : ℤ)),
        r.sin + ldexpf prevCos (-(i : ℤ))⟩

/-- The inverse engine `CORDIC::AngleOfCos`. -/
def AngleOfCos (st : State) (cosValue sinValue quarterCircle : α) (tanLookup : List ℚ) :
    Option α :=
  (forLoop (AngleOfCos.body tanLookup) st.s_precision.toNat
    ⟨quarterCircle, cosValue, sinValue⟩).map fun r => r.currentAngle

/-! ### The entry points

`sqrt` is `LibMath::sqrt` (`std::sqrtf`) on the non-negative values, the only ones the entry
points pass to it: the domain guards leave `1 - x * x ≥ 0`, and `x * x + 1 > 0`. The gain
`s_cosLookup[s_precision - 1]` is read before the engine runs in the inverse functions and
after it in the forward ones; every entry of the table is non-zero, so the divisions by it
are divisions of finite values. -/

/-- The entry point `CORDIC::acos_0` of `CORDIC_0.cpp`. -/
def acos_0 (st : State) (sqrt : α → α) (cosValue : α) : Option (FloatVal α) :=
  if -1 > cosValue ∨ cosValue > 1 then some FloatVal.nan
  else if cosValue = 1 then some (FloatVal.num 0)
  else
    let sinValue := sqrt (1 - cosValue * cosValue)
    (index s_cosLookup (st.s_precision - 1)).bind fun (gain : ℚ) =>
      (AngleOfCos st (cosValue / (gain : α)) (sinValue / (gain : α))
        (QUARTER_CIRCLE_DEGREE : α) s_tanLookupDegree).map FloatVal.num

/-- The entry point `CORDIC::asin_0` of `CORDIC_0.cpp`. -/
def asin_0 (st : State) (sqrt : α → α) (sinValue : α) : Option (FloatVal α) :=
  if -1 > sinValue ∨ sinValue > 1 then some FloatVal.nan
  else if sinValue = 0 then some (FloatVal.num 0)
  else
    let cosValue := sqrt (1 - sinValue * sinValue)
    (index s_cosLookup (st.s_precision - 1)).bind fun (gain : ℚ) =>
      (AngleOfSin st (cosValue / (gain : α)) (sinValue / (gain : α))
        s_tanLookupDegree).map FloatVal.num

/-- The entry point `CORDIC::atan_0` of `CORDIC_0.cpp`. -/
def atan_0 (st : State) (sqrt : α → α) (tanValue : α) : Option (FloatVal α) :=
  if tanValue = 0 then some (FloatVal.num 0)
  else
    let sinValue := tanValue / sqrt (tanValue * tanValue + 1)
    let cosValue := 1 / sqrt (tanValue * tanValue + 1)
    (index s_cosLookup (st.s_precision - 1)).bind fun (gain : ℚ) =>
      (AngleOfSin st (cosValue / (gain : α)) (sinValue / (gain : α))
        s_tanLookupDegree).map FloatVal.num

/-- The entry point `CORDIC::cos_0` of `CORDIC_0.cpp`. -/
def cos_0 (st : State) (targetAngle : α) : Option (FloatVal α) :=
  let targetAngle := Clamp targetAngle (CIRCLE_DEGREE : α)
  if targetAngle = 0 then some (FloatVal.num 1)
  else
    (PositionOf st targetAngle (QUARTER_CIRCLE_DEGREE : α) (HALF_CIRCLE_DEGREE : α)
      s_tanLookupDegree).bind fun p =>
      (index s_cosLookup (st.s_precision - 1)).map fun (gain : ℚ) =>
        FloatVal.num (p.cos * (gain : α))

/-- The entry point `CORDIC::sin_0` of `CORDIC_0.cpp`. -/
def sin_0 (st : State) (targetAngle : α) : Option (FloatVal α) :=
  let targetAngle := Clamp targetAngle (CIRCLE_DEGREE : α)
  if targetAngle = 0 then some (FloatVal.num 0)
  else
    (PositionOf st targetAngle (QUARTER_CIRCLE_DEGREE : α) (HALF_CIRCLE_DEGREE : α)
      s_tanLookupDegree).bind fun p =>
      (index s_cosLookup (st.s_precision - 1)).map fun (gain : ℚ) =>
        FloatVal.num (p.sin * (gain : α))

/-- The entry point `CORDIC::tan_0` of `CORDIC_0.cpp`. -/
def tan_0 (st : State) (targetAngle : α) : Option (FloatVal α) :=
  let targetAngle := Clamp targetAngle (CIRCLE_DEGREE : α)
  if targetAngle = 0 then some (FloatVal.num 0)
  else if targetAngle = 90 ∨ targetAngle = 270 then some FloatVal.nan
  else
    (PositionOf st targetAngle (QUARTER_CIRCLE_DEGREE : α) (HALF_CIRCLE_DEGREE : α)
      s_tanLookupDegree).map fun p => fdiv p.sin p.cos

/-- The entry point `CORDIC::acos_r` of `CORDIC_r.cpp`. -/
def acos_r (st : State) (sqrt : α → α) (cosValue : α) : Option (FloatVal α) :=
  if -1 > cosValue ∨ cosValue > 1 then some FloatVal.nan
  else if cosValue = 1 then some (FloatVal.num 0)
  else
    let sinValue := sqrt (1 - cosValue * cosValue)
    (index s_cosLookup (st.s_precision - 1)).bind fun (gain : ℚ) =>
      (AngleOfCos st (cosValue / (gain : α)) (sinValue / (gain : α))
        (QUARTER_CIRCLE_RADIAN : α) s_tanLookupRadian).map FloatVal.num

/-- The entry point `CORDIC::asin_r` of `CORDIC_r.cpp`. -/
def asin_r (st : State) (sqrt : α → α) (sinValue : α) : Option (FloatVal α) :=
  if -1 > sinValue ∨ sinValue > 1 then some FloatVal.nan
  else if sinValue = 0 then some (FloatVal.num 0)
  else
    let cosValue := sqrt (1 - sinValue * sinValue)
    (index s_cosLookup (st.s_precision - 1)).bind fun (gain : ℚ) =>
      (AngleOfSin st (cosValue / (gain : α)) (sinValue / (gain : α))
        s_tanLookupRadian).map FloatVal.num

/-- The entry point `CORDIC::atan_r` of `CORDIC_r.cpp`. -/
def atan_r (st : State) (sqrt : α → α) (tanValue : α) : Option (FloatVal α) :=
  if tanValue = 0 then some (FloatVal.num 0)
  else
    let sinValue := tanValue / sqrt (tanValue * tanValue + 1)
    let cosValue := 1 / sqrt (tanValue * tanValue + 1)
    (index s_cosLookup (st.s_precision - 1)).bind fun (gain : ℚ) =>
      (AngleOfSin st (cosValue / (gain : α)) (sinValue / (gain : α))
        s_tanLookupRadian).map FloatVal.num

/-- The entry point `CORDIC::cos_r` of `CORDIC_r.cpp`. -/
def cos_r (st : State) (targetAngle : α) : Option (FloatVal α) :=
  let targetAngle := Clamp targetAngle (CIRCLE_RADIAN : α)
  if targetAngle = 0 then some (FloatVal.num 1)
  else
    (PositionOf st targetAngle (QUARTER_CIRCLE_RADIAN : α) (HALF_CIRCLE_RADIAN : α)
      s_tanLookupRadian).bind fun p =>
      (index s_cosLookup (st.s_precision - 1)).map fun (gain : ℚ) =>
        FloatVal.num (p.cos * (gain : α))

/-- The entry point `CORDIC::sin_r` of `CORDIC_r.cpp`. -/
def sin_r (st : State) (targetAngle : α) : Option (FloatVal α) :=
  let targetAngle := Clamp targetAngle (CIRCLE_RADIAN : α)
  if targetAngle = 0 then some (FloatVal.num 0)
  else
    (PositionOf st targetAngle (QUARTER_CIRCLE_RADIAN : α) (HALF_CIRCLE_RADIAN : α)
      s_tanLookupRadian).bind fun p =>
      (index s_cosLookup (st.s_precision - 1)).map fun (gain : ℚ) =>
        FloatVal.num (p.sin * (gain : α))

/-- The entry point `CORDIC::tan_r` of `CORDIC_r.cpp`. -/
def tan_r (st : State) (targetAngle : α) : Option (FloatVal α) :=
  let targetAngle := Clamp targetAngle (CIRCLE_RADIAN : α)
  if targetAngle = 0 then some (FloatVal.num 0)
  else
    (PositionOf st targetAngle (QUARTER_CIRCLE_RADIAN : α) (HALF_CIRCLE_RADIAN : α)
      s_tanLookupRadian).map fun p => fdiv p.sin p.cos

/-- The entry point `CORDIC::acos_9` of `CORDIC_9.cpp`. -/
def acos_9 (st : State) (sqrt : α → α) (cosValue : α) : Option (FloatVal α) :=
  if -1 > cosValue ∨ cosValue > 1 then some FloatVal.nan
  else if cosValue = 1 then some (FloatVal.num 0)
  else
    let sinValue := sqrt (1 - cosValue * cosValue)
    (index s_cosLookup (st.s_precision - 1)).bind fun (gain : ℚ) =>
      (AngleOfCos st (cosValue / (gain : α)) (sinValue / (gain : α))
        (QUARTER_CIRCLE_GRADIAN : α) s_tanLookupGradian).map FloatVal.num

/-- The entry point `CORDIC::asin_9` of `CORDIC_9.cpp`. -/
def asin_9 (st : State) (sqrt : α → α) (sinValue : α) : Option (FloatVal α) :=
  if -1 > sinValue ∨ sinValue > 1 then some FloatVal.nan
  else if sinValue = 0 then some (FloatVal.num 0)
  else
    let cosValue := sqrt (1 - sinValue * sinValue)
    (index s_cosLookup (st.s_precision - 1)).bind fun (gain : ℚ) =>
      (AngleOfSin st (cosValue / (gain : α)) (sinValue / (gain : α))
        s_tanLookupGradian).map FloatVal.num

/-- The entry point `CORDIC::atan_9` of `CORDIC_9.cpp`. -/
def atan_9 (st : State) (sqrt : α → α) (tanValue : α) : Option (FloatVal α) :=
  if tanValue = 0 then some (FloatVal.num 0)
  else
    let sinValue := tanValue / sqrt (tanValue * tanValue + 1)
    let cosValue := 1 / sqrt (tanValue * tanValue + 1)
    (index s_cosLookup (st.s_precision - 1)).bind fun (gain : ℚ) =>
      (AngleOfSin st (cosValue / (gain : α)) (sinValue / (gain : α))
        s_tanLookupGradian).map FloatVal.num

/-- The entry point `CORDIC::cos_9` of `CORDIC_9.cpp`. -/
def cos_9 (st : State) (targetAngle : α) : Option (FloatVal α) :=
  let targetAngle := Clamp targetAngle (CIRCLE_GRADIAN : α)
  if targetAngle = 0 then some (FloatVal.num 1)
  else
    (PositionOf st targetAngle (QUARTER_CIRCLE_GRADIAN : α) (HALF_CIRCLE_GRADIAN : α)
      s_tanLookupGradian).bind fun p =>
      (index s_cosLookup (st.s_precision - 1)).map fun (gain : ℚ) =>
        FloatVal.num (p.cos * (gain : α))

/-- The entry point `CORDIC::sin_9` of `CORDIC_9.cpp`. -/
def sin_9 (st : State) (targetAngle : α) : Option (FloatVal α) :=
  let targetAngle := Clamp targetAngle (CIRCLE_GRADIAN : α)
  if targetAngle = 0 then some (FloatVal.num 0)
  else
    (PositionOf st targetAngle (QUARTER_CIRCLE_GRADIAN : α) (HALF_CIRCLE_GRADIAN : α)
      s_tanLookupGradian).bind fun p =>
      (index s_cosLookup (st.s_precision - 1)).map fun (gain : ℚ) =>
        FloatVal.num (p.sin * (gain : α))

/-- The entry point `CORDIC::tan_9` of `CORDIC_9.cpp`. -/
def tan_9 (st : State) (targetAngle : α) : Option (FloatVal α) :=
  let targetAngle := Clamp targetAngle (CIRCLE_GRADIAN : α)
  if targetAngle = 0 then some (FloatVal.num 0)
  else if targetAngle = 90 ∨ targetAngle = 270 then some FloatVal.nan
  else
    (PositionOf st targetAngle (QUARTER_CIRCLE_GRADIAN : α) (HALF_CIRCLE_GRADIAN : α)
      s_tanLookupGradian).map fun p => fdiv p.sin p.cos

end CORDIC

end LibMath

/-! ### `Vector/Vector3.h`, `Quaternion/Quaternion.cpp`, `Core/Angle.h`

The trigonometric functions `cos` and `sin` of `Core/Angle.cpp` (`std::cos`, `std::sin`) are
function parameters. -/

namespace LibMath

/-- The three components of `Vector3`. -/
structure Vector3 (α : Type) where
  x : α
  y : α
  z : α
deriving DecidableEq, Repr

/-- The values of `enum class RotationOrder : char`. -/
inductive RotationOrder where
  | Xfirst | Yfirst | Zfirst | Xsecond | Ysecond | Zsecond | Xlast | Ylast | Zlast
deriving DecidableEq, Repr

/-- The `char` value of a `RotationOrder` enumerator. -/
def RotationOrder.toChar : RotationOrder → ℕ
  | Xfirst => 1
  | Yfirst => 2
  | Zfirst => 0
  | Xsecond => 4
  | Ysecond => 8
  | Zsecond => 0
  | Xlast => 16
  | Ylast => 32
  | Zlast => 0

/-- The values of `enum class RotationSequence : char`. -/
inductive RotationSequence where
  | XYX | XYZ | XZX | XZY | YXY | YXZ | YZX | YZY | ZXY | ZXZ | ZYX | ZYZ
deriving DecidableEq, Repr

open RotationOrder in
/-- The `char` value of a `RotationSequence` enumerator, the sum written in `Angle.h`. -/
def RotationSequence.toChar : RotationSequence → ℕ
  | XYX => Xfirst.toChar + Ysecond.toChar + Xlast.toChar
  | XYZ => Xfirst.toChar + Ysecond.toChar + Zlast.toChar
  | XZX => Xfirst.toChar + Zsecond.toChar + Xlast.toChar
  | XZY => Xfirst.toChar + Zsecond.toChar + Ylast.toChar
  | YXY => Yfirst.toChar + Xsecond.toChar + Ylast.toChar
  | YXZ => Yfirst.toChar + Xsecond.toChar + Zlast.toChar
  | YZX => Yfirst.toChar + Zsecond.toChar + Xlast.toChar
  | YZY => Yfirst.toChar + Zsecond.toChar + Ylast.toChar
  | ZXY => Zfirst.toChar + Xsecond.toChar + Ylast.toChar
  | ZXZ => Zfirst.toChar + Xsecond.toChar + Zlast.toChar
  | ZYX => Zfirst.toChar + Ysecond.toChar + Xlast.toChar
  | ZYZ => Zfirst.toChar + Ysecond.toChar + Zlast.toChar

/-- The four components of `Quaternion`. -/
structure Quaternion (α : Type) where
  X : α
  Y : α
  Z : α
  W : α
deriving DecidableEq, Repr

namespace Quaternion

variable {α : Type} [Field α]

/-- The default constructor `Quaternion::Quaternion()`. -/
def default : Quaternion α := ⟨0, 0, 0, 1⟩

/-- The product `Quaternion::operator*(const Quaternion&)`. -/
def mul (q other : Quaternion α) : Quaternion α :=
  { X := (q.Y * other.Z) - (q.Z * other.Y) + (q.W * other.X) + (other.W * q.X)
    Y := (q.Z * other.X) - (q.X * other.Z) + (q.W * other.Y) + (other.W * q.Y)
    Z := (q.X * other.Y) - (q.Y * other.X) + (q.W * other.Z) + (other.W * q.Z)
    W := (q.W * other.W) - (q.X * other.X) - (q.Y * other.Y) - (q.Z * other.Z) }

/-- The rotation `Quaternion::operator*(const Vector3&)`. -/
def mulVector3 (q : Quaternion α) (other : Vector3 α) : Vector3 α :=
  let vMult := 2 * (q.X * other.x + q.Y * other.y + q.Z * other.z)
  let crossMult := 2 * q.W
  let pMult := crossMult * q.W - 1
  { x := pMult * other.x + vMult * q.X + crossMult * (q.Y * other.z - q.Z * other.y)
    y := pMult * other.y + vMult * q.Y + crossMult * (q.Z * other.x - q.X * other.z)
    z := pMult * other.z + vMult * q.Z + crossMult * (q.X * other.y - q.Y * other.x) }

/-- The method `Quaternion::GetInverse`. -/
def GetInverse (q : Quaternion α) : Quaternion α :=
  { X := -q.X, Y := -q.Y, Z := -q.Z, W := q.W }

/-- The constructor `Quaternion(Radian pitch, Radian yaw, Radian roll)`. -/
def ofEuler (cos sin : α → α) (pitch yaw roll : α) : Quaternion α :=
  let halfPitch := pitch * 0.5
  let halfYaw := yaw * 0.5
  let halfRoll := roll * 0.5
  let cosine : Vector3 α := ⟨cos halfPitch, cos halfYaw, cos halfRoll⟩
  let sinus : Vector3 α := ⟨sin halfPitch, sin halfYaw, sin halfRoll⟩
  { W := cosine.x * cosine.y * cosine.z + sinus.x * sinus.y * sinus.z
    X := sinus.x * cosine.y * cosine.z - cosine.x * sinus.y * sinus.z
    Y := cosine.x * sinus.y * cosine.z + sinus.x * cosine.y * sinus.z
    Z := cosine.x * cosine.y * sinus.z - sinus.x * sinus.y * cosine.z }

/-- The constructor `Quaternion(Radian pitch, Radian yaw, Radian roll, RotationSequence order)`:
three times `(*this) *= ...`, the factor chosen by the bit tests on `order`. -/
def ofEulerSequence (cos sin : α → α) (pitch yaw roll : α) (order : RotationSequence) :
    Quaternion α :=
  let p : Quaternion α := ⟨sin (pitch * 0.5), 0, 0, cos (pitch * 0.5)⟩
  let y : Quaternion α := ⟨0, sin (yaw * 0.5), 0, cos (yaw * 0.5)⟩
  let r : Quaternion α := ⟨0, 0, sin (roll * 0.5), cos (roll * 0.5)⟩
  let q0 : Quaternion α := ⟨0, 0, 0, 1⟩
  let q1 :=
    if order.toChar &&& RotationOrder.Xfirst.toChar ≠ 0 then q0.mul p
    else if order.toChar &&& RotationOrder.Yfirst.toChar ≠ 0 then q0.mul y
    else q0.mul r
  let q2 :=
    if order.toChar &&& RotationOrder.Xsecond.toChar ≠ 0 then q1.mul p
    else if order.toChar &&& RotationOrder.Ysecond.toChar ≠ 0 then q1.mul y
    else q1.mul r
  if order.toChar &&& RotationOrder.Xlast.toChar ≠ 0 then q2.mul p
  else if order.toChar &&& RotationOrder.Ylast.toChar ≠ 0 then q2.mul y
  else q2.mul r

end Quaternion

end LibMath
/-! ### `Matrix/Matrix3.h`, `Matrix/Matrix3.cpp` -/

namespace LibMath

/-- The nine values `m_row` of `Matrix3`. -/
structure Matrix3 (α : Type) where
  m_row : Fin 9 → α

namespace Matrix3

variable {α : Type} [Field α]

/-- The access `(*this)[row][col]`, which reads `m_row[row * 3 + col]`. -/
def get (m : Matrix3 α) (row col : Fin 3) : α :=
  m.m_row ⟨row.val * 3 + col.val, by omega⟩

/-- The matrix whose entry `[row][col]` is `f row col`. -/
def ofEntries (f : Fin 3 → Fin 3 → α) : Matrix3 α :=
  ⟨fun k => f ⟨k.val / 3, by omega⟩ ⟨k.val % 3, by omega⟩⟩

/-- The default constructor `Matrix3()`: every value is `0.f`. -/
def zero : Matrix3 α := ⟨fun _ => 0⟩

/-- The constructor `Matrix3(const float& diagonalValue)`. -/
def diagonal (diagonalValue : α) : Matrix3 α :=
  ⟨fun k => if k.val = 0 ∨ k.val = 4 ∨ k.val = 8 then diagonalValue else 0⟩

/-- The function `Matrix3::IdentityMatrix`. -/
def IdentityMatrix : Matrix3 α := diagonal 1

/-- The method `Matrix3::Determinant`. -/
def Determinant (m : Matrix3 α) : α :=
  m.get 0 0 * (m.get 1 1 * m.get 2 2 - m.get 1 2 * m.get 2 1) -
    m.get 1 0 * (m.get 0 1 * m.get 2 2 - m.get 2 1 * m.get 0 2) +
    m.get 2 0 * (m.get 0 1 * m.get 1 2 - m.get 1 1 * m.get 0 2)

/-- The method `Matrix3::Adjugate`: each of the nine entries of the copy is overwritten. -/
def Adjugate (m : Matrix3 α) : Matrix3 α :=
  ofEntries fun row col =>
    match row, col with
    | 0, 0 => m.get 1 1 * m.get 2 2 - m.get 2 1 * m.get 1 2
    | 1, 0 => -(m.get 1 0 * m.get 2 2 - m.get 2 0 * m.get 1 2)
    | 2, 0 => m.get 1 0 * m.get 2 1 - m.get 2 0 * m.get 1 1
    | 0, 1 => -(m.get 0 1 * m.get 2 2 - m.get 2 1 * m.get 0 2)
    | 1, 1 => m.get 0 0 * m.get 2 2 - m.get 2 0 * m.get 0 2
    | 2, 1 => -(m.get 0 0 * m.get 2 1 - m.get 2 0 * m.get 0 1)
    | 0, 2 => m.get 0 1 * m.get 1 2 - m.get 1 1 * m.get 0 2
    | 1, 2 => -(m.get 0 0 * m.get 1 2 - m.get 1 0 * m.get 0 2)
    | 2, 2 => m.get 0 0 * m.get 1 1 - m.get 1 0 * m.get 0 1

/-- The product `operator*(Matrix3 lhs, const Matrix3& rhs)`: the entry `[row][col]` of the
zero-initialised result accumulates `lhs[a][col] * rhs[row][a]` over `a`. -/
def mul (lhs rhs : Matrix3 α) : Matrix3 α :=
  ofEntries fun row col => ∑ a : Fin 3, lhs.get a col * rhs.get row a

/-- The quotient `operator/(Matrix3 lhs, const float& rhs)`. -/
def divScalar (lhs : Matrix3 α) (rhs : α) : Matrix3 α :=
  ofEntries fun row col => lhs.get row col / rhs

/-- The method `Matrix3::Inverse`. -/
def Inverse [DecidableEq α] (m : Matrix3 α) : Matrix3 α :=
  let det := m.Determinant
  if det = 0 then zero else m.Adjugate.divScalar det

end Matrix3

end LibMath

namespace LibMath

namespace CORDIC

/-- The squared length of the pair left by `n` iterations of a rotation loop started on a
unit vector: the product of `1 + 4 ^ (-i)` for `i < n`. -/
def magnitudeSq (n : ℕ) : ℚ := ∏ i in Finset.range n, (1 + (1 / 4 : ℚ) ^ i)

end CORDIC

end LibMath

namespace LibMath
namespace CORDIC

/-- Decides whether a returned value is a finite number within `tol` of `center`. -/
def numWithin (o : Option (FloatVal ℚ)) (center tol : ℚ) : Bool :=
  match o with
  | some (FloatVal.num v) => decide (|v - center| ≤ tol)
  | _ => false

/-- Decides whether two returned values are finite numbers, the first strictly above the
second. -/
def numGt (o1 o2 : Option (FloatVal ℚ)) : Bool :=
  match o1, o2 with
  | some (FloatVal.num v1), some (FloatVal.num v2) => decide (v2 < v1)
  | _, _ => false

end CORDIC
end LibMath

namespace LibMath
namespace CORDIC

/-- A rotation state over the rationals, seen in the field `α`. -/
def Rotation.cast {α : Type} [DivisionRing α] (r : Rotation ℚ) : Rotation α :=
  ⟨(r.currentAngle : α), (r.cos : α), (r.sin : α)⟩

/-- A target interval `(lo, hi]` together with the rotation state that every target of the
interval leads to. -/
structure Leaf where
  lo : ℚ
  hi : ℚ
  rot : Rotation ℚ

/-- The outcomes of the loop of `CORDIC::PositionOf` for all the targets of `(lo, hi]` at once,
from iteration `i` in state `r` for `fuel` more iterations. The loop only compares the target
with `currentAngle`, so the interval is cut at `currentAngle`: the targets at most
`currentAngle` take the iteration as the target `currentAngle` does, the targets above it as
`currentAngle + 1` does. The leaves come in increasing order of their targets. -/
def PositionOf.leaves (tanLookup : List ℚ) : ℕ → ℕ → ℚ → ℚ → Rotation ℚ → Option (List Leaf)
  | 0, _, lo, hi, r => some [⟨lo, hi, r⟩]
  | fuel + 1, i, lo, hi, r =>
    if hi ≤ r.currentAngle then
      (PositionOf.body r.currentAngle tanLookup i r).bind
        (PositionOf.leaves tanLookup fuel (i + 1) lo hi)
    else if r.currentAngle ≤ lo then
      (PositionOf.body (r.currentAngle + 1) tanLookup i r).bind
        (PositionOf.leaves tanLookup fuel (i + 1) lo hi)
    else
      ((PositionOf.body r.currentAngle tanLookup i r).bind
        (PositionOf.leaves tanLookup fuel (i + 1) lo r.currentAngle)).bind fun l1 =>
      ((PositionOf.body (r.currentAngle + 1) tanLookup i r).bind
        (PositionOf.leaves tanLookup fuel (i + 1) r.currentAngle hi)).map fun l2 => l1 ++ l2

/-- Decides whether, over the targets of `(0, 90]` at precision `L`, the raw sine of
`PositionOf` is non-negative and non-decreasing from one leaf to the next. -/
def sinLeavesSorted (L : ℕ) : Bool :=
  match PositionOf.leaves s_tanLookupDegree L 0 0 90 ⟨90, 0, 1⟩ with
  | some ls =>
    decide (ls.Pairwise fun l1 l2 => l1.hi ≤ l2.lo ∧ l1.rot.sin ≤ l2.rot.sin) &&
      decide (∀ l ∈ ls, 0 ≤ l.rot.sin)
  | none => false

end CORDIC
end LibMath

namespace LibMath
namespace CORDIC

/-- The distance to the target that the iterations `i` to `L - 1` can still make up for, plus
the last step: `table[L - 1] + table[i] + ... + table[L - 1]`. -/
def residual (table : List ℚ) (L i : ℕ) : ℚ :=
  ((table.take L).drop i).sum + table.getD (L - 1) 0

/-- Decides the condition under which the angle search of `L` iterations closes in on every
target within `quarter` of the starting angle: the start is within the residual, and no step
is larger than the residual left after it. -/
def searchConverges (table : List ℚ) (quarter : ℚ) (L : ℕ) : Bool :=
  decide (quarter ≤ residual table L 0) &&
    (List.range L).all fun i => decide (table.getD i 0 ≤ residual table L (i + 1))

end CORDIC
end LibMath

namespace LibMath
namespace CORDIC

/-- The partial sum `x - x^3/3 + x^5/5 - ...` of `n` terms of the arctangent series. -/
def arctanPartial {α : Type} [Field α] (x : α) : ℕ → α
  | 0 => 0
  | n + 1 => arctanPartial x n + (-1) ^ n * x ^ (2 * n + 1) / ((2 * n + 1 : ℕ) : α)

end CORDIC
end LibMath

namespace LibMath
namespace CORDIC

/-- A rational below `π`. -/
def piLower : ℚ := 3.14159265358979323846

/-- A rational above `π`. -/
def piUpper : ℚ := 3.14159265358979323847

/-- Decides that every entry `table[j]`, `1 ≤ j`, is non-negative and, once converted to
radians by any factor between `scaleLower` and `scaleUpper`, within `tol` of `arctan (2 ^ (-j))`,
the arctangent being enclosed between 20 and 21 terms of its series. -/
def stepTableAccurate (table : List ℚ) (scaleLower scaleUpper tol : ℚ) : Bool :=
  (List.range table.length).all fun j =>
    decide (j = 0) ||
      (decide (0 ≤ table.getD j 0) &&
        decide (table.getD j 0 * scaleUpper ≤ arctanPartial ((1 / 2 : ℚ) ^ j) 20 + tol) &&
        decide (arctanPartial ((1 / 2 : ℚ) ^ j) 21 - tol ≤ table.getD j 0 * scaleLower))

end CORDIC
end LibMath

namespace LibMath
namespace CORDIC

end CORDIC
end LibMath

namespace LibMath
namespace Matrix3

variable {α : Type} [Field α]

/-- The constructor `Matrix3(a, b, c, d, e, f, g, h, i)`: the nine values of `m_row` in
order. -/
def ofValues (a b c d e f g h i : α) : Matrix3 α :=
  ofEntries fun row col =>
    match row, col with
    | 0, 0 => a
    | 0, 1 => b
    | 0, 2 => c
    | 1, 0 => d
    | 1, 1 => e
    | 1, 2 => f
    | 2, 0 => g
    | 2, 1 => h
    | 2, 2 => i

/-- The function `Matrix3::RotationMatrix`; `cos` and `sin` are the library cosine and sine of
a `Radian`. -/
def RotationMatrix (cos sin : α → α) (rad : α) : Matrix3 α :=
  let co := cos rad
  let si := sin rad
  ofValues co si 0 (-si) co 0 0 0 1

/-- The method `Matrix3::Rotate`. -/
def Rotate (m : Matrix3 α) (cos sin : α → α) (rad : α) : Matrix3 α :=
  let co := cos rad
  let si := sin rad
  ofValues (m.m_row 0 * co + m.m_row 3 * si) (m.m_row 1 * co + m.m_row 4 * si)
    (m.m_row 2 * co + m.m_row 5 * si)
    (m.m_row 3 * co - m.m_row 0 * si) (m.m_row 4 * co - m.m_row 1 * si)
    (m.m_row 5 * co - m.m_row 2 * si)
    (m.m_row 6) (m.m_row 7) (m.m_row 8)

end Matrix3
end LibMath

namespace LibMath

/-- The sixteen values `raw` of `Matrix4`. -/
structure Matrix4 (α : Type) where
  raw : Fin 16 → α

namespace Matrix4

variable {α : Type} [Field α]

/-- The access `(*this)[row][col]`, which reads `raw[row * 4 + col]`. -/
def get (m : Matrix4 α) (row col : Fin 4) : α :=
  m.raw ⟨row.val * 4 + col.val, by omega⟩

/-- The matrix whose entry `[row][col]` is `f row col`. -/
def ofEntries (f : Fin 4 → Fin 4 → α) : Matrix4 α :=
  ⟨fun k => f ⟨k.val / 4, by omega⟩ ⟨k.val % 4, by omega⟩⟩

/-- The default constructor `Matrix4()`, which clears `raw`. -/
def zero : Matrix4 α := ⟨fun _ => 0⟩

/-- The constructor `Matrix4(float diagonalValue)`. -/
def diagonal (diagonalValue : α) : Matrix4 α :=
  ⟨fun k => if k.val = 0 ∨ k.val = 5 ∨ k.val = 10 ∨ k.val = 15 then diagonalValue else 0⟩

/-- The function `Matrix4::Identity`. -/
def Identity : Matrix4 α := diagonal 1

/-- The product `Matrix4::operator*(Matrix4 const& other)`: the entry `[row][col]` of the
cleared result accumulates `(*this)[a][col] * other[row][a]` over `a`. -/
def mul (m other : Matrix4 α) : Matrix4 α :=
  ofEntries fun row col => ∑ a : Fin 4, m.get a col * other.get row a

/-- The method `Matrix4::Determinant`: the four entries of the local `inv` that the result
reads, then the expansion along the first four values. The twelve other entries of `inv`
that the source fills are never read. -/
def Determinant (m : Matrix4 α) : α :=
  let inv0 := m.raw 5 * m.raw 10 * m.raw 15 - m.raw 5 * m.raw 11 * m.raw 14 -
    m.raw 9 * m.raw 6 * m.raw 15 + m.raw 9 * m.raw 7 * m.raw 14 +
    m.raw 13 * m.raw 6 * m.raw 11 - m.raw 13 * m.raw 7 * m.raw 10
  let inv4 := -m.raw 4 * m.raw 10 * m.raw 15 + m.raw 4 * m.raw 11 * m.raw 14 +
    m.raw 8 * m.raw 6 * m.raw 15 - m.raw 8 * m.raw 7 * m.raw 14 -
    m.raw 12 * m.raw 6 * m.raw 11 + m.raw 12 * m.raw 7 * m.raw 10
  let inv8 := m.raw 4 * m.raw 9 * m.raw 15 - m.raw 4 * m.raw 11 * m.raw 13 -
    m.raw 8 * m.raw 5 * m.raw 15 + m.raw 8 * m.raw 7 * m.raw 13 +
    m.raw 12 * m.raw 5 * m.raw 11 - m.raw 12 * m.raw 7 * m.raw 9
  let inv12 := -m.raw 4 * m.raw 9 * m.raw 14 + m.raw 4 * m.raw 10 * m.raw 13 +
    m.raw 8 * m.raw 5 * m.raw 14 - m.raw 8 * m.raw 6 * m.raw 13 -
    m.raw 12 * m.raw 5 * m.raw 10 + m.raw 12 * m.raw 6 * m.raw 9
  m.raw 0 * inv0 + m.raw 1 * inv4 + m.raw 2 * inv8 + m.raw 3 * inv12

/-- The function `Matrix4::GetMinor`, a 3x3 determinant. -/
def GetMinor (p_minor0 p_minor1 p_minor2 p_minor3 p_minor4 p_minor5 p_minor6 p_minor7
    p_minor8 : α) : α :=
  p_minor0 * (p_minor4 * p_minor8 - p_minor5 * p_minor7) -
    p_minor1 * (p_minor3 * p_minor8 - p_minor5 * p_minor6) +
    p_minor2 * (p_minor3 * p_minor7 - p_minor4 * p_minor6)

/-- The method `Matrix4::GetInverse`; `Data()[k]` is `raw[k]`, and the test `fabs(det) == 0`
is `det == 0`. -/
def GetInverse [DecidableEq α] (m : Matrix4 α) : Matrix4 α :=
  let determinant := m.Determinant
  if determinant = 0 then zero
  else
    let cof0 := GetMinor (m.raw 5) (m.raw 9) (m.raw 13) (m.raw 6) (m.raw 10) (m.raw 14)
      (m.raw 7) (m.raw 11) (m.raw 15)
    let cof1 := GetMinor (m.raw 1) (m.raw 9) (m.raw 13) (m.raw 2) (m.raw 10) (m.raw 14)
      (m.raw 3) (m.raw 11) (m.raw 15)
    let cof2 := GetMinor (m.raw 1) (m.raw 5) (m.raw 13) (m.raw 2) (m.raw 6) (m.raw 14)
      (m.raw 3) (m.raw 7) (m.raw 15)
    let cof3 := GetMinor (m.raw 1) (m.raw 5) (m.raw 9) (m.raw 2) (m.raw 6) (m.raw 10)
      (m.raw 3) (m.raw 7) (m.raw 11)
    let det := m.raw 0 * cof0 - m.raw 4 * cof1 + m.raw 8 * cof2 - m.raw 12 * cof3
    if det = 0 then zero
    else
      let cof4 := GetMinor (m.raw 4) (m.raw 8) (m.raw 12) (m.raw 6) (m.raw 10) (m.raw 14)
        (m.raw 7) (m.raw 11) (m.raw 15)
      let cof5 := GetMinor (m.raw 0) (m.raw 8) (m.raw 12) (m.raw 2) (m.raw 10) (m.raw 14)
        (m.raw 3) (m.raw 11) (m.raw 15)
      let cof6 := GetMinor (m.raw 0) (m.raw 4) (m.raw 12) (m.raw 2) (m.raw 6) (m.raw 14)
        (m.raw 3) (m.raw 7) (m.raw 15)
      let cof7 := GetMinor (m.raw 0) (m.raw 4) (m.raw 8) (m.raw 2) (m.raw 6) (m.raw 10)
        (m.raw 3) (m.raw 7) (m.raw 11)
      let cof8 := GetMinor (m.raw 4) (m.raw 8) (m.raw 12) (m.raw 5) (m.raw 9) (m.raw 13)
        (m.raw 7) (m.raw 11) (m.raw 15)
      let cof9 := GetMinor (m.raw 0) (m.raw 8) (m.raw 12) (m.raw 1) (m.raw 9) (m.raw 13)
        (m.raw 3) (m.raw 11) (m.raw 15)
      let cof10 := GetMinor (m.raw 0) (m.raw 4) (m.raw 12) (m.raw 1) (m.raw 5) (m.raw 13)
        (m.raw 3) (m.raw 7) (m.raw 15)
      let cof11 := GetMinor (m.raw 0) (m.raw 4) (m.raw 8) (m.raw 1) (m.raw 5) (m.raw 9)
        (m.raw 3) (m.raw 7) (m.raw 11)
      let cof12 := GetMinor (m.raw 4) (m.raw 8) (m.raw 12) (m.raw 5) (m.raw 9) (m.raw 13)
        (m.raw 6) (m.raw 10) (m.raw 14)
      let cof13 := GetMinor (m.raw 0) (m.raw 8) (m.raw 12) (m.raw 1) (m.raw 9) (m.raw 13)
        (m.raw 2) (m.raw 10) (m.raw 14)
      let cof14 := GetMinor (m.raw 0) (m.raw 4) (m.raw 12) (m.raw 1) (m.raw 5) (m.raw 13)
        (m.raw 2) (m.raw 6) (m.raw 14)
      let cof15 := GetMinor (m.raw 0) (m.raw 4) (m.raw 8) (m.raw 1) (m.raw 5) (m.raw 9)
        (m.raw 2) (m.raw 6) (m.raw 10)
      let detInv := 1 / det
      ofEntries fun row col =>
        match row, col with
        | 0, 0 => detInv * cof0
        | 1, 0 => -detInv * cof4
        | 2, 0 => detInv * cof8
        | 3, 0 => -detInv * cof12
        | 0, 1 => -detInv * cof1
        | 1, 1 => detInv * cof5
        | 2, 1 => -detInv * cof9
        | 3, 1 => detInv * cof13
        | 0, 2 => detInv * cof2
        | 1, 2 => -detInv * cof6
        | 2, 2 => detInv * cof10
        | 3, 2 => -detInv * cof14
        | 0, 3 => -detInv * cof3
        | 1, 3 => detInv * cof7
        | 2, 3 => -detInv * cof11
        | 3, 3 => detInv * cof15

end Matrix4

end LibMath

namespace LibMath

section CMathClamp

variable {α : Type} [LinearOrder α]

/-- The template `LibMath::Clamp` of `CMath.h` on finite values. -/
def Clamp (target min max : α) : α :=
  if target ≤ min then min else if target ≥ max then max else target

end CMathClamp

namespace FloatVal

variable {α : Type} [LinearOrderedField α]

/-- The IEEE product of a `float` and a finite value: an infinity times zero is NaN,
otherwise the infinity takes the product of the signs. -/
def mulNum (r : FloatVal α) (s : α) : FloatVal α :=
  match r with
  | num x => num (x * s)
  | inf negative => if s = 0 then nan else inf (negative != decide (s < 0))
  | nan => nan

/-- The IEEE sum of a finite value and a `float`. -/
def numAdd (a : α) (r : FloatVal α) : FloatVal α :=
  match r with
  | num x => num (a + x)
  | inf negative => inf negative
  | nan => nan

end FloatVal

namespace Vector3

variable {α : Type} [LinearOrderedField α] [FloorRing α]

/-- The member `Vector3::Dot`. -/
def Dot (v other : Vector3 α) : α := v.x * other.x + v.y * other.y + v.z * other.z

/-- The operator `Vector3 - Vector3`. -/
def sub (lhs rhs : Vector3 α) : Vector3 α := ⟨lhs.x - rhs.x, lhs.y - rhs.y, lhs.z - rhs.z⟩

/-- The operator `Vector3 * float`. -/
def mulScalar (lhs : Vector3 α) (rhs : α) : Vector3 α := ⟨lhs.x * rhs, lhs.y * rhs, lhs.z * rhs⟩

/-- The member `Vector3::Magnitude`; `sqrt` is `LibMath::sqrt`. -/
def Magnitude (sqrt : α → α) (v : Vector3 α) : α := sqrt (v.x * v.x + v.y * v.y + v.z * v.z)

/-- The member `Vector3::Normalize`, `*this /= Magnitude()`: each component is divided by
the magnitude with the IEEE division. -/
def Normalize (sqrt : α → α) (v : Vector3 α) : Vector3 (FloatVal α) :=
  let magnitude := v.Magnitude sqrt
  ⟨fdiv v.x magnitude, fdiv v.y magnitude, fdiv v.z magnitude⟩

end Vector3

namespace Interpolation

variable {α : Type} [LinearOrderedField α] [FloorRing α]

/-- The function `Interpolation::Slerp` on `Vector3`; `acos`, `cos` and `sin` are the
functions of `Core/Angle.cpp` and `sqrt` is `LibMath::sqrt`. The dot product is the one the
source takes, of `start` with itself. -/
def Slerp (sqrt acos cos sin : α → α) (start end_ : Vector3 α) (delta : α) :
    Vector3 (FloatVal α) :=
  let dot := start.Dot start
  let clamped := Clamp dot (-1) 1
  let theta := acos clamped * delta
  let relativeVec := (end_.sub (start.mulScalar clamped)).Normalize sqrt
  let scaled := start.mulScalar (cos theta)
  ⟨FloatVal.numAdd scaled.x (relativeVec.x.mulNum (sin theta)),
    FloatVal.numAdd scaled.y (relativeVec.y.mulNum (sin theta)),
    FloatVal.numAdd scaled.z (relativeVec.z.mulNum (sin theta))⟩

/-- The value `Clamp(q, 0.f, 1.f)` for the quotient `q` of two finite values: the negative
infinity is below `0.f`, the positive one above `1.f`, and NaN fails both comparisons of
`Clamp` and is returned. -/
def clampedDelta (q : FloatVal α) : FloatVal α :=
  match q with
  | FloatVal.num x => FloatVal.num (Clamp x 0 1)
  | FloatVal.inf negative => if negative then FloatVal.num 0 else FloatVal.num 1
  | FloatVal.nan => FloatVal.nan

/-- The function `Interpolation::SmoothStep`. -/
def SmoothStep (start end_ delta : α) : FloatVal α :=
  match clampedDelta (fdiv (delta - start) (end_ - start)) with
  | FloatVal.num clamped => FloatVal.num (clamped * clamped * (3 - 2 * clamped))
  | _ => FloatVal.nan

/-- The function `Interpolation::SmootherStep`. -/
def SmootherStep (start end_ delta : α) : FloatVal α :=
  match clampedDelta (fdiv (delta - start) (end_ - start)) with
  | FloatVal.num clamped =>
    FloatVal.num (clamped * clamped * clamped * (clamped * (clamped * 6 - 15) + 10))
  | _ => FloatVal.nan

end Interpolation

end LibMath

namespace LibMath
namespace CORDIC

/-- Decides the condition of the class documentation on the steps `i` and `i + 1` of a table,
`lastStep > currentStep && currentStep > lastStep / 2`. -/
def stepsHalve (table : List ℚ) (i : ℕ) : Bool :=
  match table[i]?, table[i + 1]? with
  | some lastStep, some currentStep =>
    decide (lastStep > currentStep) && decide (currentStep > lastStep / 2)
  | _, _ => false

end CORDIC
end LibMath

namespace LibMath
namespace CORDIC

/-- A rational lower bound of `arctan (2 ^ (-j))`: a quarter of `piLower` for `j = 0`, 20 terms
of the series otherwise. -/
def arctanLower (j : ℕ) : ℚ :=
  if j = 0 then piLower / 4 else arctanPartial ((1 / 2 : ℚ) ^ j) 20

/-- A rational upper bound of `arctan (2 ^ (-j))`: a quarter of `piUpper` for `j = 0`, 21 terms
of the series otherwise. -/
def arctanUpper (j : ℕ) : ℚ :=
  if j = 0 then piUpper / 4 else arctanPartial ((1 / 2 : ℚ) ^ j) 21

/-- Decides that every entry `table[j]` is non-negative and, once converted to radians by any
factor between `scaleLower` and `scaleUpper`, within the relative error `rel` of
`arctan (2 ^ (-j))`. -/
def stepTableRelAccurate (table : List ℚ) (scaleLower scaleUpper rel : ℚ) : Bool :=
  (List.range table.length).all fun j =>
    decide (0 ≤ table.getD j 0) &&
      decide (table.getD j 0 * scaleUpper ≤ (1 + rel) * arctanLower j) &&
      decide ((1 - rel) * arctanUpper j ≤ table.getD j 0 * scaleLower)

end CORDIC
end LibMath

namespace LibMath

/-- The axis a letter of a `RotationSequence` enumerator names. -/
inductive Axis where
  | X | Y | Z
deriving DecidableEq, Repr

open Axis in
/-- The three letters of the name of a `RotationSequence` enumerator, first to last; the
reading of the name, to be compared with the bit tests of the constructor. -/
def RotationSequence.letters : RotationSequence → Axis × Axis × Axis
  | XYX => (X, Y, X)
  | XYZ => (X, Y, Z)
  | XZX => (X, Z, X)
  | XZY => (X, Z, Y)
  | YXY => (Y, X, Y)
  | YXZ => (Y, X, Z)
  | YZX => (Y, Z, X)
  | YZY => (Y, Z, Y)
  | ZXY => (Z, X, Y)
  | ZXZ => (Z, X, Z)
  | ZYX => (Z, Y, X)
  | ZYZ => (Z, Y, Z)

namespace Quaternion

variable {α : Type} [Field α]

/-- The single-axis quaternion of a letter: `(sin (pitch / 2), 0, 0, cos (pitch / 2))` for
`X`, `(0, sin (yaw / 2), 0, cos (yaw / 2))` for `Y` and `(0, 0, sin (roll / 2), cos (roll / 2))`
for `Z`. -/
def axisQuaternion (cos sin : α → α) (pitch yaw roll : α) : Axis → Quaternion α
  | Axis.X => ⟨sin (pitch / 2), 0, 0, cos (pitch / 2)⟩
  | Axis.Y => ⟨0, sin (yaw / 2), 0, cos (yaw / 2)⟩
  | Axis.Z => ⟨0, 0, sin (roll / 2), cos (roll / 2)⟩

/-- The product `((identity * a) * b) * c` of the single-axis quaternions named by the three
letters of `order`, the reading of the sequence its name gives. -/
def ofLetters (cos sin : α → α) (pitch yaw roll : α) (order : RotationSequence) :
    Quaternion α :=
  ((default.mul (axisQuaternion cos sin pitch yaw roll order.letters.1)).mul
      (axisQuaternion cos sin pitch yaw roll order.letters.2.1)).mul
    (axisQuaternion cos sin pitch yaw roll order.letters.2.2)

end Quaternion

end LibMath

namespace LibMath

/-- Decides that `q` lies in the binade of exponent `e ≥ -126` and within half a unit in the
last place of the grid point `m * 2 ^ (e - 23)`, which is then its binary32 value. -/
def roundsTo (q : ℚ) (e m : ℤ) : Bool :=
  decide (-126 ≤ e) && decide ((2 : ℚ) ^ e ≤ |q|) && decide (|q| < (2 : ℚ) ^ (e + 1)) &&
    decide (|q / (2 : ℚ) ^ (e - 23) - m| < 1 / 2)

end LibMath

namespace LibMath

/-- The exponent of the unit in the last place `roundBinary32` uses at `q`: 23 below the
binade of `q`, and no lower than `-149`. -/
def ulpExponent (q : ℚ) : ℤ := max (Int.log 2 |q|) (-126) - 23

end LibMath

namespace LibMath
namespace CORDIC

/-- The array `CORDIC::s_tanLookupDegree` as the program holds it: every literal of
`CORDIC_0.cpp` carries the suffix `f`, so the entry is the nearest binary32 value. -/
def s_tanLookupDegree_binary32 : List ℚ := s_tanLookupDegree.map roundBinary32

/-- The array `CORDIC::s_tanLookupRadian` as the program holds it, each literal of
`CORDIC_r.cpp` rounded to binary32. -/
def s_tanLookupRadian_binary32 : List ℚ := s_tanLookupRadian.map roundBinary32

/-- The array `CORDIC::s_tanLookupGradian` as the program holds it, each literal of
`CORDIC_9.cpp` rounded to binary32. -/
def s_tanLookupGradian_binary32 : List ℚ := s_tanLookupGradian.map roundBinary32

/-- Decides, on the steps `i` and `i + 1` of a table, that `lastStep > currentStep` and
`currentStep ≥ lastStep / 2`, the second one being strict exactly when `i < strictBelow`. -/
def stepsHalveUpTo (table : List ℚ) (strictBelow i : ℕ) : Bool :=
  match table[i]?, table[i + 1]? with
  | some lastStep, some currentStep =>
    decide (lastStep > currentStep) && decide (currentStep ≥ lastStep / 2) &&
      (decide (currentStep > lastStep / 2) == decide (i < strictBelow))
  | _, _ => false

end CORDIC
end LibMath

namespace LibMath

namespace Quaternion

/-- The product `Quaternion::operator*(const Quaternion&)` in binary32: every product,
difference and sum is rounded, in the order the source writes them. -/
def mul_binary32 (q other : Quaternion ℚ) : Quaternion ℚ :=
  { X := roundBinary32 (roundBinary32 (roundBinary32 (roundBinary32 (q.Y * other.Z) -
        roundBinary32 (q.Z * other.Y)) + roundBinary32 (q.W * other.X)) +
        roundBinary32 (other.W * q.X))
    Y := roundBinary32 (roundBinary32 (roundBinary32 (roundBinary32 (q.Z * other.X) -
        roundBinary32 (q.X * other.Z)) + roundBinary32 (q.W * other.Y)) +
        roundBinary32 (other.W * q.Y))
    Z := roundBinary32 (roundBinary32 (roundBinary32 (roundBinary32 (q.X * other.Y) -
        roundBinary32 (q.Y * other.X)) + roundBinary32 (q.W * other.Z)) +
        roundBinary32 (other.W * q.Z))
    W := roundBinary32 (roundBinary32 (roundBinary32 (roundBinary32 (q.W * other.W) -
        roundBinary32 (q.X * other.X)) - roundBinary32 (q.Y * other.Y)) -
        roundBinary32 (q.Z * other.Z)) }

/-- The rotation `Quaternion::operator*(const Vector3&)` in binary32, every operation
rounded in the order the source writes them. -/
def mulVector3_binary32 (q : Quaternion ℚ) (other : Vector3 ℚ) : Vector3 ℚ :=
  let vMult := roundBinary32 (2 * roundBinary32 (roundBinary32 (roundBinary32 (q.X * other.x) +
    roundBinary32 (q.Y * other.y)) + roundBinary32 (q.Z * other.z)))
  let crossMult := roundBinary32 (2 * q.W)
  let pMult := roundBinary32 (roundBinary32 (crossMult * q.W) - 1)
  { x := roundBinary32 (roundBinary32 (roundBinary32 (pMult * other.x) +
        roundBinary32 (vMult * q.X)) + roundBinary32 (crossMult *
        roundBinary32 (roundBinary32 (q.Y * other.z) - roundBinary32 (q.Z * other.y))))
    y := roundBinary32 (roundBinary32 (roundBinary32 (pMult * other.y) +
        roundBinary32 (vMult * q.Y)) + roundBinary32 (crossMult *
        roundBinary32 (roundBinary32 (q.Z * other.x) - roundBinary32 (q.X * other.z))))
    z := roundBinary32 (roundBinary32 (roundBinary32 (pMult * other.z) +
        roundBinary32 (vMult * q.Z)) + roundBinary32 (crossMult *
        roundBinary32 (roundBinary32 (q.X * other.y) - roundBinary32 (q.Y * other.x)))) }

end Quaternion

end LibMath

namespace LibMath

namespace Quaternion

/-- The local `sqNorm` of `Quaternion::Rotate`, `X * X + Y * Y + Z * Z + W * W`, in binary32:
every product and sum is rounded, in the order the source writes them. -/
def sqNorm_binary32 (q : Quaternion ℚ) : ℚ :=
  roundBinary32 (roundBinary32 (roundBinary32 (roundBinary32 (q.X * q.X) +
    roundBinary32 (q.Y * q.Y)) + roundBinary32 (q.Z * q.Z)) + roundBinary32 (q.W * q.W))

end Quaternion

end LibMath

/-! ## Properties -/

namespace LibMath
namespace CORDIC

section ClampLemmas

variable {α : Type} [LinearOrderedField α] [FloorRing α]

/-- For a positive full circle both branches of `Clamp` compute the floor remainder. -/
theorem Clamp_eq_sub_floor (angle fullCircle : α) (hC : 0 < fullCircle) :
    Clamp angle fullCircle = angle - fullCircle * ((⌊angle / fullCircle⌋ : ℤ) : α) := by
  unfold Clamp
  split_ifs with h
  · have hq : 0 ≤ angle / fullCircle := div_nonneg (le_trans hC.le h) hC.le
    simp only [fmod, floor, if_pos hq]
  · have hneg : (-angle) / fullCircle = -(angle / fullCircle) := neg_div _ _
    simp only [ceil, hneg, Int.ceil_neg, Int.cast_neg]
    ring

/-- The reduced angle is never negative. -/
theorem Clamp_nonneg (angle fullCircle : α) (hC : 0 < fullCircle) :
    0 ≤ Clamp angle fullCircle := by
  rw [Clamp_eq_sub_floor angle fullCircle hC]
  have h := Int.floor_le (angle / fullCircle)
  have h2 : ((⌊angle / fullCircle⌋ : ℤ) : α) * fullCircle ≤ angle := (le_div_iff₀ hC).mp h
  linarith

/-- The reduced angle is below the full circle. -/
theorem Clamp_lt (angle fullCircle : α) (hC : 0 < fullCircle) :
    Clamp angle fullCircle < fullCircle := by
  rw [Clamp_eq_sub_floor angle fullCircle hC]
  have h := Int.lt_floor_add_one (angle / fullCircle)
  have h2 : angle < (((⌊angle / fullCircle⌋ : ℤ) : α) + 1) * fullCircle := (div_lt_iff₀ hC).mp h
  linarith

/-- An angle already inside `[0, fullCircle)` is returned as it is. -/
theorem Clamp_of_mem (angle fullCircle : α) (h0 : 0 ≤ angle) (h1 : angle < fullCircle) :
    Clamp angle fullCircle = angle := by
  have hC : 0 < fullCircle := lt_of_le_of_lt h0 h1
  rw [Clamp_eq_sub_floor angle fullCircle hC]
  have hfl : ⌊angle / fullCircle⌋ = 0 := by
    rw [Int.floor_eq_iff]
    constructor
    · simpa using div_nonneg h0 hC.le
    · simpa using (div_lt_one hC).mpr h1
  simp [hfl]

end ClampLemmas

section EngineLemmas

variable {α : Type} [LinearOrderedField α]

theorem index_natCast (table : List ℚ) (i : ℕ) : index table (i : ℤ) = table[i]? := by
  simp [index]

theorem index_eq_some (table : List ℚ) (i : ℤ) (h0 : 0 ≤ i) (h1 : i.toNat < table.length) :
    ∃ v, index table i = some v := by
  refine ⟨table.get ⟨i.toNat, h1⟩, ?_⟩
  simp [index, h0, List.getElem?_eq_getElem h1]

theorem index_neg (table : List ℚ) (i : ℤ) (h : i < 0) : index table i = none := by
  simp [index, not_le.mpr h]

theorem index_eq_none_of_length_le (table : List ℚ) (i : ℤ) (h : table.length ≤ i.toNat) :
    index table i = none := by
  unfold index
  split_ifs
  · exact List.getElem?_eq_none h
  · rfl

/-- A counted loop whose first `n` bodies never fail returns a state. -/
theorem forLoop_eq_some {σ : Type} (body : ℕ → σ → Option σ) (n : ℕ)
    (h : ∀ i, i < n → ∀ s, ∃ s', body i s = some s') (s : σ) :
    ∃ s', forLoop body n s = some s' := by
  induction n with
  | zero => exact ⟨s, rfl⟩
  | succ n ih =>
    obtain ⟨s1, hs1⟩ := ih (fun i hi => h i (Nat.lt_succ_of_lt hi))
    obtain ⟨s2, hs2⟩ := h n (Nat.lt_succ_self n) s1
    exact ⟨s2, by simp [forLoop, hs1, hs2]⟩

theorem PositionOf_body_eq_some (targetAngle : α) (tanLookup : List ℚ) (i : ℕ)
    (hi : i < tanLookup.length) (r : Rotation α) :
    ∃ r', PositionOf.body targetAngle tanLookup i r = some r' := by
  unfold PositionOf.body
  simp only [index_natCast, List.getElem?_eq_getElem hi]
  split_ifs <;> exact ⟨_, rfl⟩

theorem AngleOfSin_body_eq_some (tanLookup : List ℚ) (i : ℕ)
    (hi : i < tanLookup.length) (r : Rotation α) :
    ∃ r', AngleOfSin.body tanLookup i r = some r' := by
  unfold AngleOfSin.body
  simp only [index_natCast, List.getElem?_eq_getElem hi]
  split_ifs <;> exact ⟨_, rfl⟩

theorem AngleOfCos_body_eq_some (tanLookup : List ℚ) (i : ℕ)
    (hi : i < tanLookup.length) (r : Rotation α) :
    ∃ r', AngleOfCos.body tanLookup i r = some r' := by
  unfold AngleOfCos.body
  simp only [index_natCast, List.getElem?_eq_getElem hi]
  split_ifs <;> exact ⟨_, rfl⟩

/-- The forward engine returns a pair when the step table is as long as the precision. -/
theorem PositionOf_eq_some (st : State) (targetAngle quarterCircle halfCircle : α)
    (tanLookup : List ℚ) (h : st.s_precision.toNat ≤ tanLookup.length) :
    ∃ p, PositionOf st targetAngle quarterCircle halfCircle tanLookup = some p := by
  obtain ⟨r, hr⟩ := forLoop_eq_some (PositionOf.body targetAngle tanLookup) st.s_precision.toNat
    (fun i hi => PositionOf_body_eq_some targetAngle tanLookup i (lt_of_lt_of_le hi h))
    (PositionOf.start targetAngle quarterCircle halfCircle)
  exact ⟨⟨r.cos, r.sin⟩, by simp [PositionOf, PositionOf.run, hr]⟩

theorem AngleOfSin_eq_some (st : State) (cosValue sinValue : α)
    (tanLookup : List ℚ) (h : st.s_precision.toNat ≤ tanLookup.length) :
    ∃ a, AngleOfSin st cosValue sinValue tanLookup = some a := by
  obtain ⟨r, hr⟩ := forLoop_eq_some (AngleOfSin.body tanLookup) st.s_precision.toNat
    (fun i hi => AngleOfSin_body_eq_some tanLookup i (lt_of_lt_of_le hi h))
    (⟨0, cosValue, sinValue⟩ : Rotation α)
  exact ⟨r.currentAngle, by simp [AngleOfSin, hr]⟩

theorem AngleOfCos_eq_some (st : State) (cosValue sinValue quarterCircle : α)
    (tanLookup : List ℚ) (h : st.s_precision.toNat ≤ tanLookup.length) :
    ∃ a, AngleOfCos st cosValue sinValue quarterCircle tanLookup = some a := by
  obtain ⟨r, hr⟩ := forLoop_eq_some (AngleOfCos.body tanLookup) st.s_precision.toNat
    (fun i hi => AngleOfCos_body_eq_some tanLookup i (lt_of_lt_of_le hi h))
    (⟨quarterCircle, cosValue, sinValue⟩ : Rotation α)
  exact ⟨r.currentAngle, by simp [AngleOfCos, hr]⟩

theorem s_cosLookup_length : s_cosLookup.length = 21 := rfl
theorem s_tanLookupDegree_length : s_tanLookupDegree.length = 21 := rfl
theorem s_tanLookupRadian_length : s_tanLookupRadian.length = 21 := rfl
theorem s_tanLookupGradian_length : s_tanLookupGradian.length = 21 := rfl

theorem toNat_le_of_le (st : State) (h : st.s_precision ≤ 21) : st.s_precision.toNat ≤ 21 := by
  omega

/-- The gain is read inside the table for the precisions 1 to 21. -/
theorem gain_eq_some (st : State) (h1 : 1 ≤ st.s_precision) (h21 : st.s_precision ≤ 21) :
    ∃ g, index s_cosLookup (st.s_precision - 1) = some g := by
  apply index_eq_some
  · omega
  · rw [s_cosLookup_length]; omega

end EngineLemmas

section InverseDomain

variable {α : Type} [LinearOrderedField α]

theorem acos_0_domain (st : State) (h1 : 1 ≤ st.s_precision) (h21 : st.s_precision ≤ 21)
    (sqrt : α → α) (x : α) :
    (acos_0 st sqrt x = some FloatVal.nan ↔ (x < -1 ∨ 1 < x)) ∧
      (-1 ≤ x → x ≤ 1 → ∃ y, acos_0 st sqrt x = some (FloatVal.num y)) := by
  obtain ⟨g, hg⟩ := gain_eq_some st h1 h21
  by_cases hd : -1 > x ∨ x > 1
  · have hres : acos_0 st sqrt x = some FloatVal.nan := by simp only [acos_0, if_pos hd]
    refine ⟨⟨fun _ => hd, fun _ => hres⟩, fun ha hb => ?_⟩
    rcases hd with hd | hd
    · exact absurd ha (not_le.mpr hd)
    · exact absurd hb (not_le.mpr hd)
  · by_cases hx : x = 1
    · have hres : acos_0 st sqrt x = some (FloatVal.num 0) := by
        simp only [acos_0, if_neg hd, if_pos hx]
      refine ⟨⟨fun h => ?_, fun h => absurd h hd⟩, fun _ _ => ⟨0, hres⟩⟩
      rw [hres] at h
      cases h
    · obtain ⟨a, ha⟩ := AngleOfCos_eq_some st (x / (g : α)) (sqrt (1 - x * x) / (g : α))
        (QUARTER_CIRCLE_DEGREE : α) s_tanLookupDegree
        (by rw [s_tanLookupDegree_length]; exact toNat_le_of_le st h21)
      have hres : acos_0 st sqrt x = some (FloatVal.num a) := by
        simp only [acos_0, if_neg hd, if_neg hx, hg, ha, Option.some_bind, Option.map_some']
      refine ⟨⟨fun h => ?_, fun h => absurd h hd⟩, fun _ _ => ⟨a, hres⟩⟩
      rw [hres] at h
      cases h

theorem asin_0_domain (st : State) (h1 : 1 ≤ st.s_precision) (h21 : st.s_precision ≤ 21)
    (sqrt : α → α) (x : α) :
    (asin_0 st sqrt x = some FloatVal.nan ↔ (x < -1 ∨ 1 < x)) ∧
      (-1 ≤ x → x ≤ 1 → ∃ y, asin_0 st sqrt x = some (FloatVal.num y)) := by
  obtain ⟨g, hg⟩ := gain_eq_some st h1 h21
  by_cases hd : -1 > x ∨ x > 1
  · have hres : asin_0 st sqrt x = some FloatVal.nan := by simp only [asin_0, if_pos hd]
    refine ⟨⟨fun _ => hd, fun _ => hres⟩, fun ha hb => ?_⟩
    rcases hd with hd | hd
    · exact absurd ha (not_le.mpr hd)
    · exact absurd hb (not_le.mpr hd)
  · by_cases hx : x = 0
    · have hres : asin_0 st sqrt x = some (FloatVal.num 0) := by
        simp only [asin_0, if_neg hd, if_pos hx]
      refine ⟨⟨fun h => ?_, fun h => absurd h hd⟩, fun _ _ => ⟨0, hres⟩⟩
      rw [hres] at h
      cases h
    · obtain ⟨a, ha⟩ := AngleOfSin_eq_some st (sqrt (1 - x * x) / (g : α)) (x / (g : α))
        s_tanLookupDegree (by rw [s_tanLookupDegree_length]; exact toNat_le_of_le st h21)
      have hres : asin_0 st sqrt x = some (FloatVal.num a) := by
        simp only [asin_0, if_neg hd, if_neg hx, hg, ha, Option.some_bind, Option.map_some']
      refine ⟨⟨fun h => ?_, fun h => absurd h hd⟩, fun _ _ => ⟨a, hres⟩⟩
      rw [hres] at h
      cases h

theorem acos_r_domain (st : State) (h1 : 1 ≤ st.s_precision) (h21 : st.s_precision ≤ 21)
    (sqrt : α → α) (x : α) :
    (acos_r st sqrt x = some FloatVal.nan ↔ (x < -1 ∨ 1 < x)) ∧
      (-1 ≤ x → x ≤ 1 → ∃ y, acos_r st sqrt x = some (FloatVal.num y)) := by
  obtain ⟨g, hg⟩ := gain_eq_some st h1 h21
  by_cases hd : -1 > x ∨ x > 1
  · have hres : acos_r st sqrt x = some FloatVal.nan := by simp only [acos_r, if_pos hd]
    refine ⟨⟨fun _ => hd, fun _ => hres⟩, fun ha hb => ?_⟩
    rcases hd with hd | hd
    · exact absurd ha (not_le.mpr hd)
    · exact absurd hb (not_le.mpr hd)
  · by_cases hx : x = 1
    · have hres : acos_r st sqrt x = some (FloatVal.num 0) := by
        simp only [acos_r, if_neg hd, if_pos hx]
      refine ⟨⟨fun h => ?_, fun h => absurd h hd⟩, fun _ _ => ⟨0, hres⟩⟩
      rw [hres] at h
      cases h
    · obtain ⟨a, ha⟩ := AngleOfCos_eq_some st (x / (g : α)) (sqrt (1 - x * x) / (g : α))
        (QUARTER_CIRCLE_RADIAN : α) s_tanLookupRadian
        (by rw [s_tanLookupRadian_length]; exact toNat_le_of_le st h21)
      have hres : acos_r st sqrt x = some (FloatVal.num a) := by
        simp only [acos_r, if_neg hd, if_neg hx, hg, ha, Option.some_bind, Option.map_some']
      refine ⟨⟨fun h => ?_, fun h => absurd h hd⟩, fun _ _ => ⟨a, hres⟩⟩
      rw [hres] at h
      cases h

theorem asin_r_domain (st : State) (h1 : 1 ≤ st.s_precision) (h21 : st.s_precision ≤ 21)
    (sqrt : α → α) (x : α) :
    (asin_r st sqrt x = some FloatVal.nan ↔ (x < -1 ∨ 1 < x)) ∧
      (-1 ≤ x → x ≤ 1 → ∃ y, asin_r st sqrt x = some (FloatVal.num y)) := by
  obtain ⟨g, hg⟩ := gain_eq_some st h1 h21
  by_cases hd : -1 > x ∨ x > 1
  · have hres : asin_r st sqrt x = some FloatVal.nan := by simp only [asin_r, if_pos hd]
    refine ⟨⟨fun _ => hd, fun _ => hres⟩, fun ha hb => ?_⟩
    rcases hd with hd | hd
    · exact absurd ha (not_le.mpr hd)
    · exact absurd hb (not_le.mpr hd)
  · by_cases hx : x = 0
    · have hres : asin_r st sqrt x = some (FloatVal.num 0) := by
        simp only [asin_r, if_neg hd, if_pos hx]
      refine ⟨⟨fun h => ?_, fun h => absurd h hd⟩, fun _ _ => ⟨0, hres⟩⟩
      rw [hres] at h
      cases h
    · obtain ⟨a, ha⟩ := AngleOfSin_eq_some st (sqrt (1 - x * x) / (g : α)) (x / (g : α))
        s_tanLookupRadian (by rw [s_tanLookupRadian_length]; exact toNat_le_of_le st h21)
      have hres : asin_r st sqrt x = some (FloatVal.num a) := by
        simp only [asin_r, if_neg hd, if_neg hx, hg, ha, Option.some_bind, Option.map_some']
      refine ⟨⟨fun h => ?_, fun h => absurd h hd⟩, fun _ _ => ⟨a, hres⟩⟩
      rw [hres] at h
      cases h

theorem acos_9_domain (st : State) (h1 : 1 ≤ st.s_precision) (h21 : st.s_precision ≤ 21)
    (sqrt : α → α) (x : α) :
    (acos_9 st sqrt x = some FloatVal.nan ↔ (x < -1 ∨ 1 < x)) ∧
      (-1 ≤ x → x ≤ 1 → ∃ y, acos_9 st sqrt x = some (FloatVal.num y)) := by
  obtain ⟨g, hg⟩ := gain_eq_some st h1 h21
  by_cases hd : -1 > x ∨ x > 1
  · have hres : acos_9 st sqrt x = some FloatVal.nan := by simp only [acos_9, if_pos hd]
    refine ⟨⟨fun _ => hd, fun _ => hres⟩, fun ha hb => ?_⟩
    rcases hd with hd | hd
    · exact absurd ha (not_le.mpr hd)
    · exact absurd hb (not_le.mpr hd)
  · by_cases hx : x = 1
    · have hres : acos_9 st sqrt x = some (FloatVal.num 0) := by
        simp only [acos_9, if_neg hd, if_pos hx]
      refine ⟨⟨fun h => ?_, fun h => absurd h hd⟩, fun _ _ => ⟨0, hres⟩⟩
      rw [hres] at h
      cases h
    · obtain ⟨a, ha⟩ := AngleOfCos_eq_some st (x / (g : α)) (sqrt (1 - x * x) / (g : α))
        (QUARTER_CIRCLE_GRADIAN : α) s_tanLookupGradian
        (by rw [s_tanLookupGradian_length]; exact toNat_le_of_le st h21)
      have hres : acos_9 st sqrt x = some (FloatVal.num a) := by
        simp only [acos_9, if_neg hd, if_neg hx, hg, ha, Option.some_bind, Option.map_some']
      refine ⟨⟨fun h => ?_, fun h => absurd h hd⟩, fun _ _ => ⟨a, hres⟩⟩
      rw [hres] at h
      cases h

theorem asin_9_domain (st : State) (h1 : 1 ≤ st.s_precision) (h21 : st.s_precision ≤ 21)
    (sqrt : α → α) (x : α) :
    (asin_9 st sqrt x = some FloatVal.nan ↔ (x < -1 ∨ 1 < x)) ∧
      (-1 ≤ x → x ≤ 1 → ∃ y, asin_9 st sqrt x = some (FloatVal.num y)) := by
  obtain ⟨g, hg⟩ := gain_eq_some st h1 h21
  by_cases hd : -1 > x ∨ x > 1
  · have hres : asin_9 st sqrt x = some FloatVal.nan := by simp only [asin_9, if_pos hd]
    refine ⟨⟨fun _ => hd, fun _ => hres⟩, fun ha hb => ?_⟩
    rcases hd with hd | hd
    · exact absurd ha (not_le.mpr hd)
    · exact absurd hb (not_le.mpr hd)
  · by_cases hx : x = 0
    · have hres : asin_9 st sqrt x = some (FloatVal.num 0) := by
        simp only [asin_9, if_neg hd, if_pos hx]
      refine ⟨⟨fun h => ?_, fun h => absurd h hd⟩, fun _ _ => ⟨0, hres⟩⟩
      rw [hres] at h
      cases h
    · obtain ⟨a, ha⟩ := AngleOfSin_eq_some st (sqrt (1 - x * x) / (g : α)) (x / (g : α))
        s_tanLookupGradian (by rw [s_tanLookupGradian_length]; exact toNat_le_of_le st h21)
      have hres : asin_9 st sqrt x = some (FloatVal.num a) := by
        simp only [asin_9, if_neg hd, if_neg hx, hg, ha, Option.some_bind, Option.map_some']
      refine ⟨⟨fun h => ?_, fun h => absurd h hd⟩, fun _ _ => ⟨a, hres⟩⟩
      rw [hres] at h
      cases h

end InverseDomain

section DomainContract

variable {α : Type} [LinearOrderedField α]

/-- C1: in each unit system and at every precision from 1 to 21, `acos` and `asin` return NaN
exactly when the argument is below -1 or above 1, and a finite number for every argument
inside `[-1, 1]`. -/
theorem acos_asin_nan_iff_outside_domain (st : State) (h1 : 1 ≤ st.s_precision)
    (h21 : st.s_precision ≤ 21) (sqrt : α → α) (x : α) :
    ∀ f ∈ [acos_0 st sqrt, asin_0 st sqrt, acos_r st sqrt, asin_r st sqrt,
        acos_9 st sqrt, asin_9 st sqrt],
      (f x = some FloatVal.nan ↔ (x < -1 ∨ 1 < x)) ∧
        (-1 ≤ x → x ≤ 1 → ∃ y, f x = some (FloatVal.num y)) := by
  intro f hf
  simp only [List.mem_cons, List.mem_singleton, List.not_mem_nil, or_false] at hf
  rcases hf with rfl | rfl | rfl | rfl | rfl | rfl
  · exact acos_0_domain st h1 h21 sqrt x
  · exact asin_0_domain st h1 h21 sqrt x
  · exact acos_r_domain st h1 h21 sqrt x
  · exact asin_r_domain st h1 h21 sqrt x
  · exact acos_9_domain st h1 h21 sqrt x
  · exact asin_9_domain st h1 h21 sqrt x

/-- The domain contract of C1 at the default precision 21, over the reals with the real
square root, for the argument 1.5. -/
theorem acos_asin_nan_iff_outside_domain_witness :
    (1 ≤ State.initial.s_precision ∧ State.initial.s_precision ≤ 21) ∧
    ∀ f ∈ [acos_0 State.initial Real.sqrt, asin_0 State.initial Real.sqrt,
        acos_r State.initial Real.sqrt, asin_r State.initial Real.sqrt,
        acos_9 State.initial Real.sqrt, asin_9 State.initial Real.sqrt],
      (f (3 / 2 : ℝ) = some FloatVal.nan ↔ ((3 / 2 : ℝ) < -1 ∨ 1 < (3 / 2 : ℝ))) ∧
        (-1 ≤ (3 / 2 : ℝ) → (3 / 2 : ℝ) ≤ 1 → ∃ y, f (3 / 2 : ℝ) = some (FloatVal.num y)) :=
  ⟨⟨by decide, by decide⟩,
    acos_asin_nan_iff_outside_domain State.initial (by decide) (by decide) Real.sqrt (3 / 2)⟩

end DomainContract

section BoundaryAndReduction

variable {α : Type} [LinearOrderedField α] [FloorRing α]

theorem Clamp_zero (fullCircle : α) : Clamp 0 fullCircle = 0 := by
  simp [Clamp, fmod, floor, ceil]

/-- C2: at every precision the exact boundary values are returned by the short circuits:
`cos(0) = 1`, `sin(0) = 0`, `tan(0) = 0`, `acos(1) = 0`, `asin(0) = 0`, `atan(0) = 0`, in
degrees, radians and gradians. -/
theorem exact_boundary_values (st : State) (sqrt : α → α) :
    (cos_0 st (0 : α) = some (FloatVal.num 1) ∧ sin_0 st (0 : α) = some (FloatVal.num 0) ∧
      tan_0 st (0 : α) = some (FloatVal.num 0) ∧ acos_0 st sqrt 1 = some (FloatVal.num 0) ∧
      asin_0 st sqrt 0 = some (FloatVal.num 0) ∧ atan_0 st sqrt 0 = some (FloatVal.num 0)) ∧
    (cos_r st (0 : α) = some (FloatVal.num 1) ∧ sin_r st (0 : α) = some (FloatVal.num 0) ∧
      tan_r st (0 : α) = some (FloatVal.num 0) ∧ acos_r st sqrt 1 = some (FloatVal.num 0) ∧
      asin_r st sqrt 0 = some (FloatVal.num 0) ∧ atan_r st sqrt 0 = some (FloatVal.num 0)) ∧
    (cos_9 st (0 : α) = some (FloatVal.num 1) ∧ sin_9 st (0 : α) = some (FloatVal.num 0) ∧
      tan_9 st (0 : α) = some (FloatVal.num 0) ∧ acos_9 st sqrt 1 = some (FloatVal.num 0) ∧
      asin_9 st sqrt 0 = some (FloatVal.num 0) ∧ atan_9 st sqrt 0 = some (FloatVal.num 0)) := by
  have hguard : ¬ ((-1 : α) > 1 ∨ (1 : α) > 1) := by norm_num
  have hguard0 : ¬ ((-1 : α) > 0 ∨ (0 : α) > 1) := by norm_num
  refine ⟨⟨?_, ?_, ?_, ?_, ?_, ?_⟩, ⟨?_, ?_, ?_, ?_, ?_, ?_⟩, ⟨?_, ?_, ?_, ?_, ?_, ?_⟩⟩
  all_goals
    first
      | simp only [cos_0, cos_r, cos_9, sin_0, sin_r, sin_9, tan_0, tan_r, tan_9, Clamp_zero,
          if_true]
      | simp only [acos_0, acos_r, acos_9, if_neg hguard, if_true]
      | simp only [asin_0, asin_r, asin_9, if_neg hguard0, if_true]
      | simp only [atan_0, atan_r, atan_9, if_true]

/-- C6: for a positive full circle, `Clamp` is the floor reduction: it equals
`angle - C * floor(angle / C)`, lies in `[0, C)`, differs from `angle` by an integer multiple
of `C`, and returns an angle of `[0, C)` unchanged. -/
theorem Clamp_floor_reduction (angle fullCircle : α) (hC : 0 < fullCircle) :
    Clamp angle fullCircle = angle - fullCircle * ((⌊angle / fullCircle⌋ : ℤ) : α) ∧
    (0 ≤ Clamp angle fullCircle ∧ Clamp angle fullCircle < fullCircle) ∧
    (∃ k : ℤ, angle - Clamp angle fullCircle = (k : α) * fullCircle) ∧
    (0 ≤ angle → angle < fullCircle → Clamp angle fullCircle = angle) := by
  refine ⟨Clamp_eq_sub_floor angle fullCircle hC,
    ⟨Clamp_nonneg angle fullCircle hC, Clamp_lt angle fullCircle hC⟩,
    ⟨⌊angle / fullCircle⌋, ?_⟩, fun h0 h1 => Clamp_of_mem angle fullCircle h0 h1⟩
  rw [Clamp_eq_sub_floor angle fullCircle hC]
  ring

/-- The floor reduction of C6 at the angle -90 in the 360 circle. -/
theorem Clamp_floor_reduction_witness :
    (0 : ℚ) < 360 ∧
    (Clamp (-90 : ℚ) 360 = -90 - 360 * ((⌊(-90 : ℚ) / 360⌋ : ℤ) : ℚ) ∧
    (0 ≤ Clamp (-90 : ℚ) 360 ∧ Clamp (-90 : ℚ) 360 < 360) ∧
    (∃ k : ℤ, -90 - Clamp (-90 : ℚ) 360 = (k : ℚ) * 360) ∧
    ((0 : ℚ) ≤ -90 → (-90 : ℚ) < 360 → Clamp (-90 : ℚ) 360 = -90)) :=
  ⟨by norm_num, Clamp_floor_reduction (-90) 360 (by norm_num)⟩

/-- In exact arithmetic range reduction is idempotent for every positive circle
magnitude. -/
theorem Clamp_idempotent (x fullCircle : α) (hC : 0 < fullCircle) :
    Clamp (Clamp x fullCircle) fullCircle = Clamp x fullCircle :=
  Clamp_of_mem (Clamp x fullCircle) fullCircle (Clamp_nonneg x fullCircle hC)
    (Clamp_lt x fullCircle hC)

/-- Exact idempotence at the angle 725 in the 360 circle. -/
theorem Clamp_idempotent_witness :
    (0 : ℚ) < 360 ∧ Clamp (Clamp (725 : ℚ) 360) 360 = Clamp (725 : ℚ) 360 :=
  ⟨by norm_num, Clamp_idempotent 725 360 (by norm_num)⟩

/-- C8: `SetPrecision(n)` stores 0 for a negative `n`, `s_maxPrecision` for an `n` above
`s_maxPrecision` and `n` itself otherwise, whatever the previous state; the state has no
other component. -/
theorem SetPrecision_clamps (n : ℤ) (st : State) :
    (n < 0 → SetPrecision n st = ⟨0⟩) ∧
    (n > s_maxPrecision → SetPrecision n st = ⟨s_maxPrecision⟩) ∧
    (0 ≤ n → n ≤ s_maxPrecision → SetPrecision n st = ⟨n⟩) := by
  refine ⟨fun h => ?_, fun h => ?_, fun h0 h1 => ?_⟩
  · simp [SetPrecision, h]
  · have h0 : ¬ n < 0 := by
      have : (0 : ℤ) ≤ s_maxPrecision := by decide
      omega
    simp [SetPrecision, h0, h]
  · simp [SetPrecision, not_lt.mpr h0, not_lt.mpr h1]

/-- The three cases of C8 at the arguments -5, 50 and 7. -/
theorem SetPrecision_clamps_witness :
    ((-5 : ℤ) < 0 ∧ SetPrecision (-5) State.initial = ⟨0⟩) ∧
    ((50 : ℤ) > s_maxPrecision ∧ SetPrecision 50 State.initial = ⟨s_maxPrecision⟩) ∧
    (((0 : ℤ) ≤ 7 ∧ (7 : ℤ) ≤ s_maxPrecision) ∧ SetPrecision 7 State.initial = ⟨7⟩) :=
  ⟨⟨by decide, (SetPrecision_clamps (-5) State.initial).1 (by decide)⟩,
    ⟨by decide, (SetPrecision_clamps 50 State.initial).2.1 (by decide)⟩,
    ⟨⟨by decide, by decide⟩,
      (SetPrecision_clamps 7 State.initial).2.2 (by decide) (by decide)⟩⟩

/-- C9 as stated fails: the initial state is reachable and its level is 21, above 20. -/
theorem level_le_20_fails :
    ¬ (∀ st : State, Reachable st → 0 ≤ st.s_precision ∧ st.s_precision ≤ 20) := by
  intro h
  have h21 := (h State.initial Reachable.initial).2
  exact absurd h21 (by decide)

/-- C9, amended: in every reachable state the level is between 0 and `s_maxPrecision`,
which is 21. -/
theorem level_bounds (st : State) (h : Reachable st) :
    0 ≤ st.s_precision ∧ st.s_precision ≤ s_maxPrecision := by
  induction h with
  | initial => decide
  | set precision st _ _ =>
    simp only [SetPrecision, s_maxPrecision]
    split_ifs <;> omega

/-- The bounds of C9 after `SetPrecision(50)` then `SetPrecision(-3)` from the start. -/
theorem level_bounds_witness :
    Reachable (SetPrecision (-3) (SetPrecision 50 State.initial)) ∧
    (0 ≤ (SetPrecision (-3) (SetPrecision 50 State.initial)).s_precision ∧
      (SetPrecision (-3) (SetPrecision 50 State.initial)).s_precision ≤ s_maxPrecision) :=
  ⟨Reachable.set _ _ (Reachable.set _ _ Reachable.initial),
    level_bounds _ (Reachable.set _ _ (Reachable.set _ _ Reachable.initial))⟩

end BoundaryAndReduction

section Poles

variable {α : Type} [LinearOrderedField α] [FloorRing α]

/-- The reduction of `90 * (4 * q + r)` in the 360 circle is `90 * r` for `r` in `0..3`. -/
theorem Clamp_quarter_turns (q r : ℤ) (h0 : 0 ≤ r) (h4 : r < 4) :
    Clamp ((90 : α) * ((4 * q + r : ℤ) : α)) 360 = 90 * (r : α) := by
  have hr0 : (0 : α) ≤ (r : α) := by exact_mod_cast h0
  have hr4 : (r : α) < 4 := by exact_mod_cast h4
  rw [Clamp_eq_sub_floor _ _ (by norm_num : (0 : α) < 360)]
  have hq : (90 : α) * ((4 * q + r : ℤ) : α) / 360 = (q : α) + (r : α) / 4 := by
    push_cast
    ring
  have hfl : ⌊(90 : α) * ((4 * q + r : ℤ) : α) / 360⌋ = q := by
    rw [hq, Int.floor_eq_iff]
    constructor
    · linarith [div_nonneg hr0 (by norm_num : (0 : α) ≤ 4)]
    · have : (r : α) / 4 < 1 := by
        rw [div_lt_one (by norm_num : (0 : α) < 4)]
        exact hr4
      linarith
  rw [hfl]
  push_cast
  ring

/-- An odd multiple of 90 reduces to 90 or to 270 in the 360 circle. -/
theorem Clamp_odd_quarter (m : ℤ) (hm : Odd m) :
    Clamp ((90 : α) * (m : α)) 360 = 90 ∨ Clamp ((90 : α) * (m : α)) 360 = 270 := by
  have hr : m % 4 = 1 ∨ m % 4 = 3 := by
    obtain ⟨k, hk⟩ := hm
    omega
  have hm4 : m = 4 * (m / 4) + m % 4 := (Int.ediv_add_emod m 4).symm
  rcases hr with h | h
  · left
    have := Clamp_quarter_turns (α := α) (m / 4) 1 (by norm_num) (by norm_num)
    rw [h] at hm4
    rw [← hm4] at this
    rw [this]
    norm_num
  · right
    have := Clamp_quarter_turns (α := α) (m / 4) 3 (by norm_num) (by norm_num)
    rw [h] at hm4
    rw [← hm4] at this
    rw [this]
    norm_num

omit [FloorRing α] in
theorem CIRCLE_DEGREE_cast : ((CIRCLE_DEGREE : ℚ) : α) = 360 := by
  simp [CIRCLE_DEGREE]

/-- C3: for every odd integer `m` and at every precision, `tan_0(90 * m)` is NaN. -/
theorem tan_0_nan_at_odd_quarter (st : State) (m : ℤ) (hm : Odd m) :
    tan_0 st ((90 : α) * (m : α)) = some FloatVal.nan := by
  unfold tan_0
  simp only [CIRCLE_DEGREE_cast]
  rcases Clamp_odd_quarter (α := α) m hm with h | h
  · rw [h]
    rw [if_neg (by norm_num), if_pos (Or.inl rfl)]
  · rw [h]
    rw [if_neg (by norm_num), if_pos (Or.inr rfl)]

/-- The pole of C3 at the coterminal angle `-90 = 90 * (-1)` and the default precision. -/
theorem tan_0_nan_at_odd_quarter_witness :
    Odd (-1 : ℤ) ∧ tan_0 State.initial ((90 : ℚ) * (((-1 : ℤ) : ℚ))) = some FloatVal.nan :=
  ⟨by decide, tan_0_nan_at_odd_quarter State.initial (-1) (by decide)⟩

end Poles

section Magnitude

variable {α : Type} [LinearOrderedField α]

/-- A property kept by every successful iteration holds when the loop returns. -/
theorem forLoop_invariant {σ : Type} (P : σ → Prop) (body : ℕ → σ → Option σ)
    (hstep : ∀ i s s', P s → body i s = some s' → P s') :
    ∀ n s s', P s → forLoop body n s = some s' → P s' := by
  intro n
  induction n with
  | zero =>
    intro s s' hs h
    simp only [forLoop, Option.some.injEq] at h
    exact h ▸ hs
  | succ n ih =>
    intro s s' hs h
    simp only [forLoop] at h
    cases hmid : forLoop body n s with
    | none => simp [hmid] at h
    | some mid =>
      rw [hmid, Option.some_bind] at h
      exact hstep n mid s' (ih s mid hs hmid) h

/-- Both rotations of `PositionOf` multiply the squared magnitude by `1 + 4 ^ (-i)`. -/
theorem PositionOf_body_magnitude (targetAngle : α) (tanLookup : List ℚ) (i : ℕ)
    (r r' : Rotation α) (h : PositionOf.body targetAngle tanLookup i r = some r') :
    r'.cos ^ 2 + r'.sin ^ 2 = (r.cos ^ 2 + r.sin ^ 2) * (1 + ((2 : α) ^ (-(i : ℤ))) ^ 2) := by
  unfold PositionOf.body at h
  cases hidx : index tanLookup (i : ℤ) with
  | none => simp [hidx] at h
  | some step =>
    simp only [hidx, Option.map_some', ldexpf] at h
    split_ifs at h <;>
    · simp only [Option.some.injEq] at h
      subst h
      ring

/-- The pair returned by `PositionOf` is never the zero vector. -/
theorem PositionOf_magnitude_pos (st : State) (targetAngle quarterCircle halfCircle : α)
    (tanLookup : List ℚ) (p : Coodinate α)
    (h : PositionOf st targetAngle quarterCircle halfCircle tanLookup = some p) :
    0 < p.cos ^ 2 + p.sin ^ 2 := by
  unfold PositionOf PositionOf.run at h
  cases hrun : forLoop (PositionOf.body targetAngle tanLookup) st.s_precision.toNat
      (PositionOf.start targetAngle quarterCircle halfCircle) with
  | none => simp [hrun] at h
  | some r =>
    simp only [hrun, Option.map_some', Option.some.injEq] at h
    subst h
    refine forLoop_invariant (fun r : Rotation α => 0 < r.cos ^ 2 + r.sin ^ 2)
      (PositionOf.body targetAngle tanLookup) ?_ _ _ r ?_ hrun
    · intro i s s' hs hb
      show 0 < s'.cos ^ 2 + s'.sin ^ 2
      rw [PositionOf_body_magnitude targetAngle tanLookup i s s' hb]
      exact mul_pos hs (by positivity)
    · show 0 < (PositionOf.start targetAngle quarterCircle halfCircle).cos ^ 2 +
        (PositionOf.start targetAngle quarterCircle halfCircle).sin ^ 2
      unfold PositionOf.start
      split_ifs <;> norm_num

/-- The quotient `sin / cos` of a pair returned by `PositionOf` is not NaN. -/
theorem PositionOf_fdiv_ne_nan (st : State) (targetAngle quarterCircle halfCircle : α)
    (tanLookup : List ℚ) (p : Coodinate α)
    (h : PositionOf st targetAngle quarterCircle halfCircle tanLookup = some p) :
    fdiv p.sin p.cos ≠ FloatVal.nan := by
  have hpos := PositionOf_magnitude_pos st targetAngle quarterCircle halfCircle tanLookup p h
  unfold fdiv
  split_ifs with hc hs
  · rw [hc, hs] at hpos
    norm_num at hpos
  · intro hne
    cases hne
  · intro hne
    cases hne

end Magnitude

section TangentPoles

variable {α : Type} [LinearOrderedField α] [FloorRing α]

omit [FloorRing α] in
theorem CIRCLE_GRADIAN_cast : ((CIRCLE_GRADIAN : ℚ) : α) = 400 := by
  simp [CIRCLE_GRADIAN]

/-- What `tan_9` does: NaN exactly when the reduced angle is 90 or 270. -/
theorem tan_9_eq_nan_iff (st : State) (x : α) :
    tan_9 st x = some FloatVal.nan ↔ (Clamp x 400 = 90 ∨ Clamp x 400 = 270) := by
  simp only [tan_9, CIRCLE_GRADIAN_cast]
  constructor
  · intro h
    by_contra hp
    simp only [if_neg hp] at h
    split_ifs at h with h0
    · cases h
    · cases hpos : PositionOf st (Clamp x 400) (QUARTER_CIRCLE_GRADIAN : α)
          (HALF_CIRCLE_GRADIAN : α) s_tanLookupGradian with
      | none => simp [hpos] at h
      | some p =>
        simp only [hpos, Option.map_some', Option.some.injEq] at h
        exact PositionOf_fdiv_ne_nan _ _ _ _ _ p hpos h
  · intro hp
    have h0 : Clamp x (400 : α) ≠ 0 := by
      rcases hp with h | h <;> rw [h] <;> norm_num
    simp only [if_neg h0, if_pos hp]

/-- What `tan_r` does: it never returns NaN. -/
theorem tan_r_ne_nan (st : State) (x : α) : tan_r st x ≠ some FloatVal.nan := by
  intro h
  simp only [tan_r] at h
  split_ifs at h with h0
  · cases h
  · cases hpos : PositionOf st (Clamp x (CIRCLE_RADIAN : α)) (QUARTER_CIRCLE_RADIAN : α)
        (HALF_CIRCLE_RADIAN : α) s_tanLookupRadian with
    | none => simp [hpos] at h
    | some p =>
      simp only [hpos, Option.map_some', Option.some.injEq] at h
      exact PositionOf_fdiv_ne_nan _ _ _ _ _ p hpos h

/-- At a precision of at most 21 `tan_r` returns a value for every angle. -/
theorem tan_r_eq_some (st : State) (h21 : st.s_precision ≤ 21) (x : α) :
    ∃ v, tan_r st x = some v := by
  simp only [tan_r]
  split_ifs with h0
  · exact ⟨_, rfl⟩
  · obtain ⟨p, hp⟩ := PositionOf_eq_some st (Clamp x (CIRCLE_RADIAN : α))
      (QUARTER_CIRCLE_RADIAN : α) (HALF_CIRCLE_RADIAN : α) s_tanLookupRadian
      (by rw [s_tanLookupRadian_length]; exact toNat_le_of_le st h21)
    exact ⟨fdiv p.sin p.cos, by simp only [hp, Option.map_some']⟩

/-- At a precision of at most 21 `tan_9` returns a value for every angle. -/
theorem tan_9_eq_some (st : State) (h21 : st.s_precision ≤ 21) (x : α) :
    ∃ v, tan_9 st x = some v := by
  simp only [tan_9]
  split_ifs with h0 hp
  · exact ⟨_, rfl⟩
  · exact ⟨_, rfl⟩
  · obtain ⟨p, hp⟩ := PositionOf_eq_some st (Clamp x (CIRCLE_GRADIAN : α))
      (QUARTER_CIRCLE_GRADIAN : α) (HALF_CIRCLE_GRADIAN : α) s_tanLookupGradian
      (by rw [s_tanLookupGradian_length]; exact toNat_le_of_le st h21)
    exact ⟨fdiv p.sin p.cos, by simp only [hp, Option.map_some']⟩

end TangentPoles

section Evaluations

theorem Clamp_gradian_100 : Clamp (100 : ℚ) 400 = 100 :=
  Clamp_of_mem _ _ (by norm_num) (by norm_num)

theorem Clamp_gradian_300 : Clamp (300 : ℚ) 400 = 300 :=
  Clamp_of_mem _ _ (by norm_num) (by norm_num)

theorem Clamp_gradian_90 : Clamp (90 : ℚ) 400 = 90 :=
  Clamp_of_mem _ _ (by norm_num) (by norm_num)

theorem Clamp_gradian_270 : Clamp (270 : ℚ) 400 = 270 :=
  Clamp_of_mem _ _ (by norm_num) (by norm_num)

theorem Clamp_radian_quarter :
    Clamp (QUARTER_CIRCLE_RADIAN : ℚ) ((CIRCLE_RADIAN : ℚ) : ℚ) = QUARTER_CIRCLE_RADIAN :=
  Clamp_of_mem _ _ (by norm_num [QUARTER_CIRCLE_RADIAN, PI])
    (by norm_num [QUARTER_CIRCLE_RADIAN, CIRCLE_RADIAN, PI])

theorem Clamp_radian_three_quarter :
    Clamp (3 * QUARTER_CIRCLE_RADIAN : ℚ) ((CIRCLE_RADIAN : ℚ) : ℚ) = 3 * QUARTER_CIRCLE_RADIAN :=
  Clamp_of_mem _ _ (by norm_num [QUARTER_CIRCLE_RADIAN, PI])
    (by norm_num [QUARTER_CIRCLE_RADIAN, CIRCLE_RADIAN, PI])

/-- C4: `tan_9` tests the reduced angle against 90 and 270, the degree poles, not against the
gradian poles 100 and 300. At precision 1 `tan_9(100)` and `tan_9(300)` are the number 1, at
the default precision they are returned and are not NaN, while `tan_9(90)` and `tan_9(270)`
are NaN. -/
theorem tan_9_tests_degree_poles :
    tan_9 (SetPrecision 1 State.initial) (100 : ℚ) = some (FloatVal.num 1) ∧
    tan_9 (SetPrecision 1 State.initial) (300 : ℚ) = some (FloatVal.num 1) ∧
    (∃ v, tan_9 State.initial (100 : ℚ) = some v ∧ v ≠ FloatVal.nan) ∧
    (∃ v, tan_9 State.initial (300 : ℚ) = some v ∧ v ≠ FloatVal.nan) ∧
    tan_9 State.initial (90 : ℚ) = some FloatVal.nan ∧
    tan_9 State.initial (270 : ℚ) = some FloatVal.nan := by
  have hs : SetPrecision 1 State.initial = ⟨1⟩ := rfl
  have hC1 := Clamp_gradian_100
  have hC3 := Clamp_gradian_300
  have hne : ∀ x : ℚ, ¬ (Clamp x 400 = 90 ∨ Clamp x 400 = 270) →
      ∃ v, tan_9 State.initial x = some v ∧ v ≠ FloatVal.nan := by
    intro x hx
    obtain ⟨v, hv⟩ := tan_9_eq_some State.initial (by decide) x
    refine ⟨v, hv, fun hnan => hx ?_⟩
    rw [hnan] at hv
    exact (tan_9_eq_nan_iff State.initial x).mp hv
  refine ⟨?_, ?_, hne 100 ?_, hne 300 ?_, ?_, ?_⟩
  · norm_num [tan_9, CIRCLE_GRADIAN, hC1, hs, PositionOf, PositionOf.run, forLoop,
      PositionOf.body, PositionOf.start, index, s_tanLookupGradian, ldexpf, fdiv,
      QUARTER_CIRCLE_GRADIAN, HALF_CIRCLE_GRADIAN]
  · norm_num [tan_9, CIRCLE_GRADIAN, hC3, hs, PositionOf, PositionOf.run, forLoop,
      PositionOf.body, PositionOf.start, index, s_tanLookupGradian, ldexpf, fdiv,
      QUARTER_CIRCLE_GRADIAN, HALF_CIRCLE_GRADIAN]
  · rw [hC1]; norm_num
  · rw [hC3]; norm_num
  · exact (tan_9_eq_nan_iff State.initial 90).mpr (Or.inl Clamp_gradian_90)
  · exact (tan_9_eq_nan_iff State.initial 270).mpr (Or.inr Clamp_gradian_270)

/-- C5: `tan_r` has no pole test. At precision 1 it returns the number 1 at
`QUARTER_CIRCLE_RADIAN` and at `3 * QUARTER_CIRCLE_RADIAN`, at the default precision it
returns a value that is not NaN at both, and it returns NaN for no state and no angle. -/
theorem tan_r_has_no_pole_test :
    tan_r (SetPrecision 1 State.initial) (QUARTER_CIRCLE_RADIAN : ℚ) = some (FloatVal.num 1) ∧
    tan_r (SetPrecision 1 State.initial) (3 * QUARTER_CIRCLE_RADIAN : ℚ) =
      some (FloatVal.num 1) ∧
    (∃ v, tan_r State.initial (QUARTER_CIRCLE_RADIAN : ℚ) = some v ∧ v ≠ FloatVal.nan) ∧
    (∃ v, tan_r State.initial (3 * QUARTER_CIRCLE_RADIAN : ℚ) = some v ∧ v ≠ FloatVal.nan) ∧
    (∀ (st : State) (x : ℚ), tan_r st x ≠ some FloatVal.nan) := by
  have hs : SetPrecision 1 State.initial = ⟨1⟩ := rfl
  have hC1 := Clamp_radian_quarter
  have hC3 := Clamp_radian_three_quarter
  simp only [Rat.cast_id] at hC1 hC3
  have hq : (QUARTER_CIRCLE_RADIAN : ℚ) ≠ 0 := by norm_num [QUARTER_CIRCLE_RADIAN, PI]
  have hh1 : ¬ (HALF_CIRCLE_RADIAN < QUARTER_CIRCLE_RADIAN) := by
    norm_num [QUARTER_CIRCLE_RADIAN, HALF_CIRCLE_RADIAN, PI]
  have hh3 : HALF_CIRCLE_RADIAN < 3 * QUARTER_CIRCLE_RADIAN := by
    norm_num [QUARTER_CIRCLE_RADIAN, HALF_CIRCLE_RADIAN, PI]
  have hlt : ¬ (QUARTER_CIRCLE_RADIAN + HALF_CIRCLE_RADIAN < 3 * QUARTER_CIRCLE_RADIAN) := by
    norm_num [QUARTER_CIRCLE_RADIAN, HALF_CIRCLE_RADIAN, PI]
  have hne : ∀ x : ℚ, ∃ v, tan_r State.initial x = some v ∧ v ≠ FloatVal.nan := by
    intro x
    obtain ⟨v, hv⟩ := tan_r_eq_some State.initial (by decide) x
    refine ⟨v, hv, fun hnan => ?_⟩
    rw [hnan] at hv
    exact tan_r_ne_nan State.initial x hv
  refine ⟨?_, ?_, hne _, hne _, fun st x => tan_r_ne_nan st x⟩
  · norm_num [tan_r, hC1, hs, hq, hh1, PositionOf, PositionOf.run, forLoop, PositionOf.body,
      PositionOf.start, index, s_tanLookupRadian, ldexpf, fdiv]
  · norm_num [tan_r, hC3, hs, hq, hh3, hlt, PositionOf, PositionOf.run, forLoop,
      PositionOf.body, PositionOf.start, index, s_tanLookupRadian, ldexpf, fdiv]

end Evaluations

section Totality

variable {α : Type} [LinearOrderedField α] [FloorRing α]

theorem cos_0_eq_some (st : State) (h1 : 1 ≤ st.s_precision) (h21 : st.s_precision ≤ 21)
    (x : α) : ∃ y, cos_0 st x = some (FloatVal.num y) := by
  obtain ⟨g, hg⟩ := gain_eq_some st h1 h21
  simp only [cos_0]
  split_ifs with h0
  · exact ⟨_, rfl⟩
  · obtain ⟨p, hp⟩ := PositionOf_eq_some st (Clamp x (CIRCLE_DEGREE : α))
      (QUARTER_CIRCLE_DEGREE : α) (HALF_CIRCLE_DEGREE : α) s_tanLookupDegree
      (by rw [s_tanLookupDegree_length]; exact toNat_le_of_le st h21)
    exact ⟨p.cos * (g : α), by simp only [hp, hg, Option.some_bind, Option.map_some']⟩

theorem cos_0_level_0 (st : State) (h0 : st.s_precision ≤ 0) (x : α)
    (hx : Clamp x (CIRCLE_DEGREE : α) ≠ 0) : cos_0 st x = none := by
  have hg : index s_cosLookup (st.s_precision - 1) = none := index_neg _ _ (by omega)
  simp only [cos_0, if_neg hx, hg, Option.map_none']
  cases PositionOf st (Clamp x (CIRCLE_DEGREE : α)) (QUARTER_CIRCLE_DEGREE : α)
    (HALF_CIRCLE_DEGREE : α) s_tanLookupDegree <;> rfl

theorem sin_0_eq_some (st : State) (h1 : 1 ≤ st.s_precision) (h21 : st.s_precision ≤ 21)
    (x : α) : ∃ y, sin_0 st x = some (FloatVal.num y) := by
  obtain ⟨g, hg⟩ := gain_eq_some st h1 h21
  simp only [sin_0]
  split_ifs with h0
  · exact ⟨_, rfl⟩
  · obtain ⟨p, hp⟩ := PositionOf_eq_some st (Clamp x (CIRCLE_DEGREE : α))
      (QUARTER_CIRCLE_DEGREE : α) (HALF_CIRCLE_DEGREE : α) s_tanLookupDegree
      (by rw [s_tanLookupDegree_length]; exact toNat_le_of_le st h21)
    exact ⟨p.sin * (g : α), by simp only [hp, hg, Option.some_bind, Option.map_some']⟩

theorem sin_0_level_0 (st : State) (h0 : st.s_precision ≤ 0) (x : α)
    (hx : Clamp x (CIRCLE_DEGREE : α) ≠ 0) : sin_0 st x = none := by
  have hg : index s_cosLookup (st.s_precision - 1) = none := index_neg _ _ (by omega)
  simp only [sin_0, if_neg hx, hg, Option.map_none']
  cases PositionOf st (Clamp x (CIRCLE_DEGREE : α)) (QUARTER_CIRCLE_DEGREE : α)
    (HALF_CIRCLE_DEGREE : α) s_tanLookupDegree <;> rfl

omit [FloorRing α] in
theorem atan_0_eq_some (st : State) (h1 : 1 ≤ st.s_precision) (h21 : st.s_precision ≤ 21)
    (sqrt : α → α) (x : α) : ∃ y, atan_0 st sqrt x = some (FloatVal.num y) := by
  obtain ⟨g, hg⟩ := gain_eq_some st h1 h21
  simp only [atan_0]
  split_ifs with h0
  · exact ⟨_, rfl⟩
  · obtain ⟨a, ha⟩ := AngleOfSin_eq_some st (1 / sqrt (x * x + 1) / (g : α))
      (x / sqrt (x * x + 1) / (g : α)) s_tanLookupDegree
      (by rw [s_tanLookupDegree_length]; exact toNat_le_of_le st h21)
    exact ⟨a, by simp only [hg, ha, Option.some_bind, Option.map_some']⟩

omit [FloorRing α] in
theorem acos_0_level_0 (st : State) (h0 : st.s_precision ≤ 0) (sqrt : α → α) (x : α)
    (hlo : -1 ≤ x) (hhi : x < 1) : acos_0 st sqrt x = none := by
  have hg : index s_cosLookup (st.s_precision - 1) = none := index_neg _ _ (by omega)
  have hd : ¬ (-1 > x ∨ x > 1) := by
    rintro (h | h)
    · exact absurd hlo (not_le.mpr h)
    · exact absurd (lt_trans hhi h) (lt_irrefl _)
  simp only [acos_0, if_neg hd, if_neg (ne_of_lt hhi), hg, Option.none_bind]

omit [FloorRing α] in
theorem asin_0_level_0 (st : State) (h0 : st.s_precision ≤ 0) (sqrt : α → α) (x : α)
    (hlo : -1 ≤ x) (hhi : x ≤ 1) (hx : x ≠ 0) : asin_0 st sqrt x = none := by
  have hg : index s_cosLookup (st.s_precision - 1) = none := index_neg _ _ (by omega)
  have hd : ¬ (-1 > x ∨ x > 1) := by
    rintro (h | h)
    · exact absurd hlo (not_le.mpr h)
    · exact absurd hhi (not_le.mpr h)
  simp only [asin_0, if_neg hd, if_neg hx, hg, Option.none_bind]

omit [FloorRing α] in
theorem atan_0_level_0 (st : State) (h0 : st.s_precision ≤ 0) (sqrt : α → α) (x : α)
    (hx : x ≠ 0) : atan_0 st sqrt x = none := by
  have hg : index s_cosLookup (st.s_precision - 1) = none := index_neg _ _ (by omega)
  simp only [atan_0, if_neg hx, hg, Option.none_bind]

theorem cos_r_eq_some (st : State) (h1 : 1 ≤ st.s_precision) (h21 : st.s_precision ≤ 21)
    (x : α) : ∃ y, cos_r st x = some (FloatVal.num y) := by
  obtain ⟨g, hg⟩ := gain_eq_some st h1 h21
  simp only [cos_r]
  split_ifs with h0
  · exact ⟨_, rfl⟩
  · obtain ⟨p, hp⟩ := PositionOf_eq_some st (Clamp x (CIRCLE_RADIAN : α))
      (QUARTER_CIRCLE_RADIAN : α) (HALF_CIRCLE_RADIAN : α) s_tanLookupRadian
      (by rw [s_tanLookupRadian_length]; exact toNat_le_of_le st h21)
    exact ⟨p.cos * (g : α), by simp only [hp, hg, Option.some_bind, Option.map_some']⟩

theorem cos_r_level_0 (st : State) (h0 : st.s_precision ≤ 0) (x : α)
    (hx : Clamp x (CIRCLE_RADIAN : α) ≠ 0) : cos_r st x = none := by
  have hg : index s_cosLookup (st.s_precision - 1) = none := index_neg _ _ (by omega)
  simp only [cos_r, if_neg hx, hg, Option.map_none']
  cases PositionOf st (Clamp x (CIRCLE_RADIAN : α)) (QUARTER_CIRCLE_RADIAN : α)
    (HALF_CIRCLE_RADIAN : α) s_tanLookupRadian <;> rfl

theorem sin_r_eq_some (st : State) (h1 : 1 ≤ st.s_precision) (h21 : st.s_precision ≤ 21)
    (x : α) : ∃ y, sin_r st x = some (FloatVal.num y) := by
  obtain ⟨g, hg⟩ := gain_eq_some st h1 h21
  simp only [sin_r]
  split_ifs with h0
  · exact ⟨_, rfl⟩
  · obtain ⟨p, hp⟩ := PositionOf_eq_some st (Clamp x (CIRCLE_RADIAN : α))
      (QUARTER_CIRCLE_RADIAN : α) (HALF_CIRCLE_RADIAN : α) s_tanLookupRadian
      (by rw [s_tanLookupRadian_length]; exact toNat_le_of_le st h21)
    exact ⟨p.sin * (g : α), by simp only [hp, hg, Option.some_bind, Option.map_some']⟩

theorem sin_r_level_0 (st : State) (h0 : st.s_precision ≤ 0) (x : α)
    (hx : Clamp x (CIRCLE_RADIAN : α) ≠ 0) : sin_r st x = none := by
  have hg : index s_cosLookup (st.s_precision - 1) = none := index_neg _ _ (by omega)
  simp only [sin_r, if_neg hx, hg, Option.map_none']
  cases PositionOf st (Clamp x (CIRCLE_RADIAN : α)) (QUARTER_CIRCLE_RADIAN : α)
    (HALF_CIRCLE_RADIAN : α) s_tanLookupRadian <;> rfl

omit [FloorRing α] in
theorem atan_r_eq_some (st : State) (h1 : 1 ≤ st.s_precision) (h21 : st.s_precision ≤ 21)
    (sqrt : α → α) (x : α) : ∃ y, atan_r st sqrt x = some (FloatVal.num y) := by
  obtain ⟨g, hg⟩ := gain_eq_some st h1 h21
  simp only [atan_r]
  split_ifs with h0
  · exact ⟨_, rfl⟩
  · obtain ⟨a, ha⟩ := AngleOfSin_eq_some st (1 / sqrt (x * x + 1) / (g : α))
      (x / sqrt (x * x + 1) / (g : α)) s_tanLookupRadian
      (by rw [s_tanLookupRadian_length]; exact toNat_le_of_le st h21)
    exact ⟨a, by simp only [hg, ha, Option.some_bind, Option.map_some']⟩

omit [FloorRing α] in
theorem acos_r_level_0 (st : State) (h0 : st.s_precision ≤ 0) (sqrt : α → α) (x : α)
    (hlo : -1 ≤ x) (hhi : x < 1) : acos_r st sqrt x = none := by
  have hg : index s_cosLookup (st.s_precision - 1) = none := index_neg _ _ (by omega)
  have hd : ¬ (-1 > x ∨ x > 1) := by
    rintro (h | h)
    · exact absurd hlo (not_le.mpr h)
    · exact absurd (lt_trans hhi h) (lt_irrefl _)
  simp only [acos_r, if_neg hd, if_neg (ne_of_lt hhi), hg, Option.none_bind]

omit [FloorRing α] in
theorem asin_r_level_0 (st : State) (h0 : st.s_precision ≤ 0) (sqrt : α → α) (x : α)
    (hlo : -1 ≤ x) (hhi : x ≤ 1) (hx : x ≠ 0) : asin_r st sqrt x = none := by
  have hg : index s_cosLookup (st.s_precision - 1) = none := index_neg _ _ (by omega)
  have hd : ¬ (-1 > x ∨ x > 1) := by
    rintro (h | h)
    · exact absurd hlo (not_le.mpr h)
    · exact absurd hhi (not_le.mpr h)
  simp only [asin_r, if_neg hd, if_neg hx, hg, Option.none_bind]

omit [FloorRing α] in
theorem atan_r_level_0 (st : State) (h0 : st.s_precision ≤ 0) (sqrt : α → α) (x : α)
    (hx : x ≠ 0) : atan_r st sqrt x = none := by
  have hg : index s_cosLookup (st.s_precision - 1) = none := index_neg _ _ (by omega)
  simp only [atan_r, if_neg hx, hg, Option.none_bind]

theorem cos_9_eq_some (st : State) (h1 : 1 ≤ st.s_precision) (h21 : st.s_precision ≤ 21)
    (x : α) : ∃ y, cos_9 st x = some (FloatVal.num y) := by
  obtain ⟨g, hg⟩ := gain_eq_some st h1 h21
  simp only [cos_9]
  split_ifs with h0
  · exact ⟨_, rfl⟩
  · obtain ⟨p, hp⟩ := PositionOf_eq_some st (Clamp x (CIRCLE_GRADIAN : α))
      (QUARTER_CIRCLE_GRADIAN : α) (HALF_CIRCLE_GRADIAN : α) s_tanLookupGradian
      (by rw [s_tanLookupGradian_length]; exact toNat_le_of_le st h21)
    exact ⟨p.cos * (g : α), by simp only [hp, hg, Option.some_bind, Option.map_some']⟩

theorem cos_9_level_0 (st : State) (h0 : st.s_precision ≤ 0) (x : α)
    (hx : Clamp x (CIRCLE_GRADIAN : α) ≠ 0) : cos_9 st x = none := by
  have hg : index s_cosLookup (st.s_precision - 1) = none := index_neg _ _ (by omega)
  simp only [cos_9, if_neg hx, hg, Option.map_none']
  cases PositionOf st (Clamp x (CIRCLE_GRADIAN : α)) (QUARTER_CIRCLE_GRADIAN : α)
    (HALF_CIRCLE_GRADIAN : α) s_tanLookupGradian <;> rfl

theorem sin_9_eq_some (st : State) (h1 : 1 ≤ st.s_precision) (h21 : st.s_precision ≤ 21)
    (x : α) : ∃ y, sin_9 st x = some (FloatVal.num y) := by
  obtain ⟨g, hg⟩ := gain_eq_some st h1 h21
  simp only [sin_9]
  split_ifs with h0
  · exact ⟨_, rfl⟩
  · obtain ⟨p, hp⟩ := PositionOf_eq_some st (Clamp x (CIRCLE_GRADIAN : α))
      (QUARTER_CIRCLE_GRADIAN : α) (HALF_CIRCLE_GRADIAN : α) s_tanLookupGradian
      (by rw [s_tanLookupGradian_length]; exact toNat_le_of_le st h21)
    exact ⟨p.sin * (g : α), by simp only [hp, hg, Option.some_bind, Option.map_some']⟩

theorem sin_9_level_0 (st : State) (h0 : st.s_precision ≤ 0) (x : α)
    (hx : Clamp x (CIRCLE_GRADIAN : α) ≠ 0) : sin_9 st x = none := by
  have hg : index s_cosLookup (st.s_precision - 1) = none := index_neg _ _ (by omega)
  simp only [sin_9, if_neg hx, hg, Option.map_none']
  cases PositionOf st (Clamp x (CIRCLE_GRADIAN : α)) (QUARTER_CIRCLE_GRADIAN : α)
    (HALF_CIRCLE_GRADIAN : α) s_tanLookupGradian <;> rfl

omit [FloorRing α] in
theorem atan_9_eq_some (st : State) (h1 : 1 ≤ st.s_precision) (h21 : st.s_precision ≤ 21)
    (sqrt : α → α) (x : α) : ∃ y, atan_9 st sqrt x = some (FloatVal.num y) := by
  obtain ⟨g, hg⟩ := gain_eq_some st h1 h21
  simp only [atan_9]
  split_ifs with h0
  · exact ⟨_, rfl⟩
  · obtain ⟨a, ha⟩ := AngleOfSin_eq_some st (1 / sqrt (x * x + 1) / (g : α))
      (x / sqrt (x * x + 1) / (g : α)) s_tanLookupGradian
      (by rw [s_tanLookupGradian_length]; exact toNat_le_of_le st h21)
    exact ⟨a, by simp only [hg, ha, Option.some_bind, Option.map_some']⟩

omit [FloorRing α] in
theorem acos_9_level_0 (st : State) (h0 : st.s_precision ≤ 0) (sqrt : α → α) (x : α)
    (hlo : -1 ≤ x) (hhi : x < 1) : acos_9 st sqrt x = none := by
  have hg : index s_cosLookup (st.s_precision - 1) = none := index_neg _ _ (by omega)
  have hd : ¬ (-1 > x ∨ x > 1) := by
    rintro (h | h)
    · exact absurd hlo (not_le.mpr h)
    · exact absurd (lt_trans hhi h) (lt_irrefl _)
  simp only [acos_9, if_neg hd, if_neg (ne_of_lt hhi), hg, Option.none_bind]

omit [FloorRing α] in
theorem asin_9_level_0 (st : State) (h0 : st.s_precision ≤ 0) (sqrt : α → α) (x : α)
    (hlo : -1 ≤ x) (hhi : x ≤ 1) (hx : x ≠ 0) : asin_9 st sqrt x = none := by
  have hg : index s_cosLookup (st.s_precision - 1) = none := index_neg _ _ (by omega)
  have hd : ¬ (-1 > x ∨ x > 1) := by
    rintro (h | h)
    · exact absurd hlo (not_le.mpr h)
    · exact absurd hhi (not_le.mpr h)
  simp only [asin_9, if_neg hd, if_neg hx, hg, Option.none_bind]

omit [FloorRing α] in
theorem atan_9_level_0 (st : State) (h0 : st.s_precision ≤ 0) (sqrt : α → α) (x : α)
    (hx : x ≠ 0) : atan_9 st sqrt x = none := by
  have hg : index s_cosLookup (st.s_precision - 1) = none := index_neg _ _ (by omega)
  simp only [atan_9, if_neg hx, hg, Option.none_bind]

omit [FloorRing α] in
theorem tan_0_eq_some_aux (st : State) (h21 : st.s_precision ≤ 21) (t : α) :
    ∃ p, PositionOf st t (QUARTER_CIRCLE_DEGREE : α) (HALF_CIRCLE_DEGREE : α)
      s_tanLookupDegree = some p :=
  PositionOf_eq_some st t _ _ s_tanLookupDegree
    (by rw [s_tanLookupDegree_length]; exact toNat_le_of_le st h21)

/-- At a precision of at most 21 `tan_0` returns a value for every angle. -/
theorem tan_0_eq_some (st : State) (h21 : st.s_precision ≤ 21) (x : α) :
    ∃ v, tan_0 st x = some v := by
  simp only [tan_0]
  split_ifs with h0 hp
  · exact ⟨_, rfl⟩
  · exact ⟨_, rfl⟩
  · obtain ⟨p, hp⟩ := tan_0_eq_some_aux st h21 (Clamp x (CIRCLE_DEGREE : α))
    exact ⟨fdiv p.sin p.cos, by simp only [hp, Option.map_some']⟩

/-- For the precisions 1 to 21 each of the 18 entry points returns a value on every
argument: no table is read outside its 21 entries. -/
theorem entry_points_return (st : State) (h1 : 1 ≤ st.s_precision)
    (h21 : st.s_precision ≤ 21) (sqrt : α → α) (x : α) :
    (∀ f ∈ [cos_0 st, sin_0 st, tan_0 st, cos_r st, sin_r st, tan_r st,
        cos_9 st, sin_9 st, tan_9 st], ∃ v, f x = some v) ∧
    (∀ f ∈ [acos_0 st sqrt, asin_0 st sqrt, atan_0 st sqrt, acos_r st sqrt, asin_r st sqrt,
        atan_r st sqrt, acos_9 st sqrt, asin_9 st sqrt, atan_9 st sqrt],
      ∃ v, f x = some v) := by
  have num_some : ∀ {o : Option (FloatVal α)}, (∃ y, o = some (FloatVal.num y)) →
      ∃ v, o = some v := fun ⟨y, hy⟩ => ⟨_, hy⟩
  have dom_some : ∀ {f : α → Option (FloatVal α)},
      ((f x = some FloatVal.nan ↔ (x < -1 ∨ 1 < x)) ∧
        (-1 ≤ x → x ≤ 1 → ∃ y, f x = some (FloatVal.num y))) → ∃ v, f x = some v := by
    intro f hf
    by_cases hd : x < -1 ∨ 1 < x
    · exact ⟨_, hf.1.mpr hd⟩
    · rw [not_or, not_lt, not_lt] at hd
      exact num_some (hf.2 hd.1 hd.2)
  constructor
  · intro f hf
    simp only [List.mem_cons, List.mem_singleton, List.not_mem_nil, or_false] at hf
    rcases hf with rfl | rfl | rfl | rfl | rfl | rfl | rfl | rfl | rfl
    · exact num_some (cos_0_eq_some st h1 h21 x)
    · exact num_some (sin_0_eq_some st h1 h21 x)
    · exact tan_0_eq_some st h21 x
    · exact num_some (cos_r_eq_some st h1 h21 x)
    · exact num_some (sin_r_eq_some st h1 h21 x)
    · exact tan_r_eq_some st h21 x
    · exact num_some (cos_9_eq_some st h1 h21 x)
    · exact num_some (sin_9_eq_some st h1 h21 x)
    · exact tan_9_eq_some st h21 x
  · intro f hf
    simp only [List.mem_cons, List.mem_singleton, List.not_mem_nil, or_false] at hf
    rcases hf with rfl | rfl | rfl | rfl | rfl | rfl | rfl | rfl | rfl
    · exact dom_some (acos_0_domain st h1 h21 sqrt x)
    · exact dom_some (asin_0_domain st h1 h21 sqrt x)
    · exact num_some (atan_0_eq_some st h1 h21 sqrt x)
    · exact dom_some (acos_r_domain st h1 h21 sqrt x)
    · exact dom_some (asin_r_domain st h1 h21 sqrt x)
    · exact num_some (atan_r_eq_some st h1 h21 sqrt x)
    · exact dom_some (acos_9_domain st h1 h21 sqrt x)
    · exact dom_some (asin_9_domain st h1 h21 sqrt x)
    · exact num_some (atan_9_eq_some st h1 h21 sqrt x)

end Totality

section LevelZero

/-- C10: `SetPrecision(0)` stores the level 0, and at level 0 the gain is read at index -1,
outside the table: `cos`, `sin`, `acos`, `asin` and `atan` of the three unit systems return
no value on ordinary arguments. -/
theorem gain_read_outside_table_at_level_0 :
    Reachable (SetPrecision 0 State.initial) ∧
    (SetPrecision 0 State.initial).s_precision = 0 ∧
    index s_cosLookup ((SetPrecision 0 State.initial).s_precision - 1) = none ∧
    (∀ f ∈ [cos_0 (SetPrecision 0 State.initial), sin_0 (SetPrecision 0 State.initial),
        cos_r (SetPrecision 0 State.initial), sin_r (SetPrecision 0 State.initial),
        cos_9 (SetPrecision 0 State.initial), sin_9 (SetPrecision 0 State.initial)],
      f (1 : ℚ) = none) ∧
    (∀ (sqrt : ℚ → ℚ), ∀ f ∈ [acos_0 (SetPrecision 0 State.initial) sqrt,
        asin_0 (SetPrecision 0 State.initial) sqrt, atan_0 (SetPrecision 0 State.initial) sqrt,
        acos_r (SetPrecision 0 State.initial) sqrt, asin_r (SetPrecision 0 State.initial) sqrt,
        atan_r (SetPrecision 0 State.initial) sqrt, acos_9 (SetPrecision 0 State.initial) sqrt,
        asin_9 (SetPrecision 0 State.initial) sqrt, atan_9 (SetPrecision 0 State.initial) sqrt],
      f (1 / 2 : ℚ) = none) := by
  have hs : SetPrecision 0 State.initial = ⟨0⟩ := rfl
  have h0 : (SetPrecision 0 State.initial).s_precision ≤ 0 := by decide
  have hdeg : Clamp (1 : ℚ) ((CIRCLE_DEGREE : ℚ) : ℚ) ≠ 0 := by
    rw [Clamp_of_mem _ _ (by norm_num) (by norm_num [CIRCLE_DEGREE])]
    norm_num
  have hrad : Clamp (1 : ℚ) ((CIRCLE_RADIAN : ℚ) : ℚ) ≠ 0 := by
    rw [Clamp_of_mem _ _ (by norm_num) (by norm_num [CIRCLE_RADIAN, PI])]
    norm_num
  have hgra : Clamp (1 : ℚ) ((CIRCLE_GRADIAN : ℚ) : ℚ) ≠ 0 := by
    rw [Clamp_of_mem _ _ (by norm_num) (by norm_num [CIRCLE_GRADIAN])]
    norm_num
  refine ⟨Reachable.set 0 _ Reachable.initial, rfl, index_neg _ _ (by decide), ?_, ?_⟩
  · intro f hf
    simp only [List.mem_cons, List.mem_singleton, List.not_mem_nil, or_false] at hf
    rcases hf with rfl | rfl | rfl | rfl | rfl | rfl
    · exact cos_0_level_0 _ h0 1 hdeg
    · exact sin_0_level_0 _ h0 1 hdeg
    · exact cos_r_level_0 _ h0 1 hrad
    · exact sin_r_level_0 _ h0 1 hrad
    · exact cos_9_level_0 _ h0 1 hgra
    · exact sin_9_level_0 _ h0 1 hgra
  · intro sqrt f hf
    simp only [List.mem_cons, List.mem_singleton, List.not_mem_nil, or_false] at hf
    rcases hf with rfl | rfl | rfl | rfl | rfl | rfl | rfl | rfl | rfl
    · exact acos_0_level_0 _ h0 sqrt _ (by norm_num) (by norm_num)
    · exact asin_0_level_0 _ h0 sqrt _ (by norm_num) (by norm_num) (by norm_num)
    · exact atan_0_level_0 _ h0 sqrt _ (by norm_num)
    · exact acos_r_level_0 _ h0 sqrt _ (by norm_num) (by norm_num)
    · exact asin_r_level_0 _ h0 sqrt _ (by norm_num) (by norm_num) (by norm_num)
    · exact atan_r_level_0 _ h0 sqrt _ (by norm_num)
    · exact acos_9_level_0 _ h0 sqrt _ (by norm_num) (by norm_num)
    · exact asin_9_level_0 _ h0 sqrt _ (by norm_num) (by norm_num) (by norm_num)
    · exact atan_9_level_0 _ h0 sqrt _ (by norm_num)

end LevelZero

end CORDIC

section SinglePrecision

/-- A rational in the binade of exponent `e` within half a unit in the last place of the
grid point `m * 2 ^ (e - 23)` rounds to that grid point. -/
theorem roundBinary32_eq_of_near (q : ℚ) (e m : ℤ) (he : -126 ≤ e)
    (hlo : (2 : ℚ) ^ e ≤ |q|) (hhi : |q| < (2 : ℚ) ^ (e + 1))
    (hm : |q / (2 : ℚ) ^ (e - 23) - m| < 1 / 2) :
    roundBinary32 q = m * (2 : ℚ) ^ (e - 23) := by
  have habs : 0 < |q| := lt_of_lt_of_le (by positivity) hlo
  have hq : q ≠ 0 := abs_pos.mp habs
  have hlog : Int.log 2 |q| = e := by
    have h1 : e ≤ Int.log 2 |q| :=
      (Int.zpow_le_iff_le_log (by norm_num) habs).mp (by exact_mod_cast hlo)
    have h2 : Int.log 2 |q| < e + 1 :=
      (Int.lt_zpow_iff_log_lt (by norm_num) habs).mp (by exact_mod_cast hhi)
    omega
  have hmax : max (Int.log 2 |q|) (-126) = e := by rw [hlog]; exact max_eq_left he
  obtain ⟨hm1, hm2⟩ := abs_lt.mp hm
  have hfl := Int.floor_le (q / (2 : ℚ) ^ (e - 23))
  have hfl2 := Int.lt_floor_add_one (q / (2 : ℚ) ^ (e - 23))
  simp only [roundBinary32, if_neg hq, hmax]
  split_ifs with h1 h2 h3
  · have hfm : ⌊q / (2 : ℚ) ^ (e - 23)⌋ = m := by
      have ha : ((⌊q / (2 : ℚ) ^ (e - 23)⌋ : ℤ) : ℚ) < (m : ℚ) + 1 := by linarith
      have hb : (m : ℚ) < ((⌊q / (2 : ℚ) ^ (e - 23)⌋ : ℤ) : ℚ) + 1 := by linarith
      have ha' : ⌊q / (2 : ℚ) ^ (e - 23)⌋ < m + 1 := by exact_mod_cast ha
      have hb' : m < ⌊q / (2 : ℚ) ^ (e - 23)⌋ + 1 := by exact_mod_cast hb
      omega
    rw [hfm]
  · have hfm : ⌊q / (2 : ℚ) ^ (e - 23)⌋ + 1 = m := by
      have ha : ((⌊q / (2 : ℚ) ^ (e - 23)⌋ : ℤ) : ℚ) < (m : ℚ) := by linarith
      have hb : (m : ℚ) < ((⌊q / (2 : ℚ) ^ (e - 23)⌋ : ℤ) : ℚ) + 2 := by linarith
      have ha' : ⌊q / (2 : ℚ) ^ (e - 23)⌋ < m := by exact_mod_cast ha
      have hb' : m < ⌊q / (2 : ℚ) ^ (e - 23)⌋ + 2 := by exact_mod_cast hb
      omega
    rw [← hfm]
    push_cast
    ring
  · exfalso
    have heq : q / (2 : ℚ) ^ (e - 23) - ((⌊q / (2 : ℚ) ^ (e - 23)⌋ : ℤ) : ℚ) = 1 / 2 :=
      le_antisymm (not_lt.mp h2) (not_lt.mp h1)
    have ha : ((⌊q / (2 : ℚ) ^ (e - 23)⌋ : ℤ) : ℚ) < (m : ℚ) := by linarith
    have hb : (m : ℚ) < ((⌊q / (2 : ℚ) ^ (e - 23)⌋ : ℤ) : ℚ) + 1 := by linarith
    have ha' : ⌊q / (2 : ℚ) ^ (e - 23)⌋ < m := by exact_mod_cast ha
    have hb' : m < ⌊q / (2 : ℚ) ^ (e - 23)⌋ + 1 := by exact_mod_cast hb
    omega
  · exfalso
    have heq : q / (2 : ℚ) ^ (e - 23) - ((⌊q / (2 : ℚ) ^ (e - 23)⌋ : ℤ) : ℚ) = 1 / 2 :=
      le_antisymm (not_lt.mp h2) (not_lt.mp h1)
    have ha : ((⌊q / (2 : ℚ) ^ (e - 23)⌋ : ℤ) : ℚ) < (m : ℚ) := by linarith
    have hb : (m : ℚ) < ((⌊q / (2 : ℚ) ^ (e - 23)⌋ : ℤ) : ℚ) + 1 := by linarith
    have ha' : ⌊q / (2 : ℚ) ^ (e - 23)⌋ < m := by exact_mod_cast ha
    have hb' : m < ⌊q / (2 : ℚ) ^ (e - 23)⌋ + 1 := by exact_mod_cast hb
    omega

end SinglePrecision

namespace CORDIC

section SinglePrecisionClamp

theorem roundBinary32_tiny : roundBinary32 (1 / 2 ^ 40) = 1 / 2 ^ 40 := by
  have h := roundBinary32_eq_of_near (1 / 2 ^ 40) (-40) (2 ^ 23) (by norm_num)
    (by rw [abs_of_pos (by norm_num)]; norm_num)
    (by rw [abs_of_pos (by norm_num)]; norm_num)
    (by norm_num)
  rw [h]
  norm_num

theorem roundBinary32_360 : roundBinary32 360 = 360 := by
  have h := roundBinary32_eq_of_near 360 8 11796480 (by norm_num)
    (by rw [abs_of_pos (by norm_num)]; norm_num)
    (by rw [abs_of_pos (by norm_num)]; norm_num)
    (by norm_num [abs_lt])
  rw [h]
  norm_num

theorem roundBinary32_below_360 : roundBinary32 (-(360 / 2 ^ 40) + 360) = 360 := by
  have h := roundBinary32_eq_of_near (-(360 / 2 ^ 40) + 360) 8 11796480 (by norm_num)
    (by rw [abs_of_pos (by norm_num)]; norm_num)
    (by rw [abs_of_pos (by norm_num)]; norm_num)
    (by norm_num [abs_lt])
  rw [h]
  norm_num

/-- C7 as stated fails in single precision: 360 and `-(360 / 2 ^ 40)` are `float` values,
`-(360 / 2 ^ 40)` is reduced to 360 because the sum `angle + 360` rounds to 360, and 360 is
reduced to 0. -/
theorem Clamp_binary32_not_idempotent :
    (0 : ℚ) < 360 ∧
    roundBinary32 360 = 360 ∧
    roundBinary32 (-(360 / 2 ^ 40)) = -(360 / 2 ^ 40) ∧
    Clamp_binary32 (-(360 / 2 ^ 40)) 360 = 360 ∧
    Clamp_binary32 360 360 = 0 ∧
    Clamp_binary32 (Clamp_binary32 (-(360 / 2 ^ 40)) 360) 360 ≠
      Clamp_binary32 (-(360 / 2 ^ 40)) 360 := by
  have hin : roundBinary32 (-(360 / 2 ^ 40)) = -(360 / 2 ^ 40) := by
    have h := roundBinary32_eq_of_near (-(360 / 2 ^ 40)) (-32) (-11796480) (by norm_num)
      (by rw [abs_of_neg (by norm_num)]; norm_num)
      (by rw [abs_of_neg (by norm_num)]; norm_num)
      (by norm_num [abs_lt])
    rw [h]
    norm_num
  have hquot : (-(-(360 / 2 ^ 40 : ℚ))) / 360 = 1 / 2 ^ 40 := by norm_num
  have hceil : ceil (1 / 2 ^ 40 : ℚ) = 1 := by
    unfold ceil
    have : ⌈(1 / 2 ^ 40 : ℚ)⌉ = 1 := by
      rw [Int.ceil_eq_iff]
      norm_num
    rw [this]
    norm_num
  have h1 : Clamp_binary32 (-(360 / 2 ^ 40)) 360 = 360 := by
    unfold Clamp_binary32
    rw [if_neg (by norm_num), hquot, roundBinary32_tiny, hceil, one_mul, roundBinary32_360,
      roundBinary32_below_360]
  have h2 : Clamp_binary32 360 360 = 0 := by
    unfold Clamp_binary32
    rw [if_pos (le_refl _)]
    norm_num [fmod, floor]
  refine ⟨by norm_num, roundBinary32_360, hin, h1, h2, ?_⟩
  rw [h1, h2]
  norm_num

end SinglePrecisionClamp

end CORDIC
end LibMath

namespace LibMath
namespace Matrix3

section Matrix3Algebra

variable {α : Type} [Field α]

omit [Field α] in
/-- The entries of a matrix given by its entries. -/
theorem get_ofEntries (f : Fin 3 → Fin 3 → α) (row col : Fin 3) :
    (ofEntries f).get row col = f row col := by
  unfold Matrix3.get ofEntries
  have h1 : (⟨(row.val * 3 + col.val) / 3, by omega⟩ : Fin 3) = row := by
    apply Fin.ext
    show (row.val * 3 + col.val) / 3 = row.val
    omega
  have h2 : (⟨(row.val * 3 + col.val) % 3, by omega⟩ : Fin 3) = col := by
    apply Fin.ext
    show (row.val * 3 + col.val) % 3 = col.val
    omega
  simp only [h1, h2]

omit [Field α] in
/-- Two matrices with the same entries `[row][col]` are equal. -/
theorem get_ext (a b : Matrix3 α) (h : ∀ row col, a.get row col = b.get row col) : a = b := by
  cases a with
  | mk fa =>
    cases b with
    | mk fb =>
      congr
      funext k
      have hk := h ⟨k.val / 3, by omega⟩ ⟨k.val % 3, by omega⟩
      unfold Matrix3.get at hk
      have hidx : (⟨k.val / 3 * 3 + k.val % 3, by omega⟩ : Fin 9) = k := by
        apply Fin.ext
        show k.val / 3 * 3 + k.val % 3 = k.val
        omega
      simpa only [hidx] using hk

/-- The entries of `Matrix3(diagonalValue)`. -/
theorem diagonal_get (d : α) (row col : Fin 3) :
    (diagonal d).get row col = if row = col then d else 0 := by
  fin_cases row <;> fin_cases col <;> rfl

end Matrix3Algebra
end Matrix3
end LibMath

namespace LibMath
namespace Quaternion

section QuaternionAlgebra

variable {α : Type} [Field α]

/-- The product of a quaternion and of what `GetInverse` returns, in both orders, is the
real quaternion of the squared norm. -/
theorem mul_GetInverse (q : Quaternion α) :
    q.mul q.GetInverse = ⟨0, 0, 0, q.X ^ 2 + q.Y ^ 2 + q.Z ^ 2 + q.W ^ 2⟩ ∧
    q.GetInverse.mul q = ⟨0, 0, 0, q.X ^ 2 + q.Y ^ 2 + q.Z ^ 2 + q.W ^ 2⟩ := by
  constructor <;>
  · simp only [mul, GetInverse, Quaternion.mk.injEq]
    refine ⟨?_, ?_, ?_, ?_⟩ <;> ring

/-- The three-angle constructor builds the quaternion of the sequence `ZYX`. -/
theorem ofEuler_eq_ofEulerSequence_ZYX (cos sin : α → α) (pitch yaw roll : α) :
    ofEuler cos sin pitch yaw roll =
      ofEulerSequence cos sin pitch yaw roll RotationSequence.ZYX := by
  have h1 : RotationSequence.ZYX.toChar &&& RotationOrder.Xfirst.toChar = 0 := by decide
  have h2 : RotationSequence.ZYX.toChar &&& RotationOrder.Yfirst.toChar = 0 := by decide
  have h3 : RotationSequence.ZYX.toChar &&& RotationOrder.Xsecond.toChar = 0 := by decide
  have h4 : RotationSequence.ZYX.toChar &&& RotationOrder.Ysecond.toChar ≠ 0 := by decide
  have h5 : RotationSequence.ZYX.toChar &&& RotationOrder.Xlast.toChar ≠ 0 := by decide
  simp only [ofEuler, ofEulerSequence, h1, h2, h3, ne_eq, not_true_eq_false, if_false,
    if_pos h4, if_pos h5, mul, Quaternion.mk.injEq]
  refine ⟨?_, ?_, ?_, ?_⟩ <;> ring

/-- The sequence constructor with `XYZ` multiplies `p`, then `y`, then `r`. -/
theorem ofEulerSequence_XYZ (cos sin : α → α) (pitch yaw roll : α) :
    ofEulerSequence cos sin pitch yaw roll RotationSequence.XYZ =
      { X := sin (pitch * 0.5) * cos (yaw * 0.5) * cos (roll * 0.5) +
          cos (pitch * 0.5) * sin (yaw * 0.5) * sin (roll * 0.5)
        Y := cos (pitch * 0.5) * sin (yaw * 0.5) * cos (roll * 0.5) -
          sin (pitch * 0.5) * cos (yaw * 0.5) * sin (roll * 0.5)
        Z := cos (pitch * 0.5) * cos (yaw * 0.5) * sin (roll * 0.5) +
          sin (pitch * 0.5) * sin (yaw * 0.5) * cos (roll * 0.5)
        W := cos (pitch * 0.5) * cos (yaw * 0.5) * cos (roll * 0.5) -
          sin (pitch * 0.5) * sin (yaw * 0.5) * sin (roll * 0.5) } := by
  have h1 : RotationSequence.XYZ.toChar &&& RotationOrder.Xfirst.toChar ≠ 0 := by decide
  have h3 : RotationSequence.XYZ.toChar &&& RotationOrder.Xsecond.toChar = 0 := by decide
  have h4 : RotationSequence.XYZ.toChar &&& RotationOrder.Ysecond.toChar ≠ 0 := by decide
  have h5 : RotationSequence.XYZ.toChar &&& RotationOrder.Xlast.toChar = 0 := by decide
  have h6 : RotationSequence.XYZ.toChar &&& RotationOrder.Ylast.toChar = 0 := by decide
  simp only [ofEulerSequence, h3, h5, h6, ne_eq, not_true_eq_false, if_false,
    if_pos h1, if_pos h4, mul, Quaternion.mk.injEq]
  refine ⟨?_, ?_, ?_, ?_⟩ <;> ring

/-- In exact arithmetic, for a quaternion `q` of squared norm 1 and a vector `p`, the
sandwich product `(q * (p, 0)) * q.GetInverse()` has `W = 0` and its `(X, Y, Z)` part is
`q * p`. -/
theorem mulVector3_eq_sandwich (q : Quaternion α) (p : Vector3 α)
    (hq : q.X ^ 2 + q.Y ^ 2 + q.Z ^ 2 + q.W ^ 2 = 1) :
    ((q.mul ⟨p.x, p.y, p.z, 0⟩).mul q.GetInverse).W = 0 ∧
    (⟨((q.mul ⟨p.x, p.y, p.z, 0⟩).mul q.GetInverse).X,
      ((q.mul ⟨p.x, p.y, p.z, 0⟩).mul q.GetInverse).Y,
      ((q.mul ⟨p.x, p.y, p.z, 0⟩).mul q.GetInverse).Z⟩ : Vector3 α) = q.mulVector3 p := by
  constructor
  · simp only [mul, GetInverse]
    ring
  · simp only [mul, GetInverse, mulVector3, Vector3.mk.injEq]
    refine ⟨?_, ?_, ?_⟩
    · linear_combination (-p.x) * hq
    · linear_combination (-p.y) * hq
    · linear_combination (-p.z) * hq

/-- The exact sandwich product for the unit quaternion `(3/5, 0, 4/5, 0)` and the vector
`(1, 2, 3)`. -/
theorem mulVector3_eq_sandwich_witness :
    ((3 / 5 : ℚ) ^ 2 + (0 : ℚ) ^ 2 + (4 / 5 : ℚ) ^ 2 + (0 : ℚ) ^ 2 = 1) ∧
    ((((⟨3 / 5, 0, 4 / 5, 0⟩ : Quaternion ℚ).mul ⟨1, 2, 3, 0⟩).mul
        (⟨3 / 5, 0, 4 / 5, 0⟩ : Quaternion ℚ).GetInverse).W = 0 ∧
    (⟨(((⟨3 / 5, 0, 4 / 5, 0⟩ : Quaternion ℚ).mul ⟨1, 2, 3, 0⟩).mul
        (⟨3 / 5, 0, 4 / 5, 0⟩ : Quaternion ℚ).GetInverse).X,
      (((⟨3 / 5, 0, 4 / 5, 0⟩ : Quaternion ℚ).mul ⟨1, 2, 3, 0⟩).mul
        (⟨3 / 5, 0, 4 / 5, 0⟩ : Quaternion ℚ).GetInverse).Y,
      (((⟨3 / 5, 0, 4 / 5, 0⟩ : Quaternion ℚ).mul ⟨1, 2, 3, 0⟩).mul
        (⟨3 / 5, 0, 4 / 5, 0⟩ : Quaternion ℚ).GetInverse).Z⟩ : Vector3 ℚ) =
      (⟨3 / 5, 0, 4 / 5, 0⟩ : Quaternion ℚ).mulVector3 ⟨1, 2, 3⟩) :=
  ⟨by norm_num, mulVector3_eq_sandwich ⟨3 / 5, 0, 4 / 5, 0⟩ ⟨1, 2, 3⟩ (by norm_num)⟩

/-- C18: `GetInverse` only negates `X`, `Y`, `Z`. For the quaternion `(0, 0, 0, 2)`, of norm 2,
it returns `(0, 0, 0, 2)` and both products are `(0, 0, 0, 4)`, not the identity
`(0, 0, 0, 1)`. -/
theorem GetInverse_of_norm_two :
    (⟨0, 0, 0, 2⟩ : Quaternion ℚ).GetInverse = ⟨0, 0, 0, 2⟩ ∧
    (⟨0, 0, 0, 2⟩ : Quaternion ℚ).mul (⟨0, 0, 0, 2⟩ : Quaternion ℚ).GetInverse = ⟨0, 0, 0, 4⟩ ∧
    (⟨0, 0, 0, 2⟩ : Quaternion ℚ).GetInverse.mul (⟨0, 0, 0, 2⟩ : Quaternion ℚ) = ⟨0, 0, 0, 4⟩ ∧
    (⟨0, 0, 0, 2⟩ : Quaternion ℚ).mul (⟨0, 0, 0, 2⟩ : Quaternion ℚ).GetInverse ≠
      (Quaternion.default : Quaternion ℚ) := by
  refine ⟨?_, ?_, ?_, ?_⟩
  · simp [GetInverse]
  · simp only [mul, GetInverse, Quaternion.mk.injEq]
    norm_num
  · simp only [mul, GetInverse, Quaternion.mk.injEq]
    norm_num
  · simp only [mul, GetInverse, Quaternion.default, ne_eq, Quaternion.mk.injEq]
    norm_num

end QuaternionAlgebra

section EulerOrder

open Real

/-- C19: with the real cosine and sine and `pitch = yaw = roll = π / 2`, the three-angle
constructor gives `X = 0` while the sequence constructor with `XYZ` gives `X = √2 / 2`; the
three-angle constructor agrees with the sequence `ZYX` for all angles. -/
theorem ofEuler_ne_ofEulerSequence_XYZ :
    (ofEuler Real.cos Real.sin (π / 2) (π / 2) (π / 2)).X = 0 ∧
    (ofEulerSequence Real.cos Real.sin (π / 2) (π / 2) (π / 2) RotationSequence.XYZ).X
      = √2 / 2 ∧
    ofEuler Real.cos Real.sin (π / 2) (π / 2) (π / 2) ≠
      ofEulerSequence Real.cos Real.sin (π / 2) (π / 2) (π / 2) RotationSequence.XYZ ∧
    (∀ pitch yaw roll : ℝ, ofEuler Real.cos Real.sin pitch yaw roll =
      ofEulerSequence Real.cos Real.sin pitch yaw roll RotationSequence.ZYX) := by
  have hhalf : π / 2 * 0.5 = π / 4 := by norm_num; ring
  have hsq : (√2 : ℝ) * √2 = 2 := Real.mul_self_sqrt (by norm_num)
  have hpos : (0 : ℝ) < √2 := Real.sqrt_pos.mpr (by norm_num)
  have hX3 : (ofEuler Real.cos Real.sin (π / 2) (π / 2) (π / 2)).X = 0 := by
    simp only [ofEuler, hhalf, Real.cos_pi_div_four, Real.sin_pi_div_four]
    ring
  have hX4 : (ofEulerSequence Real.cos Real.sin (π / 2) (π / 2) (π / 2)
      RotationSequence.XYZ).X = √2 / 2 := by
    rw [ofEulerSequence_XYZ]
    simp only [hhalf, Real.cos_pi_div_four, Real.sin_pi_div_four]
    linear_combination (√2 / 4) * hsq
  refine ⟨hX3, hX4, ?_, fun pitch yaw roll =>
    ofEuler_eq_ofEulerSequence_ZYX Real.cos Real.sin pitch yaw roll⟩
  intro h
  have hX := congrArg Quaternion.X h
  rw [hX3, hX4] at hX
  linarith

end EulerOrder

end Quaternion

namespace Matrix3

section Matrix3Inverse

variable {α : Type} [Field α]

/-- C20: for a matrix with a non-zero determinant, `M * M.Inverse()` and `M.Inverse() * M`
are the identity matrix. -/
theorem mul_Inverse [DecidableEq α] (M : Matrix3 α) (hdet : M.Determinant ≠ 0) :
    M.mul M.Inverse = IdentityMatrix ∧ M.Inverse.mul M = IdentityMatrix := by
  have hInv : M.Inverse = M.Adjugate.divScalar M.Determinant := by
    simp only [Matrix3.Inverse, if_neg hdet]
  rw [hInv]
  have hd : M.Determinant = M.get 0 0 * (M.get 1 1 * M.get 2 2 - M.get 1 2 * M.get 2 1) -
    M.get 1 0 * (M.get 0 1 * M.get 2 2 - M.get 2 1 * M.get 0 2) +
    M.get 2 0 * (M.get 0 1 * M.get 1 2 - M.get 1 1 * M.get 0 2) := rfl
  generalize M.Determinant = D at hdet hd
  constructor
  · apply get_ext
    intro row col
    fin_cases row <;> fin_cases col <;>
    · simp only [Matrix3.mul, Matrix3.divScalar, Matrix3.Adjugate, Matrix3.IdentityMatrix,
        get_ofEntries, diagonal_get, Fin.sum_univ_three]
      simp
      field_simp
      first
        | (rw [hd]; ring)
        | ring
  · apply get_ext
    intro row col
    fin_cases row <;> fin_cases col <;>
    · simp only [Matrix3.mul, Matrix3.divScalar, Matrix3.Adjugate, Matrix3.IdentityMatrix,
        get_ofEntries, diagonal_get, Fin.sum_univ_three]
      simp
      field_simp
      first
        | (rw [hd]; ring)
        | ring

/-- The inverse property of C20 for the matrix with rows `(1, 2, 0)`, `(0, 1, 3)`,
`(4, 0, 1)`, of determinant 25. -/
theorem mul_Inverse_witness :
    (ofEntries (fun row col => (![![1, 2, 0], ![0, 1, 3], ![4, 0, 1]] : Fin 3 → Fin 3 → ℚ)
      row col)).Determinant ≠ 0 ∧
    ((ofEntries (fun row col => (![![1, 2, 0], ![0, 1, 3], ![4, 0, 1]] : Fin 3 → Fin 3 → ℚ)
      row col)).mul
      (ofEntries (fun row col => (![![1, 2, 0], ![0, 1, 3], ![4, 0, 1]] : Fin 3 → Fin 3 → ℚ)
        row col)).Inverse = IdentityMatrix ∧
    (ofEntries (fun row col => (![![1, 2, 0], ![0, 1, 3], ![4, 0, 1]] : Fin 3 → Fin 3 → ℚ)
      row col)).Inverse.mul
      (ofEntries (fun row col => (![![1, 2, 0], ![0, 1, 3], ![4, 0, 1]] : Fin 3 → Fin 3 → ℚ)
        row col)) = IdentityMatrix) :=
  ⟨by simp [Matrix3.Determinant, get_ofEntries]; norm_num,
    mul_Inverse _ (by simp [Matrix3.Determinant, get_ofEntries]; norm_num)⟩

end Matrix3Inverse
end Matrix3
end LibMath

namespace LibMath
namespace CORDIC

section MagnitudeProduct

variable {α : Type} [LinearOrderedField α]

/-- A property indexed by the iteration count, true at the start and carried by every
successful iteration, holds when the loop returns. -/
theorem forLoop_invariant_indexed {σ : Type} (P : ℕ → σ → Prop) (body : ℕ → σ → Option σ)
    (n : ℕ) (s₀ : σ) (h0 : P 0 s₀)
    (hstep : ∀ i s s', i < n → P i s → body i s = some s' → P (i + 1) s') :
    ∀ s', forLoop body n s₀ = some s' → P n s' := by
  induction n with
  | zero =>
    intro s' h
    simp only [forLoop, Option.some.injEq] at h
    exact h ▸ h0
  | succ n ih =>
    intro s' h
    simp only [forLoop] at h
    cases hmid : forLoop body n s₀ with
    | none => simp [hmid] at h
    | some mid =>
      rw [hmid, Option.some_bind] at h
      exact hstep n mid s' (Nat.lt_succ_self n)
        (ih (fun i s s' hi => hstep i s s' (Nat.lt_succ_of_lt hi)) mid hmid) h

theorem magnitudeSq_succ (n : ℕ) :
    magnitudeSq (n + 1) = magnitudeSq n * (1 + (1 / 4 : ℚ) ^ n) := by
  unfold magnitudeSq
  rw [Finset.prod_range_succ]

theorem magnitudeSq_pos (n : ℕ) : 0 < magnitudeSq n := by
  unfold magnitudeSq
  apply Finset.prod_pos
  intro i _
  positivity

theorem quarter_pow_cast (i : ℕ) :
    (((1 / 4 : ℚ) ^ i : ℚ) : α) = ((2 : α) ^ (-(i : ℤ))) ^ 2 := by
  push_cast
  rw [zpow_neg, zpow_natCast, inv_pow, ← pow_mul, mul_comm, pow_mul, one_div, inv_pow]
  norm_num

/-- The pair returned by `PositionOf` has the squared length `magnitudeSq s_precision`. -/
theorem PositionOf_magnitudeSq (st : State) (targetAngle quarterCircle halfCircle : α)
    (tanLookup : List ℚ) (p : Coodinate α)
    (h : PositionOf st targetAngle quarterCircle halfCircle tanLookup = some p) :
    p.cos ^ 2 + p.sin ^ 2 = ((magnitudeSq st.s_precision.toNat : ℚ) : α) := by
  unfold PositionOf PositionOf.run at h
  cases hrun : forLoop (PositionOf.body targetAngle tanLookup) st.s_precision.toNat
      (PositionOf.start targetAngle quarterCircle halfCircle) with
  | none => simp [hrun] at h
  | some r =>
    simp only [hrun, Option.map_some', Option.some.injEq] at h
    subst h
    refine forLoop_invariant_indexed
      (fun i (r : Rotation α) => r.cos ^ 2 + r.sin ^ 2 = ((magnitudeSq i : ℚ) : α))
      (PositionOf.body targetAngle tanLookup) _ _ ?_ ?_ r hrun
    · show (PositionOf.start targetAngle quarterCircle halfCircle).cos ^ 2 +
        (PositionOf.start targetAngle quarterCircle halfCircle).sin ^ 2 = _
      unfold PositionOf.start magnitudeSq
      split_ifs <;> simp
    · intro i s s' _ hs hb
      show s'.cos ^ 2 + s'.sin ^ 2 = _
      rw [PositionOf_body_magnitude targetAngle tanLookup i s s' hb, hs, magnitudeSq_succ]
      push_cast
      rw [← quarter_pow_cast]
      push_cast
      ring

/-- The gain entry of index `k` squared, times the squared length `magnitudeSq (k + 1)`,
is 1 up to `10 ^ (-31)`, for the 21 entries. -/
theorem gain_sq_mul_magnitudeSq (k : ℕ) (hk : k < 21) (g : ℚ)
    (hg : s_cosLookup[k]? = some g) :
    |g ^ 2 * magnitudeSq (k + 1) - 1| ≤ 1 / 10 ^ 31 := by
  interval_cases k <;>
  · simp only [s_cosLookup, List.getElem?_cons_zero, List.getElem?_cons_succ,
      Option.some.injEq] at hg
    subst hg
    rw [abs_le]
    norm_num [magnitudeSq, Finset.prod_range_succ]

end MagnitudeProduct

end CORDIC
end LibMath
namespace LibMath
namespace CORDIC

section UnitMagnitude

variable {α : Type} [LinearOrderedField α] [FloorRing α]

omit [FloorRing α] in
/-- The gain-scaled pair of `PositionOf` has squared length 1 up to `10 ^ (-31)`. -/
theorem scaled_magnitude (st : State) (h1 : 1 ≤ st.s_precision) (h21 : st.s_precision ≤ 21)
    (targetAngle quarterCircle halfCircle : α) (tanLookup : List ℚ) (p : Coodinate α) (g : ℚ)
    (hp : PositionOf st targetAngle quarterCircle halfCircle tanLookup = some p)
    (hg : index s_cosLookup (st.s_precision - 1) = some g) :
    |(p.cos * (g : α)) ^ 2 + (p.sin * (g : α)) ^ 2 - 1| ≤ 1 / 10 ^ 31 := by
  have hmag := PositionOf_magnitudeSq st targetAngle quarterCircle halfCircle tanLookup p hp
  have hidx : s_cosLookup[(st.s_precision - 1).toNat]? = some g := by
    unfold index at hg
    rw [if_pos (by omega)] at hg
    exact hg
  have hk : (st.s_precision - 1).toNat < 21 := by omega
  have hnum := gain_sq_mul_magnitudeSq (st.s_precision - 1).toNat hk g hidx
  have hL : (st.s_precision - 1).toNat + 1 = st.s_precision.toNat := by omega
  rw [hL] at hnum
  have heq : (p.cos * (g : α)) ^ 2 + (p.sin * (g : α)) ^ 2 - 1 =
      ((g ^ 2 * magnitudeSq st.s_precision.toNat - 1 : ℚ) : α) := by
    push_cast
    rw [← hmag]
    ring
  rw [heq, ← Rat.cast_abs]
  have hcast : ((|g ^ 2 * magnitudeSq st.s_precision.toNat - 1| : ℚ) : α) ≤
      ((1 / 10 ^ 31 : ℚ) : α) := Rat.cast_le.mpr hnum
  calc ((|g ^ 2 * magnitudeSq st.s_precision.toNat - 1| : ℚ) : α)
      ≤ ((1 / 10 ^ 31 : ℚ) : α) := hcast
    _ = 1 / 10 ^ 31 := by push_cast; rfl

/-- C16: at every precision `L` from 1 to 20 and for every angle, `cos_0` and `sin_0` return
numbers `c` and `s` with `|c ^ 2 + s ^ 2 - 1| ≤ 2 ^ (-L)`. -/
theorem cos_0_sin_0_unit_magnitude (st : State) (h1 : 1 ≤ st.s_precision)
    (h20 : st.s_precision ≤ 20) (t : α) :
    ∃ c s, cos_0 st t = some (FloatVal.num c) ∧ sin_0 st t = some (FloatVal.num s) ∧
      |c ^ 2 + s ^ 2 - 1| ≤ (1 / 2 : α) ^ st.s_precision.toNat := by
  have h21 : st.s_precision ≤ 21 := by omega
  have hpow : (1 / 10 ^ 31 : α) ≤ (1 / 2 : α) ^ st.s_precision.toNat := by
    have hle : st.s_precision.toNat ≤ 20 := by omega
    calc (1 / 10 ^ 31 : α) ≤ (1 / 2 : α) ^ 20 := by norm_num
      _ ≤ (1 / 2 : α) ^ st.s_precision.toNat :=
        pow_le_pow_of_le_one (by norm_num) (by norm_num) hle
  by_cases h0 : Clamp t (CIRCLE_DEGREE : α) = 0
  · refine ⟨1, 0, ?_, ?_, ?_⟩
    · simp only [cos_0, h0, if_true]
    · simp only [sin_0, h0, if_true]
    · have : (1 : α) ^ 2 + 0 ^ 2 - 1 = 0 := by ring
      rw [this, abs_zero]
      positivity
  · obtain ⟨g, hg⟩ := gain_eq_some st h1 h21
    obtain ⟨p, hp⟩ := PositionOf_eq_some st (Clamp t (CIRCLE_DEGREE : α))
      (QUARTER_CIRCLE_DEGREE : α) (HALF_CIRCLE_DEGREE : α) s_tanLookupDegree
      (by rw [s_tanLookupDegree_length]; exact toNat_le_of_le st h21)
    refine ⟨p.cos * (g : α), p.sin * (g : α), ?_, ?_, ?_⟩
    · simp only [cos_0, if_neg h0, hp, hg, Option.some_bind, Option.map_some']
    · simp only [sin_0, if_neg h0, hp, hg, Option.some_bind, Option.map_some']
    · exact le_trans (scaled_magnitude st h1 h21 _ _ _ _ p g hp hg) hpow

/-- The magnitude bound of C16 at precision 7 for the angle 245. -/
theorem cos_0_sin_0_unit_magnitude_witness :
    ((1 : ℤ) ≤ (SetPrecision 7 State.initial).s_precision ∧
      (SetPrecision 7 State.initial).s_precision ≤ 20) ∧
    ∃ c s, cos_0 (SetPrecision 7 State.initial) (245 : ℚ) = some (FloatVal.num c) ∧
      sin_0 (SetPrecision 7 State.initial) (245 : ℚ) = some (FloatVal.num s) ∧
      |c ^ 2 + s ^ 2 - 1| ≤ (1 / 2 : ℚ) ^ (SetPrecision 7 State.initial).s_precision.toNat :=
  ⟨⟨by decide, by decide⟩,
    cos_0_sin_0_unit_magnitude (SetPrecision 7 State.initial) (by decide) (by decide) 245⟩

end UnitMagnitude

end CORDIC
end LibMath

namespace LibMath
namespace CORDIC

section Evaluation

theorem numWithin_spec (o : Option (FloatVal ℚ)) (center tol : ℚ)
    (h : numWithin o center tol = true) :
    ∃ v, o = some (FloatVal.num v) ∧ |v - center| ≤ tol := by
  cases o with
  | none => simp [numWithin] at h
  | some w =>
    cases w with
    | num v => exact ⟨v, rfl, by simpa [numWithin] using h⟩
    | inf b => simp [numWithin] at h
    | nan => simp [numWithin] at h

theorem numGt_spec (o1 o2 : Option (FloatVal ℚ)) (h : numGt o1 o2 = true) :
    ∃ v1 v2, o1 = some (FloatVal.num v1) ∧ o2 = some (FloatVal.num v2) ∧ v2 < v1 := by
  cases o1 with
  | none => simp [numGt] at h
  | some w1 =>
    cases o2 with
    | none => cases w1 <;> simp [numGt] at h
    | some w2 =>
      cases w1 with
      | num v1 =>
        cases w2 with
        | num v2 => exact ⟨v1, v2, rfl, rfl, by simpa [numGt] using h⟩
        | inf b => simp [numGt] at h
        | nan => simp [numGt] at h
      | inf b => cases w2 <;> simp [numGt] at h
      | nan => cases w2 <;> simp [numGt] at h

/-- C12: at precision 20 and at the initial precision 21, `cos_r (PI / 3)` evaluated over the
rationals with the literal tables is a number within `1e-4` of `0.5`. -/
theorem cos_r_third_of_PI :
    (∃ v, cos_r (SetPrecision 20 State.initial) (PI / 3 : ℚ) = some (FloatVal.num v) ∧
      |v - 1 / 2| ≤ 1 / 10000) ∧
    (∃ v, cos_r State.initial (PI / 3 : ℚ) = some (FloatVal.num v) ∧
      |v - 1 / 2| ≤ 1 / 10000) :=
  ⟨numWithin_spec _ _ _ (by decide!), numWithin_spec _ _ _ (by decide!)⟩

end Evaluation

end CORDIC
end LibMath

namespace LibMath
namespace CORDIC

section TargetIntervals

variable {α : Type} [LinearOrderedField α]

/-- Peeling the first iteration off a counted loop. -/
theorem forLoop_shift {σ : Type} (body : ℕ → σ → Option σ) (i n : ℕ) (s : σ) :
    forLoop (fun j => body (i + j)) (n + 1) s =
      (body i s).bind (forLoop (fun j => body (i + 1 + j)) n) := by
  induction n with
  | zero =>
    simp only [forLoop, Option.some_bind, Nat.add_zero]
    cases body i s <;> rfl
  | succ n ih =>
    have hstep : forLoop (fun j => body (i + j)) (n + 1 + 1) s =
        (forLoop (fun j => body (i + j)) (n + 1) s).bind (body (i + (n + 1))) := rfl
    rw [hstep, ih]
    cases body i s with
    | none => rfl
    | some s' =>
      simp only [Option.some_bind, forLoop]
      have : i + (n + 1) = i + 1 + n := by omega
      rw [this]

theorem forLoop_zero_shift {σ : Type} (body : ℕ → σ → Option σ) (n : ℕ) (s : σ) :
    forLoop (fun j => body (0 + j)) n s = forLoop body n s := by
  have : (fun j => body (0 + j)) = body := by
    funext j
    rw [Nat.zero_add]
  rw [this]

theorem ldexpf_cast (v : ℚ) (k : ℤ) : ((ldexpf v k : ℚ) : α) = ldexpf (v : α) k := by
  simp only [ldexpf]
  push_cast
  rfl

theorem PositionOf_body_cast_lt (t : α) (tanLookup : List ℚ) (i : ℕ) (r : Rotation ℚ)
    (h : (r.currentAngle : α) < t) :
    PositionOf.body t tanLookup i r.cast =
      (PositionOf.body (r.currentAngle + 1) tanLookup i r).map Rotation.cast := by
  have h1 : r.currentAngle < r.currentAngle + 1 := lt_add_one _
  have h2 : (Rotation.cast r : Rotation α).currentAngle < t := h
  simp only [PositionOf.body, if_pos h1, if_pos h2]
  cases index tanLookup i with
  | none => rfl
  | some step =>
    simp only [Option.map_some', Rotation.cast, ldexpf_cast, Rat.cast_add, Rat.cast_sub, Rat.cast_id]

theorem PositionOf_body_cast_not_lt (t : α) (tanLookup : List ℚ) (i : ℕ) (r : Rotation ℚ)
    (h : t ≤ (r.currentAngle : α)) :
    PositionOf.body t tanLookup i r.cast =
      (PositionOf.body r.currentAngle tanLookup i r).map Rotation.cast := by
  have h1 : ¬ r.currentAngle < r.currentAngle := lt_irrefl _
  have h2 : ¬ (Rotation.cast r : Rotation α).currentAngle < t := not_lt.mpr h
  simp only [PositionOf.body, if_neg h1, if_neg h2]
  cases index tanLookup i with
  | none => rfl
  | some step =>
    simp only [Option.map_some', Rotation.cast, ldexpf_cast, Rat.cast_add, Rat.cast_sub, Rat.cast_id]

/-- Every target of `(lo, hi]` ends the loop in the state of one of the leaves, the one whose
interval holds the target. -/
theorem PositionOf_leaves_sound (tanLookup : List ℚ) :
    ∀ (fuel i : ℕ) (lo hi : ℚ) (r : Rotation ℚ) (ls : List Leaf),
      PositionOf.leaves tanLookup fuel i lo hi r = some ls →
      ∀ t : α, (lo : α) < t → t ≤ (hi : α) →
        ∃ l ∈ ls, (l.lo : α) < t ∧ t ≤ (l.hi : α) ∧
          forLoop (fun j => PositionOf.body t tanLookup (i + j)) fuel r.cast =
            some l.rot.cast := by
  intro fuel
  induction fuel with
  | zero =>
    intro i lo hi r ls h t hlo hhi
    simp only [PositionOf.leaves, Option.some.injEq] at h
    subst h
    exact ⟨⟨lo, hi, r⟩, List.mem_singleton.mpr rfl, hlo, hhi, rfl⟩
  | succ fuel ih =>
    intro i lo hi r ls h t hlo hhi
    rw [forLoop_shift]
    simp only [PositionOf.leaves] at h
    split_ifs at h with hc1 hc2
    · -- every target is at most `currentAngle`
      have ht : t ≤ (r.currentAngle : α) :=
        le_trans hhi (by exact_mod_cast hc1)
      rw [PositionOf_body_cast_not_lt t tanLookup i r ht]
      cases hb : PositionOf.body r.currentAngle tanLookup i r with
      | none => simp [hb] at h
      | some r' =>
        rw [hb, Option.some_bind] at h
        simp only [Option.map_some', Option.some_bind]
        exact ih (i + 1) lo hi r' ls h t hlo hhi
    · -- every target is above `currentAngle`
      have ht : (r.currentAngle : α) < t :=
        lt_of_le_of_lt (by exact_mod_cast hc2) hlo
      rw [PositionOf_body_cast_lt t tanLookup i r ht]
      cases hb : PositionOf.body (r.currentAngle + 1) tanLookup i r with
      | none => simp [hb] at h
      | some r' =>
        rw [hb, Option.some_bind] at h
        simp only [Option.map_some', Option.some_bind]
        exact ih (i + 1) lo hi r' ls h t hlo hhi
    · cases hb1 : PositionOf.body r.currentAngle tanLookup i r with
      | none => simp [hb1] at h
      | some r1 =>
        cases hb2 : PositionOf.body (r.currentAngle + 1) tanLookup i r with
        | none =>
          rw [hb1, hb2] at h
          simp only [Option.some_bind, Option.none_bind, Option.map_none'] at h
          cases hl1 : PositionOf.leaves tanLookup fuel (i + 1) lo r.currentAngle r1 with
          | none => simp [hl1] at h
          | some l1 => simp [hl1] at h
        | some r2 =>
          rw [hb1, hb2] at h
          simp only [Option.some_bind] at h
          cases hl1 : PositionOf.leaves tanLookup fuel (i + 1) lo r.currentAngle r1 with
          | none => simp [hl1] at h
          | some l1 =>
            cases hl2 : PositionOf.leaves tanLookup fuel (i + 1) r.currentAngle hi r2 with
            | none => simp [hl1, hl2] at h
            | some l2 =>
              rw [hl1, hl2] at h
              simp only [Option.some_bind, Option.map_some', Option.some.injEq] at h
              subst h
              by_cases ht : t ≤ (r.currentAngle : α)
              · rw [PositionOf_body_cast_not_lt t tanLookup i r ht, hb1]
                simp only [Option.map_some', Option.some_bind]
                obtain ⟨l, hl, h1, h2, h3⟩ := ih (i + 1) lo r.currentAngle r1 l1 hl1 t hlo ht
                exact ⟨l, List.mem_append_left _ hl, h1, h2, h3⟩
              · have ht2 : (r.currentAngle : α) < t := not_le.mp ht
                rw [PositionOf_body_cast_lt t tanLookup i r ht2, hb2]
                simp only [Option.map_some', Option.some_bind]
                obtain ⟨l, hl, h1, h2, h3⟩ :=
                  ih (i + 1) r.currentAngle hi r2 l2 hl2 t ht2 hhi
                exact ⟨l, List.mem_append_right _ hl, h1, h2, h3⟩

end TargetIntervals

end CORDIC
end LibMath
namespace LibMath
namespace CORDIC

section Monotonicity

variable {α : Type} [LinearOrderedField α] [FloorRing α]

theorem pairwise_trichotomy {β : Type} (R : β → β → Prop) (l : List β) (h : l.Pairwise R)
    (x y : β) (hx : x ∈ l) (hy : y ∈ l) : x = y ∨ R x y ∨ R y x := by
  induction h with
  | nil => simp at hx
  | cons hhead _ ih =>
    rcases List.mem_cons.mp hx with hx1 | hx1
    · rcases List.mem_cons.mp hy with hy1 | hy1
      · exact Or.inl (hx1.trans hy1.symm)
      · exact Or.inr (Or.inl (hx1 ▸ hhead y hy1))
    · rcases List.mem_cons.mp hy with hy1 | hy1
      · exact Or.inr (Or.inr (hy1 ▸ hhead x hx1))
      · exact ih hx1 hy1

theorem s_cosLookup_pos (k : ℤ) (g : ℚ) (h : index s_cosLookup k = some g) : 0 < g := by
  have hmem : g ∈ s_cosLookup := by
    simp only [index] at h
    split_ifs at h
    exact List.getElem?_mem h
  have hall : ∀ x ∈ s_cosLookup, 0 < x := by decide!
  exact hall g hmem

/-- On `(0, 90]` the value of `sin_0` is the raw sine of the leaf holding the angle, times the
gain. -/
theorem sin_0_of_leaves (st : State) (ls : List Leaf)
    (hls : PositionOf.leaves s_tanLookupDegree st.s_precision.toNat 0 0 90 ⟨90, 0, 1⟩ = some ls)
    (g : ℚ) (hg : index s_cosLookup (st.s_precision - 1) = some g)
    (t : α) (h0 : 0 < t) (h90 : t ≤ 90) :
    ∃ l ∈ ls, (l.lo : α) < t ∧ t ≤ (l.hi : α) ∧
      sin_0 st t = some (FloatVal.num ((l.rot.sin : α) * (g : α))) := by
  have hC : Clamp t (CIRCLE_DEGREE : α) = t := by
    rw [CIRCLE_DEGREE_cast]
    exact Clamp_of_mem t 360 h0.le (by linarith)
  obtain ⟨l, hl, h1, h2, h3⟩ := PositionOf_leaves_sound s_tanLookupDegree
    st.s_precision.toNat 0 0 90 ⟨90, 0, 1⟩ ls hls t (by simpa using h0) (by simpa using h90)
  refine ⟨l, hl, h1, h2, ?_⟩
  rw [forLoop_zero_shift] at h3
  have hstart : PositionOf.start t (QUARTER_CIRCLE_DEGREE : α) (HALF_CIRCLE_DEGREE : α) =
      Rotation.cast ⟨90, 0, 1⟩ := by
    have : ¬ t > ((HALF_CIRCLE_DEGREE : ℚ) : α) := by
      simp only [HALF_CIRCLE_DEGREE]
      push_cast
      linarith
    simp only [PositionOf.start, if_neg this, Rotation.cast, QUARTER_CIRCLE_DEGREE]
    push_cast
    rfl
  simp only [sin_0, hC, if_neg h0.ne', PositionOf, PositionOf.run, hstart]
  rw [h3]
  simp only [hg, Option.map_some', Option.some_bind, Rotation.cast]

theorem sin_0_mono_of_sorted (st : State) (h1 : 1 ≤ st.s_precision)
    (h21 : st.s_precision ≤ 21) (hs : sinLeavesSorted st.s_precision.toNat = true)
    (a b : α) (ha : 0 ≤ a) (hab : a ≤ b) (hb : b ≤ 90) :
    ∃ x y, sin_0 st a = some (FloatVal.num x) ∧ sin_0 st b = some (FloatVal.num y) ∧
      x ≤ y := by
  obtain ⟨g, hg⟩ := gain_eq_some st h1 h21
  have hgpos : (0 : α) < (g : α) := by exact_mod_cast s_cosLookup_pos _ g hg
  simp only [sinLeavesSorted] at hs
  cases hls : PositionOf.leaves s_tanLookupDegree st.s_precision.toNat 0 0 90 ⟨90, 0, 1⟩ with
  | none => simp [hls] at hs
  | some ls =>
    rw [hls] at hs
    simp only [Bool.and_eq_true, decide_eq_true_eq] at hs
    obtain ⟨hpair, hnonneg⟩ := hs
    have hzero : sin_0 st (0 : α) = some (FloatVal.num 0) := by
      simp only [sin_0, Clamp_zero, if_true]
    rcases ha.eq_or_lt with ha0 | ha0
    · subst ha0
      rcases hab.eq_or_lt with hb0 | hb0
      · subst hb0
        exact ⟨0, 0, hzero, hzero, le_refl _⟩
      · obtain ⟨l, hl, _, _, hsin⟩ := sin_0_of_leaves st ls hls g hg b hb0 hb
        refine ⟨0, _, hzero, hsin, ?_⟩
        have : (0 : α) ≤ (l.rot.sin : α) := by exact_mod_cast hnonneg l hl
        exact mul_nonneg this hgpos.le
    · have hb0 : 0 < b := lt_of_lt_of_le ha0 hab
      obtain ⟨la, hla, ha1, ha2, hsa⟩ :=
        sin_0_of_leaves st ls hls g hg a ha0 (le_trans hab hb)
      obtain ⟨lb, hlb, hb1, hb2, hsb⟩ := sin_0_of_leaves st ls hls g hg b hb0 hb
      refine ⟨_, _, hsa, hsb, ?_⟩
      apply mul_le_mul_of_nonneg_right _ hgpos.le
      rcases pairwise_trichotomy _ ls hpair la lb hla hlb with heq | hlt | hgt
      · rw [heq]
      · exact_mod_cast hlt.2
      · exfalso
        have h3 : (lb.hi : α) ≤ (la.lo : α) := by exact_mod_cast hgt.1
        linarith

/-- C15 fails as stated. At precision 4 the short circuit gives `sin_0(0) = 0` while
`sin_0(1/1000)` is negative, and at the initial precision 21 `sin_0(45)` is above
`sin_0(45 + 1/1000000)`. -/
theorem sin_0_not_monotone :
    (∃ v1 v2, sin_0 (SetPrecision 4 State.initial) (0 : ℚ) = some (FloatVal.num v1) ∧
      sin_0 (SetPrecision 4 State.initial) (1 / 1000 : ℚ) = some (FloatVal.num v2) ∧
      v2 < v1) ∧
    (∃ v1 v2, sin_0 State.initial (45 : ℚ) = some (FloatVal.num v1) ∧
      sin_0 State.initial (45 + 1 / 1000000 : ℚ) = some (FloatVal.num v2) ∧ v2 < v1) :=
  ⟨numGt_spec _ _ (by decide!), numGt_spec _ _ (by decide!)⟩

/-- At the precisions 1, 2, 3 and 5, `sin_0` is non-decreasing on `[0, 90]`: for
`0 ≤ a ≤ b ≤ 90` both values are numbers and `sin_0(a) ≤ sin_0(b)`. -/
theorem sin_0_monotone_at_levels_1_2_3_5 (st : State)
    (hL : st.s_precision = 1 ∨ st.s_precision = 2 ∨ st.s_precision = 3 ∨ st.s_precision = 5)
    (a b : α) (ha : 0 ≤ a) (hab : a ≤ b) (hb : b ≤ 90) :
    ∃ x y, sin_0 st a = some (FloatVal.num x) ∧ sin_0 st b = some (FloatVal.num y) ∧
      x ≤ y := by
  rcases hL with h | h | h | h
  · exact sin_0_mono_of_sorted st (by omega) (by omega) (by rw [h]; decide!) a b ha hab hb
  · exact sin_0_mono_of_sorted st (by omega) (by omega) (by rw [h]; decide!) a b ha hab hb
  · exact sin_0_mono_of_sorted st (by omega) (by omega) (by rw [h]; decide!) a b ha hab hb
  · exact sin_0_mono_of_sorted st (by omega) (by omega) (by rw [h]; decide!) a b ha hab hb

/-- The monotonicity at precision 5 between the angles 10 and 50. -/
theorem sin_0_monotone_at_levels_1_2_3_5_witness :
    ((SetPrecision 5 State.initial).s_precision = 1 ∨
      (SetPrecision 5 State.initial).s_precision = 2 ∨
      (SetPrecision 5 State.initial).s_precision = 3 ∨
      (SetPrecision 5 State.initial).s_precision = 5) ∧
    ((0 : ℚ) ≤ 10 ∧ (10 : ℚ) ≤ 50 ∧ (50 : ℚ) ≤ 90) ∧
    ∃ x y, sin_0 (SetPrecision 5 State.initial) (10 : ℚ) = some (FloatVal.num x) ∧
      sin_0 (SetPrecision 5 State.initial) (50 : ℚ) = some (FloatVal.num y) ∧ x ≤ y :=
  ⟨by decide, ⟨by norm_num, by norm_num, by norm_num⟩,
    sin_0_monotone_at_levels_1_2_3_5 (SetPrecision 5 State.initial) (by decide) 10 50
      (by norm_num) (by norm_num) (by norm_num)⟩

end Monotonicity

end CORDIC
end LibMath

namespace LibMath
namespace CORDIC

section Convergence

variable {α : Type} [LinearOrderedField α]

theorem residual_succ (table : List ℚ) (L i : ℕ) (hi : i < L) (hL : L ≤ table.length) :
    residual table L i = table.getD i 0 + residual table L (i + 1) := by
  have hlen : i < (table.take L).length := by
    rw [List.length_take]
    omega
  have hit : i < table.length := by omega
  simp only [residual]
  rw [List.drop_eq_getElem_cons hlen, List.sum_cons, List.getElem_take,
    List.getD_eq_getElem table 0 hit]
  ring

theorem residual_self (table : List ℚ) (L : ℕ) :
    residual table L L = table.getD (L - 1) 0 := by
  have : (table.take L).drop L = [] :=
    List.drop_eq_nil_of_le (List.length_take_le L table)
  simp only [residual, this, List.sum_nil, zero_add]

theorem searchConverges_start (table : List ℚ) (quarter : ℚ) (L : ℕ)
    (h : searchConverges table quarter L = true) : quarter ≤ residual table L 0 := by
  simp only [searchConverges, Bool.and_eq_true, decide_eq_true_eq] at h
  exact h.1

theorem searchConverges_step (table : List ℚ) (quarter : ℚ) (L : ℕ)
    (h : searchConverges table quarter L = true) (i : ℕ) (hi : i < L) :
    table.getD i 0 ≤ residual table L (i + 1) := by
  simp only [searchConverges, Bool.and_eq_true, decide_eq_true_eq, List.all_eq_true,
    List.mem_range] at h
  exact h.2 i hi

/-- What one iteration of `PositionOf` does, by the outcome of its comparison. -/
theorem PositionOf_body_cases (t : α) (tanLookup : List ℚ) (i : ℕ) (r r' : Rotation α)
    (h : PositionOf.body t tanLookup i r = some r') :
    ∃ step : ℚ, tanLookup[i]? = some step ∧
      ((r.currentAngle < t ∧ r' = ⟨r.currentAngle + (step : α),
          r.cos - ldexpf r.sin (-(i : ℤ)), r.sin + ldexpf r.cos (-(i : ℤ))⟩) ∨
        (t ≤ r.currentAngle ∧ r' = ⟨r.currentAngle - (step : α),
          r.cos + ldexpf r.sin (-(i : ℤ)), r.sin - ldexpf r.cos (-(i : ℤ))⟩)) := by
  simp only [PositionOf.body, index_natCast] at h
  cases hidx : tanLookup[i]? with
  | none =>
    rw [hidx] at h
    split_ifs at h <;> simp at h
  | some step =>
    rw [hidx] at h
    refine ⟨step, rfl, ?_⟩
    split_ifs at h with hlt
    · left
      simp only [Option.map_some', Option.some.injEq] at h
      exact ⟨hlt, h.symm⟩
    · right
      simp only [Option.map_some', Option.some.injEq] at h
      exact ⟨not_lt.mp hlt, h.symm⟩

/-- The angle search of `PositionOf` converges: when the table passes `searchConverges` and
the start is within `quarter` of the target, after `L` iterations the current angle is within
`table[L - 1]` of the target. -/
theorem PositionOf_search_converges (table : List ℚ) (quarter : ℚ) (L : ℕ)
    (hL : L ≤ table.length) (hc : searchConverges table quarter L = true)
    (t : α) (r₀ r : Rotation α) (h0 : |r₀.currentAngle - t| ≤ (quarter : α))
    (hrun : forLoop (PositionOf.body t table) L r₀ = some r) :
    |r.currentAngle - t| ≤ ((table.getD (L - 1) 0 : ℚ) : α) := by
  have key := forLoop_invariant_indexed
    (fun i (s : Rotation α) => |s.currentAngle - t| ≤ ((residual table L i : ℚ) : α))
    (PositionOf.body t table) L r₀
    (le_trans h0 (by exact_mod_cast searchConverges_start table quarter L hc))
    (by
      intro i s s' hi hs hb
      obtain ⟨step, hstep, hcase⟩ := PositionOf_body_cases t table i s s' hb
      have hit : i < table.length := by omega
      have hget : table.getD i 0 = step := by
        rw [List.getD_eq_getElem?_getD, hstep]
        rfl
      have hres : ((residual table L i : ℚ) : α) =
          (step : α) + ((residual table L (i + 1) : ℚ) : α) := by
        rw [residual_succ table L i hi hL, hget]
        push_cast
        rfl
      have hle : (step : α) ≤ ((residual table L (i + 1) : ℚ) : α) := by
        have := searchConverges_step table quarter L hc i hi
        rw [hget] at this
        exact_mod_cast this
      show |s'.currentAngle - t| ≤ _
      rw [hres] at hs
      rw [abs_le] at hs ⊢
      rcases hcase with ⟨hlt, rfl⟩ | ⟨hge, rfl⟩
      · constructor <;> simp only <;> linarith
      · constructor <;> simp only <;> linarith)
    r hrun
  simpa only [residual_self] using key

end Convergence

end CORDIC
end LibMath

namespace LibMath
namespace CORDIC

section ArctanSeries

theorem arctanPartial_cast (q : ℚ) (n : ℕ) :
    ((arctanPartial q n : ℚ) : ℝ) = arctanPartial (q : ℝ) n := by
  induction n with
  | zero => simp [arctanPartial]
  | succ n ih =>
    simp only [arctanPartial]
    push_cast
    rw [ih]

theorem arctanPartial_zero (n : ℕ) : arctanPartial (0 : ℝ) n = 0 := by
  induction n with
  | zero => rfl
  | succ n ih => simp [arctanPartial, ih]

/-- The derivative of the partial sum, in closed form. -/
theorem arctanPartial_hasDerivAt (n : ℕ) (x : ℝ) :
    HasDerivAt (fun y : ℝ => arctanPartial y n) ((1 - (-(x ^ 2)) ^ n) / (1 + x ^ 2)) x := by
  induction n with
  | zero =>
    simp only [arctanPartial, pow_zero, sub_self, zero_div]
    exact hasDerivAt_const x 0
  | succ n ih =>
    have hpos : (1 + x ^ 2 : ℝ) ≠ 0 := by positivity
    have hn : ((2 * n + 1 : ℕ) : ℝ) ≠ 0 := by positivity
    have hterm : HasDerivAt (fun y : ℝ => (-1) ^ n * y ^ (2 * n + 1) / ((2 * n + 1 : ℕ) : ℝ))
        ((-1) ^ n * (((2 * n + 1 : ℕ) : ℝ) * x ^ (2 * n)) / ((2 * n + 1 : ℕ) : ℝ)) x :=
      ((hasDerivAt_pow (2 * n + 1) x).const_mul ((-1 : ℝ) ^ n)).div_const _
    have hsum := ih.add hterm
    have heq : (1 - (-(x ^ 2)) ^ n) / (1 + x ^ 2) +
        (-1) ^ n * (((2 * n + 1 : ℕ) : ℝ) * x ^ (2 * n)) / ((2 * n + 1 : ℕ) : ℝ) =
        (1 - (-(x ^ 2)) ^ (n + 1)) / (1 + x ^ 2) := by
      have h1 : (-(x ^ 2)) ^ n = (-1) ^ n * x ^ (2 * n) := by
        rw [neg_pow, pow_mul]
      rw [pow_succ (-(x ^ 2)) n, h1]
      field_simp
      ring
    rw [heq] at hsum
    exact hsum

/-- An even number of terms of the series is a lower bound of the arctangent on `x ≥ 0`. -/
theorem arctanPartial_even_le (m : ℕ) (x : ℝ) (hx : 0 ≤ x) :
    arctanPartial x (2 * m) ≤ Real.arctan x := by
  have hd : ∀ y : ℝ, HasDerivAt (fun y : ℝ => Real.arctan y - arctanPartial y (2 * m))
      ((-(y ^ 2)) ^ (2 * m) / (1 + y ^ 2)) y := by
    intro y
    have h := (Real.hasDerivAt_arctan y).sub (arctanPartial_hasDerivAt (2 * m) y)
    have hpos : (1 + y ^ 2 : ℝ) ≠ 0 := by positivity
    have heq : 1 / (1 + y ^ 2) - (1 - (-(y ^ 2)) ^ (2 * m)) / (1 + y ^ 2) =
        (-(y ^ 2)) ^ (2 * m) / (1 + y ^ 2) := by
      field_simp
    rw [heq] at h
    exact h
  have hmono : Monotone (fun y : ℝ => Real.arctan y - arctanPartial y (2 * m)) := by
    apply monotone_of_deriv_nonneg (fun y => (hd y).differentiableAt)
    intro y
    rw [(hd y).deriv]
    have : (0 : ℝ) ≤ (-(y ^ 2)) ^ (2 * m) := by
      rw [pow_mul]
      positivity
    positivity
  have h0 := hmono hx
  simp only [Real.arctan_zero, arctanPartial_zero, sub_zero] at h0
  linarith

/-- An odd number of terms of the series is an upper bound of the arctangent on `x ≥ 0`. -/
theorem arctanPartial_odd_ge (m : ℕ) (x : ℝ) (hx : 0 ≤ x) :
    Real.arctan x ≤ arctanPartial x (2 * m + 1) := by
  have hd : ∀ y : ℝ, HasDerivAt (fun y : ℝ => arctanPartial y (2 * m + 1) - Real.arctan y)
      ((y ^ 2) ^ (2 * m + 1) / (1 + y ^ 2)) y := by
    intro y
    have h := (arctanPartial_hasDerivAt (2 * m + 1) y).sub (Real.hasDerivAt_arctan y)
    have hpos : (1 + y ^ 2 : ℝ) ≠ 0 := by positivity
    have heq : (1 - (-(y ^ 2)) ^ (2 * m + 1)) / (1 + y ^ 2) - 1 / (1 + y ^ 2) =
        (y ^ 2) ^ (2 * m + 1) / (1 + y ^ 2) := by
      rw [Odd.neg_pow ⟨m, rfl⟩]
      field_simp
    rw [heq] at h
    exact h
  have hmono : Monotone (fun y : ℝ => arctanPartial y (2 * m + 1) - Real.arctan y) := by
    apply monotone_of_deriv_nonneg (fun y => (hd y).differentiableAt)
    intro y
    rw [(hd y).deriv]
    positivity
  have h0 := hmono hx
  simp only [Real.arctan_zero, arctanPartial_zero, sub_zero] at h0
  linarith

end ArctanSeries

end CORDIC
end LibMath

namespace LibMath
namespace CORDIC

section TableAccuracy

theorem piLower_lt_pi : ((piLower : ℚ) : ℝ) < Real.pi := by
  have h := Real.pi_gt_d20
  have : ((piLower : ℚ) : ℝ) = 3.14159265358979323846 := by
    simp only [piLower]
    norm_num
  rw [this]
  exact h

theorem pi_lt_piUpper : Real.pi < ((piUpper : ℚ) : ℝ) := by
  have h := Real.pi_lt_d20
  have : ((piUpper : ℚ) : ℝ) = 3.14159265358979323847 := by
    simp only [piUpper]
    norm_num
  rw [this]
  exact h

/-- A table that passes `stepTableAccurate` holds the arctangents of the powers of `1/2`:
entry `j ≥ 1` times the conversion factor `d` is within `tol` of `arctan ((1/2) ^ j)`. -/
theorem stepTable_accurate (table : List ℚ) (scaleLower scaleUpper tol : ℚ)
    (h : stepTableAccurate table scaleLower scaleUpper tol = true) (d : ℝ)
    (hlo : (scaleLower : ℝ) ≤ d) (hhi : d ≤ (scaleUpper : ℝ)) (j : ℕ) (hj : 1 ≤ j) (s : ℚ)
    (hs : table[j]? = some s) :
    |(s : ℝ) * d - Real.arctan ((1 / 2 : ℝ) ^ j)| ≤ (tol : ℝ) := by
  have hjlt : j < table.length := by
    by_contra hcon
    rw [List.getElem?_eq_none (not_lt.mp hcon)] at hs
    exact Option.noConfusion hs
  have hget : table.getD j 0 = s := by
    rw [List.getD_eq_getElem?_getD, hs]
    rfl
  simp only [stepTableAccurate, List.all_eq_true, List.mem_range, Bool.or_eq_true,
    Bool.and_eq_true, decide_eq_true_eq] at h
  rcases h j hjlt with h0 | ⟨⟨hnn, hup⟩, hdown⟩
  · omega
  · rw [hget] at hnn hup hdown
    have hx : (0 : ℝ) ≤ (1 / 2 : ℝ) ^ j := by positivity
    have hlow := arctanPartial_even_le 10 ((1 / 2 : ℝ) ^ j) hx
    have hupp := arctanPartial_odd_ge 10 ((1 / 2 : ℝ) ^ j) hx
    have hc20 : ((arctanPartial ((1 / 2 : ℚ) ^ j) 20 : ℚ) : ℝ) =
        arctanPartial ((1 / 2 : ℝ) ^ j) (2 * 10) := by
      rw [arctanPartial_cast]
      push_cast
      rfl
    have hc21 : ((arctanPartial ((1 / 2 : ℚ) ^ j) 21 : ℚ) : ℝ) =
        arctanPartial ((1 / 2 : ℝ) ^ j) (2 * 10 + 1) := by
      rw [arctanPartial_cast]
      push_cast
      rfl
    have hupR : (s : ℝ) * (scaleUpper : ℝ) ≤
        ((arctanPartial ((1 / 2 : ℚ) ^ j) 20 : ℚ) : ℝ) + (tol : ℝ) := by
      exact_mod_cast hup
    have hdownR : ((arctanPartial ((1 / 2 : ℚ) ^ j) 21 : ℚ) : ℝ) - (tol : ℝ) ≤
        (s : ℝ) * (scaleLower : ℝ) := by
      exact_mod_cast hdown
    have hsnn : (0 : ℝ) ≤ (s : ℝ) := by exact_mod_cast hnn
    have h1 : (s : ℝ) * d ≤ (s : ℝ) * (scaleUpper : ℝ) := mul_le_mul_of_nonneg_left hhi hsnn
    have h2 : (s : ℝ) * (scaleLower : ℝ) ≤ (s : ℝ) * d := mul_le_mul_of_nonneg_left hlo hsnn
    rw [hc20] at hupR
    rw [hc21] at hdownR
    rw [abs_le]
    constructor <;> linarith

theorem s_tanLookupDegree_checked :
    stepTableAccurate s_tanLookupDegree (piLower / 180) (piUpper / 180) (1 / 10 ^ 12) = true := by
  decide!

/-- Every entry of the degree table, in radians, is within `10 ^ (-12)` of the arctangent of
the matching power of `1/2`. -/
theorem s_tanLookupDegree_accurate (j : ℕ) (s : ℚ) (hs : s_tanLookupDegree[j]? = some s) :
    |(s : ℝ) * (Real.pi / 180) - Real.arctan ((1 / 2 : ℝ) ^ j)| ≤ 1 / 10 ^ 12 := by
  rcases Nat.eq_zero_or_pos j with h0 | hpos
  · subst h0
    have hs45 : s = 45 := by
      simp only [s_tanLookupDegree, List.getElem?_cons_zero, Option.some.injEq] at hs
      rw [← hs]
    subst hs45
    have : ((45 : ℚ) : ℝ) * (Real.pi / 180) - Real.arctan ((1 / 2 : ℝ) ^ 0) = 0 := by
      rw [pow_zero, Real.arctan_one]
      push_cast
      ring
    rw [this, abs_zero]
    positivity
  · have h := stepTable_accurate s_tanLookupDegree (piLower / 180) (piUpper / 180)
      (1 / 10 ^ 12) s_tanLookupDegree_checked (Real.pi / 180)
      (by push_cast; linarith [piLower_lt_pi])
      (by push_cast; linarith [pi_lt_piUpper]) j hpos s hs
    simpa using h

end TableAccuracy

end CORDIC
end LibMath

namespace LibMath
namespace CORDIC

section RotationInvariant

theorem two_zpow_neg (i : ℕ) : (2 : ℝ) ^ (-(i : ℤ)) = (1 / 2 : ℝ) ^ i := by
  rw [zpow_neg, zpow_natCast, one_div, inv_pow]

theorem sqrt_magnitudeSq_succ (n : ℕ) :
    Real.sqrt ((magnitudeSq (n + 1) : ℚ) : ℝ) =
      Real.sqrt ((magnitudeSq n : ℚ) : ℝ) * Real.sqrt (1 + ((1 / 2 : ℝ) ^ n) ^ 2) := by
  have h0 : (0 : ℝ) ≤ ((magnitudeSq n : ℚ) : ℝ) := by exact_mod_cast (magnitudeSq_pos n).le
  rw [← Real.sqrt_mul h0, magnitudeSq_succ]
  congr 1
  push_cast
  rw [← pow_mul, mul_comm n 2, pow_mul]
  norm_num

/-- A micro-rotation by the tangent `x` turns the vector of angle `φ` by `arctan x` and scales
it by `√(1 + x²)`. -/
theorem micro_rotation_add (m φ x : ℝ) :
    m * Real.cos φ - m * Real.sin φ * x =
        m * Real.sqrt (1 + x ^ 2) * Real.cos (φ + Real.arctan x) ∧
      m * Real.sin φ + m * Real.cos φ * x =
        m * Real.sqrt (1 + x ^ 2) * Real.sin (φ + Real.arctan x) := by
  have hpos : (0 : ℝ) < Real.sqrt (1 + x ^ 2) := Real.sqrt_pos.mpr (by positivity)
  rw [Real.cos_add, Real.sin_add, Real.cos_arctan, Real.sin_arctan]
  constructor <;> field_simp <;> ring

theorem micro_rotation_sub (m φ x : ℝ) :
    m * Real.cos φ + m * Real.sin φ * x =
        m * Real.sqrt (1 + x ^ 2) * Real.cos (φ - Real.arctan x) ∧
      m * Real.sin φ - m * Real.cos φ * x =
        m * Real.sqrt (1 + x ^ 2) * Real.sin (φ - Real.arctan x) := by
  have hpos : (0 : ℝ) < Real.sqrt (1 + x ^ 2) := Real.sqrt_pos.mpr (by positivity)
  rw [Real.cos_sub, Real.sin_sub, Real.cos_arctan, Real.sin_arctan]
  constructor <;> field_simp <;> ring

/-- The loop of `PositionOf` keeps the vector `(cos, sin)` on a ray whose angle follows
`currentAngle`: after `n` iterations the vector is `m √(magnitudeSq n) (cos θ, sin θ)` with
`θ` within `n δ` of `currentAngle` in radians, `δ` being the accuracy of the step table. -/
theorem PositionOf_rotation_invariant (table : List ℚ) (d δ : ℝ)
    (hacc : ∀ (j : ℕ) (s : ℚ), table[j]? = some s → |(s : ℝ) * d - Real.arctan ((1 / 2 : ℝ) ^ j)| ≤ δ)
    (t m θ₀ : ℝ) (r₀ : Rotation ℝ) (hc : r₀.cos = m * Real.cos θ₀)
    (hs : r₀.sin = m * Real.sin θ₀) (ha : r₀.currentAngle * d = θ₀)
    (n : ℕ) (r : Rotation ℝ) (hrun : forLoop (PositionOf.body t table) n r₀ = some r) :
    ∃ θ, r.cos = m * Real.sqrt ((magnitudeSq n : ℚ) : ℝ) * Real.cos θ ∧
      r.sin = m * Real.sqrt ((magnitudeSq n : ℚ) : ℝ) * Real.sin θ ∧
      |r.currentAngle * d - θ| ≤ n * δ := by
  refine forLoop_invariant_indexed
    (fun i (s : Rotation ℝ) =>
      ∃ θ, s.cos = m * Real.sqrt ((magnitudeSq i : ℚ) : ℝ) * Real.cos θ ∧
        s.sin = m * Real.sqrt ((magnitudeSq i : ℚ) : ℝ) * Real.sin θ ∧
        |s.currentAngle * d - θ| ≤ i * δ)
    (PositionOf.body t table) n r₀ ?_ ?_ r hrun
  · refine ⟨θ₀, ?_, ?_, ?_⟩
    · simp [magnitudeSq, hc]
    · simp [magnitudeSq, hs]
    · simp [ha]
  · intro i s s' _ hP hb
    obtain ⟨θ, hcθ, hsθ, haθ⟩ := hP
    obtain ⟨step, hstep, hcase⟩ := PositionOf_body_cases t table i s s' hb
    have hstepacc := hacc i step hstep
    rw [abs_le] at hstepacc haθ
    rcases hcase with ⟨_, rfl⟩ | ⟨_, rfl⟩
    · refine ⟨θ + Real.arctan ((1 / 2 : ℝ) ^ i), ?_, ?_, ?_⟩
      · show s.cos - ldexpf s.sin (-(i : ℤ)) = _
        rw [sqrt_magnitudeSq_succ, ldexpf, two_zpow_neg, hcθ, hsθ, ← mul_assoc,
          ← (micro_rotation_add (m * Real.sqrt ((magnitudeSq i : ℚ) : ℝ)) θ
            ((1 / 2 : ℝ) ^ i)).1]
      · show s.sin + ldexpf s.cos (-(i : ℤ)) = _
        rw [sqrt_magnitudeSq_succ, ldexpf, two_zpow_neg, hcθ, hsθ, ← mul_assoc,
          ← (micro_rotation_add (m * Real.sqrt ((magnitudeSq i : ℚ) : ℝ)) θ
            ((1 / 2 : ℝ) ^ i)).2]
      · show |(s.currentAngle + (step : ℝ)) * d - _| ≤ _
        rw [abs_le]
        push_cast
        constructor <;> linarith
    · refine ⟨θ - Real.arctan ((1 / 2 : ℝ) ^ i), ?_, ?_, ?_⟩
      · show s.cos + ldexpf s.sin (-(i : ℤ)) = _
        rw [sqrt_magnitudeSq_succ, ldexpf, two_zpow_neg, hcθ, hsθ, ← mul_assoc,
          ← (micro_rotation_sub (m * Real.sqrt ((magnitudeSq i : ℚ) : ℝ)) θ
            ((1 / 2 : ℝ) ^ i)).1]
      · show s.sin - ldexpf s.cos (-(i : ℤ)) = _
        rw [sqrt_magnitudeSq_succ, ldexpf, two_zpow_neg, hcθ, hsθ, ← mul_assoc,
          ← (micro_rotation_sub (m * Real.sqrt ((magnitudeSq i : ℚ) : ℝ)) θ
            ((1 / 2 : ℝ) ^ i)).2]
      · show |(s.currentAngle - (step : ℝ)) * d - _| ≤ _
        rw [abs_le]
        push_cast
        constructor <;> linarith

end RotationInvariant

end CORDIC
end LibMath

namespace LibMath
namespace CORDIC

section ForwardAccuracy

theorem abs_sin_sub_sin_le (x y : ℝ) : |Real.sin x - Real.sin y| ≤ |x - y| := by
  rw [Real.sin_sub_sin, abs_mul, abs_mul]
  have h1 : |Real.sin ((x - y) / 2)| ≤ |(x - y) / 2| := Real.abs_sin_le_abs
  have h2 : |Real.cos ((x + y) / 2)| ≤ 1 := Real.abs_cos_le_one _
  have h3 : |(x - y) / 2| = |x - y| / 2 := by
    rw [abs_div, abs_two]
  have h4 : (0 : ℝ) ≤ |Real.sin ((x - y) / 2)| := abs_nonneg _
  rw [abs_two]
  nlinarith [abs_nonneg (Real.cos ((x + y) / 2)), abs_nonneg (x - y)]

theorem abs_cos_sub_cos_le (x y : ℝ) : |Real.cos x - Real.cos y| ≤ |x - y| := by
  rw [Real.cos_sub_cos, abs_mul, abs_mul, abs_neg]
  have h1 : |Real.sin ((x - y) / 2)| ≤ |(x - y) / 2| := Real.abs_sin_le_abs
  have h2 : |Real.sin ((x + y) / 2)| ≤ 1 := Real.abs_sin_le_one _
  have h3 : |(x - y) / 2| = |x - y| / 2 := by
    rw [abs_div, abs_two]
  have h4 : (0 : ℝ) ≤ |Real.sin ((x - y) / 2)| := abs_nonneg _
  rw [abs_two]
  nlinarith [abs_nonneg (Real.sin ((x + y) / 2)), abs_nonneg (x - y)]

/-- The gain entry of index `k` undoes the stretch of `k + 1` micro-rotations up to
`10 ^ (-31)`. -/
theorem gain_mul_sqrt_magnitudeSq (k : ℕ) (hk : k < 21) (g : ℚ)
    (hg : s_cosLookup[k]? = some g) :
    |(g : ℝ) * Real.sqrt ((magnitudeSq (k + 1) : ℚ) : ℝ) - 1| ≤ 1 / 10 ^ 31 := by
  have hgpos : (0 : ℝ) < (g : ℝ) := by
    have := s_cosLookup_pos (k : ℤ) g (by rw [index_natCast]; exact hg)
    exact_mod_cast this
  have hm : (0 : ℝ) ≤ ((magnitudeSq (k + 1) : ℚ) : ℝ) := by
    exact_mod_cast (magnitudeSq_pos (k + 1)).le
  have hρ : (0 : ℝ) ≤ Real.sqrt ((magnitudeSq (k + 1) : ℚ) : ℝ) := Real.sqrt_nonneg _
  have hK : (0 : ℝ) ≤ (g : ℝ) * Real.sqrt ((magnitudeSq (k + 1) : ℚ) : ℝ) :=
    mul_nonneg hgpos.le hρ
  have hsq : ((g : ℝ) * Real.sqrt ((magnitudeSq (k + 1) : ℚ) : ℝ)) ^ 2 - 1 =
      ((g ^ 2 * magnitudeSq (k + 1) - 1 : ℚ) : ℝ) := by
    rw [mul_pow, Real.sq_sqrt hm]
    push_cast
    ring
  have hnum : |((g ^ 2 * magnitudeSq (k + 1) - 1 : ℚ) : ℝ)| ≤ 1 / 10 ^ 31 := by
    have := gain_sq_mul_magnitudeSq k hk g hg
    rw [← Rat.cast_abs]
    have h2 : ((|g ^ 2 * magnitudeSq (k + 1) - 1| : ℚ) : ℝ) ≤ ((1 / 10 ^ 31 : ℚ) : ℝ) :=
      Rat.cast_le.mpr this
    simpa using h2
  rw [← hsq] at hnum
  have hfac : ((g : ℝ) * Real.sqrt ((magnitudeSq (k + 1) : ℚ) : ℝ)) ^ 2 - 1 =
      ((g : ℝ) * Real.sqrt ((magnitudeSq (k + 1) : ℚ) : ℝ) - 1) *
        ((g : ℝ) * Real.sqrt ((magnitudeSq (k + 1) : ℚ) : ℝ) + 1) := by ring
  rw [hfac, abs_mul] at hnum
  have h1 : (1 : ℝ) ≤ |(g : ℝ) * Real.sqrt ((magnitudeSq (k + 1) : ℚ) : ℝ) + 1| := by
    rw [abs_of_nonneg (by linarith)]
    linarith
  calc |(g : ℝ) * Real.sqrt ((magnitudeSq (k + 1) : ℚ) : ℝ) - 1|
      ≤ |(g : ℝ) * Real.sqrt ((magnitudeSq (k + 1) : ℚ) : ℝ) - 1| *
          |(g : ℝ) * Real.sqrt ((magnitudeSq (k + 1) : ℚ) : ℝ) + 1| :=
        le_mul_of_one_le_right (abs_nonneg _) h1
    _ ≤ 1 / 10 ^ 31 := hnum

theorem s_tanLookupDegree_searchConverges (L : ℕ) (h1 : 1 ≤ L) (h21 : L ≤ 21) :
    searchConverges s_tanLookupDegree 90 L = true := by
  interval_cases L <;> decide!

end ForwardAccuracy

end CORDIC
end LibMath

namespace LibMath
namespace CORDIC

section ForwardPolar

/-- Polar form of the degree forward pair: away from the short circuit, `cos_0` and `sin_0`
return `k cos θ` and `k sin θ` with `k` within `10 ^ (-31)` of 1 and `θ` within the last step
(in radians) plus `L 10 ^ (-12)` of the reduced angle. -/
theorem forward_0_polar (st : State) (h1 : 1 ≤ st.s_precision) (h21 : st.s_precision ≤ 21)
    (t : ℝ) (hne : Clamp t ((CIRCLE_DEGREE : ℚ) : ℝ) ≠ 0) :
    ∃ k θ : ℝ, cos_0 st t = some (FloatVal.num (k * Real.cos θ)) ∧
      sin_0 st t = some (FloatVal.num (k * Real.sin θ)) ∧
      |k - 1| ≤ 1 / 10 ^ 31 ∧
      |θ - Clamp t ((CIRCLE_DEGREE : ℚ) : ℝ) * (Real.pi / 180)| ≤
        ((s_tanLookupDegree.getD (st.s_precision.toNat - 1) 0 : ℚ) : ℝ) * (Real.pi / 180) +
          st.s_precision.toNat * (1 / 10 ^ 12) := by
  have hC : (0 : ℝ) < ((CIRCLE_DEGREE : ℚ) : ℝ) := by
    rw [CIRCLE_DEGREE_cast]
    norm_num
  have ht0 : 0 ≤ Clamp t ((CIRCLE_DEGREE : ℚ) : ℝ) := Clamp_nonneg t _ hC
  have ht1 : Clamp t ((CIRCLE_DEGREE : ℚ) : ℝ) < 360 := by
    have := Clamp_lt t _ hC
    rwa [CIRCLE_DEGREE_cast] at this
  generalize ht' : Clamp t ((CIRCLE_DEGREE : ℚ) : ℝ) = t' at hne ht0 ht1
  have hLnat : 1 ≤ st.s_precision.toNat ∧ st.s_precision.toNat ≤ 21 := by omega
  have hlen : st.s_precision.toNat ≤ s_tanLookupDegree.length := by
    rw [s_tanLookupDegree_length]
    exact hLnat.2
  obtain ⟨g, hg⟩ := gain_eq_some st h1 h21
  have hg' : s_cosLookup[st.s_precision.toNat - 1]? = some g := by
    have : st.s_precision - 1 = ((st.s_precision.toNat - 1 : ℕ) : ℤ) := by omega
    rw [this, index_natCast] at hg
    exact hg
  obtain ⟨r, hr⟩ := forLoop_eq_some (PositionOf.body t' s_tanLookupDegree)
    st.s_precision.toNat
    (fun i hi => PositionOf_body_eq_some t' s_tanLookupDegree i (lt_of_lt_of_le hi hlen))
    (PositionOf.start t' ((QUARTER_CIRCLE_DEGREE : ℚ) : ℝ) ((HALF_CIRCLE_DEGREE : ℚ) : ℝ))
  have hq : ((QUARTER_CIRCLE_DEGREE : ℚ) : ℝ) = 90 := by simp [QUARTER_CIRCLE_DEGREE]
  have hh : ((HALF_CIRCLE_DEGREE : ℚ) : ℝ) = 180 := by simp [HALF_CIRCLE_DEGREE]
  -- the starting point is on the unit circle at the angle of `currentAngle`
  have hstart : ∃ θ₀ : ℝ,
      (PositionOf.start t' ((QUARTER_CIRCLE_DEGREE : ℚ) : ℝ)
        ((HALF_CIRCLE_DEGREE : ℚ) : ℝ)).cos = 1 * Real.cos θ₀ ∧
      (PositionOf.start t' ((QUARTER_CIRCLE_DEGREE : ℚ) : ℝ)
        ((HALF_CIRCLE_DEGREE : ℚ) : ℝ)).sin = 1 * Real.sin θ₀ ∧
      (PositionOf.start t' ((QUARTER_CIRCLE_DEGREE : ℚ) : ℝ)
        ((HALF_CIRCLE_DEGREE : ℚ) : ℝ)).currentAngle * (Real.pi / 180) = θ₀ ∧
      |(PositionOf.start t' ((QUARTER_CIRCLE_DEGREE : ℚ) : ℝ)
        ((HALF_CIRCLE_DEGREE : ℚ) : ℝ)).currentAngle - t'| ≤ ((90 : ℚ) : ℝ) := by
    simp only [PositionOf.start, hq, hh]
    split_ifs with hgt
    · refine ⟨Real.pi / 2 + Real.pi, ?_, ?_, ?_, ?_⟩
      · simp [Real.cos_add_pi]
      · simp [Real.sin_add_pi]
      · show ((90 : ℝ) + 180) * (Real.pi / 180) = _
        ring
      · show |((90 : ℝ) + 180) - t'| ≤ _
        rw [abs_le]
        push_cast
        constructor <;> linarith
    · refine ⟨Real.pi / 2, ?_, ?_, ?_, ?_⟩
      · simp
      · simp
      · show (90 : ℝ) * (Real.pi / 180) = _
        ring
      · show |(90 : ℝ) - t'| ≤ _
        rw [abs_le]
        push_cast
        constructor <;> linarith
  obtain ⟨θ₀, hc0, hs0, ha0, hd0⟩ := hstart
  obtain ⟨θ, hcθ, hsθ, haθ⟩ := PositionOf_rotation_invariant s_tanLookupDegree
    (Real.pi / 180) (1 / 10 ^ 12) s_tanLookupDegree_accurate t' 1 θ₀ _ hc0 hs0 ha0
    st.s_precision.toNat r hr
  have hconv := PositionOf_search_converges s_tanLookupDegree 90 st.s_precision.toNat hlen
    (s_tanLookupDegree_searchConverges _ hLnat.1 hLnat.2) t' _ r hd0 hr
  have hk := gain_mul_sqrt_magnitudeSq (st.s_precision.toNat - 1) (by omega) g hg'
  have hsucc : st.s_precision.toNat - 1 + 1 = st.s_precision.toNat := by omega
  rw [hsucc] at hk
  refine ⟨(g : ℝ) * Real.sqrt ((magnitudeSq st.s_precision.toNat : ℚ) : ℝ), θ, ?_, ?_, hk, ?_⟩
  · simp only [cos_0, ht', if_neg hne, PositionOf, PositionOf.run, hr, hg, Option.map_some',
      Option.some_bind, hcθ]
    congr 2
    ring
  · simp only [sin_0, ht', if_neg hne, PositionOf, PositionOf.run, hr, hg, Option.map_some',
      Option.some_bind, hsθ]
    congr 2
    ring
  · have hpi : (0 : ℝ) ≤ Real.pi / 180 := by positivity
    have h3 : |r.currentAngle * (Real.pi / 180) - t' * (Real.pi / 180)| ≤
        ((s_tanLookupDegree.getD (st.s_precision.toNat - 1) 0 : ℚ) : ℝ) * (Real.pi / 180) := by
      rw [← sub_mul, abs_mul, abs_of_nonneg hpi]
      exact mul_le_mul_of_nonneg_right hconv hpi
    rw [abs_le] at h3 haθ ⊢
    constructor <;> linarith

end ForwardPolar

end CORDIC
end LibMath

namespace LibMath
namespace CORDIC

section ForwardAccuracyClaim

theorem polar_near (k θ x ε η : ℝ) (hk : |k - 1| ≤ ε) (hθ : |θ - x| ≤ η) :
    |k * Real.sin θ - Real.sin x| ≤ ε + η ∧ |k * Real.cos θ - Real.cos x| ≤ ε + η := by
  have hs := abs_sin_sub_sin_le θ x
  have hc := abs_cos_sub_cos_le θ x
  have hs1 := Real.abs_sin_le_one θ
  have hc1 := Real.abs_cos_le_one θ
  have e1 : k * Real.sin θ - Real.sin x = (k - 1) * Real.sin θ + (Real.sin θ - Real.sin x) := by
    ring
  have e2 : k * Real.cos θ - Real.cos x = (k - 1) * Real.cos θ + (Real.cos θ - Real.cos x) := by
    ring
  have hk0 : 0 ≤ |k - 1| := abs_nonneg _
  constructor
  · rw [e1]
    calc |(k - 1) * Real.sin θ + (Real.sin θ - Real.sin x)|
        ≤ |(k - 1) * Real.sin θ| + |Real.sin θ - Real.sin x| := abs_add _ _
      _ ≤ ε + η := by
        rw [abs_mul]
        nlinarith [abs_nonneg (Real.sin θ)]
  · rw [e2]
    calc |(k - 1) * Real.cos θ + (Real.cos θ - Real.cos x)|
        ≤ |(k - 1) * Real.cos θ| + |Real.cos θ - Real.cos x| := abs_add _ _
      _ ≤ ε + η := by
        rw [abs_mul]
        nlinarith [abs_nonneg (Real.cos θ)]

/-- The true sine and cosine of an angle in degrees are those of its reduced angle. -/
theorem sin_cos_Clamp_degree (t : ℝ) :
    Real.sin (t * (Real.pi / 180)) =
        Real.sin (Clamp t ((CIRCLE_DEGREE : ℚ) : ℝ) * (Real.pi / 180)) ∧
      Real.cos (t * (Real.pi / 180)) =
        Real.cos (Clamp t ((CIRCLE_DEGREE : ℚ) : ℝ) * (Real.pi / 180)) := by
  have hC : (0 : ℝ) < ((CIRCLE_DEGREE : ℚ) : ℝ) := by
    rw [CIRCLE_DEGREE_cast]
    norm_num
  have h : t * (Real.pi / 180) = Clamp t ((CIRCLE_DEGREE : ℚ) : ℝ) * (Real.pi / 180) +
      ((⌊t / ((CIRCLE_DEGREE : ℚ) : ℝ)⌋ : ℤ) : ℝ) * (2 * Real.pi) := by
    rw [Clamp_eq_sub_floor t _ hC, CIRCLE_DEGREE_cast]
    ring
  rw [h, Real.sin_add_int_mul_two_pi, Real.cos_add_int_mul_two_pi]
  exact ⟨rfl, rfl⟩

theorem last_step_degree_small (L : ℕ) (hL : L = 20 ∨ L = 21) :
    ((s_tanLookupDegree.getD (L - 1) 0 : ℚ) : ℝ) ≤ 2 / 10 ^ 4 := by
  have h : s_tanLookupDegree.getD (L - 1) 0 ≤ 2 / 10 ^ 4 := by
    rcases hL with rfl | rfl <;> decide!
  have h2 : ((s_tanLookupDegree.getD (L - 1) 0 : ℚ) : ℝ) ≤ ((2 / 10 ^ 4 : ℚ) : ℝ) :=
    Rat.cast_le.mpr h
  simpa using h2

/-- C11: at precision 20 and at the initial precision 21, for every angle `t` in degrees,
`cos_0 t` and `sin_0 t` computed in exact real arithmetic are numbers within `1e-4` of the
true cosine and sine of `t` degrees; and `sin_0 245`, evaluated over the rationals at both
precisions, is within `1e-4` of `-0.90630779`. -/
theorem sin_0_cos_0_accuracy :
    (∀ st : State, (st.s_precision = 20 ∨ st.s_precision = 21) → ∀ t : ℝ,
      ∃ c s : ℝ, cos_0 st t = some (FloatVal.num c) ∧ sin_0 st t = some (FloatVal.num s) ∧
        |s - Real.sin (t * (Real.pi / 180))| ≤ 1 / 10 ^ 4 ∧
        |c - Real.cos (t * (Real.pi / 180))| ≤ 1 / 10 ^ 4) ∧
    (∃ v, sin_0 (SetPrecision 20 State.initial) (245 : ℚ) = some (FloatVal.num v) ∧
      |v - (-0.90630779)| ≤ 1 / 10000) ∧
    (∃ v, sin_0 State.initial (245 : ℚ) = some (FloatVal.num v) ∧
      |v - (-0.90630779)| ≤ 1 / 10000) := by
  refine ⟨?_, numWithin_spec _ _ _ (by decide!), numWithin_spec _ _ _ (by decide!)⟩
  intro st hL t
  have h1 : 1 ≤ st.s_precision := by omega
  have h21 : st.s_precision ≤ 21 := by omega
  obtain ⟨hsin, hcos⟩ := sin_cos_Clamp_degree t
  by_cases hz : Clamp t ((CIRCLE_DEGREE : ℚ) : ℝ) = 0
  · refine ⟨1, 0, ?_, ?_, ?_, ?_⟩
    · simp only [cos_0, hz, if_true]
    · simp only [sin_0, hz, if_true]
    · rw [hsin, hz]
      simp
    · rw [hcos, hz]
      simp
  · obtain ⟨k, θ, hc, hs, hk, hθ⟩ := forward_0_polar st h1 h21 t hz
    have hnear := polar_near k θ _ _ _ hk hθ
    have hstep := last_step_degree_small st.s_precision.toNat (by omega)
    have hLr : ((st.s_precision.toNat : ℕ) : ℝ) ≤ 21 := by
      have : st.s_precision.toNat ≤ 21 := by omega
      exact_mod_cast this
    have hpi : Real.pi / 180 ≤ 1 / 45 := by
      have := Real.pi_le_four
      linarith
    have hpi0 : (0 : ℝ) ≤ Real.pi / 180 := by positivity
    have hprod : ((s_tanLookupDegree.getD (st.s_precision.toNat - 1) 0 : ℚ) : ℝ) *
        (Real.pi / 180) ≤ 2 / 10 ^ 4 * (1 / 45) :=
      le_trans (mul_le_mul_of_nonneg_right hstep hpi0)
        (mul_le_mul_of_nonneg_left hpi (by norm_num))
    have htot : 1 / 10 ^ 31 +
        (((s_tanLookupDegree.getD (st.s_precision.toNat - 1) 0 : ℚ) : ℝ) * (Real.pi / 180) +
          ((st.s_precision.toNat : ℕ) : ℝ) * (1 / 10 ^ 12)) ≤ 1 / 10 ^ 4 := by
      have h3 : ((st.s_precision.toNat : ℕ) : ℝ) * (1 / 10 ^ 12) ≤ 21 * (1 / 10 ^ 12) :=
        mul_le_mul_of_nonneg_right hLr (by norm_num)
      have h4 : (1 / 10 ^ 31 + (2 / 10 ^ 4 * (1 / 45) + 21 * (1 / 10 ^ 12)) : ℝ) ≤
          1 / 10 ^ 4 := by norm_num
      linarith
    refine ⟨_, _, hc, hs, ?_, ?_⟩
    · rw [hsin]
      exact le_trans hnear.1 htot
    · rw [hcos]
      exact le_trans hnear.2 htot

/-- The accuracy of C11 at precision 20 for the angle 245. -/
theorem sin_0_cos_0_accuracy_witness :
    ((SetPrecision 20 State.initial).s_precision = 20 ∨
      (SetPrecision 20 State.initial).s_precision = 21) ∧
    ∃ c s : ℝ, cos_0 (SetPrecision 20 State.initial) (245 : ℝ) = some (FloatVal.num c) ∧
      sin_0 (SetPrecision 20 State.initial) (245 : ℝ) = some (FloatVal.num s) ∧
      |s - Real.sin ((245 : ℝ) * (Real.pi / 180))| ≤ 1 / 10 ^ 4 ∧
      |c - Real.cos ((245 : ℝ) * (Real.pi / 180))| ≤ 1 / 10 ^ 4 :=
  ⟨by decide, sin_0_cos_0_accuracy.1 (SetPrecision 20 State.initial) (by decide) 245⟩

end ForwardAccuracyClaim

end CORDIC
end LibMath

namespace LibMath
namespace CORDIC

section ArctanSteps

end ArctanSteps

end CORDIC
end LibMath

namespace LibMath
namespace CORDIC

section InverseEngines

end InverseEngines

end CORDIC
end LibMath

namespace LibMath
namespace CORDIC

section InverseCosineAccuracy

end InverseCosineAccuracy

end CORDIC
end LibMath

namespace LibMath
namespace CORDIC

section SineRange

variable {α : Type} [LinearOrderedField α]

theorem two_zpow_neg_natCast (i : ℕ) : (2 : α) ^ (-(i : ℤ)) = (1 / 2 : α) ^ i := by
  rw [zpow_neg, zpow_natCast, one_div, inv_pow]

end SineRange

end CORDIC
end LibMath

namespace LibMath
namespace CORDIC

section SineRangeSound

variable {α : Type} [LinearOrderedField α]

end SineRangeSound

end CORDIC
end LibMath

namespace LibMath
namespace CORDIC

section SineRangeLevels

variable {α : Type} [LinearOrderedField α] [FloorRing α]

end SineRangeLevels

end CORDIC
end LibMath

namespace LibMath
namespace CORDIC

section InverseSine

end InverseSine

end CORDIC
end LibMath

namespace LibMath
namespace CORDIC

section ArcsinBounds

end ArcsinBounds

end CORDIC
end LibMath

namespace LibMath
namespace CORDIC

section RoundTripParts

end RoundTripParts

end CORDIC
end LibMath

namespace LibMath
namespace CORDIC

section RoundTrip

end RoundTrip

end CORDIC
end LibMath

namespace LibMath
namespace CORDIC

section RoundTripClaim

end RoundTripClaim

end CORDIC
end LibMath

namespace LibMath
namespace Matrix3

section Matrix3Rotate

variable {α : Type} [Field α]

omit [Field α] in
/-- The nine values of `m_row` as entries `[row][col]`. -/
theorem m_row_eq_get (M : Matrix3 α) :
    M.m_row 0 = M.get 0 0 ∧ M.m_row 1 = M.get 0 1 ∧ M.m_row 2 = M.get 0 2 ∧
    M.m_row 3 = M.get 1 0 ∧ M.m_row 4 = M.get 1 1 ∧ M.m_row 5 = M.get 1 2 ∧
    M.m_row 6 = M.get 2 0 ∧ M.m_row 7 = M.get 2 1 ∧ M.m_row 8 = M.get 2 2 :=
  ⟨rfl, rfl, rfl, rfl, rfl, rfl, rfl, rfl, rfl⟩

/-- C22: `M.Rotate(rad)` has the same nine values as `M * Matrix3::RotationMatrix(rad)`,
whatever the cosine and the sine are. -/
theorem Rotate_eq_mul_RotationMatrix (M : Matrix3 α) (cos sin : α → α) (rad : α) :
    ∀ k : Fin 9, (M.Rotate cos sin rad).m_row k =
      (M.mul (RotationMatrix cos sin rad)).m_row k := by
  have h : M.Rotate cos sin rad = M.mul (RotationMatrix cos sin rad) := by
    apply get_ext
    intro row col
    fin_cases row <;> fin_cases col <;>
    · obtain ⟨e0, e1, e2, e3, e4, e5, e6, e7, e8⟩ := m_row_eq_get M
      simp only [Matrix3.mul, Matrix3.Rotate, Matrix3.RotationMatrix, Matrix3.ofValues,
        get_ofEntries, Fin.sum_univ_three, e0, e1, e2, e3, e4, e5, e6, e7, e8]
      simp
      try ring
  intro k
  rw [h]

end Matrix3Rotate
end Matrix3
end LibMath

namespace LibMath
namespace Matrix4

section Matrix4Algebra

variable {α : Type} [Field α]

omit [Field α] in
/-- The entries of a matrix given by its entries. -/
theorem get_ofEntries_four (f : Fin 4 → Fin 4 → α) (row col : Fin 4) :
    (ofEntries f).get row col = f row col := by
  unfold Matrix4.get ofEntries
  have h1 : (⟨(row.val * 4 + col.val) / 4, by omega⟩ : Fin 4) = row := by
    apply Fin.ext
    show (row.val * 4 + col.val) / 4 = row.val
    omega
  have h2 : (⟨(row.val * 4 + col.val) % 4, by omega⟩ : Fin 4) = col := by
    apply Fin.ext
    show (row.val * 4 + col.val) % 4 = col.val
    omega
  simp only [h1, h2]

omit [Field α] in
/-- Two matrices with the same entries `[row][col]` are equal. -/
theorem get_ext_four (a b : Matrix4 α) (h : ∀ row col, a.get row col = b.get row col) :
    a = b := by
  cases a with
  | mk fa =>
    cases b with
    | mk fb =>
      congr
      funext k
      have hk := h ⟨k.val / 4, by omega⟩ ⟨k.val % 4, by omega⟩
      unfold Matrix4.get at hk
      have hidx : (⟨k.val / 4 * 4 + k.val % 4, by omega⟩ : Fin 16) = k := by
        apply Fin.ext
        show k.val / 4 * 4 + k.val % 4 = k.val
        omega
      simpa only [hidx] using hk

/-- The entries of `Matrix4(diagonalValue)`. -/
theorem diagonal_get_four (d : α) (row col : Fin 4) :
    (diagonal d).get row col = if row = col then d else 0 := by
  fin_cases row <;> fin_cases col <;> rfl

omit [Field α] in
/-- The entries `[row][col]` as values of `raw`. -/
theorem get_eq_raw (M : Matrix4 α) :
    (M.get 0 0 = M.raw 0 ∧ M.get 0 1 = M.raw 1 ∧ M.get 0 2 = M.raw 2 ∧ M.get 0 3 = M.raw 3) ∧
    (M.get 1 0 = M.raw 4 ∧ M.get 1 1 = M.raw 5 ∧ M.get 1 2 = M.raw 6 ∧ M.get 1 3 = M.raw 7) ∧
    (M.get 2 0 = M.raw 8 ∧ M.get 2 1 = M.raw 9 ∧ M.get 2 2 = M.raw 10 ∧
      M.get 2 3 = M.raw 11) ∧
    (M.get 3 0 = M.raw 12 ∧ M.get 3 1 = M.raw 13 ∧ M.get 3 2 = M.raw 14 ∧
      M.get 3 3 = M.raw 15) :=
  ⟨⟨rfl, rfl, rfl, rfl⟩, ⟨rfl, rfl, rfl, rfl⟩, ⟨rfl, rfl, rfl, rfl⟩, ⟨rfl, rfl, rfl, rfl⟩⟩

end Matrix4Algebra
end Matrix4
end LibMath

namespace LibMath
namespace Matrix4

section Matrix4Inverse

variable {α : Type} [Field α]

/-- The second determinant that `GetInverse` computes, from its first four cofactors, is the
value of `Determinant`. -/
theorem GetInverse_det_eq (M : Matrix4 α) :
    M.raw 0 * GetMinor (M.raw 5) (M.raw 9) (M.raw 13) (M.raw 6) (M.raw 10) (M.raw 14)
        (M.raw 7) (M.raw 11) (M.raw 15) -
      M.raw 4 * GetMinor (M.raw 1) (M.raw 9) (M.raw 13) (M.raw 2) (M.raw 10) (M.raw 14)
        (M.raw 3) (M.raw 11) (M.raw 15) +
      M.raw 8 * GetMinor (M.raw 1) (M.raw 5) (M.raw 13) (M.raw 2) (M.raw 6) (M.raw 14)
        (M.raw 3) (M.raw 7) (M.raw 15) -
      M.raw 12 * GetMinor (M.raw 1) (M.raw 5) (M.raw 9) (M.raw 2) (M.raw 6) (M.raw 10)
        (M.raw 3) (M.raw 7) (M.raw 11) = M.Determinant := by
  simp only [Determinant, GetMinor]
  ring

/-- The entries of `GetInverse` for a non-zero determinant: signed cofactors over the
determinant. -/
theorem GetInverse_get [DecidableEq α] (M : Matrix4 α) (hdet : M.Determinant ≠ 0)
    (row col : Fin 4) :
    M.GetInverse.get row col =
      (match row, col with
        | 0, 0 => 1 / M.Determinant * GetMinor (M.raw 5) (M.raw 9) (M.raw 13) (M.raw 6)
            (M.raw 10) (M.raw 14) (M.raw 7) (M.raw 11) (M.raw 15)
        | 1, 0 => -(1 / M.Determinant) * GetMinor (M.raw 4) (M.raw 8) (M.raw 12) (M.raw 6)
            (M.raw 10) (M.raw 14) (M.raw 7) (M.raw 11) (M.raw 15)
        | 2, 0 => 1 / M.Determinant * GetMinor (M.raw 4) (M.raw 8) (M.raw 12) (M.raw 5)
            (M.raw 9) (M.raw 13) (M.raw 7) (M.raw 11) (M.raw 15)
        | 3, 0 => -(1 / M.Determinant) * GetMinor (M.raw 4) (M.raw 8) (M.raw 12) (M.raw 5)
            (M.raw 9) (M.raw 13) (M.raw 6) (M.raw 10) (M.raw 14)
        | 0, 1 => -(1 / M.Determinant) * GetMinor (M.raw 1) (M.raw 9) (M.raw 13) (M.raw 2)
            (M.raw 10) (M.raw 14) (M.raw 3) (M.raw 11) (M.raw 15)
        | 1, 1 => 1 / M.Determinant * GetMinor (M.raw 0) (M.raw 8) (M.raw 12) (M.raw 2)
            (M.raw 10) (M.raw 14) (M.raw 3) (M.raw 11) (M.raw 15)
        | 2, 1 => -(1 / M.Determinant) * GetMinor (M.raw 0) (M.raw 8) (M.raw 12) (M.raw 1)
            (M.raw 9) (M.raw 13) (M.raw 3) (M.raw 11) (M.raw 15)
        | 3, 1 => 1 / M.Determinant * GetMinor (M.raw 0) (M.raw 8) (M.raw 12) (M.raw 1)
            (M.raw 9) (M.raw 13) (M.raw 2) (M.raw 10) (M.raw 14)
        | 0, 2 => 1 / M.Determinant * GetMinor (M.raw 1) (M.raw 5) (M.raw 13) (M.raw 2)
            (M.raw 6) (M.raw 14) (M.raw 3) (M.raw 7) (M.raw 15)
        | 1, 2 => -(1 / M.Determinant) * GetMinor (M.raw 0) (M.raw 4) (M.raw 12) (M.raw 2)
            (M.raw 6) (M.raw 14) (M.raw 3) (M.raw 7) (M.raw 15)
        | 2, 2 => 1 / M.Determinant * GetMinor (M.raw 0) (M.raw 4) (M.raw 12) (M.raw 1)
            (M.raw 5) (M.raw 13) (M.raw 3) (M.raw 7) (M.raw 15)
        | 3, 2 => -(1 / M.Determinant) * GetMinor (M.raw 0) (M.raw 4) (M.raw 12) (M.raw 1)
            (M.raw 5) (M.raw 13) (M.raw 2) (M.raw 6) (M.raw 14)
        | 0, 3 => -(1 / M.Determinant) * GetMinor (M.raw 1) (M.raw 5) (M.raw 9) (M.raw 2)
            (M.raw 6) (M.raw 10) (M.raw 3) (M.raw 7) (M.raw 11)
        | 1, 3 => 1 / M.Determinant * GetMinor (M.raw 0) (M.raw 4) (M.raw 8) (M.raw 2)
            (M.raw 6) (M.raw 10) (M.raw 3) (M.raw 7) (M.raw 11)
        | 2, 3 => -(1 / M.Determinant) * GetMinor (M.raw 0) (M.raw 4) (M.raw 8) (M.raw 1)
            (M.raw 5) (M.raw 9) (M.raw 3) (M.raw 7) (M.raw 11)
        | 3, 3 => 1 / M.Determinant * GetMinor (M.raw 0) (M.raw 4) (M.raw 8) (M.raw 1)
            (M.raw 5) (M.raw 9) (M.raw 2) (M.raw 6) (M.raw 10)) := by
  have hE := GetInverse_det_eq M
  simp only [GetInverse, if_neg hdet, hE]
  rw [get_ofEntries_four]

end Matrix4Inverse
end Matrix4
end LibMath

namespace LibMath
namespace Matrix4

section Matrix4InverseClaim

variable {α : Type} [Field α]

set_option maxHeartbeats 1600000 in
/-- C21: for a matrix with a non-zero determinant, `M * M.GetInverse()` and
`M.GetInverse() * M` are `Matrix4::Identity()`. -/
theorem GetInverse_is_inverse [DecidableEq α] (M : Matrix4 α) (hdet : M.Determinant ≠ 0) :
    M.mul M.GetInverse = Identity ∧ M.GetInverse.mul M = Identity := by
  obtain ⟨⟨e00, e01, e02, e03⟩, ⟨e10, e11, e12, e13⟩, ⟨e20, e21, e22, e23⟩,
    ⟨e30, e31, e32, e33⟩⟩ := get_eq_raw M
  have hd : M.Determinant = M.raw 0 * (M.raw 5 * M.raw 10 * M.raw 15 -
      M.raw 5 * M.raw 11 * M.raw 14 - M.raw 9 * M.raw 6 * M.raw 15 +
      M.raw 9 * M.raw 7 * M.raw 14 + M.raw 13 * M.raw 6 * M.raw 11 -
      M.raw 13 * M.raw 7 * M.raw 10) +
    M.raw 1 * (-M.raw 4 * M.raw 10 * M.raw 15 + M.raw 4 * M.raw 11 * M.raw 14 +
      M.raw 8 * M.raw 6 * M.raw 15 - M.raw 8 * M.raw 7 * M.raw 14 -
      M.raw 12 * M.raw 6 * M.raw 11 + M.raw 12 * M.raw 7 * M.raw 10) +
    M.raw 2 * (M.raw 4 * M.raw 9 * M.raw 15 - M.raw 4 * M.raw 11 * M.raw 13 -
      M.raw 8 * M.raw 5 * M.raw 15 + M.raw 8 * M.raw 7 * M.raw 13 +
      M.raw 12 * M.raw 5 * M.raw 11 - M.raw 12 * M.raw 7 * M.raw 9) +
    M.raw 3 * (-M.raw 4 * M.raw 9 * M.raw 14 + M.raw 4 * M.raw 10 * M.raw 13 +
      M.raw 8 * M.raw 5 * M.raw 14 - M.raw 8 * M.raw 6 * M.raw 13 -
      M.raw 12 * M.raw 5 * M.raw 10 + M.raw 12 * M.raw 6 * M.raw 9) := rfl
  have hget := GetInverse_get M hdet
  generalize M.Determinant = D at hdet hd hget
  generalize M.GetInverse = N at hget
  generalize M.raw 0 = a0 at hd hget e00
  generalize M.raw 1 = a1 at hd hget e01
  generalize M.raw 2 = a2 at hd hget e02
  generalize M.raw 3 = a3 at hd hget e03
  generalize M.raw 4 = a4 at hd hget e10
  generalize M.raw 5 = a5 at hd hget e11
  generalize M.raw 6 = a6 at hd hget e12
  generalize M.raw 7 = a7 at hd hget e13
  generalize M.raw 8 = a8 at hd hget e20
  generalize M.raw 9 = a9 at hd hget e21
  generalize M.raw 10 = a10 at hd hget e22
  generalize M.raw 11 = a11 at hd hget e23
  generalize M.raw 12 = a12 at hd hget e30
  generalize M.raw 13 = a13 at hd hget e31
  generalize M.raw 14 = a14 at hd hget e32
  generalize M.raw 15 = a15 at hd hget e33
  have hDinv : 1 / D * D = 1 := one_div_mul_cancel hdet
  have h00 := hget 0 0
  have h01 := hget 0 1
  have h02 := hget 0 2
  have h03 := hget 0 3
  have h10 := hget 1 0
  have h11 := hget 1 1
  have h12 := hget 1 2
  have h13 := hget 1 3
  have h20 := hget 2 0
  have h21 := hget 2 1
  have h22 := hget 2 2
  have h23 := hget 2 3
  have h30 := hget 3 0
  have h31 := hget 3 1
  have h32 := hget 3 2
  have h33 := hget 3 3
  simp only [GetMinor] at h00 h01 h02 h03 h10 h11 h12 h13 h20 h21 h22 h23 h30 h31 h32 h33
  clear hget
  constructor
  · apply get_ext_four
    intro row col
    by_cases h : row = col
    · subst h
      fin_cases row <;>
      · simp only [Matrix4.mul, Matrix4.Identity, get_ofEntries_four, diagonal_get_four,
          Fin.sum_univ_four]
        simp only [Fin.zero_eta, Fin.isValue, Fin.mk_one, Fin.reduceFinMk, e00, e01, e02,
          e03, e10, e11, e12, e13, e20, e21, e22, e23, e30, e31, e32, e33, if_true,
          h00, h01, h02, h03, h10, h11, h12, h13, h20, h21, h22, h23, h30, h31, h32, h33]
        linear_combination (-(1 / D)) * hd + hDinv
    · fin_cases row <;> fin_cases col <;>
      first
        | exact absurd rfl h
        | (simp only [Matrix4.mul, Matrix4.Identity, get_ofEntries_four, diagonal_get_four,
            Fin.sum_univ_four]
           simp only [Fin.zero_eta, Fin.isValue, Fin.mk_one, Fin.reduceFinMk, e00, e01, e02,
            e03, e10, e11, e12, e13, e20, e21, e22, e23, e30, e31, e32, e33, Fin.reduceEq,
            if_false, h00, h01, h02, h03, h10, h11, h12, h13, h20, h21, h22, h23, h30, h31,
            h32, h33]
           ring1)
  · apply get_ext_four
    intro row col
    by_cases h : row = col
    · subst h
      fin_cases row <;>
      · simp only [Matrix4.mul, Matrix4.Identity, get_ofEntries_four, diagonal_get_four,
          Fin.sum_univ_four]
        simp only [Fin.zero_eta, Fin.isValue, Fin.mk_one, Fin.reduceFinMk, e00, e01, e02,
          e03, e10, e11, e12, e13, e20, e21, e22, e23, e30, e31, e32, e33, if_true,
          h00, h01, h02, h03, h10, h11, h12, h13, h20, h21, h22, h23, h30, h31, h32, h33]
        linear_combination (-(1 / D)) * hd + hDinv
    · fin_cases row <;> fin_cases col <;>
      first
        | exact absurd rfl h
        | (simp only [Matrix4.mul, Matrix4.Identity, get_ofEntries_four, diagonal_get_four,
            Fin.sum_univ_four]
           simp only [Fin.zero_eta, Fin.isValue, Fin.mk_one, Fin.reduceFinMk, e00, e01, e02,
            e03, e10, e11, e12, e13, e20, e21, e22, e23, e30, e31, e32, e33, Fin.reduceEq,
            if_false, h00, h01, h02, h03, h10, h11, h12, h13, h20, h21, h22, h23, h30, h31,
            h32, h33]
           ring1)

/-- The inverse property of C21 for the matrix of values `1 2 0 0, 0 1 3 0, 0 0 1 4, 5 0 0 1`,
whose determinant is not zero. -/
theorem GetInverse_is_inverse_witness :
    (⟨![1, 2, 0, 0, 0, 1, 3, 0, 0, 0, 1, 4, 5, 0, 0, 1]⟩ : Matrix4 ℚ).Determinant ≠ 0 ∧
    ((⟨![1, 2, 0, 0, 0, 1, 3, 0, 0, 0, 1, 4, 5, 0, 0, 1]⟩ : Matrix4 ℚ).mul
      (⟨![1, 2, 0, 0, 0, 1, 3, 0, 0, 0, 1, 4, 5, 0, 0, 1]⟩ : Matrix4 ℚ).GetInverse =
        Identity ∧
    (⟨![1, 2, 0, 0, 0, 1, 3, 0, 0, 0, 1, 4, 5, 0, 0, 1]⟩ : Matrix4 ℚ).GetInverse.mul
      (⟨![1, 2, 0, 0, 0, 1, 3, 0, 0, 0, 1, 4, 5, 0, 0, 1]⟩ : Matrix4 ℚ) = Identity) :=
  ⟨by decide!, GetInverse_is_inverse _ (by decide!)⟩

end Matrix4InverseClaim
end Matrix4
end LibMath

namespace LibMath

namespace Interpolation

/-- Claim C23, refuted on the code: with start 2 and end 5, `SmoothStep` returns 0 both for
delta 0 and for delta 1, neither `start` nor `end`, and so does `SmootherStep`; the
parameter documentation promises `start` at delta 0 and `end` at delta 1. -/
theorem SmoothStep_misses_endpoints :
    SmoothStep (2 : ℚ) 5 0 = FloatVal.num 0 ∧ SmoothStep (2 : ℚ) 5 1 = FloatVal.num 0 ∧
      SmootherStep (2 : ℚ) 5 0 = FloatVal.num 0 ∧
      SmootherStep (2 : ℚ) 5 1 = FloatVal.num 0 := by
  decide!

/-- Claim C24, refuted on the code: for the unit vectors start = (1, 0, 0) and
end = (0, 1, 0), which are not parallel, `Slerp` returns `start` for every delta, in
particular for delta 1 where the documentation promises `end`; the source takes the dot
product of `start` with itself. -/
theorem Slerp_returns_start :
    ∀ delta : ℝ, Slerp Real.sqrt Real.arccos Real.cos Real.sin ⟨1, 0, 0⟩ ⟨0, 1, 0⟩ delta =
      ⟨FloatVal.num 1, FloatVal.num 0, FloatVal.num 0⟩ := by
  intro delta
  have hc : LibMath.Clamp (1 : ℝ) (-1) 1 = 1 := by
    norm_num [LibMath.Clamp]
  have h2 : ¬ ((1 : ℝ) + 1 ≤ 0) := by norm_num
  simp [Slerp, Vector3.Dot, Vector3.sub, Vector3.mulScalar, Vector3.Normalize,
    Vector3.Magnitude, hc, fdiv, FloatVal.numAdd, FloatVal.mulNum, Real.sqrt_eq_zero', h2]

end Interpolation

end LibMath

namespace LibMath
namespace CORDIC

section BinarySearch

theorem stepsHalve_spec (table : List ℚ) (i : ℕ) (h : stepsHalve table i = true) :
    ∃ lastStep currentStep : ℚ, table[i]? = some lastStep ∧
      table[i + 1]? = some currentStep ∧ lastStep > currentStep ∧
      currentStep > lastStep / 2 := by
  unfold stepsHalve at h
  cases h1 : table[i]? with
  | none => simp [h1] at h
  | some a =>
    cases h2 : table[i + 1]? with
    | none => simp [h1, h2] at h
    | some b =>
      simp only [h1, h2, Bool.and_eq_true, decide_eq_true_eq] at h
      exact ⟨a, b, rfl, rfl, h.1, h.2⟩

/-- On the decimal literals of the three step tables, before any rounding, for every index
`i` from 0 to 19 the entry `i` is greater than the entry `i + 1`, which is greater than half
the entry `i`. -/
theorem step_tables_binary_search_condition (i : Fin 20) :
    (∃ lastStep currentStep : ℚ, s_tanLookupDegree[(i : ℕ)]? = some lastStep ∧
      s_tanLookupDegree[(i : ℕ) + 1]? = some currentStep ∧ lastStep > currentStep ∧
      currentStep > lastStep / 2) ∧
    (∃ lastStep currentStep : ℚ, s_tanLookupRadian[(i : ℕ)]? = some lastStep ∧
      s_tanLookupRadian[(i : ℕ) + 1]? = some currentStep ∧ lastStep > currentStep ∧
      currentStep > lastStep / 2) ∧
    (∃ lastStep currentStep : ℚ, s_tanLookupGradian[(i : ℕ)]? = some lastStep ∧
      s_tanLookupGradian[(i : ℕ) + 1]? = some currentStep ∧ lastStep > currentStep ∧
      currentStep > lastStep / 2) := by
  have h : ∀ j : Fin 20, stepsHalve s_tanLookupDegree j = true ∧
      stepsHalve s_tanLookupRadian j = true ∧ stepsHalve s_tanLookupGradian j = true := by
    decide!
  exact ⟨stepsHalve_spec _ _ (h i).1, stepsHalve_spec _ _ (h i).2.1,
    stepsHalve_spec _ _ (h i).2.2⟩

theorem s_tanLookupRadian_searchConverges (L : ℕ) (h1 : 1 ≤ L) (h21 : L ≤ 21) :
    searchConverges s_tanLookupRadian QUARTER_CIRCLE_RADIAN L = true := by
  interval_cases L <;> decide!

theorem s_tanLookupGradian_searchConverges (L : ℕ) (h1 : 1 ≤ L) (h21 : L ≤ 21) :
    searchConverges s_tanLookupGradian 100 L = true := by
  interval_cases L <;> decide!

variable {α : Type} [LinearOrderedField α]

/-- The starting angle of `PositionOf` is within a quarter circle of every target of the
first turn. -/
theorem PositionOf_start_within (quarter : α) (t : α) (h0 : 0 ≤ t) (h1 : t < 4 * quarter) :
    |(PositionOf.start t quarter (2 * quarter)).currentAngle - t| ≤ quarter := by
  unfold PositionOf.start
  split_ifs with h
  · simp only
    rw [abs_le]
    constructor <;> linarith
  · simp only
    rw [abs_le]
    constructor <;> linarith

/-- The angle search of `PositionOf` run on a table of 21 steps that passes `searchConverges`
at every level: the loop ends, and its current angle is within the last step used of the
target. -/
theorem PositionOf_run_converges (table : List ℚ) (quarter half : ℚ)
    (hhalf : half = 2 * quarter) (hlen : table.length = 21)
    (hc : ∀ L, 1 ≤ L → L ≤ 21 → searchConverges table quarter L = true)
    (st : State) (h1 : 1 ≤ st.s_precision) (h21 : st.s_precision ≤ 21)
    (t : α) (ht0 : 0 ≤ t) (ht1 : t < 4 * (quarter : α)) :
    ∃ (r : Rotation α) (step : ℚ),
      PositionOf.run st t (quarter : α) (half : α) table = some r ∧
      index table (st.s_precision - 1) = some step ∧
      |r.currentAngle - t| ≤ (step : α) := by
  have hL1 : 1 ≤ st.s_precision.toNat := by omega
  have hL21 : st.s_precision.toNat ≤ 21 := by omega
  obtain ⟨r, hr⟩ := forLoop_eq_some (PositionOf.body t table) st.s_precision.toNat
    (fun i hi => PositionOf_body_eq_some t table i (by omega))
    (PositionOf.start t (quarter : α) (half : α))
  have hstart : |(PositionOf.start t (quarter : α) (half : α)).currentAngle - t| ≤
      (quarter : α) := by
    rw [hhalf]
    push_cast
    exact PositionOf_start_within (quarter : α) t ht0 ht1
  have hconv := PositionOf_search_converges table quarter st.s_precision.toNat (by omega)
    (hc _ hL1 hL21) t _ r hstart hr
  have hidx : index table (st.s_precision - 1) = table[st.s_precision.toNat - 1]? := by
    have : st.s_precision - 1 = ((st.s_precision.toNat - 1 : ℕ) : ℤ) := by omega
    rw [this, index_natCast]
  have hlt : st.s_precision.toNat - 1 < table.length := by omega
  refine ⟨r, table[st.s_precision.toNat - 1], hr, ?_, ?_⟩
  · rw [hidx, List.getElem?_eq_getElem hlt]
  · rw [List.getD_eq_getElem?_getD, List.getElem?_eq_getElem hlt] at hconv
    exact hconv

/-- Claim C26: in each unit system, for every accuracy level from 1 to 21 and every target
angle in `[0, fullCircle)`, the loop of `PositionOf` ends and the current angle it holds
differs from the target by at most `stepTable[level - 1]`. -/
theorem PositionOf_angle_search_converges (st : State) (h1 : 1 ≤ st.s_precision)
    (h21 : st.s_precision ≤ 21) (t : α) (ht0 : 0 ≤ t) :
    (t < (CIRCLE_DEGREE : α) → ∃ (r : Rotation α) (step : ℚ),
      PositionOf.run st t (QUARTER_CIRCLE_DEGREE : α) (HALF_CIRCLE_DEGREE : α)
        s_tanLookupDegree = some r ∧
      index s_tanLookupDegree (st.s_precision - 1) = some step ∧
      |r.currentAngle - t| ≤ (step : α)) ∧
    (t < (CIRCLE_RADIAN : α) → ∃ (r : Rotation α) (step : ℚ),
      PositionOf.run st t (QUARTER_CIRCLE_RADIAN : α) (HALF_CIRCLE_RADIAN : α)
        s_tanLookupRadian = some r ∧
      index s_tanLookupRadian (st.s_precision - 1) = some step ∧
      |r.currentAngle - t| ≤ (step : α)) ∧
    (t < (CIRCLE_GRADIAN : α) → ∃ (r : Rotation α) (step : ℚ),
      PositionOf.run st t (QUARTER_CIRCLE_GRADIAN : α) (HALF_CIRCLE_GRADIAN : α)
        s_tanLookupGradian = some r ∧
      index s_tanLookupGradian (st.s_precision - 1) = some step ∧
      |r.currentAngle - t| ≤ (step : α)) := by
  refine ⟨fun ht1 => ?_, fun ht1 => ?_, fun ht1 => ?_⟩
  · refine PositionOf_run_converges s_tanLookupDegree QUARTER_CIRCLE_DEGREE
      HALF_CIRCLE_DEGREE (by norm_num [QUARTER_CIRCLE_DEGREE, HALF_CIRCLE_DEGREE]) rfl
      (fun L hL1 hL21 => s_tanLookupDegree_searchConverges L hL1 hL21) st h1 h21 t ht0 ?_
    have : (4 : α) * ((QUARTER_CIRCLE_DEGREE : ℚ) : α) = ((CIRCLE_DEGREE : ℚ) : α) := by
      norm_num [QUARTER_CIRCLE_DEGREE, CIRCLE_DEGREE]
    rw [this]
    exact ht1
  · refine PositionOf_run_converges s_tanLookupRadian QUARTER_CIRCLE_RADIAN
      HALF_CIRCLE_RADIAN (by simp only [QUARTER_CIRCLE_RADIAN, HALF_CIRCLE_RADIAN]; ring) rfl
      (fun L hL1 hL21 => s_tanLookupRadian_searchConverges L hL1 hL21) st h1 h21 t ht0 ?_
    have : (4 : α) * ((QUARTER_CIRCLE_RADIAN : ℚ) : α) = ((CIRCLE_RADIAN : ℚ) : α) := by
      simp only [QUARTER_CIRCLE_RADIAN, CIRCLE_RADIAN]
      push_cast
      ring
    rw [this]
    exact ht1
  · refine PositionOf_run_converges s_tanLookupGradian QUARTER_CIRCLE_GRADIAN
      HALF_CIRCLE_GRADIAN (by norm_num [QUARTER_CIRCLE_GRADIAN, HALF_CIRCLE_GRADIAN]) rfl
      (fun L hL1 hL21 => s_tanLookupGradian_searchConverges L hL1 hL21) st h1 h21 t ht0 ?_
    have : (4 : α) * ((QUARTER_CIRCLE_GRADIAN : ℚ) : α) = ((CIRCLE_GRADIAN : ℚ) : α) := by
      norm_num [QUARTER_CIRCLE_GRADIAN, CIRCLE_GRADIAN]
    rw [this]
    exact ht1

/-- The bound of C26 at accuracy level 7 for the target angle 3 in the three units. -/
theorem PositionOf_angle_search_converges_witness :
    ((1 : ℤ) ≤ (SetPrecision 7 State.initial).s_precision ∧
      (SetPrecision 7 State.initial).s_precision ≤ 21 ∧ (0 : ℚ) ≤ 3) ∧
    (∃ (r : Rotation ℚ) (step : ℚ),
      PositionOf.run (SetPrecision 7 State.initial) (3 : ℚ) QUARTER_CIRCLE_DEGREE
        HALF_CIRCLE_DEGREE s_tanLookupDegree = some r ∧
      index s_tanLookupDegree ((SetPrecision 7 State.initial).s_precision - 1) = some step ∧
      |r.currentAngle - 3| ≤ step) ∧
    (∃ (r : Rotation ℚ) (step : ℚ),
      PositionOf.run (SetPrecision 7 State.initial) (3 : ℚ) QUARTER_CIRCLE_RADIAN
        HALF_CIRCLE_RADIAN s_tanLookupRadian = some r ∧
      index s_tanLookupRadian ((SetPrecision 7 State.initial).s_precision - 1) = some step ∧
      |r.currentAngle - 3| ≤ step) ∧
    (∃ (r : Rotation ℚ) (step : ℚ),
      PositionOf.run (SetPrecision 7 State.initial) (3 : ℚ) QUARTER_CIRCLE_GRADIAN
        HALF_CIRCLE_GRADIAN s_tanLookupGradian = some r ∧
      index s_tanLookupGradian ((SetPrecision 7 State.initial).s_precision - 1) = some step ∧
      |r.currentAngle - 3| ≤ step) := by
  have h := PositionOf_angle_search_converges (SetPrecision 7 State.initial) (by decide)
    (by decide) (3 : ℚ) (by norm_num)
  simp only [Rat.cast_id] at h
  exact ⟨⟨by decide, by decide, by norm_num⟩, h.1 (by norm_num [CIRCLE_DEGREE]),
    h.2.1 (by norm_num [CIRCLE_RADIAN, PI]), h.2.2 (by norm_num [CIRCLE_GRADIAN])⟩

/-- The distance to the target can grow: in degrees, for the target 44, the current angle is
45 after the first iteration, at distance 1, and more than 25 away after the second. -/
theorem PositionOf_distance_grows :
    (PositionOf.run (SetPrecision 1 State.initial) (44 : ℚ) QUARTER_CIRCLE_DEGREE
        HALF_CIRCLE_DEGREE s_tanLookupDegree).map (fun r => |r.currentAngle - 44|) = some 1 ∧
    (PositionOf.run (SetPrecision 2 State.initial) (44 : ℚ) QUARTER_CIRCLE_DEGREE
        HALF_CIRCLE_DEGREE s_tanLookupDegree).map
      (fun r => decide (25 < |r.currentAngle - 44|)) = some true := by
  decide!

theorem step_tables_nonneg (table : List ℚ)
    (htab : table = s_tanLookupDegree ∨ table = s_tanLookupRadian ∨
      table = s_tanLookupGradian) (i : ℕ) (step : ℚ) (h : table[i]? = some step) :
    0 ≤ step := by
  have hmem : step ∈ table := List.getElem?_mem h
  have hall : ∀ x ∈ table, (0 : ℚ) ≤ x := by
    rcases htab with rfl | rfl | rfl <;> decide!
  exact hall step hmem

/-- In each unit system and for every target, an iteration `i` of `PositionOf` changes the
distance `d` between the current angle and the target into `|d - stepTable[i]|`, which is no
larger than `d` exactly when the step is at most `2 * d`. -/
theorem PositionOf_body_distance (table : List ℚ)
    (htab : table = s_tanLookupDegree ∨ table = s_tanLookupRadian ∨
      table = s_tanLookupGradian) (t : α) (i : ℕ) (r r' : Rotation α)
    (h : PositionOf.body t table i r = some r') :
    ∃ step : ℚ, table[i]? = some step ∧
      |r'.currentAngle - t| = |(|r.currentAngle - t| - (step : α))| ∧
      (|r'.currentAngle - t| ≤ |r.currentAngle - t| ↔
        (step : α) ≤ 2 * |r.currentAngle - t|) := by
  obtain ⟨step, hstep, hcase⟩ := PositionOf_body_cases t table i r r' h
  have hnn : (0 : α) ≤ (step : α) := by
    exact_mod_cast step_tables_nonneg table htab i step hstep
  have heq : |r'.currentAngle - t| = |(|r.currentAngle - t| - (step : α))| := by
    rcases hcase with ⟨hlt, rfl⟩ | ⟨hge, rfl⟩
    · simp only
      rw [abs_of_neg (by linarith : r.currentAngle - t < 0), ← abs_neg]
      congr 1
      ring
    · simp only
      rw [abs_of_nonneg (by linarith : 0 ≤ r.currentAngle - t)]
      congr 1
      ring
  refine ⟨step, hstep, heq, ?_⟩
  rw [heq]
  have hd : (0 : α) ≤ |r.currentAngle - t| := abs_nonneg _
  rw [abs_le]
  constructor
  · intro hle
    linarith [hle.1]
  · intro hle
    constructor <;> linarith

/-- The second iteration for the target 44 degrees: the distance goes from 1 to
`|1 - 26.56...|` and grows, the step being larger than twice the distance. -/
theorem PositionOf_body_distance_witness :
    (s_tanLookupDegree = s_tanLookupDegree ∨ s_tanLookupDegree = s_tanLookupRadian ∨
      s_tanLookupDegree = s_tanLookupGradian) ∧
    PositionOf.body (44 : ℚ) s_tanLookupDegree 1 ⟨45, 1, 1⟩ =
      some ⟨18.434948822922010648427806279547, 3 / 2, 1 / 2⟩ ∧
    ∃ step : ℚ, s_tanLookupDegree[1]? = some step ∧
      |(18.434948822922010648427806279547 : ℚ) - 44| = |(|(45 : ℚ) - 44| - step)| ∧
      (|(18.434948822922010648427806279547 : ℚ) - 44| ≤ |(45 : ℚ) - 44| ↔
        step ≤ 2 * |(45 : ℚ) - 44|) := by
  have hb : PositionOf.body (44 : ℚ) s_tanLookupDegree 1 ⟨45, 1, 1⟩ =
      some ⟨18.434948822922010648427806279547, 3 / 2, 1 / 2⟩ := by decide!
  have h := PositionOf_body_distance s_tanLookupDegree (Or.inl rfl) (44 : ℚ) 1 ⟨45, 1, 1⟩
    ⟨18.434948822922010648427806279547, 3 / 2, 1 / 2⟩ hb
  simp only [Rat.cast_id] at h
  exact ⟨Or.inl rfl, hb, h⟩

end BinarySearch

end CORDIC
end LibMath

namespace LibMath
namespace CORDIC

section TableRelativeAccuracy

theorem arctan_enclosed (j : ℕ) :
    ((arctanLower j : ℚ) : ℝ) ≤ Real.arctan ((1 / 2 : ℝ) ^ j) ∧
      Real.arctan ((1 / 2 : ℝ) ^ j) ≤ ((arctanUpper j : ℚ) : ℝ) := by
  rcases Nat.eq_zero_or_pos j with h0 | hpos
  · subst h0
    simp only [arctanLower, arctanUpper, if_true, pow_zero, Real.arctan_one]
    push_cast
    constructor
    · linarith [piLower_lt_pi]
    · linarith [pi_lt_piUpper]
  · have hne : j ≠ 0 := by omega
    simp only [arctanLower, arctanUpper, if_neg hne]
    have hx : (0 : ℝ) ≤ (1 / 2 : ℝ) ^ j := by positivity
    have hlow := arctanPartial_even_le 10 ((1 / 2 : ℝ) ^ j) hx
    have hupp := arctanPartial_odd_ge 10 ((1 / 2 : ℝ) ^ j) hx
    have hc20 : ((arctanPartial ((1 / 2 : ℚ) ^ j) 20 : ℚ) : ℝ) =
        arctanPartial ((1 / 2 : ℝ) ^ j) (2 * 10) := by
      rw [arctanPartial_cast]
      push_cast
      rfl
    have hc21 : ((arctanPartial ((1 / 2 : ℚ) ^ j) 21 : ℚ) : ℝ) =
        arctanPartial ((1 / 2 : ℝ) ^ j) (2 * 10 + 1) := by
      rw [arctanPartial_cast]
      push_cast
      rfl
    rw [hc20, hc21]
    exact ⟨hlow, hupp⟩

/-- A table that passes `stepTableRelAccurate` holds the arctangents of the powers of `1/2`
up to the relative error `rel`: entry `j` times the conversion factor `d` is within
`rel * arctan ((1/2) ^ j)` of `arctan ((1/2) ^ j)`. -/
theorem stepTable_rel_accurate (table : List ℚ) (scaleLower scaleUpper rel : ℚ)
    (h : stepTableRelAccurate table scaleLower scaleUpper rel = true)
    (hrel0 : 0 ≤ rel) (hrel1 : rel ≤ 1) (d : ℝ)
    (hlo : (scaleLower : ℝ) ≤ d) (hhi : d ≤ (scaleUpper : ℝ)) (j : ℕ) (s : ℚ)
    (hs : table[j]? = some s) :
    |(s : ℝ) * d - Real.arctan ((1 / 2 : ℝ) ^ j)| ≤
      (rel : ℝ) * Real.arctan ((1 / 2 : ℝ) ^ j) := by
  have hjlt : j < table.length := by
    by_contra hcon
    rw [List.getElem?_eq_none (not_lt.mp hcon)] at hs
    exact Option.noConfusion hs
  have hget : table.getD j 0 = s := by
    rw [List.getD_eq_getElem?_getD, hs]
    rfl
  simp only [stepTableRelAccurate, List.all_eq_true, List.mem_range,
    Bool.and_eq_true, decide_eq_true_eq] at h
  obtain ⟨⟨hnn, hup⟩, hdown⟩ := h j hjlt
  rw [hget] at hnn hup hdown
  obtain ⟨hlow, hupp⟩ := arctan_enclosed j
  have hupR : (s : ℝ) * (scaleUpper : ℝ) ≤ (1 + (rel : ℝ)) * ((arctanLower j : ℚ) : ℝ) := by
    exact_mod_cast hup
  have hdownR : (1 - (rel : ℝ)) * ((arctanUpper j : ℚ) : ℝ) ≤ (s : ℝ) * (scaleLower : ℝ) := by
    exact_mod_cast hdown
  have hsnn : (0 : ℝ) ≤ (s : ℝ) := by exact_mod_cast hnn
  have hr0 : (0 : ℝ) ≤ (rel : ℝ) := by exact_mod_cast hrel0
  have hr1 : (rel : ℝ) ≤ 1 := by exact_mod_cast hrel1
  have h1 : (s : ℝ) * d ≤ (s : ℝ) * (scaleUpper : ℝ) := mul_le_mul_of_nonneg_left hhi hsnn
  have h2 : (s : ℝ) * (scaleLower : ℝ) ≤ (s : ℝ) * d := mul_le_mul_of_nonneg_left hlo hsnn
  have h3 : (1 + (rel : ℝ)) * ((arctanLower j : ℚ) : ℝ) ≤
      (1 + (rel : ℝ)) * Real.arctan ((1 / 2 : ℝ) ^ j) :=
    mul_le_mul_of_nonneg_left hlow (by linarith)
  have h4 : (1 - (rel : ℝ)) * Real.arctan ((1 / 2 : ℝ) ^ j) ≤
      (1 - (rel : ℝ)) * ((arctanUpper j : ℚ) : ℝ) :=
    mul_le_mul_of_nonneg_left hupp (by linarith)
  rw [abs_le]
  constructor <;> linarith

theorem s_tanLookupDegree_rel_checked :
    stepTableRelAccurate s_tanLookupDegree (piLower / 180) (piUpper / 180) (1 / 10 ^ 6) =
      true := by
  decide!

theorem s_tanLookupRadian_rel_checked :
    stepTableRelAccurate s_tanLookupRadian 1 1 (1 / 10 ^ 6) = true := by
  decide!

theorem s_tanLookupGradian_rel_checked :
    stepTableRelAccurate s_tanLookupGradian (piLower / 200) (piUpper / 200) (1 / 10 ^ 6) =
      true := by
  decide!

/-- A relative bound on an angle in radians, read in a unit of `c / π` per radian. -/
theorem rel_bound_in_unit (s a rel c : ℝ) (hc : 0 < c)
    (h : |s * (Real.pi / c) - a| ≤ rel * a) :
    |s - a * (c / Real.pi)| ≤ rel * (a * (c / Real.pi)) := by
  have hpi := Real.pi_pos
  have hk : 0 < c / Real.pi := div_pos hc hpi
  have heq : s - a * (c / Real.pi) = (s * (Real.pi / c) - a) * (c / Real.pi) := by
    field_simp
    ring
  rw [heq, abs_mul, abs_of_pos hk, ← mul_assoc]
  exact mul_le_mul_of_nonneg_right h hk.le

/-- Claim C28: for every `i` from 0 to 20, the entries `i` of the degree, radian and gradian
step tables are `arctan (2 ^ (-i))` expressed in degrees, radians and gradians, each within
a relative error of `10 ^ (-6)`. -/
theorem step_tables_are_arctangents (i : Fin 21) :
    ∃ deg rad gra : ℚ, s_tanLookupDegree[(i : ℕ)]? = some deg ∧
      s_tanLookupRadian[(i : ℕ)]? = some rad ∧ s_tanLookupGradian[(i : ℕ)]? = some gra ∧
      |(deg : ℝ) - Real.arctan ((2 : ℝ) ^ (-((i : ℕ) : ℤ))) * (180 / Real.pi)| ≤
        1 / 10 ^ 6 * (Real.arctan ((2 : ℝ) ^ (-((i : ℕ) : ℤ))) * (180 / Real.pi)) ∧
      |(rad : ℝ) - Real.arctan ((2 : ℝ) ^ (-((i : ℕ) : ℤ)))| ≤
        1 / 10 ^ 6 * Real.arctan ((2 : ℝ) ^ (-((i : ℕ) : ℤ))) ∧
      |(gra : ℝ) - Real.arctan ((2 : ℝ) ^ (-((i : ℕ) : ℤ))) * (200 / Real.pi)| ≤
        1 / 10 ^ 6 * (Real.arctan ((2 : ℝ) ^ (-((i : ℕ) : ℤ))) * (200 / Real.pi)) := by
  have hi : (i : ℕ) < 21 := i.isLt
  have hd : (i : ℕ) < s_tanLookupDegree.length := by rw [s_tanLookupDegree_length]; exact hi
  have hr : (i : ℕ) < s_tanLookupRadian.length := by rw [s_tanLookupRadian_length]; exact hi
  have hg : (i : ℕ) < s_tanLookupGradian.length := by rw [s_tanLookupGradian_length]; exact hi
  have hpi := Real.pi_pos
  have hrel : (((1 / 10 ^ 6 : ℚ) : ℚ) : ℝ) = 1 / 10 ^ 6 := by push_cast; rfl
  refine ⟨s_tanLookupDegree[(i : ℕ)], s_tanLookupRadian[(i : ℕ)], s_tanLookupGradian[(i : ℕ)],
    List.getElem?_eq_getElem hd, List.getElem?_eq_getElem hr, List.getElem?_eq_getElem hg,
    ?_, ?_, ?_⟩
  · have h := stepTable_rel_accurate s_tanLookupDegree (piLower / 180) (piUpper / 180)
      (1 / 10 ^ 6) s_tanLookupDegree_rel_checked (by norm_num) (by norm_num) (Real.pi / 180)
      (by push_cast; linarith [piLower_lt_pi]) (by push_cast; linarith [pi_lt_piUpper])
      (i : ℕ) _ (List.getElem?_eq_getElem hd)
    rw [hrel, ← two_zpow_neg] at h
    exact rel_bound_in_unit _ _ _ 180 (by norm_num) h
  · have h := stepTable_rel_accurate s_tanLookupRadian 1 1
      (1 / 10 ^ 6) s_tanLookupRadian_rel_checked (by norm_num) (by norm_num) 1
      (by push_cast; exact le_refl _) (by push_cast; exact le_refl _)
      (i : ℕ) _ (List.getElem?_eq_getElem hr)
    rw [hrel, ← two_zpow_neg, mul_one] at h
    exact h
  · have h := stepTable_rel_accurate s_tanLookupGradian (piLower / 200) (piUpper / 200)
      (1 / 10 ^ 6) s_tanLookupGradian_rel_checked (by norm_num) (by norm_num) (Real.pi / 200)
      (by push_cast; linarith [piLower_lt_pi]) (by push_cast; linarith [pi_lt_piUpper])
      (i : ℕ) _ (List.getElem?_eq_getElem hg)
    rw [hrel, ← two_zpow_neg] at h
    exact rel_bound_in_unit _ _ _ 200 (by norm_num) h

end TableRelativeAccuracy

end CORDIC
end LibMath

namespace LibMath
namespace CORDIC

section GainTable

/-- Claim C29: for every `k` from 0 to 20 the gain `s_cosLookup[k]` is positive and its square
times the product of `1 + 4 ^ (-i)` for `i` from 0 to `k` is 1 within `10 ^ (-6)`; and for
every `k` from 0 to 19 the entry `k + 1` is at most the entry `k`. -/
theorem s_cosLookup_is_cumulative_gain :
    (∀ k : Fin 21, ∃ g : ℚ, s_cosLookup[(k : ℕ)]? = some g ∧ 0 < g ∧
      |g ^ 2 * ∏ i in Finset.range ((k : ℕ) + 1), (1 + (1 / 4 : ℚ) ^ i) - 1| ≤ 1 / 10 ^ 6) ∧
    (∀ k : Fin 20, ∃ g g' : ℚ, s_cosLookup[(k : ℕ)]? = some g ∧
      s_cosLookup[(k : ℕ) + 1]? = some g' ∧ g' ≤ g) := by
  constructor
  · intro k
    have hk : (k : ℕ) < s_cosLookup.length := by rw [s_cosLookup_length]; exact k.isLt
    have hg := List.getElem?_eq_getElem hk
    refine ⟨s_cosLookup[(k : ℕ)], hg, ?_, ?_⟩
    · exact s_cosLookup_pos ((k : ℕ) : ℤ) _ (by rw [index_natCast]; exact hg)
    · have h := gain_sq_mul_magnitudeSq (k : ℕ) k.isLt _ hg
      have h6 : (1 : ℚ) / 10 ^ 31 ≤ 1 / 10 ^ 6 := by norm_num
      exact le_trans h h6
  · intro k
    have hk : (k : ℕ) < s_cosLookup.length := by
      rw [s_cosLookup_length]; exact lt_trans k.isLt (by norm_num)
    have hk1 : (k : ℕ) + 1 < s_cosLookup.length := by
      rw [s_cosLookup_length]; have := k.isLt; omega
    have hall : ∀ j : Fin 20, s_cosLookup.getD ((j : ℕ) + 1) 0 ≤ s_cosLookup.getD (j : ℕ) 0 := by
      decide!
    have h := hall k
    rw [List.getD_eq_getElem?_getD, List.getD_eq_getElem?_getD,
      List.getElem?_eq_getElem hk, List.getElem?_eq_getElem hk1] at h
    exact ⟨s_cosLookup[(k : ℕ)], s_cosLookup[(k : ℕ) + 1], List.getElem?_eq_getElem hk,
      List.getElem?_eq_getElem hk1, h⟩

end GainTable

section Tangent

variable {α : Type} [LinearOrderedField α]

/-- A common positive factor cancels in the IEEE quotient. -/
theorem fdiv_mul_right (s c g : α) (hg : 0 < g) : fdiv (s * g) (c * g) = fdiv s c := by
  have hgne : g ≠ 0 := ne_of_gt hg
  unfold fdiv
  by_cases hc : c = 0
  · subst hc
    by_cases hs : s = 0
    · subst hs
      simp
    · have hsg : s * g ≠ 0 := mul_ne_zero hs hgne
      have hiff : (s * g < 0) ↔ (s < 0) := by
        constructor
        · intro h
          by_contra hcon
          exact absurd h (not_lt.mpr (mul_nonneg (not_lt.mp hcon) hg.le))
        · intro h
          exact mul_neg_of_neg_of_pos h hg
      simp [hs, hsg, hiff]
  · have hcg : c * g ≠ 0 := mul_ne_zero hc hgne
    rw [if_neg hc, if_neg hcg, mul_div_mul_right _ _ hgne]

/-- The quotient form of a tangent entry point: when the position is computed and scaled by
the gain of the level, the unscaled quotient is the quotient of the scaled sine and cosine. -/
theorem tan_of_position (st : State) (h1 : 1 ≤ st.s_precision) (h21 : st.s_precision ≤ 21)
    (o : Option (Coodinate α)) (ho : ∃ p, o = some p) :
    ∃ s c : α,
      (o.bind fun p => (index s_cosLookup (st.s_precision - 1)).map fun (gain : ℚ) =>
        FloatVal.num (p.sin * (gain : α))) = some (FloatVal.num s) ∧
      (o.bind fun p => (index s_cosLookup (st.s_precision - 1)).map fun (gain : ℚ) =>
        FloatVal.num (p.cos * (gain : α))) = some (FloatVal.num c) ∧
      (o.map fun p => fdiv p.sin p.cos) = some (fdiv s c) := by
  obtain ⟨p, rfl⟩ := ho
  obtain ⟨g, hg⟩ := gain_eq_some st h1 h21
  have hpos : (0 : α) < (g : α) := by exact_mod_cast s_cosLookup_pos _ g hg
  refine ⟨p.sin * (g : α), p.cos * (g : α), ?_, ?_, ?_⟩
  · simp only [Option.some_bind, hg, Option.map_some']
  · simp only [Option.some_bind, hg, Option.map_some']
  · simp only [Option.map_some', fdiv_mul_right _ _ _ hpos]

variable [FloorRing α]

/-- Claim C30: at every accuracy level from 1 to 21 and for every angle whose reduced value is
neither 0 nor one of the values the tangent tests as poles (90 and 270 in `tan_0` and in
`tan_9`, none in `tan_r`), the sine and the cosine are numbers and the tangent is their IEEE
quotient. -/
theorem tan_eq_sin_div_cos (st : State) (h1 : 1 ≤ st.s_precision)
    (h21 : st.s_precision ≤ 21) (angle : α) :
    (Clamp angle (CIRCLE_DEGREE : α) ≠ 0 → Clamp angle (CIRCLE_DEGREE : α) ≠ 90 →
      Clamp angle (CIRCLE_DEGREE : α) ≠ 270 →
      ∃ s c : α, sin_0 st angle = some (FloatVal.num s) ∧
        cos_0 st angle = some (FloatVal.num c) ∧ tan_0 st angle = some (fdiv s c)) ∧
    (Clamp angle (CIRCLE_RADIAN : α) ≠ 0 →
      ∃ s c : α, sin_r st angle = some (FloatVal.num s) ∧
        cos_r st angle = some (FloatVal.num c) ∧ tan_r st angle = some (fdiv s c)) ∧
    (Clamp angle (CIRCLE_GRADIAN : α) ≠ 0 → Clamp angle (CIRCLE_GRADIAN : α) ≠ 90 →
      Clamp angle (CIRCLE_GRADIAN : α) ≠ 270 →
      ∃ s c : α, sin_9 st angle = some (FloatVal.num s) ∧
        cos_9 st angle = some (FloatVal.num c) ∧ tan_9 st angle = some (fdiv s c)) := by
  have hL : st.s_precision.toNat ≤ 21 := by omega
  refine ⟨fun h0 h90 h270 => ?_, fun h0 => ?_, fun h0 h90 h270 => ?_⟩
  · have hpole : ¬ (Clamp angle (CIRCLE_DEGREE : α) = 90 ∨
        Clamp angle (CIRCLE_DEGREE : α) = 270) := by
      rintro (h | h)
      · exact h90 h
      · exact h270 h
    simp only [sin_0, cos_0, tan_0, if_neg h0, if_neg hpole]
    exact tan_of_position st h1 h21 _
      (PositionOf_eq_some st _ _ _ s_tanLookupDegree (by rw [s_tanLookupDegree_length]; exact hL))
  · simp only [sin_r, cos_r, tan_r, if_neg h0]
    exact tan_of_position st h1 h21 _
      (PositionOf_eq_some st _ _ _ s_tanLookupRadian (by rw [s_tanLookupRadian_length]; exact hL))
  · have hpole : ¬ (Clamp angle (CIRCLE_GRADIAN : α) = 90 ∨
        Clamp angle (CIRCLE_GRADIAN : α) = 270) := by
      rintro (h | h)
      · exact h90 h
      · exact h270 h
    simp only [sin_9, cos_9, tan_9, if_neg h0, if_neg hpole]
    exact tan_of_position st h1 h21 _
      (PositionOf_eq_some st _ _ _ s_tanLookupGradian
        (by rw [s_tanLookupGradian_length]; exact hL))

/-- The quotient identity of C30 at accuracy level 7 for the angle 30 in the three units. -/
theorem tan_eq_sin_div_cos_witness :
    ((1 : ℤ) ≤ (SetPrecision 7 State.initial).s_precision ∧
      (SetPrecision 7 State.initial).s_precision ≤ 21 ∧
      Clamp (30 : ℚ) CIRCLE_DEGREE ≠ 0 ∧ Clamp (30 : ℚ) CIRCLE_DEGREE ≠ 90 ∧
      Clamp (30 : ℚ) CIRCLE_DEGREE ≠ 270 ∧ Clamp (30 : ℚ) CIRCLE_RADIAN ≠ 0 ∧
      Clamp (30 : ℚ) CIRCLE_GRADIAN ≠ 0 ∧ Clamp (30 : ℚ) CIRCLE_GRADIAN ≠ 90 ∧
      Clamp (30 : ℚ) CIRCLE_GRADIAN ≠ 270) ∧
    (∃ s c : ℚ, sin_0 (SetPrecision 7 State.initial) (30 : ℚ) = some (FloatVal.num s) ∧
      cos_0 (SetPrecision 7 State.initial) (30 : ℚ) = some (FloatVal.num c) ∧
      tan_0 (SetPrecision 7 State.initial) (30 : ℚ) = some (fdiv s c)) ∧
    (∃ s c : ℚ, sin_r (SetPrecision 7 State.initial) (30 : ℚ) = some (FloatVal.num s) ∧
      cos_r (SetPrecision 7 State.initial) (30 : ℚ) = some (FloatVal.num c) ∧
      tan_r (SetPrecision 7 State.initial) (30 : ℚ) = some (fdiv s c)) ∧
    (∃ s c : ℚ, sin_9 (SetPrecision 7 State.initial) (30 : ℚ) = some (FloatVal.num s) ∧
      cos_9 (SetPrecision 7 State.initial) (30 : ℚ) = some (FloatVal.num c) ∧
      tan_9 (SetPrecision 7 State.initial) (30 : ℚ) = some (fdiv s c)) := by
  have hd0 : Clamp (30 : ℚ) CIRCLE_DEGREE ≠ 0 := by decide!
  have hd90 : Clamp (30 : ℚ) CIRCLE_DEGREE ≠ 90 := by decide!
  have hd270 : Clamp (30 : ℚ) CIRCLE_DEGREE ≠ 270 := by decide!
  have hr0 : Clamp (30 : ℚ) CIRCLE_RADIAN ≠ 0 := by decide!
  have hg0 : Clamp (30 : ℚ) CIRCLE_GRADIAN ≠ 0 := by decide!
  have hg90 : Clamp (30 : ℚ) CIRCLE_GRADIAN ≠ 90 := by decide!
  have hg270 : Clamp (30 : ℚ) CIRCLE_GRADIAN ≠ 270 := by decide!
  have h := tan_eq_sin_div_cos (SetPrecision 7 State.initial) (by decide) (by decide) (30 : ℚ)
  simp only [Rat.cast_id] at h
  exact ⟨⟨by decide, by decide, hd0, hd90, hd270, hr0, hg0, hg90, hg270⟩,
    h.1 hd0 hd90 hd270, h.2.1 hr0, h.2.2 hg0 hg90 hg270⟩

end Tangent

end CORDIC
end LibMath

namespace LibMath

namespace Quaternion

section Sequence

variable {α : Type} [LinearOrderedField α]

theorem mul_half (x : α) : x * 0.5 = x / 2 := by
  norm_num
  ring

theorem RotationSequence_toChar_injective : Function.Injective RotationSequence.toChar := by
  intro a b h
  cases a <;> cases b <;> first | rfl | exact absurd h (by decide)

/-- Claim C31: for each of the twelve values of `RotationSequence` and all angles, the
sequence constructor returns `((identity * a) * b) * c`, where `a`, `b`, `c` are the
single-axis quaternions named by the first, second and third letter of the sequence; and the
twelve `char` values are pairwise distinct. -/
theorem ofEulerSequence_eq_ofLetters (cos sin : α → α) (pitch yaw roll : α)
    (order : RotationSequence) :
    ofEulerSequence cos sin pitch yaw roll order = ofLetters cos sin pitch yaw roll order ∧
      Function.Injective RotationSequence.toChar := by
  refine ⟨?_, RotationSequence_toChar_injective⟩
  cases order <;>
  · simp only [ofEulerSequence, ofLetters, RotationSequence.letters, axisQuaternion,
      Quaternion.default, mul_half]
    rfl

end Sequence

end Quaternion

end LibMath

namespace LibMath
namespace CORDIC

section Magnitude

variable {α : Type} [LinearOrderedField α]

/-- Claim C32: for every accuracy level, every target angle, every quarter and half circle
and every step table holding at least as many steps as the level, `PositionOf` returns a pair
whose squared magnitude is exactly the product of `1 + 4 ^ (-i)` for `i` below the level. -/
theorem PositionOf_magnitude_depends_on_level (st : State)
    (targetAngle quarterCircle halfCircle : α) (tanLookup : List ℚ)
    (hlen : st.s_precision.toNat ≤ tanLookup.length) :
    ∃ p : Coodinate α,
      PositionOf st targetAngle quarterCircle halfCircle tanLookup = some p ∧
      p.cos ^ 2 + p.sin ^ 2 =
        ∏ i in Finset.range st.s_precision.toNat, (1 + (1 / 4 : α) ^ i) := by
  obtain ⟨p, hp⟩ := PositionOf_eq_some st targetAngle quarterCircle halfCircle tanLookup hlen
  refine ⟨p, hp, ?_⟩
  rw [PositionOf_magnitudeSq st targetAngle quarterCircle halfCircle tanLookup p hp]
  unfold magnitudeSq
  push_cast
  rfl

/-- The squared magnitude at level 7 for the target 245 degrees. -/
theorem PositionOf_magnitude_depends_on_level_witness :
    (SetPrecision 7 State.initial).s_precision.toNat ≤ s_tanLookupDegree.length ∧
    ∃ p : Coodinate ℚ,
      PositionOf (SetPrecision 7 State.initial) (245 : ℚ) 90 180 s_tanLookupDegree = some p ∧
      p.cos ^ 2 + p.sin ^ 2 =
        ∏ i in Finset.range (SetPrecision 7 State.initial).s_precision.toNat,
          (1 + (1 / 4 : ℚ) ^ i) :=
  ⟨by decide, PositionOf_magnitude_depends_on_level (SetPrecision 7 State.initial) (245 : ℚ)
    90 180 s_tanLookupDegree (by decide)⟩

end Magnitude

section Periodicity

variable {α : Type} [LinearOrderedField α] [FloorRing α]

/-- The range reduction ignores whole turns. -/
theorem Clamp_add_turns (t fullCircle : α) (hC : 0 < fullCircle) (k : ℤ) :
    Clamp (t + fullCircle * (k : α)) fullCircle = Clamp t fullCircle := by
  rw [Clamp_eq_sub_floor _ _ hC, Clamp_eq_sub_floor _ _ hC]
  have h : (t + fullCircle * (k : α)) / fullCircle = t / fullCircle + (k : α) := by
    field_simp
    ring
  rw [h, Int.floor_add_int]
  push_cast
  ring

/-- Claim C34: at every accuracy level, for every angle `t` and every integer `k`, the three
degree entry points take the same value at `t + 360 * k` and at `t`; and `cos_0 (360 * k)` is
1, `sin_0 (360 * k)` is 0. -/
theorem forward_0_periodic (st : State) (t : α) (k : ℤ) :
    sin_0 st (t + 360 * (k : α)) = sin_0 st t ∧
    cos_0 st (t + 360 * (k : α)) = cos_0 st t ∧
    tan_0 st (t + 360 * (k : α)) = tan_0 st t ∧
    cos_0 st (360 * (k : α)) = some (FloatVal.num 1) ∧
    sin_0 st (360 * (k : α)) = some (FloatVal.num 0) := by
  have hC : (0 : α) < ((CIRCLE_DEGREE : ℚ) : α) := by
    rw [CIRCLE_DEGREE_cast]
    norm_num
  have hper : ∀ u : α, Clamp (u + 360 * (k : α)) ((CIRCLE_DEGREE : ℚ) : α) =
      Clamp u ((CIRCLE_DEGREE : ℚ) : α) := by
    intro u
    have h := Clamp_add_turns u ((CIRCLE_DEGREE : ℚ) : α) hC k
    rw [CIRCLE_DEGREE_cast] at h ⊢
    exact h
  have hzero : Clamp (360 * (k : α)) ((CIRCLE_DEGREE : ℚ) : α) = 0 := by
    have h := hper 0
    rw [zero_add, Clamp_zero] at h
    exact h
  refine ⟨?_, ?_, ?_, ?_, ?_⟩
  · simp only [sin_0, hper]
  · simp only [cos_0, hper]
  · simp only [tan_0, hper]
  · simp only [cos_0, hzero, if_true]
  · simp only [sin_0, hzero, if_true]

end Periodicity

end CORDIC
end LibMath

namespace LibMath
namespace CORDIC

section NonZero

/-- The squared magnitude at a level of at least 1 is, up to a power of 4, twice an odd
number. -/
theorem magnitudeSq_two_mul_odd (n : ℕ) :
    ∃ T P : ℕ, Odd P ∧ magnitudeSq (n + 1) * (4 : ℚ) ^ T = 2 * (P : ℚ) := by
  induction n with
  | zero =>
    refine ⟨0, 1, odd_one, ?_⟩
    unfold magnitudeSq
    norm_num
  | succ n ih =>
    obtain ⟨T, P, hP, h⟩ := ih
    refine ⟨T + (n + 1), P * (4 ^ (n + 1) + 1), ?_, ?_⟩
    · refine hP.mul ?_
      exact Even.add_one ((Nat.even_pow.mpr ⟨by decide, by omega⟩))
    · rw [magnitudeSq_succ (n + 1), pow_add (4 : ℚ) T (n + 1)]
      have h4 : (1 + (1 / 4 : ℚ) ^ (n + 1)) * (4 : ℚ) ^ (n + 1) = 4 ^ (n + 1) + 1 := by
        rw [add_mul, one_mul, ← mul_pow]
        norm_num
      calc magnitudeSq (n + 1) * (1 + (1 / 4 : ℚ) ^ (n + 1)) * ((4 : ℚ) ^ T * 4 ^ (n + 1))
          = (magnitudeSq (n + 1) * (4 : ℚ) ^ T) *
              ((1 + (1 / 4 : ℚ) ^ (n + 1)) * (4 : ℚ) ^ (n + 1)) := by ring
        _ = 2 * (P : ℚ) * (4 ^ (n + 1) + 1) := by rw [h, h4]
        _ = 2 * ((P * (4 ^ (n + 1) + 1) : ℕ) : ℚ) := by
          push_cast
          ring

/-- The squared magnitude at a level of at least 1 is not the square of a rational. -/
theorem magnitudeSq_ne_sq (n : ℕ) (s : ℚ) : s ^ 2 ≠ magnitudeSq (n + 1) := by
  intro hs
  obtain ⟨T, P, hP, h⟩ := magnitudeSq_two_mul_odd n
  have hr : (s * 2 ^ T) ^ 2 = 2 * (P : ℚ) := by
    rw [mul_pow, hs, ← h, ← pow_mul, mul_comm T 2, pow_mul]
    norm_num
  have hPpos : 0 < P := hP.pos
  have hP0 : (P : ℚ) ≠ 0 := by exact_mod_cast hPpos.ne'
  have hr0 : s * 2 ^ T ≠ 0 := by
    intro h0
    rw [h0] at hr
    have : (2 : ℚ) * (P : ℚ) ≠ 0 := mul_ne_zero (by norm_num) hP0
    exact this (by rw [← hr]; norm_num)
  have hv := congrArg (padicValRat 2) hr
  have hndvd : ¬ 2 ∣ P := by
    rw [← even_iff_two_dvd]
    exact Nat.not_even_iff_odd.mpr hP
  have h2 : padicValRat 2 ((2 : ℚ) * (P : ℚ)) = 1 := by
    rw [padicValRat.mul (by norm_num) hP0]
    have h2self : padicValRat 2 (2 : ℚ) = 1 := by
      have := padicValRat.self (p := 2) (by norm_num)
      simpa using this
    rw [h2self, padicValRat.of_nat, padicValNat.eq_zero_of_not_dvd hndvd]
    norm_num
  rw [padicValRat.pow hr0, h2] at hv
  push_cast at hv
  omega

variable {α : Type} [LinearOrderedField α]

/-- The coordinates held by the loop of `PositionOf` are rationals whose squares add up to the
squared magnitude of the number of iterations done. -/
theorem PositionOf_run_rational (t quarterCircle halfCircle : α) (tanLookup : List ℚ)
    (n : ℕ) (r : Rotation α)
    (h : forLoop (PositionOf.body t tanLookup) n
      (PositionOf.start t quarterCircle halfCircle) = some r) :
    ∃ x y : ℚ, r.cos = (x : α) ∧ r.sin = (y : α) ∧ x ^ 2 + y ^ 2 = magnitudeSq n := by
  refine forLoop_invariant_indexed
    (fun i (r : Rotation α) =>
      ∃ x y : ℚ, r.cos = (x : α) ∧ r.sin = (y : α) ∧ x ^ 2 + y ^ 2 = magnitudeSq i)
    (PositionOf.body t tanLookup) n _ ?_ ?_ r h
  · unfold PositionOf.start
    split_ifs
    · exact ⟨0, -1, by simp, by simp, by simp [magnitudeSq]⟩
    · exact ⟨0, 1, by simp, by simp, by simp [magnitudeSq]⟩
  · intro i s s' _ hs hb
    obtain ⟨x, y, hx, hy, hxy⟩ := hs
    obtain ⟨step, _, hcase⟩ := PositionOf_body_cases t tanLookup i s s' hb
    have hq : ((1 / 2 : ℚ) ^ i) ^ 2 = (1 / 4 : ℚ) ^ i := by
      rw [← pow_mul, mul_comm, pow_mul]
      norm_num
    rcases hcase with ⟨_, rfl⟩ | ⟨_, rfl⟩
    · refine ⟨x - y * (1 / 2) ^ i, y + x * (1 / 2) ^ i, ?_, ?_, ?_⟩
      · simp only [ldexpf, two_zpow_neg_natCast, hx, hy]
        push_cast
        ring
      · simp only [ldexpf, two_zpow_neg_natCast, hx, hy]
        push_cast
        ring
      · rw [magnitudeSq_succ, ← hxy, ← hq]
        ring
    · refine ⟨x + y * (1 / 2) ^ i, y - x * (1 / 2) ^ i, ?_, ?_, ?_⟩
      · simp only [ldexpf, two_zpow_neg_natCast, hx, hy]
        push_cast
        ring
      · simp only [ldexpf, two_zpow_neg_natCast, hx, hy]
        push_cast
        ring
      · rw [magnitudeSq_succ, ← hxy, ← hq]
        ring

/-- At a level of at least 1, `PositionOf` returns a pair and both its coordinates are
non-zero. -/
theorem PositionOf_ne_zero (st : State) (h1 : 1 ≤ st.s_precision)
    (t quarterCircle halfCircle : α) (tanLookup : List ℚ)
    (hlen : st.s_precision.toNat ≤ tanLookup.length) :
    ∃ p : Coodinate α, PositionOf st t quarterCircle halfCircle tanLookup = some p ∧
      p.cos ≠ 0 ∧ p.sin ≠ 0 := by
  obtain ⟨r, hr⟩ := forLoop_eq_some (PositionOf.body t tanLookup) st.s_precision.toNat
    (fun i hi => PositionOf_body_eq_some t tanLookup i (lt_of_lt_of_le hi hlen))
    (PositionOf.start t quarterCircle halfCircle)
  obtain ⟨x, y, hx, hy, hxy⟩ := PositionOf_run_rational t quarterCircle halfCircle tanLookup
    st.s_precision.toNat r hr
  obtain ⟨n, hn⟩ : ∃ n, st.s_precision.toNat = n + 1 := ⟨st.s_precision.toNat - 1, by omega⟩
  rw [hn] at hxy
  refine ⟨⟨r.cos, r.sin⟩, by simp [PositionOf, PositionOf.run, hr], ?_, ?_⟩
  · show r.cos ≠ 0
    intro h0
    rw [hx] at h0
    have hx0 : x = 0 := by exact_mod_cast h0
    rw [hx0] at hxy
    exact magnitudeSq_ne_sq n y (by rw [← hxy]; ring)
  · show r.sin ≠ 0
    intro h0
    rw [hy] at h0
    have hy0 : y = 0 := by exact_mod_cast h0
    rw [hy0] at hxy
    exact magnitudeSq_ne_sq n x (by rw [← hxy]; ring)

end NonZero

end CORDIC
end LibMath

namespace LibMath
namespace CORDIC

section NoZeroDivision

variable {α : Type} [LinearOrderedField α]

/-- The quotient a tangent entry point takes at a level of at least 1 is a number. -/
theorem PositionOf_fdiv_num (st : State) (h1 : 1 ≤ st.s_precision)
    (t quarterCircle halfCircle : α) (tanLookup : List ℚ)
    (hlen : st.s_precision.toNat ≤ tanLookup.length) :
    ∃ v : α, (PositionOf st t quarterCircle halfCircle tanLookup).map
      (fun p => fdiv p.sin p.cos) = some (FloatVal.num v) := by
  obtain ⟨p, hp, hc, _⟩ := PositionOf_ne_zero st h1 t quarterCircle halfCircle tanLookup hlen
  exact ⟨p.sin / p.cos, by simp only [hp, Option.map_some', fdiv, if_neg hc]⟩

/-- The scaled coordinates a sine or cosine entry point returns at a level from 1 to 21 are
non-zero numbers. -/
theorem PositionOf_scaled_ne_zero (st : State) (h1 : 1 ≤ st.s_precision)
    (h21 : st.s_precision ≤ 21) (t quarterCircle halfCircle : α) (tanLookup : List ℚ)
    (hlen : st.s_precision.toNat ≤ tanLookup.length) :
    ∃ c s : α, c ≠ 0 ∧ s ≠ 0 ∧
      ((PositionOf st t quarterCircle halfCircle tanLookup).bind fun p =>
        (index s_cosLookup (st.s_precision - 1)).map fun (gain : ℚ) =>
          FloatVal.num (p.cos * (gain : α))) = some (FloatVal.num c) ∧
      ((PositionOf st t quarterCircle halfCircle tanLookup).bind fun p =>
        (index s_cosLookup (st.s_precision - 1)).map fun (gain : ℚ) =>
          FloatVal.num (p.sin * (gain : α))) = some (FloatVal.num s) := by
  obtain ⟨p, hp, hc, hs⟩ := PositionOf_ne_zero st h1 t quarterCircle halfCircle tanLookup hlen
  obtain ⟨g, hg⟩ := gain_eq_some st h1 h21
  have hpos : (0 : α) < (g : α) := by exact_mod_cast s_cosLookup_pos _ g hg
  refine ⟨p.cos * (g : α), p.sin * (g : α), mul_ne_zero hc hpos.ne', mul_ne_zero hs hpos.ne',
    ?_, ?_⟩
  · simp only [hp, Option.some_bind, hg, Option.map_some']
  · simp only [hp, Option.some_bind, hg, Option.map_some']

variable [FloorRing α]

/-- Claim C33: at every accuracy level from 1 to 21 and for every target angle, `PositionOf`
returns a pair whose two coordinates are non-zero; so the tangents never divide by zero (they
return a number, or NaN from the pole test of `tan_0` and `tan_9`), `cos_0` never returns 0
and `sin_0` returns 0 exactly when the reduced angle is 0; `cos_0 90` and `sin_0 180` are not
0. -/
theorem PositionOf_coordinates_nonzero (st : State) (h1 : 1 ≤ st.s_precision)
    (h21 : st.s_precision ≤ 21) (t quarterCircle halfCircle : α) (tanLookup : List ℚ)
    (hlen : tanLookup.length = 21) :
    (∃ p : Coodinate α, PositionOf st t quarterCircle halfCircle tanLookup = some p ∧
      p.cos ≠ 0 ∧ p.sin ≠ 0) ∧
    ((∃ v : α, tan_0 st t = some (FloatVal.num v)) ∨
      ((Clamp t (CIRCLE_DEGREE : α) = 90 ∨ Clamp t (CIRCLE_DEGREE : α) = 270) ∧
        tan_0 st t = some FloatVal.nan)) ∧
    (∃ v : α, tan_r st t = some (FloatVal.num v)) ∧
    ((∃ v : α, tan_9 st t = some (FloatVal.num v)) ∨
      ((Clamp t (CIRCLE_GRADIAN : α) = 90 ∨ Clamp t (CIRCLE_GRADIAN : α) = 270) ∧
        tan_9 st t = some FloatVal.nan)) ∧
    cos_0 st t ≠ some (FloatVal.num 0) ∧
    (sin_0 st t = some (FloatVal.num 0) ↔ Clamp t (CIRCLE_DEGREE : α) = 0) ∧
    cos_0 st (90 : α) ≠ some (FloatVal.num 0) ∧
    sin_0 st (180 : α) ≠ some (FloatVal.num 0) := by
  have hL : st.s_precision.toNat ≤ 21 := by omega
  have hD : st.s_precision.toNat ≤ s_tanLookupDegree.length := hL
  have hR : st.s_precision.toNat ≤ s_tanLookupRadian.length := hL
  have hG : st.s_precision.toNat ≤ s_tanLookupGradian.length := hL
  have hcos : ∀ u : α, cos_0 st u ≠ some (FloatVal.num 0) := by
    intro u
    by_cases h0 : Clamp u (CIRCLE_DEGREE : α) = 0
    · simp only [cos_0, h0, if_true, ne_eq, Option.some.injEq, FloatVal.num.injEq]
      exact one_ne_zero
    · obtain ⟨c, s, hc, _, hcv, _⟩ := PositionOf_scaled_ne_zero st h1 h21
        (Clamp u (CIRCLE_DEGREE : α)) (QUARTER_CIRCLE_DEGREE : α) (HALF_CIRCLE_DEGREE : α)
        s_tanLookupDegree hD
      simp only [cos_0, if_neg h0, hcv, ne_eq, Option.some.injEq, FloatVal.num.injEq]
      exact hc
  have hsin : ∀ u : α, sin_0 st u = some (FloatVal.num 0) ↔
      Clamp u (CIRCLE_DEGREE : α) = 0 := by
    intro u
    by_cases h0 : Clamp u (CIRCLE_DEGREE : α) = 0
    · simp only [sin_0, h0, if_true]
    · obtain ⟨c, s, _, hs, _, hsv⟩ := PositionOf_scaled_ne_zero st h1 h21
        (Clamp u (CIRCLE_DEGREE : α)) (QUARTER_CIRCLE_DEGREE : α) (HALF_CIRCLE_DEGREE : α)
        s_tanLookupDegree hD
      simp only [sin_0, if_neg h0, hsv, Option.some.injEq, FloatVal.num.injEq, hs]
      exact ⟨False.elim, fun h => h0 h⟩
  refine ⟨PositionOf_ne_zero st h1 t quarterCircle halfCircle tanLookup (by omega),
    ?_, ?_, ?_, hcos t, hsin t, hcos 90, ?_⟩
  · by_cases h0 : Clamp t (CIRCLE_DEGREE : α) = 0
    · exact Or.inl ⟨0, by simp only [tan_0, h0, if_true]⟩
    · by_cases hp : Clamp t (CIRCLE_DEGREE : α) = 90 ∨ Clamp t (CIRCLE_DEGREE : α) = 270
      · exact Or.inr ⟨hp, by simp only [tan_0, if_neg h0, if_pos hp]⟩
      · obtain ⟨v, hv⟩ := PositionOf_fdiv_num st h1 (Clamp t (CIRCLE_DEGREE : α))
          (QUARTER_CIRCLE_DEGREE : α) (HALF_CIRCLE_DEGREE : α) s_tanLookupDegree hD
        exact Or.inl ⟨v, by simp only [tan_0, if_neg h0, if_neg hp, hv]⟩
  · by_cases h0 : Clamp t (CIRCLE_RADIAN : α) = 0
    · exact ⟨0, by simp only [tan_r, h0, if_true]⟩
    · obtain ⟨v, hv⟩ := PositionOf_fdiv_num st h1 (Clamp t (CIRCLE_RADIAN : α))
        (QUARTER_CIRCLE_RADIAN : α) (HALF_CIRCLE_RADIAN : α) s_tanLookupRadian hR
      exact ⟨v, by simp only [tan_r, if_neg h0, hv]⟩
  · by_cases h0 : Clamp t (CIRCLE_GRADIAN : α) = 0
    · exact Or.inl ⟨0, by simp only [tan_9, h0, if_true]⟩
    · by_cases hp : Clamp t (CIRCLE_GRADIAN : α) = 90 ∨ Clamp t (CIRCLE_GRADIAN : α) = 270
      · exact Or.inr ⟨hp, by simp only [tan_9, if_neg h0, if_pos hp]⟩
      · obtain ⟨v, hv⟩ := PositionOf_fdiv_num st h1 (Clamp t (CIRCLE_GRADIAN : α))
          (QUARTER_CIRCLE_GRADIAN : α) (HALF_CIRCLE_GRADIAN : α) s_tanLookupGradian hG
        exact Or.inl ⟨v, by simp only [tan_9, if_neg h0, if_neg hp, hv]⟩
  · intro h
    have h180 := (hsin 180).mp h
    have hmem : Clamp (180 : α) ((CIRCLE_DEGREE : ℚ) : α) = 180 :=
      Clamp_of_mem _ _ (by norm_num) (by rw [CIRCLE_DEGREE_cast]; norm_num)
    rw [hmem] at h180
    norm_num at h180

/-- The facts of C33 at accuracy level 7 for the angle 245, the degree table serving as the
step table. -/
theorem PositionOf_coordinates_nonzero_witness :
    ((1 : ℤ) ≤ (SetPrecision 7 State.initial).s_precision ∧
      (SetPrecision 7 State.initial).s_precision ≤ 21 ∧ s_tanLookupDegree.length = 21) ∧
    (∃ p : Coodinate ℚ, PositionOf (SetPrecision 7 State.initial) (245 : ℚ) 90 180
        s_tanLookupDegree = some p ∧ p.cos ≠ 0 ∧ p.sin ≠ 0) ∧
    (∃ v : ℚ, tan_r (SetPrecision 7 State.initial) (245 : ℚ) = some (FloatVal.num v)) ∧
    cos_0 (SetPrecision 7 State.initial) (245 : ℚ) ≠ some (FloatVal.num 0) ∧
    cos_0 (SetPrecision 7 State.initial) (90 : ℚ) ≠ some (FloatVal.num 0) ∧
    sin_0 (SetPrecision 7 State.initial) (180 : ℚ) ≠ some (FloatVal.num 0) := by
  have h := PositionOf_coordinates_nonzero (SetPrecision 7 State.initial) (by decide)
    (by decide) (245 : ℚ) 90 180 s_tanLookupDegree rfl
  exact ⟨⟨by decide, by decide, rfl⟩, h.1, h.2.2.1, h.2.2.2.2.1, h.2.2.2.2.2.2.1,
    h.2.2.2.2.2.2.2⟩

end NoZeroDivision

end CORDIC
end LibMath

namespace LibMath
namespace CORDIC

section RoundedTables

theorem roundsTo_spec (q : ℚ) (e m : ℤ) (h : roundsTo q e m = true) :
    roundBinary32 q = (m : ℚ) * (2 : ℚ) ^ (e - 23) := by
  simp only [roundsTo, Bool.and_eq_true, decide_eq_true_eq] at h
  exact roundBinary32_eq_of_near q e m h.1.1.1 h.1.1.2 h.1.2 h.2

/-- The binary32 values of the entries of `s_tanLookupDegree`, significand times power of two. -/
theorem s_tanLookupDegree_binary32_eq :
    s_tanLookupDegree_binary32 = [
    ((11796480 : ℤ) : ℚ) * (2 : ℚ) ^ ((5 : ℤ) - 23),
    ((13927738 : ℤ) : ℚ) * (2 : ℚ) ^ ((4 : ℤ) - 23),
    ((14718068 : ℤ) : ℚ) * (2 : ℚ) ^ ((3 : ℤ) - 23),
    ((14942242 : ℤ) : ℚ) * (2 : ℚ) ^ ((2 : ℤ) - 23),
    ((15000234 : ℤ) : ℚ) * (2 : ℚ) ^ ((1 : ℤ) - 23),
    ((15014858 : ℤ) : ℚ) * (2 : ℚ) ^ ((0 : ℤ) - 23),
    ((15018523 : ℤ) : ℚ) * (2 : ℚ) ^ ((-1 : ℤ) - 23),
    ((15019439 : ℤ) : ℚ) * (2 : ℚ) ^ ((-2 : ℤ) - 23),
    ((15019668 : ℤ) : ℚ) * (2 : ℚ) ^ ((-3 : ℤ) - 23),
    ((15019726 : ℤ) : ℚ) * (2 : ℚ) ^ ((-4 : ℤ) - 23),
    ((15019740 : ℤ) : ℚ) * (2 : ℚ) ^ ((-5 : ℤ) - 23),
    ((15019744 : ℤ) : ℚ) * (2 : ℚ) ^ ((-6 : ℤ) - 23),
    ((15019745 : ℤ) : ℚ) * (2 : ℚ) ^ ((-7 : ℤ) - 23),
    ((15019745 : ℤ) : ℚ) * (2 : ℚ) ^ ((-8 : ℤ) - 23),
    ((15019745 : ℤ) : ℚ) * (2 : ℚ) ^ ((-9 : ℤ) - 23),
    ((15019745 : ℤ) : ℚ) * (2 : ℚ) ^ ((-10 : ℤ) - 23),
    ((15019745 : ℤ) : ℚ) * (2 : ℚ) ^ ((-11 : ℤ) - 23),
    ((15019745 : ℤ) : ℚ) * (2 : ℚ) ^ ((-12 : ℤ) - 23),
    ((15019745 : ℤ) : ℚ) * (2 : ℚ) ^ ((-13 : ℤ) - 23),
    ((15019745 : ℤ) : ℚ) * (2 : ℚ) ^ ((-14 : ℤ) - 23),
    ((15019745 : ℤ) : ℚ) * (2 : ℚ) ^ ((-15 : ℤ) - 23)] := by
  simp only [s_tanLookupDegree_binary32, s_tanLookupDegree, List.map_cons, List.map_nil,
    roundsTo_spec 45 (5) 11796480 (by decide!),
    roundsTo_spec 26.565051177077989351572193720453 (4) 13927738 (by decide!),
    roundsTo_spec 14.036243467926478582892320159163 (3) 14718068 (by decide!),
    roundsTo_spec 7.1250163489017975619533008412068 (2) 14942242 (by decide!),
    roundsTo_spec 3.5763343749973510306847789144588 (1) 15000234 (by decide!),
    roundsTo_spec 1.7899106082460693071502497760791 (0) 15014858 (by decide!),
    roundsTo_spec 0.89517371021107431364121682307953 (-1) 15018523 (by decide!),
    roundsTo_spec 0.44761417086055307309435382542382 (-2) 15019439 (by decide!),
    roundsTo_spec 0.22381050036853807512353354243059 (-3) 15019668 (by decide!),
    roundsTo_spec 0.11190567706620688727547579703472 (-4) 15019726 (by decide!),
    roundsTo_spec 0.05595289189380366817442413440423 (-5) 15019740 (by decide!),
    roundsTo_spec 0.02797645261700367459917911923683 (-6) 15019744 (by decide!),
    roundsTo_spec 0.01398822714226501462868763572436 (-7) 15019745 (by decide!),
    roundsTo_spec 0.00699411367535291845752489328782 (-8) 15019745 (by decide!),
    roundsTo_spec 0.00349705685070401105844277354077 (-9) 15019745 (by decide!),
    roundsTo_spec 0.00174852842698044952158088734418 (-10) 15019745 (by decide!),
    roundsTo_spec 8.7426421369378026026192686427249e-4 (-11) 15019745 (by decide!),
    roundsTo_spec 4.3713210687233456757822838183347e-4 (-12) 15019745 (by decide!),
    roundsTo_spec 2.1856605343934783847043885808773e-4 (-13) 15019745 (by decide!),
    roundsTo_spec 1.0928302672007148857039802957958e-4 (-14) 15019745 (by decide!),
    roundsTo_spec 5.464151336008544045209674664236e-5 (-15) 15019745 (by decide!)]

/-- The binary32 values of the entries of `s_tanLookupRadian`, significand times power of two. -/
theorem s_tanLookupRadian_binary32_eq :
    s_tanLookupRadian_binary32 = [
    ((13176795 : ℤ) : ℚ) * (2 : ℚ) ^ ((-1 : ℤ) - 23),
    ((15557432 : ℤ) : ℚ) * (2 : ℚ) ^ ((-2 : ℤ) - 23),
    ((16440240 : ℤ) : ℚ) * (2 : ℚ) ^ ((-3 : ℤ) - 23),
    ((16690645 : ℤ) : ℚ) * (2 : ℚ) ^ ((-4 : ℤ) - 23),
    ((16755422 : ℤ) : ℚ) * (2 : ℚ) ^ ((-5 : ℤ) - 23),
    ((16771758 : ℤ) : ℚ) * (2 : ℚ) ^ ((-6 : ℤ) - 23),
    ((16775851 : ℤ) : ℚ) * (2 : ℚ) ^ ((-7 : ℤ) - 23),
    ((16776875 : ℤ) : ℚ) * (2 : ℚ) ^ ((-8 : ℤ) - 23),
    ((16777131 : ℤ) : ℚ) * (2 : ℚ) ^ ((-9 : ℤ) - 23),
    ((16777195 : ℤ) : ℚ) * (2 : ℚ) ^ ((-10 : ℤ) - 23),
    ((16777211 : ℤ) : ℚ) * (2 : ℚ) ^ ((-11 : ℤ) - 23),
    ((16777215 : ℤ) : ℚ) * (2 : ℚ) ^ ((-12 : ℤ) - 23),
    ((16777216 : ℤ) : ℚ) * (2 : ℚ) ^ ((-13 : ℤ) - 23),
    ((16777216 : ℤ) : ℚ) * (2 : ℚ) ^ ((-14 : ℤ) - 23),
    ((16777216 : ℤ) : ℚ) * (2 : ℚ) ^ ((-15 : ℤ) - 23),
    ((16777216 : ℤ) : ℚ) * (2 : ℚ) ^ ((-16 : ℤ) - 23),
    ((16777216 : ℤ) : ℚ) * (2 : ℚ) ^ ((-17 : ℤ) - 23),
    ((16777216 : ℤ) : ℚ) * (2 : ℚ) ^ ((-18 : ℤ) - 23),
    ((16777216 : ℤ) : ℚ) * (2 : ℚ) ^ ((-19 : ℤ) - 23),
    ((16777216 : ℤ) : ℚ) * (2 : ℚ) ^ ((-20 : ℤ) - 23),
    ((16777216 : ℤ) : ℚ) * (2 : ℚ) ^ ((-21 : ℤ) - 23)] := by
  simp only [s_tanLookupRadian_binary32, s_tanLookupRadian, List.map_cons, List.map_nil,
    roundsTo_spec 0.78539816339744830961566084581988 (-1) 13176795 (by decide!),
    roundsTo_spec 0.46364760900080611621425623146121 (-2) 15557432 (by decide!),
    roundsTo_spec 0.24497866312686415417208248121128 (-3) 16440240 (by decide!),
    roundsTo_spec 0.12435499454676143503135484916387 (-4) 16690645 (by decide!),
    roundsTo_spec 0.06241880999595734847397911298551 (-5) 16755422 (by decide!),
    roundsTo_spec 0.03123983343026827625371174489249 (-6) 16771758 (by decide!),
    roundsTo_spec 0.01562372862047683080280152125657 (-7) 16775851 (by decide!),
    roundsTo_spec 0.0078123410601011112964633918422 (-8) 16776875 (by decide!),
    roundsTo_spec 0.00390623013196697182762866531142 (-9) 16777131 (by decide!),
    roundsTo_spec 0.00195312251647881868512148262508 (-10) 16777195 (by decide!),
    roundsTo_spec 9.7656218955931943040343019971729e-4 (-11) 16777211 (by decide!),
    roundsTo_spec 4.8828121119489827546923962564485e-4 (-12) 16777215 (by decide!),
    roundsTo_spec 2.4414062014936176401672294325966e-4 (-13) 16777216 (by decide!),
    roundsTo_spec 1.2207031189367020423905864611796e-4 (-14) 16777216 (by decide!),
    roundsTo_spec 6.1035156174208775021662569173829e-5 (-15) 16777216 (by decide!),
    roundsTo_spec 3.0517578115526096861825953438536e-5 (-16) 16777216 (by decide!),
    roundsTo_spec 1.5258789061315762107231935812698e-5 (-17) 16777216 (by decide!),
    roundsTo_spec 7.6293945311019702633884823401051e-6 (-18) 16777216 (by decide!),
    roundsTo_spec 3.814697265606496282923075616373e-6 (-19) 16777216 (by decide!),
    roundsTo_spec 1.9073486328101870353653693059172e-6 (-20) 16777216 (by decide!),
    roundsTo_spec 9.5367431640596087942067068992311e-7 (-21) 16777216 (by decide!)]

/-- The binary32 values of the entries of `s_tanLookupGradian`, significand times power of two. -/
theorem s_tanLookupGradian_binary32_eq :
    s_tanLookupGradian_binary32 = [
    ((13107200 : ℤ) : ℚ) * (2 : ℚ) ^ ((5 : ℤ) - 23),
    ((15475264 : ℤ) : ℚ) * (2 : ℚ) ^ ((4 : ℤ) - 23),
    ((16353409 : ℤ) : ℚ) * (2 : ℚ) ^ ((3 : ℤ) - 23),
    ((16602491 : ℤ) : ℚ) * (2 : ℚ) ^ ((2 : ℤ) - 23),
    ((16666926 : ℤ) : ℚ) * (2 : ℚ) ^ ((1 : ℤ) - 23),
    ((16683176 : ℤ) : ℚ) * (2 : ℚ) ^ ((0 : ℤ) - 23),
    ((16687247 : ℤ) : ℚ) * (2 : ℚ) ^ ((-1 : ℤ) - 23),
    ((16688266 : ℤ) : ℚ) * (2 : ℚ) ^ ((-2 : ℤ) - 23),
    ((16688520 : ℤ) : ℚ) * (2 : ℚ) ^ ((-3 : ℤ) - 23),
    ((16688584 : ℤ) : ℚ) * (2 : ℚ) ^ ((-4 : ℤ) - 23),
    ((16688600 : ℤ) : ℚ) * (2 : ℚ) ^ ((-5 : ℤ) - 23),
    ((16688604 : ℤ) : ℚ) * (2 : ℚ) ^ ((-6 : ℤ) - 23),
    ((16688605 : ℤ) : ℚ) * (2 : ℚ) ^ ((-7 : ℤ) - 23),
    ((16688605 : ℤ) : ℚ) * (2 : ℚ) ^ ((-8 : ℤ) - 23),
    ((16688605 : ℤ) : ℚ) * (2 : ℚ) ^ ((-9 : ℤ) - 23),
    ((16688605 : ℤ) : ℚ) * (2 : ℚ) ^ ((-10 : ℤ) - 23),
    ((16688605 : ℤ) : ℚ) * (2 : ℚ) ^ ((-11 : ℤ) - 23),
    ((16688605 : ℤ) : ℚ) * (2 : ℚ) ^ ((-12 : ℤ) - 23),
    ((16688605 : ℤ) : ℚ) * (2 : ℚ) ^ ((-13 : ℤ) - 23),
    ((16688605 : ℤ) : ℚ) * (2 : ℚ) ^ ((-14 : ℤ) - 23),
    ((16688605 : ℤ) : ℚ) * (2 : ℚ) ^ ((-15 : ℤ) - 23)] := by
  simp only [s_tanLookupGradian_binary32, s_tanLookupGradian, List.map_cons, List.map_nil,
    roundsTo_spec 50 (5) 13107200 (by decide!),
    roundsTo_spec 29.516723530086654835080215244948 (4) 15475264 (by decide!),
    roundsTo_spec 15.595826075473865092102577954626 (3) 16353409 (by decide!),
    roundsTo_spec 7.9166848321131084021703342680076 (2) 16602491 (by decide!),
    roundsTo_spec 3.9737048611081678118719765716209 (1) 16666926 (by decide!),
    roundsTo_spec 1.988789564717854785722499751199 (0) 16683176 (by decide!),
    roundsTo_spec 0.99463745579008257071246313675504 (-1) 16687247 (by decide!),
    roundsTo_spec 0.49734907873394785899372647269314 (-2) 16688266 (by decide!),
    roundsTo_spec 0.24867833374282008347059282492288 (-3) 16688520 (by decide!),
    roundsTo_spec 0.12433964118467431919497310781636 (-4) 16688584 (by decide!),
    roundsTo_spec 0.06216987988200407574936014933804 (-5) 16688600 (by decide!),
    roundsTo_spec 0.03108494735222630511019902137426 (-6) 16688604 (by decide!),
    roundsTo_spec 0.01554247460251668292076403969373 (-7) 16688605 (by decide!),
    roundsTo_spec 0.0077712374170587982861387703198 (-8) 16688605 (by decide!),
    roundsTo_spec 0.00388561872300445673160308171196 (-9) 16688605 (by decide!),
    roundsTo_spec 0.00194280936331161057953431927131 (-10) 16688605 (by decide!),
    roundsTo_spec 9.7140468188197806695769651585832e-4 (-11) 16688605 (by decide!),
    roundsTo_spec 4.8570234096926063064247597981497e-4 (-12) 16688605 (by decide!),
    roundsTo_spec 2.4285117048816426496715428676415e-4 (-13) 16688605 (by decide!),
    roundsTo_spec 1.2142558524452387618933114397731e-4 (-14) 16688605 (by decide!),
    roundsTo_spec 6.0712792622317156057885274047066e-5 (-15) 16688605 (by decide!)]

end RoundedTables

end CORDIC
end LibMath

namespace LibMath
namespace CORDIC

section BinarySearchRounded

theorem stepsHalveUpTo_spec (table : List ℚ) (strictBelow i : ℕ)
    (h : stepsHalveUpTo table strictBelow i = true) :
    ∃ lastStep currentStep : ℚ, table[i]? = some lastStep ∧
      table[i + 1]? = some currentStep ∧ lastStep > currentStep ∧
      currentStep ≥ lastStep / 2 ∧ (currentStep > lastStep / 2 ↔ i < strictBelow) := by
  unfold stepsHalveUpTo at h
  cases h1 : table[i]? with
  | none => simp [h1] at h
  | some a =>
    cases h2 : table[i + 1]? with
    | none => simp [h1, h2] at h
    | some b =>
      simp only [h1, h2, Bool.and_eq_true, decide_eq_true_eq, beq_iff_eq,
        decide_eq_decide] at h
      exact ⟨a, b, rfl, rfl, h.1.1, h.1.2, h.2⟩

theorem step_tables_binary32_checked (j : Fin 20) :
    stepsHalveUpTo s_tanLookupDegree_binary32 12 j = true ∧
      stepsHalveUpTo s_tanLookupRadian_binary32 12 j = true ∧
      stepsHalveUpTo s_tanLookupGradian_binary32 12 j = true := by
  rw [s_tanLookupDegree_binary32_eq, s_tanLookupRadian_binary32_eq,
    s_tanLookupGradian_binary32_eq]
  revert j
  decide!

/-- The strict condition of C25 fails on the arrays the program holds: in binary32 the
entry 13 of each of the three step tables is exactly half the entry 12, not more. -/
theorem step_tables_binary32_halve_exactly :
    (∃ lastStep currentStep : ℚ, s_tanLookupDegree_binary32[12]? = some lastStep ∧
      s_tanLookupDegree_binary32[13]? = some currentStep ∧ currentStep = lastStep / 2) ∧
    (∃ lastStep currentStep : ℚ, s_tanLookupRadian_binary32[12]? = some lastStep ∧
      s_tanLookupRadian_binary32[13]? = some currentStep ∧ currentStep = lastStep / 2) ∧
    (∃ lastStep currentStep : ℚ, s_tanLookupGradian_binary32[12]? = some lastStep ∧
      s_tanLookupGradian_binary32[13]? = some currentStep ∧ currentStep = lastStep / 2) := by
  have h := step_tables_binary32_checked ⟨12, by norm_num⟩
  have key : ∀ table : List ℚ, stepsHalveUpTo table 12 12 = true →
      ∃ lastStep currentStep : ℚ, table[12]? = some lastStep ∧
        table[13]? = some currentStep ∧ currentStep = lastStep / 2 := by
    intro table ht
    obtain ⟨a, b, ha, hb, _, hge, hiff⟩ := stepsHalveUpTo_spec table 12 12 ht
    refine ⟨a, b, ha, hb, le_antisymm ?_ hge⟩
    exact not_lt.mp (fun hlt => absurd (hiff.mp hlt) (by decide))
  exact ⟨key _ h.1, key _ h.2.1, key _ h.2.2⟩

/-- Claim C25, amended: in each of the three step tables as the program holds them, in
binary32, for every index `i` from 0 to 19 the entry `i` is greater than the entry `i + 1`,
which is at least half the entry `i`, and more than half exactly when `i ≤ 11`; on the decimal
literals as written, before rounding, it is more than half for every `i`. -/
theorem step_tables_binary32_search_condition (i : Fin 20) :
    (∃ lastStep currentStep : ℚ, s_tanLookupDegree_binary32[(i : ℕ)]? = some lastStep ∧
      s_tanLookupDegree_binary32[(i : ℕ) + 1]? = some currentStep ∧
      lastStep > currentStep ∧ currentStep ≥ lastStep / 2 ∧
      (currentStep > lastStep / 2 ↔ (i : ℕ) < 12)) ∧
    (∃ lastStep currentStep : ℚ, s_tanLookupRadian_binary32[(i : ℕ)]? = some lastStep ∧
      s_tanLookupRadian_binary32[(i : ℕ) + 1]? = some currentStep ∧
      lastStep > currentStep ∧ currentStep ≥ lastStep / 2 ∧
      (currentStep > lastStep / 2 ↔ (i : ℕ) < 12)) ∧
    (∃ lastStep currentStep : ℚ, s_tanLookupGradian_binary32[(i : ℕ)]? = some lastStep ∧
      s_tanLookupGradian_binary32[(i : ℕ) + 1]? = some currentStep ∧
      lastStep > currentStep ∧ currentStep ≥ lastStep / 2 ∧
      (currentStep > lastStep / 2 ↔ (i : ℕ) < 12)) ∧
    (∃ lastStep currentStep : ℚ, s_tanLookupDegree[(i : ℕ)]? = some lastStep ∧
      s_tanLookupDegree[(i : ℕ) + 1]? = some currentStep ∧ lastStep > currentStep ∧
      currentStep > lastStep / 2) ∧
    (∃ lastStep currentStep : ℚ, s_tanLookupRadian[(i : ℕ)]? = some lastStep ∧
      s_tanLookupRadian[(i : ℕ) + 1]? = some currentStep ∧ lastStep > currentStep ∧
      currentStep > lastStep / 2) ∧
    (∃ lastStep currentStep : ℚ, s_tanLookupGradian[(i : ℕ)]? = some lastStep ∧
      s_tanLookupGradian[(i : ℕ) + 1]? = some currentStep ∧ lastStep > currentStep ∧
      currentStep > lastStep / 2) := by
  have h := step_tables_binary32_checked
  have hd : ∀ j : Fin 20, stepsHalve s_tanLookupDegree j = true ∧
      stepsHalve s_tanLookupRadian j = true ∧ stepsHalve s_tanLookupGradian j = true := by
    decide!
  exact ⟨stepsHalveUpTo_spec _ _ _ (h i).1, stepsHalveUpTo_spec _ _ _ (h i).2.1,
    stepsHalveUpTo_spec _ _ _ (h i).2.2, stepsHalve_spec _ _ (hd i).1,
    stepsHalve_spec _ _ (hd i).2.1, stepsHalve_spec _ _ (hd i).2.2⟩

end BinarySearchRounded

end CORDIC
end LibMath

namespace LibMath
namespace CORDIC

section IterationDistance

variable {α : Type} [LinearOrderedField α]

/-- Claim C27, amended: in each unit system, for every target and every iteration `i` from 0
to 20 of `PositionOf`, the state before the iteration and the state after it exist, the
distance to the target after the iteration is `|d - stepTable[i]|` where `d` is the distance
before it, so it is no larger than `d` exactly when `stepTable[i] ≤ 2 * d`; and for a target
in `[0, fullCircle)` it is at most `stepTable[i]`. -/
theorem PositionOf_iteration_distance (table : List ℚ) (quarter half full : ℚ)
    (hunit : (table = s_tanLookupDegree ∧ quarter = QUARTER_CIRCLE_DEGREE ∧
        half = HALF_CIRCLE_DEGREE ∧ full = CIRCLE_DEGREE) ∨
      (table = s_tanLookupRadian ∧ quarter = QUARTER_CIRCLE_RADIAN ∧
        half = HALF_CIRCLE_RADIAN ∧ full = CIRCLE_RADIAN) ∨
      (table = s_tanLookupGradian ∧ quarter = QUARTER_CIRCLE_GRADIAN ∧
        half = HALF_CIRCLE_GRADIAN ∧ full = CIRCLE_GRADIAN))
    (t : α) (i : ℕ) (hi : i < 21) :
    ∃ (r r' : Rotation α) (step : ℚ),
      forLoop (PositionOf.body t table) i
        (PositionOf.start t (quarter : α) (half : α)) = some r ∧
      PositionOf.body t table i r = some r' ∧ table[i]? = some step ∧
      |r'.currentAngle - t| = |(|r.currentAngle - t| - (step : α))| ∧
      (|r'.currentAngle - t| ≤ |r.currentAngle - t| ↔
        (step : α) ≤ 2 * |r.currentAngle - t|) ∧
      (0 ≤ t → t < (full : α) → |r'.currentAngle - t| ≤ (step : α)) := by
  have htab : table = s_tanLookupDegree ∨ table = s_tanLookupRadian ∨
      table = s_tanLookupGradian := by
    rcases hunit with h | h | h
    · exact Or.inl h.1
    · exact Or.inr (Or.inl h.1)
    · exact Or.inr (Or.inr h.1)
  have hlen : table.length = 21 := by
    rcases htab with rfl | rfl | rfl <;> rfl
  have hhalf : half = 2 * quarter := by
    rcases hunit with ⟨_, rfl, rfl, _⟩ | ⟨_, rfl, rfl, _⟩ | ⟨_, rfl, rfl, _⟩
    · norm_num [QUARTER_CIRCLE_DEGREE, HALF_CIRCLE_DEGREE]
    · simp only [QUARTER_CIRCLE_RADIAN, HALF_CIRCLE_RADIAN]
      ring
    · norm_num [QUARTER_CIRCLE_GRADIAN, HALF_CIRCLE_GRADIAN]
  have hfull : full = 4 * quarter := by
    rcases hunit with ⟨_, rfl, _, rfl⟩ | ⟨_, rfl, _, rfl⟩ | ⟨_, rfl, _, rfl⟩
    · norm_num [QUARTER_CIRCLE_DEGREE, CIRCLE_DEGREE]
    · simp only [QUARTER_CIRCLE_RADIAN, CIRCLE_RADIAN]
      ring
    · norm_num [QUARTER_CIRCLE_GRADIAN, CIRCLE_GRADIAN]
  have hconv : searchConverges table quarter (i + 1) = true := by
    rcases hunit with ⟨rfl, rfl, _, _⟩ | ⟨rfl, rfl, _, _⟩ | ⟨rfl, rfl, _, _⟩
    · exact s_tanLookupDegree_searchConverges (i + 1) (by omega) (by omega)
    · exact s_tanLookupRadian_searchConverges (i + 1) (by omega) (by omega)
    · exact s_tanLookupGradian_searchConverges (i + 1) (by omega) (by omega)
  obtain ⟨r, hr⟩ := forLoop_eq_some (PositionOf.body t table) i
    (fun j hj => PositionOf_body_eq_some t table j (by omega))
    (PositionOf.start t (quarter : α) (half : α))
  obtain ⟨r', hr'⟩ := PositionOf_body_eq_some t table i (by omega) r
  obtain ⟨step, hstep, heq, hiff⟩ := PositionOf_body_distance table htab t i r r' hr'
  refine ⟨r, r', step, hr, hr', hstep, heq, hiff, ?_⟩
  intro ht0 ht1
  have hrun : forLoop (PositionOf.body t table) (i + 1)
      (PositionOf.start t (quarter : α) (half : α)) = some r' := by
    simp only [forLoop, hr, Option.some_bind, hr']
  have hstart : |(PositionOf.start t (quarter : α) (half : α)).currentAngle - t| ≤
      (quarter : α) := by
    rw [hhalf]
    push_cast
    refine PositionOf_start_within (quarter : α) t ht0 ?_
    rw [hfull] at ht1
    push_cast at ht1
    exact ht1
  have hb := PositionOf_search_converges table quarter (i + 1) (by omega) hconv t _ r'
    hstart hrun
  have hget : table.getD (i + 1 - 1) 0 = step := by
    rw [Nat.add_sub_cancel, List.getD_eq_getElem?_getD, hstep]
    rfl
  rw [hget] at hb
  exact hb

/-- The second iteration in degrees for the target 44: the distance goes from 1 to
`|1 - 26.56...|`, which is more than 1 and at most the step. -/
theorem PositionOf_iteration_distance_witness :
    ((s_tanLookupDegree = s_tanLookupDegree ∧
        QUARTER_CIRCLE_DEGREE = QUARTER_CIRCLE_DEGREE ∧
        HALF_CIRCLE_DEGREE = HALF_CIRCLE_DEGREE ∧ CIRCLE_DEGREE = CIRCLE_DEGREE) ∨
      (s_tanLookupDegree = s_tanLookupRadian ∧
        QUARTER_CIRCLE_DEGREE = QUARTER_CIRCLE_RADIAN ∧
        HALF_CIRCLE_DEGREE = HALF_CIRCLE_RADIAN ∧ CIRCLE_DEGREE = CIRCLE_RADIAN) ∨
      (s_tanLookupDegree = s_tanLookupGradian ∧
        QUARTER_CIRCLE_DEGREE = QUARTER_CIRCLE_GRADIAN ∧
        HALF_CIRCLE_DEGREE = HALF_CIRCLE_GRADIAN ∧ CIRCLE_DEGREE = CIRCLE_GRADIAN)) ∧
    (1 : ℕ) < 21 ∧
    ∃ (r r' : Rotation ℚ) (step : ℚ),
      forLoop (PositionOf.body (44 : ℚ) s_tanLookupDegree) 1
        (PositionOf.start (44 : ℚ) QUARTER_CIRCLE_DEGREE HALF_CIRCLE_DEGREE) = some r ∧
      PositionOf.body (44 : ℚ) s_tanLookupDegree 1 r = some r' ∧
      s_tanLookupDegree[1]? = some step ∧
      |r'.currentAngle - 44| = |(|r.currentAngle - 44| - step)| ∧
      (|r'.currentAngle - 44| ≤ |r.currentAngle - 44| ↔ step ≤ 2 * |r.currentAngle - 44|) ∧
      ((0 : ℚ) ≤ 44 → (44 : ℚ) < CIRCLE_DEGREE → |r'.currentAngle - 44| ≤ step) := by
  have h := PositionOf_iteration_distance s_tanLookupDegree QUARTER_CIRCLE_DEGREE
    HALF_CIRCLE_DEGREE CIRCLE_DEGREE (Or.inl ⟨rfl, rfl, rfl, rfl⟩) (44 : ℚ) 1 (by norm_num)
  simp only [Rat.cast_id] at h
  exact ⟨Or.inl ⟨rfl, rfl, rfl, rfl⟩, by norm_num, h⟩

end IterationDistance

end CORDIC
end LibMath

namespace LibMath
namespace CORDIC

section MonotoneLevels

theorem sin_0_gt_pair (st : State) (a b : ℚ) (h0 : 0 ≤ a) (hab : a ≤ b) (hb : b ≤ 90)
    (h : numGt (sin_0 st a) (sin_0 st b) = true) :
    ∃ a b x y : ℚ, 0 ≤ a ∧ a ≤ b ∧ b ≤ 90 ∧ sin_0 st a = some (FloatVal.num x) ∧
      sin_0 st b = some (FloatVal.num y) ∧ y < x := by
  obtain ⟨x, y, hx, hy, hlt⟩ := numGt_spec _ _ h
  exact ⟨a, b, x, y, h0, hab, hb, hx, hy, hlt⟩

/-- At the accuracy level 4 and at every level from 6 to 21 there are two angles
`0 ≤ a ≤ b ≤ 90` with `sin_0 a > sin_0 b`. -/
theorem sin_0_not_monotone_at_level (st : State)
    (hL : st.s_precision = 4 ∨ (6 ≤ st.s_precision ∧ st.s_precision ≤ 21)) :
    ∃ a b x y : ℚ, 0 ≤ a ∧ a ≤ b ∧ b ≤ 90 ∧ sin_0 st a = some (FloatVal.num x) ∧
      sin_0 st b = some (FloatVal.num y) ∧ y < x := by
  obtain ⟨L⟩ := st
  simp only at hL
  have hcases : L = 4 ∨ L = 6 ∨ L = 7 ∨ L = 8 ∨ L = 9 ∨ L = 10 ∨ L = 11 ∨ L = 12 ∨ L = 13 ∨ L = 14 ∨ L = 15 ∨ L = 16 ∨ L = 17 ∨ L = 18 ∨ L = 19 ∨ L = 20 ∨ L = 21 := by omega
  rcases hcases with rfl | rfl | rfl | rfl | rfl | rfl | rfl | rfl | rfl | rfl | rfl | rfl | rfl | rfl | rfl | rfl | rfl
  · exact sin_0_gt_pair ⟨4⟩ 0 (1) (by norm_num) (by norm_num) (by norm_num) (by decide!)
  · exact sin_0_gt_pair ⟨6⟩ 0 (1 / 10) (by norm_num) (by norm_num) (by norm_num) (by decide!)
  · exact sin_0_gt_pair ⟨7⟩ 45 (45.01) (by norm_num) (by norm_num) (by norm_num) (by decide!)
  · exact sin_0_gt_pair ⟨8⟩ 45 (45.01) (by norm_num) (by norm_num) (by norm_num) (by decide!)
  · exact sin_0_gt_pair ⟨9⟩ 18.4 (18.5) (by norm_num) (by norm_num) (by norm_num) (by decide!)
  · exact sin_0_gt_pair ⟨10⟩ 45 (45.01) (by norm_num) (by norm_num) (by norm_num) (by decide!)
  · exact sin_0_gt_pair ⟨11⟩ 45 (45.01) (by norm_num) (by norm_num) (by norm_num) (by decide!)
  · exact sin_0_gt_pair ⟨12⟩ 4.39 (4.4) (by norm_num) (by norm_num) (by norm_num) (by decide!)
  · exact sin_0_gt_pair ⟨13⟩ 18.43 (18.44) (by norm_num) (by norm_num) (by norm_num) (by decide!)
  · exact sin_0_gt_pair ⟨14⟩ 18.43 (18.44) (by norm_num) (by norm_num) (by norm_num) (by decide!)
  · exact sin_0_gt_pair ⟨15⟩ 45 (45.001) (by norm_num) (by norm_num) (by norm_num) (by decide!)
  · exact sin_0_gt_pair ⟨16⟩ 0 (1 / 10000) (by norm_num) (by norm_num) (by norm_num) (by decide!)
  · exact sin_0_gt_pair ⟨17⟩ 0 (1 / 10000) (by norm_num) (by norm_num) (by norm_num) (by decide!)
  · exact sin_0_gt_pair ⟨18⟩ 0.85 (0.8501) (by norm_num) (by norm_num) (by norm_num) (by decide!)
  · exact sin_0_gt_pair ⟨19⟩ 45 (45.00001) (by norm_num) (by norm_num) (by norm_num) (by decide!)
  · exact sin_0_gt_pair ⟨20⟩ 45 (45.00001) (by norm_num) (by norm_num) (by norm_num) (by decide!)
  · exact sin_0_gt_pair ⟨21⟩ 45 (45.00001) (by norm_num) (by norm_num) (by norm_num) (by decide!)

variable {α : Type} [LinearOrderedField α] [FloorRing α]

/-- Claim C15, amended: among the accuracy levels 1 to 21, `sin_0` is non-decreasing on the
first quadrant exactly at the levels 1, 2, 3 and 5. At these levels, for all angles
`0 ≤ a ≤ b ≤ 90`, both values are numbers and `sin_0 a ≤ sin_0 b`; at every other level
there are two rational angles `0 ≤ a ≤ b ≤ 90` whose values are numbers with
`sin_0 a > sin_0 b`. -/
theorem sin_0_monotone_iff_level (st : State) (h1 : 1 ≤ st.s_precision)
    (h21 : st.s_precision ≤ 21) :
    ((st.s_precision = 1 ∨ st.s_precision = 2 ∨ st.s_precision = 3 ∨ st.s_precision = 5) →
      ∀ a b : α, 0 ≤ a → a ≤ b → b ≤ 90 →
        ∃ x y : α, sin_0 st a = some (FloatVal.num x) ∧ sin_0 st b = some (FloatVal.num y) ∧
          x ≤ y) ∧
    (¬ (st.s_precision = 1 ∨ st.s_precision = 2 ∨ st.s_precision = 3 ∨
        st.s_precision = 5) →
      ∃ a b x y : ℚ, 0 ≤ a ∧ a ≤ b ∧ b ≤ 90 ∧ sin_0 st a = some (FloatVal.num x) ∧
        sin_0 st b = some (FloatVal.num y) ∧ y < x) := by
  constructor
  · intro hL a b ha hab hb
    rcases hL with h | h | h | h
    · exact sin_0_mono_of_sorted st (by omega) (by omega) (by rw [h]; decide!) a b ha hab hb
    · exact sin_0_mono_of_sorted st (by omega) (by omega) (by rw [h]; decide!) a b ha hab hb
    · exact sin_0_mono_of_sorted st (by omega) (by omega) (by rw [h]; decide!) a b ha hab hb
    · exact sin_0_mono_of_sorted st (by omega) (by omega) (by rw [h]; decide!) a b ha hab hb
  · intro hL
    exact sin_0_not_monotone_at_level st (by omega)

/-- The two sides of C15 (amended): level 5 between the angles 10 and 50, and level 7, where
monotonicity fails. -/
theorem sin_0_monotone_iff_level_witness :
    ((1 : ℤ) ≤ (SetPrecision 5 State.initial).s_precision ∧
      (SetPrecision 5 State.initial).s_precision ≤ 21 ∧
      (1 : ℤ) ≤ (SetPrecision 7 State.initial).s_precision ∧
      (SetPrecision 7 State.initial).s_precision ≤ 21) ∧
    (∃ x y : ℚ, sin_0 (SetPrecision 5 State.initial) (10 : ℚ) = some (FloatVal.num x) ∧
      sin_0 (SetPrecision 5 State.initial) (50 : ℚ) = some (FloatVal.num y) ∧ x ≤ y) ∧
    (∃ a b x y : ℚ, 0 ≤ a ∧ a ≤ b ∧ b ≤ 90 ∧
      sin_0 (SetPrecision 7 State.initial) a = some (FloatVal.num x) ∧
      sin_0 (SetPrecision 7 State.initial) b = some (FloatVal.num y) ∧ y < x) :=
  ⟨⟨by decide, by decide, by decide, by decide⟩,
    (@sin_0_monotone_iff_level ℚ _ _ (SetPrecision 5 State.initial) (by decide)
      (by decide)).1 (by decide) 10 50 (by norm_num) (by norm_num) (by norm_num),
    (@sin_0_monotone_iff_level ℚ _ _ (SetPrecision 7 State.initial) (by decide)
      (by decide)).2 (by decide)⟩

end MonotoneLevels

end CORDIC
end LibMath

namespace LibMath

namespace Quaternion

section SinglePrecisionRotation

/-- The equality of C17 fails in binary32, where every product and sum is rounded. For the
quaternion `(0.5, 0.5, 0.5, 0.5)`, whose squared norm is exactly 1, and the vector
`(0.1f, 1, 0)`, the sandwich product has `Y = 838861 / 2 ^ 23` while `q * p` has
`y = 6710887 / 2 ^ 26`. For the quaternion `(0.6f, 0, 0.8f, 0)`, whose squared norm computed
in binary32 is 1, and the vector `(1, 2, 3)`, the sandwich product has
`Z = 15099495 / 2 ^ 23` while `q * p` has `z = 15099496 / 2 ^ 23`. -/
theorem mulVector3_binary32_ne_sandwich :
    ((1 / 2 : ℚ) ^ 2 + (1 / 2 : ℚ) ^ 2 + (1 / 2 : ℚ) ^ 2 + (1 / 2 : ℚ) ^ 2 = 1 ∧
      (mul_binary32 (mul_binary32 ⟨1 / 2, 1 / 2, 1 / 2, 1 / 2⟩ ⟨roundBinary32 0.1, 1, 0, 0⟩)
        (⟨1 / 2, 1 / 2, 1 / 2, 1 / 2⟩ : Quaternion ℚ).GetInverse).Y = 838861 / 2 ^ 23 ∧
      (mulVector3_binary32 ⟨1 / 2, 1 / 2, 1 / 2, 1 / 2⟩ ⟨roundBinary32 0.1, 1, 0⟩).y =
        6710887 / 2 ^ 26 ∧
      (mul_binary32 (mul_binary32 ⟨1 / 2, 1 / 2, 1 / 2, 1 / 2⟩ ⟨roundBinary32 0.1, 1, 0, 0⟩)
        (⟨1 / 2, 1 / 2, 1 / 2, 1 / 2⟩ : Quaternion ℚ).GetInverse).Y ≠
        (mulVector3_binary32 ⟨1 / 2, 1 / 2, 1 / 2, 1 / 2⟩ ⟨roundBinary32 0.1, 1, 0⟩).y) ∧
    (roundBinary32 (roundBinary32 (roundBinary32
        (roundBinary32 (roundBinary32 0.6 * roundBinary32 0.6) + roundBinary32 (0 * 0)) +
        roundBinary32 (roundBinary32 0.8 * roundBinary32 0.8)) + roundBinary32 (0 * 0)) = 1 ∧
      (mul_binary32 (mul_binary32 ⟨roundBinary32 0.6, 0, roundBinary32 0.8, 0⟩ ⟨1, 2, 3, 0⟩)
        (⟨roundBinary32 0.6, 0, roundBinary32 0.8, 0⟩ : Quaternion ℚ).GetInverse).Z =
        15099495 / 2 ^ 23 ∧
      (mulVector3_binary32 ⟨roundBinary32 0.6, 0, roundBinary32 0.8, 0⟩ ⟨1, 2, 3⟩).z =
        15099496 / 2 ^ 23 ∧
      (mul_binary32 (mul_binary32 ⟨roundBinary32 0.6, 0, roundBinary32 0.8, 0⟩ ⟨1, 2, 3, 0⟩)
        (⟨roundBinary32 0.6, 0, roundBinary32 0.8, 0⟩ : Quaternion ℚ).GetInverse).Z ≠
        (mulVector3_binary32 ⟨roundBinary32 0.6, 0, roundBinary32 0.8, 0⟩ ⟨1, 2, 3⟩).z) := by
  decide!

end SinglePrecisionRotation

end Quaternion

end LibMath

namespace LibMath

section SinglePrecisionGrid

theorem roundBinary32_zero : roundBinary32 0 = 0 := by
  simp [roundBinary32]

/-- A multiple of a power of two no smaller than its unit in the last place is a binary32
value. -/
theorem roundBinary32_of_multiple (q : ℚ) (k e : ℤ) (hq : q = (k : ℚ) * (2 : ℚ) ^ e)
    (he : ulpExponent q ≤ e) : roundBinary32 q = q := by
  by_cases h0 : q = 0
  · rw [h0, roundBinary32_zero]
  · unfold ulpExponent at he
    have hE : (2 : ℚ) ^ (max (Int.log 2 |q|) (-126) - 23) ≠ 0 := zpow_ne_zero _ two_ne_zero
    have hn : q / (2 : ℚ) ^ (max (Int.log 2 |q|) (-126) - 23) =
        ((k * 2 ^ (e - (max (Int.log 2 |q|) (-126) - 23)).toNat : ℤ) : ℚ) := by
      have hd : e = (max (Int.log 2 |q|) (-126) - 23) +
          (((e - (max (Int.log 2 |q|) (-126) - 23)).toNat : ℕ) : ℤ) := by omega
      rw [div_eq_iff hE]
      nth_rewrite 1 [hq]
      nth_rewrite 1 [hd]
      rw [zpow_add₀ two_ne_zero, zpow_natCast]
      push_cast
      ring
    simp only [roundBinary32, if_neg h0]
    rw [hn, Int.floor_intCast, sub_self, if_pos (by norm_num), ← hn]
    field_simp

/-- A binary32 value is an integer multiple of its unit in the last place. -/
theorem exists_int_of_roundBinary32_eq (q : ℚ) (h : roundBinary32 q = q) :
    ∃ k : ℤ, q = (k : ℚ) * (2 : ℚ) ^ ulpExponent q := by
  by_cases h0 : q = 0
  · exact ⟨0, by simp [h0]⟩
  · unfold ulpExponent
    simp only [roundBinary32, if_neg h0] at h
    split_ifs at h
    · exact ⟨_, h.symm⟩
    · exact ⟨⌊q / (2 : ℚ) ^ (max (Int.log 2 |q|) (-126) - 23)⌋ + 1, by push_cast; exact h.symm⟩
    · exact ⟨_, h.symm⟩
    · exact ⟨⌊q / (2 : ℚ) ^ (max (Int.log 2 |q|) (-126) - 23)⌋ + 1, by push_cast; exact h.symm⟩

/-- The unit in the last place of a non-zero `q` with `|q| < 2 ^ x`, `x > -126`, is at most
`2 ^ (x - 24)`. -/
theorem ulpExponent_le_of_lt (q : ℚ) (x : ℤ) (h0 : q ≠ 0) (hx : -126 < x)
    (h : |q| < (2 : ℚ) ^ x) : ulpExponent q ≤ x - 24 := by
  have habs : 0 < |q| := abs_pos.mpr h0
  have hlog : Int.log 2 |q| < x :=
    (Int.lt_zpow_iff_log_lt (by norm_num) habs).mp (by exact_mod_cast h)
  unfold ulpExponent
  have : max (Int.log 2 |q|) (-126) ≤ x - 1 := max_le (by omega) (by omega)
  omega

/-- A non-positive `n` above `-(1 - 2 ^ (-25))` rounds into `(-1, 0]`. -/
theorem roundBinary32_mem_Ioc (n : ℚ) (hn0 : n ≤ 0) (hn1 : -(1 - 1 / 2 ^ 25) < n) :
    -1 < roundBinary32 n ∧ roundBinary32 n ≤ 0 := by
  by_cases h0 : n = 0
  · rw [h0, roundBinary32_zero]
    norm_num
  · have hneg : n < 0 := lt_of_le_of_ne hn0 h0
    have habs : |n| < (2 : ℚ) ^ (0 : ℤ) := by
      rw [abs_of_neg hneg, zpow_zero]
      have : (0 : ℚ) < 1 / 2 ^ 25 := by positivity
      linarith
    have hE := ulpExponent_le_of_lt n 0 h0 (by norm_num) habs
    unfold ulpExponent at hE
    have hu0 : (0 : ℚ) < (2 : ℚ) ^ (max (Int.log 2 |n|) (-126) - 23) := by positivity
    have hu1 : (2 : ℚ) ^ (max (Int.log 2 |n|) (-126) - 23) ≤ (2 : ℚ) ^ (-24 : ℤ) :=
      zpow_le_zpow_right₀ (by norm_num) (by omega)
    have h24 : (2 : ℚ) ^ (-24 : ℤ) = 1 / 2 ^ 24 := by norm_num
    rw [h24] at hu1
    have hfl := Int.floor_le (n / (2 : ℚ) ^ (max (Int.log 2 |n|) (-126) - 23))
    have hfl2 := Int.lt_floor_add_one (n / (2 : ℚ) ^ (max (Int.log 2 |n|) (-126) - 23))
    have hv : n / (2 : ℚ) ^ (max (Int.log 2 |n|) (-126) - 23) < 0 := div_neg_of_neg_of_pos hneg hu0
    have hf : ⌊n / (2 : ℚ) ^ (max (Int.log 2 |n|) (-126) - 23)⌋ ≤ -1 := by
      have : ((⌊n / (2 : ℚ) ^ (max (Int.log 2 |n|) (-126) - 23)⌋ : ℤ) : ℚ) < 0 :=
        lt_of_le_of_lt hfl hv
      have : ⌊n / (2 : ℚ) ^ (max (Int.log 2 |n|) (-126) - 23)⌋ < 0 := by exact_mod_cast this
      omega
    have hfq : ((⌊n / (2 : ℚ) ^ (max (Int.log 2 |n|) (-126) - 23)⌋ : ℤ) : ℚ) ≤ -1 := by
      exact_mod_cast hf
    have hnu : n = n / (2 : ℚ) ^ (max (Int.log 2 |n|) (-126) - 23) *
        (2 : ℚ) ^ (max (Int.log 2 |n|) (-126) - 23) := by
      field_simp
    simp only [roundBinary32, if_neg h0]
    generalize (2 : ℚ) ^ (max (Int.log 2 |n|) (-126) - 23) = u at *
    generalize hvdef : n / u = v at *
    generalize ((⌊v⌋ : ℤ) : ℚ) = f at *
    have key1 : v - f < 1 / 2 → -1 < f * u := by
      intro hlt
      have : (v - 1 / 2) * u < f * u := mul_lt_mul_of_pos_right (by linarith) hu0
      nlinarith
    have key2 : -1 < (f + 1) * u := by
      have : v * u < (f + 1) * u := mul_lt_mul_of_pos_right (by linarith) hu0
      have h25 : (0 : ℚ) < 1 / 2 ^ 25 := by positivity
      linarith
    have key3 : f * u ≤ 0 := mul_nonpos_of_nonpos_of_nonneg (by linarith) hu0.le
    have key4 : (f + 1) * u ≤ 0 := mul_nonpos_of_nonpos_of_nonneg (by linarith) hu0.le
    split_ifs with c1 c2 c3
    · exact ⟨key1 c1, key3⟩
    · exact ⟨key2, key4⟩
    · refine ⟨?_, key3⟩
      have heq : v - f = 1 / 2 := le_antisymm (not_lt.mp c2) (not_lt.mp c1)
      have hf' : f = v - 1 / 2 := by linarith
      have : f * u = n - u / 2 := by rw [hf', hnu]; ring
      rw [this]
      have h25 : (1 : ℚ) / 2 ^ 24 / 2 = 1 / 2 ^ 25 := by norm_num
      linarith
    · exact ⟨key2, key4⟩

end SinglePrecisionGrid

end LibMath

namespace LibMath

section SinglePrecisionGap

theorem ulpExponent_mono (y c : ℚ) (hy : 0 < y) (hyc : y ≤ c) :
    ulpExponent y ≤ ulpExponent c := by
  have hc : 0 < c := lt_of_lt_of_le hy hyc
  have h := Int.log_mono_right (b := 2) hy hyc
  unfold ulpExponent
  rw [abs_of_pos hy, abs_of_pos hc]
  have := max_le_max_right (-126 : ℤ) h
  omega

/-- Two binary32 values `0 < y < c` are more than `c / 2 ^ 25` apart. -/
theorem binary32_gap (y c : ℚ) (hy : roundBinary32 y = y) (hc : roundBinary32 c = c)
    (h0 : 0 < y) (hlt : y < c) : c / 2 ^ 25 < c - y := by
  have hcpos : 0 < c := lt_trans h0 hlt
  by_cases hhalf : y ≤ c / 2
  · have : c / 2 ^ 25 < c / 2 := by
      apply div_lt_div_of_pos_left hcpos (by norm_num) (by norm_num)
    linarith
  · have hhalf' : c / 2 < y := not_le.mp hhalf
    obtain ⟨ky, hky⟩ := exists_int_of_roundBinary32_eq y hy
    obtain ⟨kc, hkc⟩ := exists_int_of_roundBinary32_eq c hc
    have hlc : (2 : ℚ) ^ Int.log 2 c ≤ c := by
      have := Int.zpow_log_le_self (b := 2) (r := c) (by norm_num) hcpos
      exact_mod_cast this
    have hlc2 : c < (2 : ℚ) ^ (Int.log 2 c + 1) := by
      have := Int.lt_zpow_succ_log_self (b := 2) (by norm_num) c
      exact_mod_cast this
    have hly : Int.log 2 c - 1 ≤ Int.log 2 y := by
      apply (Int.zpow_le_iff_le_log (by norm_num) h0).mp
      have h2 : (2 : ℚ) ^ (Int.log 2 c - 1) = (2 : ℚ) ^ Int.log 2 c / 2 := by
        rw [zpow_sub₀ two_ne_zero, zpow_one]
      have : (2 : ℚ) ^ (Int.log 2 c - 1) ≤ y := by
        rw [h2]
        linarith
      exact_mod_cast this
    have hEy : ulpExponent c - 1 ≤ ulpExponent y := by
      unfold ulpExponent
      rw [abs_of_pos h0, abs_of_pos hcpos]
      have h1 : Int.log 2 c ≤ max (Int.log 2 c) (-126) := le_max_left _ _
      have h2 : (-126 : ℤ) ≤ max (Int.log 2 c) (-126) := le_max_right _ _
      have h3 : Int.log 2 y ≤ max (Int.log 2 y) (-126) := le_max_left _ _
      have h4 : (-126 : ℤ) ≤ max (Int.log 2 y) (-126) := le_max_right _ _
      have h5 : max (Int.log 2 c) (-126) ≤ max (Int.log 2 y) (-126) + 1 :=
        max_le (by omega) (by omega)
      omega
    have hEc : Int.log 2 c + 1 ≤ ulpExponent c + 24 := by
      unfold ulpExponent
      rw [abs_of_pos hcpos]
      have h1 : Int.log 2 c ≤ max (Int.log 2 c) (-126) := le_max_left _ _
      omega
    have hg0 : (0 : ℚ) < (2 : ℚ) ^ (ulpExponent c - 1) := by positivity
    have hcg : (2 : ℚ) ^ ulpExponent c = 2 * (2 : ℚ) ^ (ulpExponent c - 1) := by
      rw [zpow_sub₀ two_ne_zero, zpow_one]
      ring
    have hyg : (2 : ℚ) ^ ulpExponent y =
        (2 : ℚ) ^ (ulpExponent y - (ulpExponent c - 1)).toNat *
          (2 : ℚ) ^ (ulpExponent c - 1) := by
      have hd : ulpExponent y = (((ulpExponent y - (ulpExponent c - 1)).toNat : ℕ) : ℤ) +
          (ulpExponent c - 1) := by omega
      nth_rewrite 1 [hd]
      rw [zpow_add₀ two_ne_zero, zpow_natCast]
    have hdiff : c - y =
        ((2 * kc - ky * 2 ^ (ulpExponent y - (ulpExponent c - 1)).toNat : ℤ) : ℚ) *
          (2 : ℚ) ^ (ulpExponent c - 1) := by
      nth_rewrite 1 [hkc]
      nth_rewrite 1 [hky]
      rw [hcg, hyg]
      push_cast
      ring
    have hjpos : 0 < 2 * kc - ky * 2 ^ (ulpExponent y - (ulpExponent c - 1)).toNat := by
      have hpos : (0 : ℚ) < c - y := by linarith
      rw [hdiff] at hpos
      have := (mul_pos_iff_of_pos_right hg0).mp hpos
      exact_mod_cast this
    have hj1 : (1 : ℚ) ≤
        ((2 * kc - ky * 2 ^ (ulpExponent y - (ulpExponent c - 1)).toNat : ℤ) : ℚ) := by
      exact_mod_cast hjpos
    have hge : (2 : ℚ) ^ (ulpExponent c - 1) ≤ c - y := by
      rw [hdiff]
      exact le_mul_of_one_le_left hg0.le hj1
    have hc24 : c < (2 : ℚ) ^ (ulpExponent c + 24) :=
      lt_of_lt_of_le hlc2 (zpow_le_zpow_right₀ (by norm_num) hEc)
    have h25 : (2 : ℚ) ^ (ulpExponent c + 24) = 2 ^ 25 * (2 : ℚ) ^ (ulpExponent c - 1) := by
      have hd : ulpExponent c + 24 = (25 : ℤ) + (ulpExponent c - 1) := by omega
      rw [hd, zpow_add₀ two_ne_zero]
      norm_num
    rw [h25] at hc24
    have : c / 2 ^ 25 < (2 : ℚ) ^ (ulpExponent c - 1) := by
      rw [div_lt_iff₀ (by positivity)]
      linarith
    linarith

end SinglePrecisionGap

namespace CORDIC

section SinglePrecisionIdempotence

/-- In binary32, the range reduction returns a value of `[0, C)` unchanged. -/
theorem Clamp_binary32_of_mem (y c : ℚ) (hy : roundBinary32 y = y)
    (hc : roundBinary32 c = c) (h0 : 0 ≤ y) (hlt : y < c) : Clamp_binary32 y c = y := by
  have hcpos : 0 < c := lt_of_le_of_lt h0 hlt
  have hn0 : (-y) / c ≤ 0 := div_nonpos_of_nonpos_of_nonneg (by linarith) hcpos.le
  have hn1 : -(1 - 1 / 2 ^ 25) < (-y) / c := by
    rw [lt_div_iff₀ hcpos]
    rcases eq_or_lt_of_le h0 with hz | hpos
    · rw [← hz]
      have : (0 : ℚ) < (1 - 1 / 2 ^ 25) * c := mul_pos (by norm_num) hcpos
      linarith
    · have hgap := binary32_gap y c hy hc hpos hlt
      have : c / 2 ^ 25 = 1 / 2 ^ 25 * c := by ring
      linarith
  obtain ⟨h1, h2⟩ := roundBinary32_mem_Ioc ((-y) / c) hn0 hn1
  have hceil : ceil (roundBinary32 ((-y) / c)) = 0 := by
    unfold ceil
    have : ⌈roundBinary32 ((-y) / c)⌉ = 0 := by
      rw [Int.ceil_eq_iff]
      constructor
      · push_cast
        linarith
      · push_cast
        exact h2
    rw [this]
    norm_num
  unfold Clamp_binary32
  rw [if_neg (not_le.mpr hlt), hceil, zero_mul, roundBinary32_zero, add_zero, hy]

/-- In binary32, `fmod x C` for `x ≥ C > 0` is a binary32 value of `[0, C)`. -/
theorem fmod_binary32 (x c : ℚ) (hx : roundBinary32 x = x) (hc : roundBinary32 c = c)
    (hcpos : 0 < c) (hle : c ≤ x) :
    roundBinary32 (fmod x c) = fmod x c ∧ 0 ≤ fmod x c ∧ fmod x c < c := by
  have hxpos : 0 < x := lt_of_lt_of_le hcpos hle
  have hq : 0 ≤ x / c := div_nonneg hxpos.le hcpos.le
  have hf : fmod x c = x - c * ((⌊x / c⌋ : ℤ) : ℚ) := by
    simp only [fmod, floor, if_pos hq]
  have hfl := Int.floor_le (x / c)
  have hfl2 := Int.lt_floor_add_one (x / c)
  have hnn : 0 ≤ fmod x c := by
    rw [hf]
    have : c * ((⌊x / c⌋ : ℤ) : ℚ) ≤ c * (x / c) := mul_le_mul_of_nonneg_left hfl hcpos.le
    have hcx : c * (x / c) = x := by field_simp
    linarith
  have hltc : fmod x c < c := by
    rw [hf]
    have : c * (x / c) < c * (((⌊x / c⌋ : ℤ) : ℚ) + 1) := mul_lt_mul_of_pos_left hfl2 hcpos
    have hcx : c * (x / c) = x := by field_simp
    linarith
  refine ⟨?_, hnn, hltc⟩
  rcases eq_or_lt_of_le hnn with hz | hpos
  · rw [← hz, roundBinary32_zero]
  · obtain ⟨kx, hkx⟩ := exists_int_of_roundBinary32_eq x hx
    obtain ⟨kc, hkc⟩ := exists_int_of_roundBinary32_eq c hc
    have hE := ulpExponent_mono c x hcpos hle
    have hEy := ulpExponent_mono (fmod x c) c hpos hltc.le
    have hxg : (2 : ℚ) ^ ulpExponent x =
        (2 : ℚ) ^ (ulpExponent x - ulpExponent c).toNat * (2 : ℚ) ^ ulpExponent c := by
      have hd : ulpExponent x = (((ulpExponent x - ulpExponent c).toNat : ℕ) : ℤ) +
          ulpExponent c := by omega
      nth_rewrite 1 [hd]
      rw [zpow_add₀ two_ne_zero, zpow_natCast]
    refine roundBinary32_of_multiple (fmod x c)
      (kx * 2 ^ (ulpExponent x - ulpExponent c).toNat - kc * ⌊x / c⌋) (ulpExponent c) ?_ hEy
    rw [hf]
    push_cast
    linear_combination hkx + (kx : ℚ) * hxg - ((⌊x / c⌋ : ℤ) : ℚ) * hkc

end SinglePrecisionIdempotence

end CORDIC

end LibMath

namespace LibMath

section SinglePrecisionIdem

/-- The value `roundBinary32` returns is a multiple of the unit in the last place of its
argument, by an integer of at most 24 bits. -/
theorem roundBinary32_grid (z : ℚ) (h0 : z ≠ 0) :
    ∃ c : ℤ, roundBinary32 z = (c : ℚ) * (2 : ℚ) ^ ulpExponent z ∧
      -(2 : ℤ) ^ 24 ≤ c ∧ c ≤ (2 : ℤ) ^ 24 := by
  have habs : 0 < |z| := abs_pos.mpr h0
  have hu0 : (0 : ℚ) < (2 : ℚ) ^ ulpExponent z := by positivity
  have hlt : |z| < (2 : ℚ) ^ (ulpExponent z + 24) := by
    have h1 : |z| < (2 : ℚ) ^ (Int.log 2 |z| + 1) := by
      have := Int.lt_zpow_succ_log_self (b := 2) (by norm_num) |z|
      exact_mod_cast this
    refine lt_of_lt_of_le h1 (zpow_le_zpow_right₀ (by norm_num) ?_)
    unfold ulpExponent
    have := le_max_left (Int.log 2 |z|) (-126)
    omega
  have h24 : (2 : ℚ) ^ (ulpExponent z + 24) = 2 ^ 24 * (2 : ℚ) ^ ulpExponent z := by
    rw [add_comm, zpow_add₀ two_ne_zero]
    norm_num
  rw [h24] at hlt
  have hv : |z / (2 : ℚ) ^ ulpExponent z| < 2 ^ 24 := by
    rw [abs_div, abs_of_pos hu0, div_lt_iff₀ hu0]
    exact hlt
  obtain ⟨hv1, hv2⟩ := abs_lt.mp hv
  have hfl := Int.floor_le (z / (2 : ℚ) ^ ulpExponent z)
  have hfl2 := Int.lt_floor_add_one (z / (2 : ℚ) ^ ulpExponent z)
  have hf1 : -(2 : ℤ) ^ 24 ≤ ⌊z / (2 : ℚ) ^ ulpExponent z⌋ := by
    have : (-(2 : ℚ) ^ 24 - 1) < ((⌊z / (2 : ℚ) ^ ulpExponent z⌋ : ℤ) : ℚ) := by linarith
    have h' : (-(2 : ℤ) ^ 24 - 1) < ⌊z / (2 : ℚ) ^ ulpExponent z⌋ := by exact_mod_cast this
    omega
  have hf2 : ⌊z / (2 : ℚ) ^ ulpExponent z⌋ + 1 ≤ (2 : ℤ) ^ 24 := by
    have : ((⌊z / (2 : ℚ) ^ ulpExponent z⌋ : ℤ) : ℚ) < (2 : ℚ) ^ 24 := by linarith
    have h' : ⌊z / (2 : ℚ) ^ ulpExponent z⌋ < (2 : ℤ) ^ 24 := by exact_mod_cast this
    omega
  unfold ulpExponent at hf1 hf2 ⊢
  simp only [roundBinary32, if_neg h0]
  split_ifs
  · exact ⟨_, rfl, hf1, by omega⟩
  · exact ⟨⌊z / (2 : ℚ) ^ (max (Int.log 2 |z|) (-126) - 23)⌋ + 1, by push_cast; rfl,
      by omega, hf2⟩
  · exact ⟨_, rfl, hf1, by omega⟩
  · exact ⟨⌊z / (2 : ℚ) ^ (max (Int.log 2 |z|) (-126) - 23)⌋ + 1, by push_cast; rfl,
      by omega, hf2⟩

/-- The value `roundBinary32` returns is a binary32 value. -/
theorem roundBinary32_idem (z : ℚ) : roundBinary32 (roundBinary32 z) = roundBinary32 z := by
  by_cases h0 : z = 0
  · rw [h0, roundBinary32_zero, roundBinary32_zero]
  · obtain ⟨c, hc, hc1, hc2⟩ := roundBinary32_grid z h0
    have hu0 : (0 : ℚ) < (2 : ℚ) ^ ulpExponent z := by positivity
    have hE : -126 < ulpExponent z + 24 := by
      unfold ulpExponent
      have := le_max_right (Int.log 2 |z|) (-126)
      omega
    by_cases hr0 : roundBinary32 z = 0
    · rw [hr0, roundBinary32_zero]
    · have habsr : |roundBinary32 z| = |(c : ℚ)| * (2 : ℚ) ^ ulpExponent z := by
        rw [hc, abs_mul, abs_of_pos hu0]
      have h24 : (2 : ℚ) ^ (ulpExponent z + 24) = 2 ^ 24 * (2 : ℚ) ^ ulpExponent z := by
        rw [add_comm, zpow_add₀ two_ne_zero]
        norm_num
      by_cases hbig : c = (2 : ℤ) ^ 24 ∨ c = -(2 : ℤ) ^ 24
      · have hcabs : |(c : ℚ)| = 2 ^ 24 := by
          rcases hbig with h | h
          · rw [h]
            norm_num
          · rw [h]
            norm_num
        have hlt : |roundBinary32 z| < (2 : ℚ) ^ (ulpExponent z + 25) := by
          rw [habsr, hcabs]
          have : (2 : ℚ) ^ (ulpExponent z + 25) = 2 ^ 25 * (2 : ℚ) ^ ulpExponent z := by
            rw [add_comm, zpow_add₀ two_ne_zero]
            norm_num
          rw [this]
          exact mul_lt_mul_of_pos_right (by norm_num) hu0
        have hEr := ulpExponent_le_of_lt (roundBinary32 z) (ulpExponent z + 25) hr0
          (by omega) hlt
        have h1 : (2 : ℚ) ^ (ulpExponent z + 1) = 2 * (2 : ℚ) ^ ulpExponent z := by
          rw [add_comm, zpow_add₀ two_ne_zero, zpow_one]
        rcases hbig with h | h
        · refine roundBinary32_of_multiple _ (2 ^ 23) (ulpExponent z + 1) ?_ (by omega)
          rw [hc, h, h1]
          push_cast
          ring
        · refine roundBinary32_of_multiple _ (-(2 ^ 23)) (ulpExponent z + 1) ?_ (by omega)
          rw [hc, h, h1]
          push_cast
          ring
      · have hcabs : |(c : ℚ)| < 2 ^ 24 := by
          have hc' : |c| < (2 : ℤ) ^ 24 := by
            rw [abs_lt]
            constructor
            · rcases lt_or_eq_of_le hc1 with h | h
              · exact h
              · exact absurd (Or.inr h.symm) hbig
            · rcases lt_or_eq_of_le hc2 with h | h
              · exact h
              · exact absurd (Or.inl h) hbig
          exact_mod_cast hc'
        have hlt : |roundBinary32 z| < (2 : ℚ) ^ (ulpExponent z + 24) := by
          rw [habsr, h24]
          exact mul_lt_mul_of_pos_right hcabs hu0
        have hEr := ulpExponent_le_of_lt (roundBinary32 z) (ulpExponent z + 24) hr0 hE hlt
        exact roundBinary32_of_multiple _ c (ulpExponent z) hc (by omega)

end SinglePrecisionIdem

namespace CORDIC

section SinglePrecisionClampIdempotent

/-- Claim C7, amended: in binary32, for all finite `x` and `C > 0`, the range reduction is
idempotent whenever its first result lies in `[0, C)`, which it does for every `x ≥ 0`:
then `Clamp (Clamp x C) C = Clamp x C`; and in exact arithmetic the same equality holds for
every `x` and every `C > 0`. -/
theorem Clamp_binary32_idempotent (x c : ℚ) (hx : roundBinary32 x = x)
    (hc : roundBinary32 c = c) (hcpos : 0 < c) :
    (0 ≤ x → 0 ≤ Clamp_binary32 x c ∧ Clamp_binary32 x c < c) ∧
    (0 ≤ Clamp_binary32 x c → Clamp_binary32 x c < c →
      Clamp_binary32 (Clamp_binary32 x c) c = Clamp_binary32 x c) ∧
    (∀ y d : ℚ, 0 < d → Clamp (Clamp y d) d = Clamp y d) := by
  have hfloat : roundBinary32 (Clamp_binary32 x c) = Clamp_binary32 x c := by
    unfold Clamp_binary32
    split_ifs with h
    · exact (fmod_binary32 x c hx hc hcpos h).1
    · exact roundBinary32_idem _
  refine ⟨?_, ?_, ?_⟩
  · intro hx0
    by_cases h : x ≥ c
    · have hf := fmod_binary32 x c hx hc hcpos h
      have heq : Clamp_binary32 x c = fmod x c := by
        unfold Clamp_binary32
        rw [if_pos h]
      rw [heq]
      exact hf.2
    · rw [Clamp_binary32_of_mem x c hx hc hx0 (not_le.mp h)]
      exact ⟨hx0, not_le.mp h⟩
  · intro h0 h1
    exact Clamp_binary32_of_mem _ c hfloat hc h0 h1
  · intro y d hd
    exact Clamp_of_mem (Clamp y d) d (Clamp_nonneg y d hd) (Clamp_lt y d hd)

/-- The idempotence of C7 (amended) in binary32 for `x = 1000` and `C = 360`. -/
theorem Clamp_binary32_idempotent_witness :
    (roundBinary32 1000 = 1000 ∧ roundBinary32 360 = 360 ∧ (0 : ℚ) < 360 ∧
      (0 : ℚ) ≤ 1000) ∧
    (0 ≤ Clamp_binary32 1000 360 ∧ Clamp_binary32 1000 360 < 360) ∧
    Clamp_binary32 (Clamp_binary32 1000 360) 360 = Clamp_binary32 1000 360 := by
  have h1000 : roundBinary32 1000 = 1000 := by
    have h := roundBinary32_eq_of_near 1000 9 16384000 (by norm_num)
      (by rw [abs_of_pos (by norm_num)]; norm_num)
      (by rw [abs_of_pos (by norm_num)]; norm_num)
      (by norm_num [abs_lt])
    rw [h]
    norm_num
  have h := Clamp_binary32_idempotent 1000 360 h1000 roundBinary32_360 (by norm_num)
  have hr := h.1 (by norm_num)
  exact ⟨⟨h1000, roundBinary32_360, by norm_num, by norm_num⟩, hr, h.2.1 hr.1 hr.2⟩

end SinglePrecisionClampIdempotent

end CORDIC

end LibMath

namespace LibMath

section SinglePrecisionError

/-- The rounding error of `roundBinary32` is at most half a unit in the last place: the
relative error `2 ^ (-24)`, or `2 ^ (-150)` in the subnormal range. -/
theorem roundBinary32_sub_le (x : ℚ) :
    |roundBinary32 x - x| ≤ 1 / 2 ^ 24 * |x| + 1 / 2 ^ 150 := by
  by_cases h0 : x = 0
  · rw [h0, roundBinary32_zero]
    norm_num
  · have habs : 0 < |x| := abs_pos.mpr h0
    have hu0 : (0 : ℚ) < (2 : ℚ) ^ (max (Int.log 2 |x|) (-126) - 23) := by positivity
    have hulp : (2 : ℚ) ^ (max (Int.log 2 |x|) (-126) - 23) / 2 ≤
        1 / 2 ^ 24 * |x| + 1 / 2 ^ 150 := by
      by_cases hl : -126 ≤ Int.log 2 |x|
      · rw [max_eq_left hl]
        have hlog : (2 : ℚ) ^ Int.log 2 |x| ≤ |x| := by
          have := Int.zpow_log_le_self (b := 2) (r := |x|) (by norm_num) habs
          exact_mod_cast this
        have h23 : (2 : ℚ) ^ (Int.log 2 |x| - 23) = (2 : ℚ) ^ Int.log 2 |x| / 2 ^ 23 := by
          rw [zpow_sub₀ two_ne_zero]
          norm_num
        rw [h23]
        have : (0 : ℚ) < 1 / 2 ^ 150 := by positivity
        linarith
      · rw [max_eq_right (by omega)]
        have h149 : (2 : ℚ) ^ ((-126 : ℤ) - 23) = 1 / 2 ^ 149 := by norm_num
        rw [h149]
        have : (0 : ℚ) ≤ 1 / 2 ^ 24 * |x| := by positivity
        have h150 : (1 : ℚ) / 2 ^ 149 / 2 = 1 / 2 ^ 150 := by norm_num
        linarith
    have hfl := Int.floor_le (x / (2 : ℚ) ^ (max (Int.log 2 |x|) (-126) - 23))
    have hfl2 := Int.lt_floor_add_one (x / (2 : ℚ) ^ (max (Int.log 2 |x|) (-126) - 23))
    have hxu : x = x / (2 : ℚ) ^ (max (Int.log 2 |x|) (-126) - 23) *
        (2 : ℚ) ^ (max (Int.log 2 |x|) (-126) - 23) := by
      field_simp
    refine le_trans ?_ hulp
    simp only [roundBinary32, if_neg h0]
    generalize (2 : ℚ) ^ (max (Int.log 2 |x|) (-126) - 23) = u at *
    generalize hvdef : x / u = v at *
    generalize ((⌊v⌋ : ℤ) : ℚ) = f at *
    have e1 : f * u - x = -((v - f) * u) := by rw [hxu]; ring
    have e2 : (f + 1) * u - x = (1 - (v - f)) * u := by rw [hxu]; ring
    have hvf0 : 0 ≤ v - f := by linarith
    have hvf1 : v - f < 1 := by linarith
    split_ifs with c1 c2 c3
    · rw [e1, abs_neg, abs_of_nonneg (mul_nonneg hvf0 hu0.le)]
      have := mul_le_mul_of_nonneg_right c1.le hu0.le
      linarith
    · rw [e2, abs_of_nonneg (mul_nonneg (by linarith) hu0.le)]
      have := mul_le_mul_of_nonneg_right (by linarith : 1 - (v - f) ≤ 1 / 2) hu0.le
      linarith
    · have heq : v - f = 1 / 2 := le_antisymm (not_lt.mp c2) (not_lt.mp c1)
      rw [e1, abs_neg, heq, abs_of_nonneg (mul_nonneg (by norm_num) hu0.le)]
      linarith
    · have heq : v - f = 1 / 2 := le_antisymm (not_lt.mp c2) (not_lt.mp c1)
      rw [e2, heq, abs_of_nonneg (mul_nonneg (by norm_num) hu0.le)]
      linarith

/-- Rounding an approximation `y` of `y0`: the error grows by the rounding error of `y`. -/
theorem roundBinary32_step (y y0 ey yb : ℚ) (h1 : |y - y0| ≤ ey) (h2 : |y0| ≤ yb) :
    |roundBinary32 y - y0| ≤ ey + 1 / 2 ^ 24 * (yb + ey) + 1 / 2 ^ 150 := by
  have hr := roundBinary32_sub_le y
  have hy : |y| ≤ yb + ey := by
    have := abs_add (y - y0) y0
    rw [sub_add_cancel] at this
    linarith
  have htri : |roundBinary32 y - y0| ≤ |roundBinary32 y - y| + |y - y0| := by
    have := abs_add (roundBinary32 y - y) (y - y0)
    rw [sub_add_sub_cancel] at this
    exact this
  have : (1 : ℚ) / 2 ^ 24 * |y| ≤ 1 / 2 ^ 24 * (yb + ey) :=
    mul_le_mul_of_nonneg_left hy (by positivity)
  linarith

/-- The error of a product of two approximations. -/
theorem mul_sub_mul_le (a a0 b b0 ea ab eb bb : ℚ) (ha : |a - a0| ≤ ea) (ha0 : |a0| ≤ ab)
    (hb : |b - b0| ≤ eb) (hb0 : |b0| ≤ bb) :
    |a * b - a0 * b0| ≤ ea * bb + ab * eb + ea * eb := by
  have heq : a * b - a0 * b0 = (a - a0) * b0 + a0 * (b - b0) + (a - a0) * (b - b0) := by ring
  rw [heq]
  have h1 : |(a - a0) * b0| ≤ ea * bb := by
    rw [abs_mul]
    exact mul_le_mul ha hb0 (abs_nonneg _) (le_trans (abs_nonneg _) ha)
  have h2 : |a0 * (b - b0)| ≤ ab * eb := by
    rw [abs_mul]
    exact mul_le_mul ha0 hb (abs_nonneg _) (le_trans (abs_nonneg _) ha0)
  have h3 : |(a - a0) * (b - b0)| ≤ ea * eb := by
    rw [abs_mul]
    exact mul_le_mul ha hb (abs_nonneg _) (le_trans (abs_nonneg _) ha)
  have t1 := abs_add ((a - a0) * b0 + a0 * (b - b0)) ((a - a0) * (b - b0))
  have t2 := abs_add ((a - a0) * b0) (a0 * (b - b0))
  linarith

end SinglePrecisionError

end LibMath

namespace LibMath

section SinglePrecisionSums

/-- Rounding one exact term bounded by `B`. -/
theorem roundBinary32_term (x B : ℚ) (h : |x| ≤ B) :
    |roundBinary32 x - x| ≤ 1 / 2 ^ 24 * B + 1 / 2 ^ 150 := by
  have hr := roundBinary32_sub_le x
  have : (1 : ℚ) / 2 ^ 24 * |x| ≤ 1 / 2 ^ 24 * B := mul_le_mul_of_nonneg_left h (by positivity)
  linarith

/-- Adding the rounding of an exact term bounded by `B` to an accumulator, and rounding. -/
theorem roundBinary32_acc_add (s s0 x es sb B : ℚ) (hs : |s - s0| ≤ es) (hs0 : |s0| ≤ sb)
    (hx : |x| ≤ B) :
    |roundBinary32 (s + roundBinary32 x) - (s0 + x)| ≤
        (es + (1 / 2 ^ 24 * B + 1 / 2 ^ 150)) +
          1 / 2 ^ 24 * ((sb + B) + (es + (1 / 2 ^ 24 * B + 1 / 2 ^ 150))) + 1 / 2 ^ 150 := by
  have hx' := roundBinary32_term x B hx
  refine roundBinary32_step _ _ _ _ ?_ ?_
  · have := abs_add (s - s0) (roundBinary32 x - x)
    have heq : s - s0 + (roundBinary32 x - x) = s + roundBinary32 x - (s0 + x) := by ring
    rw [heq] at this
    linarith
  · have := abs_add s0 x
    linarith

/-- Subtracting the rounding of an exact term bounded by `B` from an accumulator, and
rounding. -/
theorem roundBinary32_acc_sub (s s0 x es sb B : ℚ) (hs : |s - s0| ≤ es) (hs0 : |s0| ≤ sb)
    (hx : |x| ≤ B) :
    |roundBinary32 (s - roundBinary32 x) - (s0 - x)| ≤
        (es + (1 / 2 ^ 24 * B + 1 / 2 ^ 150)) +
          1 / 2 ^ 24 * ((sb + B) + (es + (1 / 2 ^ 24 * B + 1 / 2 ^ 150))) + 1 / 2 ^ 150 := by
  have hx' := roundBinary32_term x B hx
  refine roundBinary32_step _ _ _ _ ?_ ?_
  · have := abs_sub (s - s0) (roundBinary32 x - x)
    have heq : s - s0 - (roundBinary32 x - x) = s - roundBinary32 x - (s0 - x) := by ring
    rw [heq] at this
    linarith
  · have := abs_sub s0 x
    linarith

/-- The rounded sums of four rounded terms, in the two sign patterns of the quaternion
product, against the exact sums. -/
theorem roundBinary32_sum4 (x1 x2 x3 x4 B : ℚ) (h1 : |x1| ≤ B) (h2 : |x2| ≤ B)
    (h3 : |x3| ≤ B) (h4 : |x4| ≤ B) :
    |roundBinary32 (roundBinary32 (roundBinary32 (roundBinary32 x1 - roundBinary32 x2) +
        roundBinary32 x3) + roundBinary32 x4) - (x1 - x2 + x3 + x4)| ≤
      14 / 2 ^ 24 * B + 10 / 2 ^ 150 ∧
    |roundBinary32 (roundBinary32 (roundBinary32 (roundBinary32 x1 - roundBinary32 x2) -
        roundBinary32 x3) - roundBinary32 x4) - (x1 - x2 - x3 - x4)| ≤
      14 / 2 ^ 24 * B + 10 / 2 ^ 150 := by
  have hB : 0 ≤ B := le_trans (abs_nonneg _) h1
  have r1 := roundBinary32_term x1 B h1
  have a1 := roundBinary32_acc_sub (roundBinary32 x1) x1 x2 _ _ B r1 h1 h2
  have a1' : |roundBinary32 (roundBinary32 x1 - roundBinary32 x2) - (x1 - x2)| ≤
      65 / 16 / 2 ^ 24 * B + 4 / 2 ^ 150 := le_trans a1 (by linarith)
  have b1 : |x1 - x2| ≤ 2 * B := by
    have := abs_sub x1 x2
    linarith
  constructor
  · have a2 := roundBinary32_acc_add _ _ x3 _ _ B a1' b1 h3
    have a2' : |roundBinary32 (roundBinary32 (roundBinary32 x1 - roundBinary32 x2) +
        roundBinary32 x3) - (x1 - x2 + x3)| ≤ 65 / 8 / 2 ^ 24 * B + 7 / 2 ^ 150 :=
      le_trans a2 (by linarith)
    have b2 : |x1 - x2 + x3| ≤ 3 * B := by
      have := abs_add (x1 - x2) x3
      linarith
    have a3 := roundBinary32_acc_add _ _ x4 _ _ B a2' b2 h4
    exact le_trans a3 (by linarith)
  · have a2 := roundBinary32_acc_sub _ _ x3 _ _ B a1' b1 h3
    have a2' : |roundBinary32 (roundBinary32 (roundBinary32 x1 - roundBinary32 x2) -
        roundBinary32 x3) - (x1 - x2 - x3)| ≤ 65 / 8 / 2 ^ 24 * B + 7 / 2 ^ 150 :=
      le_trans a2 (by linarith)
    have b2 : |x1 - x2 - x3| ≤ 3 * B := by
      have := abs_sub (x1 - x2) x3
      linarith
    have a3 := roundBinary32_acc_sub _ _ x4 _ _ B a2' b2 h4
    exact le_trans a3 (by linarith)

/-- The rounded sum of three rounded terms against the exact sum. -/
theorem roundBinary32_sum3 (x1 x2 x3 B : ℚ) (h1 : |x1| ≤ B) (h2 : |x2| ≤ B)
    (h3 : |x3| ≤ B) :
    |roundBinary32 (roundBinary32 (roundBinary32 x1 + roundBinary32 x2) +
        roundBinary32 x3) - (x1 + x2 + x3)| ≤ 65 / 8 / 2 ^ 24 * B + 7 / 2 ^ 150 := by
  have hB : 0 ≤ B := le_trans (abs_nonneg _) h1
  have r1 := roundBinary32_term x1 B h1
  have a1 := roundBinary32_acc_add (roundBinary32 x1) x1 x2 _ _ B r1 h1 h2
  have a1' : |roundBinary32 (roundBinary32 x1 + roundBinary32 x2) - (x1 + x2)| ≤
      65 / 16 / 2 ^ 24 * B + 4 / 2 ^ 150 := le_trans a1 (by linarith)
  have b1 : |x1 + x2| ≤ 2 * B := by
    have := abs_add x1 x2
    linarith
  have a2 := roundBinary32_acc_add _ _ x3 _ _ B a1' b1 h3
  exact le_trans a2 (by linarith)

end SinglePrecisionSums

end LibMath

namespace LibMath

namespace Quaternion

section SinglePrecisionProduct

theorem abs_mul_le_mul (a b A B : ℚ) (ha : |a| ≤ A) (hb : |b| ≤ B) : |a * b| ≤ A * B := by
  rw [abs_mul]
  exact mul_le_mul ha hb (abs_nonneg _) (le_trans (abs_nonneg _) ha)

/-- The binary32 product of two quaternions against their exact product, component by
component, for components bounded by `A` and `B`. -/
theorem mul_binary32_sub_mul (a b : Quaternion ℚ) (A B : ℚ)
    (ha : |a.X| ≤ A ∧ |a.Y| ≤ A ∧ |a.Z| ≤ A ∧ |a.W| ≤ A)
    (hb : |b.X| ≤ B ∧ |b.Y| ≤ B ∧ |b.Z| ≤ B ∧ |b.W| ≤ B) :
    |(mul_binary32 a b).X - (a.mul b).X| ≤ 14 / 2 ^ 24 * (A * B) + 10 / 2 ^ 150 ∧
    |(mul_binary32 a b).Y - (a.mul b).Y| ≤ 14 / 2 ^ 24 * (A * B) + 10 / 2 ^ 150 ∧
    |(mul_binary32 a b).Z - (a.mul b).Z| ≤ 14 / 2 ^ 24 * (A * B) + 10 / 2 ^ 150 ∧
    |(mul_binary32 a b).W - (a.mul b).W| ≤ 14 / 2 ^ 24 * (A * B) + 10 / 2 ^ 150 := by
  obtain ⟨haX, haY, haZ, haW⟩ := ha
  obtain ⟨hbX, hbY, hbZ, hbW⟩ := hb
  have hcomm : ∀ x y : ℚ, |x| ≤ B → |y| ≤ A → |x * y| ≤ A * B := by
    intro x y hx hy
    rw [mul_comm x y]
    exact abs_mul_le_mul y x A B hy hx
  simp only [mul_binary32, Quaternion.mul]
  refine ⟨?_, ?_, ?_, ?_⟩
  · exact (roundBinary32_sum4 _ _ _ _ (A * B) (abs_mul_le_mul _ _ A B haY hbZ)
      (abs_mul_le_mul _ _ A B haZ hbY) (abs_mul_le_mul _ _ A B haW hbX)
      (hcomm _ _ hbW haX)).1
  · exact (roundBinary32_sum4 _ _ _ _ (A * B) (abs_mul_le_mul _ _ A B haZ hbX)
      (abs_mul_le_mul _ _ A B haX hbZ) (abs_mul_le_mul _ _ A B haW hbY)
      (hcomm _ _ hbW haY)).1
  · exact (roundBinary32_sum4 _ _ _ _ (A * B) (abs_mul_le_mul _ _ A B haX hbY)
      (abs_mul_le_mul _ _ A B haY hbX) (abs_mul_le_mul _ _ A B haW hbZ)
      (hcomm _ _ hbW haZ)).1
  · exact (roundBinary32_sum4 _ _ _ _ (A * B) (abs_mul_le_mul _ _ A B haW hbW)
      (abs_mul_le_mul _ _ A B haX hbX) (abs_mul_le_mul _ _ A B haY hbY)
      (abs_mul_le_mul _ _ A B haZ hbZ)).2

/-- The exact product of a quaternion bounded by `A` with a pure quaternion bounded by `B`
has components bounded by `3 * (A * B)`. -/
theorem abs_mul_pure_le (a : Quaternion ℚ) (x y z A B : ℚ)
    (ha : |a.X| ≤ A ∧ |a.Y| ≤ A ∧ |a.Z| ≤ A ∧ |a.W| ≤ A)
    (hx : |x| ≤ B) (hy : |y| ≤ B) (hz : |z| ≤ B) :
    |(a.mul ⟨x, y, z, 0⟩).X| ≤ 3 * (A * B) ∧ |(a.mul ⟨x, y, z, 0⟩).Y| ≤ 3 * (A * B) ∧
    |(a.mul ⟨x, y, z, 0⟩).Z| ≤ 3 * (A * B) ∧ |(a.mul ⟨x, y, z, 0⟩).W| ≤ 3 * (A * B) := by
  obtain ⟨haX, haY, haZ, haW⟩ := ha
  have p1 := abs_mul_le_mul _ _ A B haX hx
  have p2 := abs_mul_le_mul _ _ A B haX hy
  have p3 := abs_mul_le_mul _ _ A B haX hz
  have p4 := abs_mul_le_mul _ _ A B haY hx
  have p5 := abs_mul_le_mul _ _ A B haY hy
  have p6 := abs_mul_le_mul _ _ A B haY hz
  have p7 := abs_mul_le_mul _ _ A B haZ hx
  have p8 := abs_mul_le_mul _ _ A B haZ hy
  have p9 := abs_mul_le_mul _ _ A B haZ hz
  have p10 := abs_mul_le_mul _ _ A B haW hx
  have p11 := abs_mul_le_mul _ _ A B haW hy
  have p12 := abs_mul_le_mul _ _ A B haW hz
  simp only [Quaternion.mul, zero_mul, add_zero, mul_zero, zero_sub]
  rw [abs_le] at p1 p2 p3 p4 p5 p6 p7 p8 p9 p10 p11 p12
  refine ⟨?_, ?_, ?_, ?_⟩ <;> rw [abs_le] <;> constructor <;> linarith

/-- The exact product is linear in its left factor: a perturbation of the left factor by at
most `e` moves each component by at most `4 * (e * C)`. -/
theorem abs_mul_sub_mul_left (a a0 c : Quaternion ℚ) (e C : ℚ)
    (ha : |a.X - a0.X| ≤ e ∧ |a.Y - a0.Y| ≤ e ∧ |a.Z - a0.Z| ≤ e ∧ |a.W - a0.W| ≤ e)
    (hc : |c.X| ≤ C ∧ |c.Y| ≤ C ∧ |c.Z| ≤ C ∧ |c.W| ≤ C) :
    |(a.mul c).X - (a0.mul c).X| ≤ 4 * (e * C) ∧ |(a.mul c).Y - (a0.mul c).Y| ≤ 4 * (e * C) ∧
    |(a.mul c).Z - (a0.mul c).Z| ≤ 4 * (e * C) ∧
    |(a.mul c).W - (a0.mul c).W| ≤ 4 * (e * C) := by
  obtain ⟨haX, haY, haZ, haW⟩ := ha
  obtain ⟨hcX, hcY, hcZ, hcW⟩ := hc
  have p1 := abs_mul_le_mul _ _ e C haX hcX
  have p2 := abs_mul_le_mul _ _ e C haX hcY
  have p3 := abs_mul_le_mul _ _ e C haX hcZ
  have p4 := abs_mul_le_mul _ _ e C haX hcW
  have p5 := abs_mul_le_mul _ _ e C haY hcX
  have p6 := abs_mul_le_mul _ _ e C haY hcY
  have p7 := abs_mul_le_mul _ _ e C haY hcZ
  have p8 := abs_mul_le_mul _ _ e C haY hcW
  have p9 := abs_mul_le_mul _ _ e C haZ hcX
  have p10 := abs_mul_le_mul _ _ e C haZ hcY
  have p11 := abs_mul_le_mul _ _ e C haZ hcZ
  have p12 := abs_mul_le_mul _ _ e C haZ hcW
  have p13 := abs_mul_le_mul _ _ e C haW hcX
  have p14 := abs_mul_le_mul _ _ e C haW hcY
  have p15 := abs_mul_le_mul _ _ e C haW hcZ
  have p16 := abs_mul_le_mul _ _ e C haW hcW
  simp only [Quaternion.mul]
  rw [abs_le] at p1 p2 p3 p4 p5 p6 p7 p8 p9 p10 p11 p12 p13 p14 p15 p16
  refine ⟨?_, ?_, ?_, ?_⟩ <;> rw [abs_le] <;> constructor <;> linarith

/-- The exact sandwich product against the exact rotation: the `W` component is 0 and the
vector parts differ by `(1 - (X² + Y² + Z² + W²)) * p`. -/
theorem sandwich_sub_mulVector3 (q : Quaternion ℚ) (p : Vector3 ℚ) :
    ((q.mul ⟨p.x, p.y, p.z, 0⟩).mul q.GetInverse).W = 0 ∧
    ((q.mul ⟨p.x, p.y, p.z, 0⟩).mul q.GetInverse).X - (q.mulVector3 p).x =
      (1 - (q.X ^ 2 + q.Y ^ 2 + q.Z ^ 2 + q.W ^ 2)) * p.x ∧
    ((q.mul ⟨p.x, p.y, p.z, 0⟩).mul q.GetInverse).Y - (q.mulVector3 p).y =
      (1 - (q.X ^ 2 + q.Y ^ 2 + q.Z ^ 2 + q.W ^ 2)) * p.y ∧
    ((q.mul ⟨p.x, p.y, p.z, 0⟩).mul q.GetInverse).Z - (q.mulVector3 p).z =
      (1 - (q.X ^ 2 + q.Y ^ 2 + q.Z ^ 2 + q.W ^ 2)) * p.z := by
  simp only [Quaternion.mul, GetInverse, mulVector3]
  refine ⟨?_, ?_, ?_, ?_⟩ <;> ring

end SinglePrecisionProduct

end Quaternion

end LibMath

namespace LibMath

section SinglePrecisionError

/-- The binary32 difference of two rounded terms bounded by `B`. -/
theorem roundBinary32_diff2 (x1 x2 B : ℚ) (h1 : |x1| ≤ B) (h2 : |x2| ≤ B) :
    |roundBinary32 (roundBinary32 x1 - roundBinary32 x2) - (x1 - x2)| ≤
      65 / 16 / 2 ^ 24 * B + 4 / 2 ^ 150 := by
  have hB : 0 ≤ B := le_trans (abs_nonneg _) h1
  have r1 := roundBinary32_term x1 B h1
  have a1 := roundBinary32_acc_sub (roundBinary32 x1) x1 x2 _ _ B r1 h1 h2
  exact le_trans a1 (by linarith)

/-- A rational whose square is at most `1 + 2 ^ (-21)` is at most `1 + 2 ^ (-21)` in
magnitude. -/
theorem abs_le_of_mul_self_le (x : ℚ) (h : x * x ≤ 1 + 1 / 2 ^ 21) : |x| ≤ 1 + 1 / 2 ^ 21 := by
  by_contra hc
  push_neg at hc
  have h2 : |x| * |x| = x * x := abs_mul_abs_self x
  nlinarith

end SinglePrecisionError

namespace Quaternion

section SinglePrecisionProduct

/-- The binary32 sandwich product against the exact one, for a quaternion with components
bounded by `1 + 2 ^ (-21)` and a vector with components bounded by `P`. -/
theorem sandwich_binary32_sub (q : Quaternion ℚ) (p : Vector3 ℚ) (P : ℚ)
    (hq : |q.X| ≤ 1 + 1 / 2 ^ 21 ∧ |q.Y| ≤ 1 + 1 / 2 ^ 21 ∧ |q.Z| ≤ 1 + 1 / 2 ^ 21 ∧
      |q.W| ≤ 1 + 1 / 2 ^ 21)
    (hp : |p.x| ≤ P ∧ |p.y| ≤ P ∧ |p.z| ≤ P) :
    |(mul_binary32 (mul_binary32 q ⟨p.x, p.y, p.z, 0⟩) q.GetInverse).X -
        ((q.mul ⟨p.x, p.y, p.z, 0⟩).mul q.GetInverse).X| ≤
      1569 / 16 / 2 ^ 24 * P + 51 / 2 ^ 150 ∧
    |(mul_binary32 (mul_binary32 q ⟨p.x, p.y, p.z, 0⟩) q.GetInverse).Y -
        ((q.mul ⟨p.x, p.y, p.z, 0⟩).mul q.GetInverse).Y| ≤
      1569 / 16 / 2 ^ 24 * P + 51 / 2 ^ 150 ∧
    |(mul_binary32 (mul_binary32 q ⟨p.x, p.y, p.z, 0⟩) q.GetInverse).Z -
        ((q.mul ⟨p.x, p.y, p.z, 0⟩).mul q.GetInverse).Z| ≤
      1569 / 16 / 2 ^ 24 * P + 51 / 2 ^ 150 ∧
    |(mul_binary32 (mul_binary32 q ⟨p.x, p.y, p.z, 0⟩) q.GetInverse).W -
        ((q.mul ⟨p.x, p.y, p.z, 0⟩).mul q.GetInverse).W| ≤
      1569 / 16 / 2 ^ 24 * P + 51 / 2 ^ 150 := by
  obtain ⟨hpx, hpy, hpz⟩ := hp
  have hP : 0 ≤ P := le_trans (abs_nonneg _) hpx
  have hpq : |(⟨p.x, p.y, p.z, 0⟩ : Quaternion ℚ).X| ≤ P ∧
      |(⟨p.x, p.y, p.z, 0⟩ : Quaternion ℚ).Y| ≤ P ∧
      |(⟨p.x, p.y, p.z, 0⟩ : Quaternion ℚ).Z| ≤ P ∧
      |(⟨p.x, p.y, p.z, 0⟩ : Quaternion ℚ).W| ≤ P := by
    refine ⟨hpx, hpy, hpz, ?_⟩
    simpa using hP
  have hqi : |q.GetInverse.X| ≤ 1 + 1 / 2 ^ 21 ∧ |q.GetInverse.Y| ≤ 1 + 1 / 2 ^ 21 ∧
      |q.GetInverse.Z| ≤ 1 + 1 / 2 ^ 21 ∧ |q.GetInverse.W| ≤ 1 + 1 / 2 ^ 21 := by
    simp only [GetInverse, abs_neg]
    exact hq
  obtain ⟨e1X, e1Y, e1Z, e1W⟩ := mul_binary32_sub_mul q ⟨p.x, p.y, p.z, 0⟩ _ P hq hpq
  obtain ⟨b1X, b1Y, b1Z, b1W⟩ := abs_mul_pure_le q p.x p.y p.z _ P hq hpx hpy hpz
  have hT : ∀ t t0 : ℚ, |t - t0| ≤ 14 / 2 ^ 24 * ((1 + 1 / 2 ^ 21) * P) + 10 / 2 ^ 150 →
      |t0| ≤ 3 * ((1 + 1 / 2 ^ 21) * P) →
      |t| ≤ 3 * ((1 + 1 / 2 ^ 21) * P) +
        (14 / 2 ^ 24 * ((1 + 1 / 2 ^ 21) * P) + 10 / 2 ^ 150) := by
    intro t t0 h1 h2
    have := abs_add (t - t0) t0
    rw [sub_add_cancel] at this
    linarith
  obtain ⟨e2X, e2Y, e2Z, e2W⟩ := mul_binary32_sub_mul (mul_binary32 q ⟨p.x, p.y, p.z, 0⟩)
    q.GetInverse _ _ ⟨hT _ _ e1X b1X, hT _ _ e1Y b1Y, hT _ _ e1Z b1Z, hT _ _ e1W b1W⟩ hqi
  obtain ⟨e3X, e3Y, e3Z, e3W⟩ := abs_mul_sub_mul_left (mul_binary32 q ⟨p.x, p.y, p.z, 0⟩)
    (q.mul ⟨p.x, p.y, p.z, 0⟩) q.GetInverse _ _ ⟨e1X, e1Y, e1Z, e1W⟩ hqi
  have hfin : ∀ s m s0 : ℚ,
      |s - m| ≤ 14 / 2 ^ 24 * ((3 * ((1 + 1 / 2 ^ 21) * P) +
        (14 / 2 ^ 24 * ((1 + 1 / 2 ^ 21) * P) + 10 / 2 ^ 150)) * (1 + 1 / 2 ^ 21)) +
        10 / 2 ^ 150 →
      |m - s0| ≤ 4 * ((14 / 2 ^ 24 * ((1 + 1 / 2 ^ 21) * P) + 10 / 2 ^ 150) *
        (1 + 1 / 2 ^ 21)) →
      |s - s0| ≤ 1569 / 16 / 2 ^ 24 * P + 51 / 2 ^ 150 := by
    intro s m s0 h1 h2
    have := abs_add (s - m) (m - s0)
    rw [sub_add_sub_cancel] at this
    linarith
  exact ⟨hfin _ _ _ e2X e3X, hfin _ _ _ e2Y e3Y, hfin _ _ _ e2Z e3Z, hfin _ _ _ e2W e3W⟩

/-- The factor `vMult` of the rotation in binary32. -/
theorem vMult_binary32_sub (x1 x2 x3 P : ℚ) (h1 : |x1| ≤ (1 + 1 / 2 ^ 21) * P)
    (h2 : |x2| ≤ (1 + 1 / 2 ^ 21) * P) (h3 : |x3| ≤ (1 + 1 / 2 ^ 21) * P) (hP : 0 ≤ P) :
    |roundBinary32 (2 * roundBinary32 (roundBinary32 (roundBinary32 x1 + roundBinary32 x2) +
        roundBinary32 x3)) - 2 * (x1 + x2 + x3)| ≤ 357 / 16 / 2 ^ 24 * P + 16 / 2 ^ 150 ∧
    |2 * (x1 + x2 + x3)| ≤ 6 * ((1 + 1 / 2 ^ 21) * P) := by
  have hs := roundBinary32_sum3 x1 x2 x3 _ h1 h2 h3
  have hb : |2 * (x1 + x2 + x3)| ≤ 6 * ((1 + 1 / 2 ^ 21) * P) := by
    rw [abs_mul, abs_two]
    have t1 := abs_add (x1 + x2) x3
    have t2 := abs_add x1 x2
    linarith
  refine ⟨?_, hb⟩
  have hd : |2 * roundBinary32 (roundBinary32 (roundBinary32 x1 + roundBinary32 x2) +
      roundBinary32 x3) - 2 * (x1 + x2 + x3)| ≤
      2 * (65 / 8 / 2 ^ 24 * ((1 + 1 / 2 ^ 21) * P) + 7 / 2 ^ 150) := by
    rw [← mul_sub, abs_mul, abs_two]
    linarith
  exact le_trans (roundBinary32_step _ _ _ _ hd hb) (by linarith)

/-- The factor `crossMult` of the rotation in binary32. -/
theorem crossMult_binary32_sub (w : ℚ) (hw : |w| ≤ 1 + 1 / 2 ^ 21) :
    |roundBinary32 (2 * w) - 2 * w| ≤ 33 / 16 / 2 ^ 24 ∧ |2 * w| ≤ 2 * (1 + 1 / 2 ^ 21) := by
  have hb : |2 * w| ≤ 2 * (1 + 1 / 2 ^ 21) := by
    rw [abs_mul, abs_two]
    linarith
  refine ⟨?_, hb⟩
  have := roundBinary32_sub_le (2 * w)
  have h2 : (1 : ℚ) / 2 ^ 24 * |2 * w| ≤ 1 / 2 ^ 24 * (2 * (1 + 1 / 2 ^ 21)) :=
    mul_le_mul_of_nonneg_left hb (by positivity)
  refine le_trans this (le_trans (add_le_add_right h2 _) ?_)
  norm_num

/-- The factor `pMult` of the rotation in binary32. -/
theorem pMult_binary32_sub (w : ℚ) (hw : |w| ≤ 1 + 1 / 2 ^ 21)
    (hww : w * w ≤ 1 + 1 / 2 ^ 21) :
    |roundBinary32 (roundBinary32 (roundBinary32 (2 * w) * w) - 1) - (2 * w * w - 1)| ≤
      83 / 16 / 2 ^ 24 ∧ |2 * w * w - 1| ≤ 1 + 2 / 2 ^ 21 := by
  obtain ⟨hc, hc0⟩ := crossMult_binary32_sub w hw
  have h0 : 0 ≤ w * w := mul_self_nonneg w
  have hb : |2 * w * w - 1| ≤ 1 + 2 / 2 ^ 21 := by
    rw [abs_le]
    constructor <;> linarith
  refine ⟨?_, hb⟩
  have m1 := mul_sub_mul_le (roundBinary32 (2 * w)) (2 * w) w w _ _ 0 _ hc hc0
    (by simp) hw
  have b1 : |2 * w * w| ≤ 2 * (1 + 1 / 2 ^ 21) := by
    rw [abs_le]
    constructor <;> linarith
  have s1 := roundBinary32_step _ _ _ _ m1 b1
  have hd : |roundBinary32 (roundBinary32 (2 * w) * w) - 1 - (2 * w * w - 1)| ≤
      33 / 16 / 2 ^ 24 * (1 + 1 / 2 ^ 21) + 2 * (1 + 1 / 2 ^ 21) * 0 +
        33 / 16 / 2 ^ 24 * 0 + 1 / 2 ^ 24 * (2 * (1 + 1 / 2 ^ 21) +
        (33 / 16 / 2 ^ 24 * (1 + 1 / 2 ^ 21) + 2 * (1 + 1 / 2 ^ 21) * 0 +
        33 / 16 / 2 ^ 24 * 0)) + 1 / 2 ^ 150 := by
    rw [sub_sub_sub_cancel_right]
    exact s1
  refine le_trans (roundBinary32_step _ _ _ _ hd hb) ?_
  norm_num

/-- One component of the rotation in binary32 against the exact component, from the errors
of its factors. -/
theorem rotate_component_binary32 (pM pM0 vM vM0 c c0 cr cr0 px qx P : ℚ)
    (hpM : |pM - pM0| ≤ 83 / 16 / 2 ^ 24) (hpM0 : |pM0| ≤ 1 + 2 / 2 ^ 21)
    (hvM : |vM - vM0| ≤ 357 / 16 / 2 ^ 24 * P + 16 / 2 ^ 150)
    (hvM0 : |vM0| ≤ 6 * ((1 + 1 / 2 ^ 21) * P))
    (hc : |c - c0| ≤ 33 / 16 / 2 ^ 24) (hc0 : |c0| ≤ 2 * (1 + 1 / 2 ^ 21))
    (hcr : |cr - cr0| ≤ 65 / 16 / 2 ^ 24 * ((1 + 1 / 2 ^ 21) * P) + 4 / 2 ^ 150)
    (hcr0 : |cr0| ≤ 2 * ((1 + 1 / 2 ^ 21) * P))
    (hpx : |px| ≤ P) (hqx : |qx| ≤ 1 + 1 / 2 ^ 21) :
    |roundBinary32 (roundBinary32 (roundBinary32 (pM * px) + roundBinary32 (vM * qx)) +
        roundBinary32 (c * cr)) - (pM0 * px + vM0 * qx + c0 * cr0)| ≤
      553 / 8 / 2 ^ 24 * P + 34 / 2 ^ 150 := by
  have hP : 0 ≤ P := le_trans (abs_nonneg _) hpx
  have m1 := mul_sub_mul_le pM pM0 px px _ _ 0 _ hpM hpM0 (by simp) hpx
  have b1 := abs_mul_le_mul pM0 px _ _ hpM0 hpx
  have s1 := roundBinary32_step _ _ _ _ m1 b1
  have s1' : |roundBinary32 (pM * px) - pM0 * px| ≤ 25 / 4 / 2 ^ 24 * P + 1 / 2 ^ 150 :=
    le_trans s1 (by linarith only [hP])
  have m2 := mul_sub_mul_le vM vM0 qx qx _ _ 0 _ hvM hvM0 (by simp) hqx
  have b2 := abs_mul_le_mul vM0 qx _ _ hvM0 hqx
  have s2 := roundBinary32_step _ _ _ _ m2 b2
  have s2' : |roundBinary32 (vM * qx) - vM0 * qx| ≤ 227 / 8 / 2 ^ 24 * P + 18 / 2 ^ 150 :=
    le_trans s2 (by linarith only [hP])
  have d12 : |roundBinary32 (pM * px) + roundBinary32 (vM * qx) - (pM0 * px + vM0 * qx)| ≤
      (25 / 4 / 2 ^ 24 * P + 1 / 2 ^ 150) + (227 / 8 / 2 ^ 24 * P + 18 / 2 ^ 150) := by
    have := abs_add (roundBinary32 (pM * px) - pM0 * px) (roundBinary32 (vM * qx) - vM0 * qx)
    rw [sub_add_sub_comm] at this
    linarith only [this, s1', s2']
  have b12 : |pM0 * px + vM0 * qx| ≤
      (1 + 2 / 2 ^ 21) * P + 6 * ((1 + 1 / 2 ^ 21) * P) * (1 + 1 / 2 ^ 21) := by
    have := abs_add (pM0 * px) (vM0 * qx)
    linarith only [this, b1, b2]
  have s12 := roundBinary32_step _ _ _ _ d12 b12
  have s12' : |roundBinary32 (roundBinary32 (pM * px) + roundBinary32 (vM * qx)) -
      (pM0 * px + vM0 * qx)| ≤ 667 / 16 / 2 ^ 24 * P + 21 / 2 ^ 150 :=
    le_trans s12 (by linarith only [hP])
  have m3 := mul_sub_mul_le c c0 cr cr0 _ _ _ _ hc hc0 hcr hcr0
  have b3 := abs_mul_le_mul c0 cr0 _ _ hc0 hcr0
  have s3 := roundBinary32_step _ _ _ _ m3 b3
  have s3' : |roundBinary32 (c * cr) - c0 * cr0| ≤ 131 / 8 / 2 ^ 24 * P + 11 / 2 ^ 150 :=
    le_trans s3 (by linarith only [hP])
  have d : |roundBinary32 (roundBinary32 (pM * px) + roundBinary32 (vM * qx)) +
      roundBinary32 (c * cr) - (pM0 * px + vM0 * qx + c0 * cr0)| ≤
      (667 / 16 / 2 ^ 24 * P + 21 / 2 ^ 150) + (131 / 8 / 2 ^ 24 * P + 11 / 2 ^ 150) := by
    have := abs_add (roundBinary32 (roundBinary32 (pM * px) + roundBinary32 (vM * qx)) -
      (pM0 * px + vM0 * qx)) (roundBinary32 (c * cr) - c0 * cr0)
    rw [sub_add_sub_comm] at this
    linarith only [this, s12', s3']
  have b : |pM0 * px + vM0 * qx + c0 * cr0| ≤
      ((1 + 2 / 2 ^ 21) * P + 6 * ((1 + 1 / 2 ^ 21) * P) * (1 + 1 / 2 ^ 21)) +
        2 * (1 + 1 / 2 ^ 21) * (2 * ((1 + 1 / 2 ^ 21) * P)) := by
    have := abs_add (pM0 * px + vM0 * qx) (c0 * cr0)
    linarith only [this, b12, b3]
  exact le_trans (roundBinary32_step _ _ _ _ d b) (by linarith only [hP])

/-- The binary32 rotation `q * p` against the exact rotation, for a quaternion with
components bounded by `1 + 2 ^ (-21)`. -/
theorem mulVector3_binary32_sub (q : Quaternion ℚ) (p : Vector3 ℚ) (P : ℚ)
    (hq : |q.X| ≤ 1 + 1 / 2 ^ 21 ∧ |q.Y| ≤ 1 + 1 / 2 ^ 21 ∧ |q.Z| ≤ 1 + 1 / 2 ^ 21 ∧
      |q.W| ≤ 1 + 1 / 2 ^ 21)
    (hww : q.W * q.W ≤ 1 + 1 / 2 ^ 21)
    (hp : |p.x| ≤ P ∧ |p.y| ≤ P ∧ |p.z| ≤ P) :
    |(mulVector3_binary32 q p).x - (q.mulVector3 p).x| ≤ 553 / 8 / 2 ^ 24 * P + 34 / 2 ^ 150 ∧
    |(mulVector3_binary32 q p).y - (q.mulVector3 p).y| ≤ 553 / 8 / 2 ^ 24 * P + 34 / 2 ^ 150 ∧
    |(mulVector3_binary32 q p).z - (q.mulVector3 p).z| ≤
      553 / 8 / 2 ^ 24 * P + 34 / 2 ^ 150 := by
  obtain ⟨hqX, hqY, hqZ, hqW⟩ := hq
  obtain ⟨hpx, hpy, hpz⟩ := hp
  have hP : 0 ≤ P := le_trans (abs_nonneg _) hpx
  have hpr : ∀ a b : ℚ, |a| ≤ 1 + 1 / 2 ^ 21 → |b| ≤ P → |a * b| ≤ (1 + 1 / 2 ^ 21) * P :=
    fun a b ha hb => abs_mul_le_mul a b _ _ ha hb
  obtain ⟨hv, hv0⟩ := vMult_binary32_sub (q.X * p.x) (q.Y * p.y) (q.Z * p.z) P
    (hpr _ _ hqX hpx) (hpr _ _ hqY hpy) (hpr _ _ hqZ hpz) hP
  obtain ⟨hc, hc0⟩ := crossMult_binary32_sub q.W hqW
  obtain ⟨hpM, hpM0⟩ := pMult_binary32_sub q.W hqW hww
  have hcr : ∀ a b x y : ℚ, |a| ≤ 1 + 1 / 2 ^ 21 → |b| ≤ 1 + 1 / 2 ^ 21 → |x| ≤ P →
      |y| ≤ P → |roundBinary32 (roundBinary32 (a * x) - roundBinary32 (b * y)) -
        (a * x - b * y)| ≤ 65 / 16 / 2 ^ 24 * ((1 + 1 / 2 ^ 21) * P) + 4 / 2 ^ 150 ∧
      |a * x - b * y| ≤ 2 * ((1 + 1 / 2 ^ 21) * P) := by
    intro a b x y ha hb hx hy
    refine ⟨roundBinary32_diff2 _ _ _ (hpr _ _ ha hx) (hpr _ _ hb hy), ?_⟩
    have := abs_sub (a * x) (b * y)
    have h1 := hpr _ _ ha hx
    have h2 := hpr _ _ hb hy
    linarith
  simp only [mulVector3_binary32, mulVector3]
  refine ⟨?_, ?_, ?_⟩
  · exact rotate_component_binary32 _ _ _ _ _ _ _ _ _ _ P hpM hpM0 hv hv0 hc hc0
      (hcr _ _ _ _ hqY hqZ hpz hpy).1 (hcr _ _ _ _ hqY hqZ hpz hpy).2 hpx hqX
  · exact rotate_component_binary32 _ _ _ _ _ _ _ _ _ _ P hpM hpM0 hv hv0 hc hc0
      (hcr _ _ _ _ hqZ hqX hpx hpz).1 (hcr _ _ _ _ hqZ hqX hpx hpz).2 hpy hqY
  · exact rotate_component_binary32 _ _ _ _ _ _ _ _ _ _ P hpM hpM0 hv hv0 hc hc0
      (hcr _ _ _ _ hqX hqY hpy hpx).1 (hcr _ _ _ _ hqX hqY hpy hpx).2 hpz hqZ

end SinglePrecisionProduct

end Quaternion

end LibMath

namespace LibMath

section SinglePrecisionError

/-- A binary32 sum of four rounded nonnegative terms that equals 1 has an exact sum within
`2 ^ (-21)` of 1. -/
theorem roundBinary32_sum_near_one (a b c d : ℚ) (ha : 0 ≤ a) (hb : 0 ≤ b) (hc : 0 ≤ c)
    (hd : 0 ≤ d)
    (h : roundBinary32 (roundBinary32 (roundBinary32 (roundBinary32 a + roundBinary32 b) +
      roundBinary32 c) + roundBinary32 d) = 1) :
    |a + b + c + d - 1| ≤ 1 / 2 ^ 21 := by
  have ra := roundBinary32_sub_le a
  have rb := roundBinary32_sub_le b
  have rc := roundBinary32_sub_le c
  have rd := roundBinary32_sub_le d
  rw [abs_of_nonneg ha, abs_le] at ra
  rw [abs_of_nonneg hb, abs_le] at rb
  rw [abs_of_nonneg hc, abs_le] at rc
  rw [abs_of_nonneg hd, abs_le] at rd
  have r1 := roundBinary32_sub_le (roundBinary32 a + roundBinary32 b)
  have r2 := roundBinary32_sub_le
    (roundBinary32 (roundBinary32 a + roundBinary32 b) + roundBinary32 c)
  have r3 := roundBinary32_sub_le
    (roundBinary32 (roundBinary32 (roundBinary32 a + roundBinary32 b) + roundBinary32 c) +
      roundBinary32 d)
  rw [h] at r3
  generalize roundBinary32 a = fa at *
  generalize roundBinary32 b = fb at *
  generalize roundBinary32 c = fc at *
  generalize roundBinary32 d = fd at *
  generalize roundBinary32 (fa + fb) = s1 at *
  generalize roundBinary32 (s1 + fc) = s2 at *
  have la : -(1 / 2 ^ 150) ≤ fa := by linarith only [ra.1, ha]
  have lb : -(1 / 2 ^ 150) ≤ fb := by linarith only [rb.1, hb]
  have lc : -(1 / 2 ^ 150) ≤ fc := by linarith only [rc.1, hc]
  have ld : -(1 / 2 ^ 150) ≤ fd := by linarith only [rd.1, hd]
  have a1 : |fa + fb| ≤ fa + fb + 4 / 2 ^ 150 := by
    rw [abs_le]
    constructor <;> linarith only [la, lb]
  have r1' := abs_le.mp (le_trans r1 (add_le_add_right
    (mul_le_mul_of_nonneg_left a1 (by positivity)) _))
  have l1 : -(4 / 2 ^ 150) ≤ s1 := by linarith only [r1'.1, la, lb]
  have a2 : |s1 + fc| ≤ s1 + fc + 10 / 2 ^ 150 := by
    rw [abs_le]
    constructor <;> linarith only [l1, lc]
  have r2' := abs_le.mp (le_trans r2 (add_le_add_right
    (mul_le_mul_of_nonneg_left a2 (by positivity)) _))
  have l2 : -(7 / 2 ^ 150) ≤ s2 := by linarith only [r2'.1, l1, lc]
  have a3 : |s2 + fd| ≤ s2 + fd + 16 / 2 ^ 150 := by
    rw [abs_le]
    constructor <;> linarith only [l2, ld]
  have r3' := abs_le.mp (le_trans r3 (add_le_add_right
    (mul_le_mul_of_nonneg_left a3 (by positivity)) _))
  rw [abs_le]
  constructor
  · linarith only [ra.1, ra.2, rb.1, rb.2, rc.1, rc.2, rd.1, rd.2, r1'.1, r1'.2, r2'.1, r2'.2,
      r3'.1, r3'.2, ha, hb, hc, hd]
  · linarith only [ra.1, ra.2, rb.1, rb.2, rc.1, rc.2, rd.1, rd.2, r1'.1, r1'.2, r2'.1, r2'.2,
      r3'.1, r3'.2, ha, hb, hc, hd]

end SinglePrecisionError

namespace Quaternion

section SinglePrecisionProduct

/-- A quaternion whose squared norm is 1, exactly or as `sqNorm` computes it in binary32, has
an exact squared norm within `2 ^ (-21)` of 1. -/
theorem sqNorm_near_one (q : Quaternion ℚ)
    (hq : sqNorm_binary32 q = 1 ∨ q.X ^ 2 + q.Y ^ 2 + q.Z ^ 2 + q.W ^ 2 = 1) :
    |q.X ^ 2 + q.Y ^ 2 + q.Z ^ 2 + q.W ^ 2 - 1| ≤ 1 / 2 ^ 21 := by
  rcases hq with h | h
  · simp only [sq]
    exact roundBinary32_sum_near_one _ _ _ _ (mul_self_nonneg _) (mul_self_nonneg _)
      (mul_self_nonneg _) (mul_self_nonneg _) h
  · rw [h]
    norm_num

/-- The binary32 sandwich product and the binary32 rotation for a quaternion whose exact
squared norm is within `2 ^ (-21)` of 1. -/
theorem mulVector3_binary32_sub_sandwich (q : Quaternion ℚ) (p : Vector3 ℚ) (P : ℚ)
    (hN : |q.X ^ 2 + q.Y ^ 2 + q.Z ^ 2 + q.W ^ 2 - 1| ≤ 1 / 2 ^ 21)
    (hp : |p.x| ≤ P ∧ |p.y| ≤ P ∧ |p.z| ≤ P) :
    |(mul_binary32 (mul_binary32 q ⟨p.x, p.y, p.z, 0⟩) q.GetInverse).W| ≤
      11 / 2 ^ 20 * P + 1 / 2 ^ 143 ∧
    |(mul_binary32 (mul_binary32 q ⟨p.x, p.y, p.z, 0⟩) q.GetInverse).X -
      (mulVector3_binary32 q p).x| ≤ 11 / 2 ^ 20 * P + 1 / 2 ^ 143 ∧
    |(mul_binary32 (mul_binary32 q ⟨p.x, p.y, p.z, 0⟩) q.GetInverse).Y -
      (mulVector3_binary32 q p).y| ≤ 11 / 2 ^ 20 * P + 1 / 2 ^ 143 ∧
    |(mul_binary32 (mul_binary32 q ⟨p.x, p.y, p.z, 0⟩) q.GetInverse).Z -
      (mulVector3_binary32 q p).z| ≤ 11 / 2 ^ 20 * P + 1 / 2 ^ 143 := by
  have hP : 0 ≤ P := le_trans (abs_nonneg _) hp.1
  have hN' := abs_le.mp hN
  have hX := mul_self_nonneg q.X
  have hY := mul_self_nonneg q.Y
  have hZ := mul_self_nonneg q.Z
  have hW := mul_self_nonneg q.W
  simp only [sq] at hN hN'
  have hq : |q.X| ≤ 1 + 1 / 2 ^ 21 ∧ |q.Y| ≤ 1 + 1 / 2 ^ 21 ∧ |q.Z| ≤ 1 + 1 / 2 ^ 21 ∧
      |q.W| ≤ 1 + 1 / 2 ^ 21 :=
    ⟨abs_le_of_mul_self_le _ (by linarith only [hN'.2, hX, hY, hZ, hW]),
      abs_le_of_mul_self_le _ (by linarith only [hN'.2, hX, hY, hZ, hW]),
      abs_le_of_mul_self_le _ (by linarith only [hN'.2, hX, hY, hZ, hW]),
      abs_le_of_mul_self_le _ (by linarith only [hN'.2, hX, hY, hZ, hW])⟩
  have hww : q.W * q.W ≤ 1 + 1 / 2 ^ 21 := by linarith only [hN'.2, hX, hY, hZ, hW]
  obtain ⟨sX, sY, sZ, sW⟩ := sandwich_binary32_sub q p P hq hp
  obtain ⟨vx, vy, vz⟩ := mulVector3_binary32_sub q p P hq hww hp
  obtain ⟨e0, eX, eY, eZ⟩ := sandwich_sub_mulVector3 q p
  simp only [sq] at eX eY eZ
  have hN1 : |1 - (q.X * q.X + q.Y * q.Y + q.Z * q.Z + q.W * q.W)| ≤ 1 / 2 ^ 21 := by
    rw [abs_sub_comm]
    exact hN
  have hfin : ∀ s s0 v v0 c : ℚ, |s - s0| ≤ 1569 / 16 / 2 ^ 24 * P + 51 / 2 ^ 150 →
      |v - v0| ≤ 553 / 8 / 2 ^ 24 * P + 34 / 2 ^ 150 →
      s0 - v0 = (1 - (q.X * q.X + q.Y * q.Y + q.Z * q.Z + q.W * q.W)) * c → |c| ≤ P →
      |s - v| ≤ 11 / 2 ^ 20 * P + 1 / 2 ^ 143 := by
    intro s s0 v v0 c h1 h2 h3 h4
    have h5 := abs_mul_le_mul _ _ _ _ hN1 h4
    rw [← h3] at h5
    have h6 := abs_sub_comm v v0
    have t1 := abs_add (s - s0) (s0 - v0)
    have t2 := abs_add (s - s0 + (s0 - v0)) (v0 - v)
    have heq : s - s0 + (s0 - v0) + (v0 - v) = s - v := by ring
    rw [heq] at t2
    linarith only [h1, h2, h5, h6, t1, t2, hP]
  refine ⟨?_, hfin _ _ _ _ _ sX vx eX hp.1, hfin _ _ _ _ _ sY vy eY hp.2.1,
    hfin _ _ _ _ _ sZ vz eZ hp.2.2⟩
  rw [e0, sub_zero] at sW
  exact le_trans sW (by linarith only [hP])

end SinglePrecisionProduct

end Quaternion

end LibMath

namespace LibMath

namespace Quaternion

section SinglePrecisionSandwich

/-- C17, amended. Let `q` be a quaternion whose squared norm `X² + Y² + Z² + W²` is 1, either
exactly or as `Quaternion::Rotate` computes it in binary32 (`sqNorm`), and let `p` be a vector
with components of magnitude at most `P`, where `P ≤ 2 ^ 100` keeps every intermediate value
inside the binary32 range. Then in binary32 the sandwich product
`(q * (p, 0)) * q.GetInverse()` has `|W| ≤ ε` and each of its `X`, `Y`, `Z` is within `ε` of
the matching component of `q * p`, with `ε = 11 / 2 ^ 20 * P + 1 / 2 ^ 143`. In exact
arithmetic, over any field, a quaternion of squared norm 1 gives `W = 0` and `(X, Y, Z)`
equal to `q * p`. -/
theorem mulVector3_binary32_near_sandwich (q : Quaternion ℚ) (p : Vector3 ℚ) (P : ℚ)
    (hq : sqNorm_binary32 q = 1 ∨ q.X ^ 2 + q.Y ^ 2 + q.Z ^ 2 + q.W ^ 2 = 1)
    (hp : |p.x| ≤ P ∧ |p.y| ≤ P ∧ |p.z| ≤ P ∧ P ≤ 2 ^ 100) :
    (|(mul_binary32 (mul_binary32 q ⟨p.x, p.y, p.z, 0⟩) q.GetInverse).W| ≤
        11 / 2 ^ 20 * P + 1 / 2 ^ 143 ∧
      |(mul_binary32 (mul_binary32 q ⟨p.x, p.y, p.z, 0⟩) q.GetInverse).X -
        (mulVector3_binary32 q p).x| ≤ 11 / 2 ^ 20 * P + 1 / 2 ^ 143 ∧
      |(mul_binary32 (mul_binary32 q ⟨p.x, p.y, p.z, 0⟩) q.GetInverse).Y -
        (mulVector3_binary32 q p).y| ≤ 11 / 2 ^ 20 * P + 1 / 2 ^ 143 ∧
      |(mul_binary32 (mul_binary32 q ⟨p.x, p.y, p.z, 0⟩) q.GetInverse).Z -
        (mulVector3_binary32 q p).z| ≤ 11 / 2 ^ 20 * P + 1 / 2 ^ 143) ∧
    (∀ (β : Type) [Field β] (a : Quaternion β) (v : Vector3 β),
      a.X ^ 2 + a.Y ^ 2 + a.Z ^ 2 + a.W ^ 2 = 1 →
      ((a.mul ⟨v.x, v.y, v.z, 0⟩).mul a.GetInverse).W = 0 ∧
      (⟨((a.mul ⟨v.x, v.y, v.z, 0⟩).mul a.GetInverse).X,
        ((a.mul ⟨v.x, v.y, v.z, 0⟩).mul a.GetInverse).Y,
        ((a.mul ⟨v.x, v.y, v.z, 0⟩).mul a.GetInverse).Z⟩ : Vector3 β) = a.mulVector3 v) :=
  ⟨mulVector3_binary32_sub_sandwich q p P (sqNorm_near_one q hq) ⟨hp.1, hp.2.1, hp.2.2.1⟩,
    fun _ _ a v h => mulVector3_eq_sandwich a v h⟩

/-- The binary32 sandwich product and rotation of C17 for the quaternion `(0.6f, 0, 0.8f, 0)`,
whose squared norm computed in binary32 is 1, and the vector `(1, 2, 3)`, with `P = 3`. -/
theorem mulVector3_binary32_near_sandwich_witness :
    sqNorm_binary32 ⟨roundBinary32 0.6, 0, roundBinary32 0.8, 0⟩ = 1 ∧
    (|(1 : ℚ)| ≤ 3 ∧ |(2 : ℚ)| ≤ 3 ∧ |(3 : ℚ)| ≤ 3 ∧ (3 : ℚ) ≤ 2 ^ 100) ∧
    (|(mul_binary32 (mul_binary32 ⟨roundBinary32 0.6, 0, roundBinary32 0.8, 0⟩ ⟨1, 2, 3, 0⟩)
        (⟨roundBinary32 0.6, 0, roundBinary32 0.8, 0⟩ : Quaternion ℚ).GetInverse).W| ≤
        11 / 2 ^ 20 * 3 + 1 / 2 ^ 143 ∧
      |(mul_binary32 (mul_binary32 ⟨roundBinary32 0.6, 0, roundBinary32 0.8, 0⟩ ⟨1, 2, 3, 0⟩)
        (⟨roundBinary32 0.6, 0, roundBinary32 0.8, 0⟩ : Quaternion ℚ).GetInverse).X -
        (mulVector3_binary32 ⟨roundBinary32 0.6, 0, roundBinary32 0.8, 0⟩ ⟨1, 2, 3⟩).x| ≤
        11 / 2 ^ 20 * 3 + 1 / 2 ^ 143 ∧
      |(mul_binary32 (mul_binary32 ⟨roundBinary32 0.6, 0, roundBinary32 0.8, 0⟩ ⟨1, 2, 3, 0⟩)
        (⟨roundBinary32 0.6, 0, roundBinary32 0.8, 0⟩ : Quaternion ℚ).GetInverse).Y -
        (mulVector3_binary32 ⟨roundBinary32 0.6, 0, roundBinary32 0.8, 0⟩ ⟨1, 2, 3⟩).y| ≤
        11 / 2 ^ 20 * 3 + 1 / 2 ^ 143 ∧
      |(mul_binary32 (mul_binary32 ⟨roundBinary32 0.6, 0, roundBinary32 0.8, 0⟩ ⟨1, 2, 3, 0⟩)
        (⟨roundBinary32 0.6, 0, roundBinary32 0.8, 0⟩ : Quaternion ℚ).GetInverse).Z -
        (mulVector3_binary32 ⟨roundBinary32 0.6, 0, roundBinary32 0.8, 0⟩ ⟨1, 2, 3⟩).z| ≤
        11 / 2 ^ 20 * 3 + 1 / 2 ^ 143) :=
  have h1 : sqNorm_binary32 ⟨roundBinary32 0.6, 0, roundBinary32 0.8, 0⟩ = 1 := by decide!
  have h2 : |(1 : ℚ)| ≤ 3 ∧ |(2 : ℚ)| ≤ 3 ∧ |(3 : ℚ)| ≤ 3 ∧ (3 : ℚ) ≤ 2 ^ 100 := by
    norm_num [abs_le]
  ⟨h1, h2, (mulVector3_binary32_near_sandwich ⟨roundBinary32 0.6, 0, roundBinary32 0.8, 0⟩
    ⟨1, 2, 3⟩ 3 (Or.inl h1) h2).1⟩

end SinglePrecisionSandwich

end Quaternion

end LibMath
